import Mathlib

/-!
# VRP_SISRs: a shallow embedding of the CVRP ruin-and-recreate solver

The C++ program `VRP_SISRs.cpp` is a set of functions over global variables.  Here each function
takes the globals it reads as arguments and returns the ones it writes.

* The arrays handed to the sorting functions are lists (`List Int`), an index is an `Int` (the
  source's `int`), and an access outside the array is an error (`none`).
* The arrays of the instance and of the three solutions are functions `Int → Int`; an assignment
  `a[i] = x` is the function update `upd a i x`.
* A `for` loop is a fold over the values of its control variable.  A `while` loop whose control
  variable moves by one per iteration is a fold or a recursion over a bound on its iterations.
  The partition and quicksort functions take a `fuel` argument: one unit is spent per loop
  iteration or call, `none` is returned when it runs out, and the theorems show that enough fuel
  yields the result.
* The generator `xorshift128` works on four words, every assignment taken modulo `2 ^ 32`.  A
  `double` is a fraction (`Dbl`) whose value is a binary floating-point number: every operation
  on `double` values is followed by the rounding `Dbl.round53` to 53 significant digits (to
  nearest, ties to even), and the operations that the source does in `long double` (those with
  the constant `twoPow32`) by `Dbl.round64`.  The range of the exponent and the range of `int`
  are not modelled: the theorems state the bounds within which a value stays.
* The library function `log` of the acceptance test of `localSearchMH` is an argument (`lg`) of
  `acceptanceTest`, which is the test of the source for a given `log`, with `log(0) = -inf`;
  the functions of the search take the test as an argument (`accept`), and `sourceAccept` is the
  argument that the source passes.  The content of the stack that `ruin` reads below its array
  `ruinedTour` is an argument too (`stack`), and so are the four values that `main` draws from
  the Mersenne twister (`Entropy`).

The definitions come first, in the order of the source, then the parts of the functions that
the statements name on their own and the vocabulary of the statements.  The second program of
the repository that the statements concern, the SAT verifier `SAT.cc`, is embedded in the
namespace `SATVerifier`.  The theorems follow, those on the solver first.
-/
namespace VRP

/-! ## C arrays -/

/-- Read `a[i]`: `none` when `i` lies outside the array. -/
def rd (a : List Int) (i : Int) : Option Int :=
  if 0 ≤ i then a[i.toNat]? else none

/-- Write `a[i] = x`: `none` when `i` lies outside the array. -/
def wr (a : List Int) (i : Int) (x : Int) : Option (List Int) :=
  if 0 ≤ i ∧ i.toNat < a.length then some (a.set i.toNat x) else none

/-- The three statements `temp = a[i]; a[i] = a[j]; a[j] = temp;` of the partition functions. -/
def swapAt (a : List Int) (i j : Int) : Option (List Int) := do
  let temp ← rd a i
  let aj ← rd a j
  let a1 ← wr a i aj
  wr a1 j temp

/-! ## Sorting utilities (`partition*Int`, `quicksort*Int`)

The source has one copy of the partition/quicksort pair per direction.  The copies differ only in
the comparison used by the two inner `while` loops, which is the parameter `lt` below:
`lt a b` is `a < b` in the `Incr` variant and `a > b` in the `Decr` variant. -/

/-- The loop `while (valList[start] lt pivot) start++;`, returning the final `start`. -/
def scanUp (lt : Int → Int → Bool) : Nat → List Int → Int → Int → Option Int
  | 0, _, _, _ => none
  | fuel + 1, valList, pivot, start => do
    let x ← rd valList start
    if lt x pivot then scanUp lt fuel valList pivot (start + 1) else some start

/-- The loop `while (pivot lt valList[end]) end--;`, returning the final `end`. -/
def scanDown (lt : Int → Int → Bool) : Nat → List Int → Int → Int → Option Int
  | 0, _, _, _ => none
  | fuel + 1, valList, pivot, end_ => do
    let x ← rd valList end_
    if lt pivot x then scanDown lt fuel valList pivot (end_ - 1) else some end_

/-- The outer loop `while (start<end) { ... }` of a partition function, followed by
`return end;`.  The result is the returned index and the two arrays. -/
def partitionLoop (lt : Int → Int → Bool) :
    Nat → Int → Int → Int → List Int → List Int → Option (Int × List Int × List Int)
  | 0, _, _, _, _, _ => none
  | fuel + 1, pivot, start, end_, valList, countList =>
    if start < end_ then do
      let start1 ← scanUp lt fuel valList pivot start
      let end1 ← scanDown lt fuel valList pivot end_
      let a ← rd valList start1
      let b ← rd valList end1
      if a = b then
        partitionLoop lt fuel pivot (start1 + 1) end1 valList countList
      else if start1 < end1 then do
        let valList1 ← swapAt valList start1 end1
        let countList1 ← swapAt countList start1 end1
        partitionLoop lt fuel pivot start1 end1 valList1 countList1
      else
        partitionLoop lt fuel pivot start1 end1 valList countList
    else some (end_, valList, countList)

/-- The body shared by `partitionIncrInt` and `partitionDecrInt` (two-array versions):
`int pivot = valList[end];` followed by the loop. -/
def partitionInt (lt : Int → Int → Bool) (fuel : Nat) (start end_ : Int)
    (valList countList : List Int) : Option (Int × List Int × List Int) := do
  let pivot ← rd valList end_
  partitionLoop lt fuel pivot start end_ valList countList

/-- The body shared by `quicksortIncrInt` and `quicksortDecrInt` (two-array versions). -/
def quicksortInt (lt : Int → Int → Bool) :
    Nat → Int → Int → List Int → List Int → Option (List Int × List Int)
  | 0, _, _, _, _ => none
  | fuel + 1, start, end_, valList, countList =>
    if start < end_ then do
      let (pivot, valList1, countList1) ← partitionInt lt fuel start end_ valList countList
      let (valList2, countList2) ← quicksortInt lt fuel start (pivot - 1) valList1 countList1
      quicksortInt lt fuel (pivot + 1) end_ valList2 countList2
    else some (valList, countList)

/-- Source `partitionIncrInt(start, end, valList, countList)`: inner loops
`while (valList[start]<pivot)` and `while (valList[end]>pivot)`. -/
def partitionIncrInt (fuel : Nat) (start end_ : Int) (valList countList : List Int) :
    Option (Int × List Int × List Int) :=
  partitionInt (fun a b => decide (a < b)) fuel start end_ valList countList

/-- Source `partitionDecrInt(start, end, valList, countList)`: inner loops
`while (valList[start]>pivot)` and `while (valList[end]<pivot)`. -/
def partitionDecrInt (fuel : Nat) (start end_ : Int) (valList countList : List Int) :
    Option (Int × List Int × List Int) :=
  partitionInt (fun a b => decide (a > b)) fuel start end_ valList countList

/-- Source `quicksortIncrInt(start, end, valList, countList)`. -/
def quicksortIncrInt (fuel : Nat) (start end_ : Int) (valList countList : List Int) :
    Option (List Int × List Int) :=
  quicksortInt (fun a b => decide (a < b)) fuel start end_ valList countList

/-- Source `quicksortDecrInt(start, end, valList, countList)`. -/
def quicksortDecrInt (fuel : Nat) (start end_ : Int) (valList countList : List Int) :
    Option (List Int × List Int) :=
  quicksortInt (fun a b => decide (a > b)) fuel start end_ valList countList

/-! ## Instance loading (`readInput`): the neighbour lists -/

/-- The values `lo, lo+1, ..., hi-1` taken by the control variable of a loop
`for (i = lo; i < hi; i++)`. -/
def forRange (lo hi : Int) : List Int :=
  (List.range (hi - lo).toNat).map fun (k : Nat) => lo + (k : Int)

/-- Source `readInput`, the loop over `index2` that fills the local arrays `nodeList` and
`localDistList` for the node `index1` (`nodeList[countNodes] = index2 + 1;
localDistList[countNodes++] = distance[index1][index2];`).  The result is
`(nodeList, localDistList)`, each holding its `countNodes` written entries. -/
def fillNeighbours (numberNodes : Int) (distance : Int → Int → Int) (index1 : Int) :
    List Int × List Int :=
  (forRange 1 numberNodes).foldl
    (fun (acc : List Int × List Int) index2 =>
      if index2 ≠ index1 then (acc.1 ++ [index2 + 1], acc.2 ++ [distance index1 index2])
      else acc)
    ([], [])

/-- Source `readInput`, body of the loop over `index1`: fill the local arrays, call
`quicksortIncrInt(0, numberNodes - 3, localDistList, nodeList)` and read back
`nodeList[index2]` for `index2 < numberNodes - 2`, the entries stored in
`nodeDistList[index1]`. -/
def nodeDistRow (fuel : Nat) (numberNodes : Int) (distance : Int → Int → Int) (index1 : Int) :
    Option (List Int) := do
  let (nodeList, localDistList) := fillNeighbours numberNodes distance index1
  let (_, nodeList1) ← quicksortIncrInt fuel 0 (numberNodes - 3) localDistList nodeList
  (forRange 0 (numberNodes - 2)).mapM fun index2 => rd nodeList1 index2

/-- Source `readInput`, the loop `for (index1 = 1; index1 < numberNodes; index1++)` that builds
the global table `nodeDistList` (zero-initialised, as every global of the program). -/
def readInputNeighbours (fuel : Nat) (numberNodes : Int) (distance : Int → Int → Int) :
    Option (Int → Int → Int) :=
  (forRange 1 numberNodes).foldlM
    (fun (nodeDistList : Int → Int → Int) index1 => do
      let row ← nodeDistRow fuel numberNodes distance index1
      pure fun a b =>
        if a = index1 ∧ 0 ≤ b ∧ b < numberNodes - 2 then row.getD b.toNat 0
        else nodeDistList a b)
    (fun _ _ => 0)

/-! ## Numbers of the source

`int` values are unbounded integers: the program's quantities (node ids, demands, distances of
one instance) are assumed to stay inside the `int` range.  A floating-point value is the
fraction `num / den` that it stands for.  The exact operations `add`, `sub`, `mul`, `div` are
followed by the rounding of the format in which the source computes them: `round53` for an
operation on `double`s (IEEE 754 binary64, one rounding per operation) and `round64` for an
operation on `long double`s (the x87 extended format of the x86 targets, which `twoPow32`
brings into every expression `c * (xorshift128() / twoPow32) + 1.0`).  The rounding is to
nearest, ties to even; the exponent range is not limited, so overflow to infinity and the
subnormal numbers are not modelled. -/

/-- A `double` or `long double`: the fraction `num / den`, with `den > 0` for every finite
value. -/
structure Dbl where
  num : Int
  den : Int

namespace Dbl

/-- Conversion `(double) n` of an `int`. -/
def ofInt (n : Int) : Dbl := ⟨n, 1⟩

/-- Sum `a + b`. -/
def add (a b : Dbl) : Dbl := ⟨a.num * b.den + b.num * a.den, a.den * b.den⟩

/-- Difference `a - b`. -/
def sub (a b : Dbl) : Dbl := ⟨a.num * b.den - b.num * a.den, a.den * b.den⟩

/-- Product `a * b`. -/
def mul (a b : Dbl) : Dbl := ⟨a.num * b.num, a.den * b.den⟩

/-- Quotient `a / b`, with a positive denominator when `b` is not zero.  Division by zero
(a non-finite `double` in the source) gives a fraction with denominator `0`. -/
def div (a b : Dbl) : Dbl :=
  if 0 ≤ b.num then ⟨a.num * b.den, a.den * b.num⟩ else ⟨-(a.num * b.den), -(a.den * b.num)⟩

/-- Comparison `a < b` of two finite values. -/
def lt (a b : Dbl) : Bool := decide (a.num * b.den < b.num * a.den)

/-- Conversion `(int) a`: truncation toward zero. -/
def toInt (a : Dbl) : Int := Int.tdiv a.num a.den

/-- The macro `MIN(A,B) ((A)>(B)?(B):(A))`. -/
def min (a b : Dbl) : Dbl := if lt b a then b else a

/-- The number of binary digits of `n`, found with at most `fuel` halvings: `bits n n` is the
number of digits of `n`, and `0` for `n = 0`. -/
def bits : Nat → Nat → Nat
  | 0, _ => 0
  | fuel + 1, n => if n = 0 then 0 else bits fuel (n / 2) + 1

/-- Numerator and denominator of `n / d * 2 ^ s`. -/
def scale (n d : Nat) (s : Int) : Nat × Nat := (n * 2 ^ s.toNat, d * 2 ^ (-s).toNat)

/-- The binary exponent `e` of a positive fraction `n / d`: `2 ^ e ≤ n / d < 2 ^ (e + 1)`. -/
def exponent (n d : Nat) : Int :=
  let e : Int := (bits n n : Int) - (bits d d : Int)
  if (scale n d (-e)).2 ≤ (scale n d (-e)).1 then e else e - 1

/-- The positive fraction `n / d` rounded to a significand of `p` binary digits, to the nearest
such value and, half-way between two of them, to the one with the even significand.  With the
exponent `e` of `n / d` the significand is `n / d * 2 ^ (p - 1 - e)` rounded to a whole
number. -/
def roundPos (p n d : Nat) : Dbl :=
  let s : Int := (p : Int) - 1 - exponent n d
  let q := (scale n d s).1 / (scale n d s).2
  let r := (scale n d s).1 % (scale n d s).2
  let q1 := if 2 * r < (scale n d s).2 then q else if (scale n d s).2 < 2 * r then q + 1
    else q + q % 2
  ⟨((q1 * 2 ^ (-s).toNat : Nat) : Int), ((2 ^ s.toNat : Nat) : Int)⟩

/-- The result of a floating-point operation whose exact value is `a`, in a format with a
significand of `p` binary digits: round to nearest, ties to even (the default rounding of
IEEE 754).  The exponent range of the format is not limited; a value that is not finite
(denominator `0`) is left as it is. -/
def round (p : Nat) (a : Dbl) : Dbl :=
  if a.den ≤ 0 ∨ a.num = 0 then a
  else if 0 < a.num then roundPos p a.num.toNat a.den.toNat
  else ⟨-(roundPos p (-a.num).toNat a.den.toNat).num, (roundPos p (-a.num).toNat a.den.toNat).den⟩

/-- Rounding to `double` (binary64, a significand of 53 digits). -/
def round53 (a : Dbl) : Dbl := round 53 a

/-- Rounding to `long double` (x87 extended format, a significand of 64 digits). -/
def round64 (a : Dbl) : Dbl := round 64 a

end Dbl

/-! ## Random number generator -/

/-- The four 32-bit state words `w, x, y, z` of the generator. -/
structure Rng where
  w : Nat
  x : Nat
  y : Nat
  z : Nat
  deriving DecidableEq

/-- Source `xorshift128()`: the returned word and the new state.  Every assignment to a
`uint32_t` variable is taken modulo `2 ^ 32`. -/
def xorshift128 (g : Rng) : Nat × Rng :=
  let t := g.x
  let t := (t ^^^ (t <<< 11)) % 2 ^ 32
  let t := (t ^^^ (t >>> 8)) % 2 ^ 32
  let w := (g.w ^^^ (g.w >>> 19)) % 2 ^ 32
  let w := (w ^^^ t) % 2 ^ 32
  (w, { x := g.y, y := g.z, z := g.w, w := w })

/-- The constant `twoPow32` computed at the start of `startSol`. -/
def twoPow32 : Int := 2 ^ 32

/-- The expression `xorshift128() / twoPow32`: the drawn value in `[0, 1)` and the new state. -/
def unitDraw (g : Rng) : Dbl × Rng :=
  let (u, g1) := xorshift128 g
  (⟨(u : Int), twoPow32⟩, g1)

/-! ## Parameters, instance and solutions -/

/-- The tunable parameters of the program (global variables set from the command line). -/
structure Params where
  numberItLSConstant : Int
  avRemovedCust : Int
  lengthRemovedStrings : Int
  numberOfStringsConstant : Int
  alpha : Dbl
  probSplitString : Dbl
  blinkRate : Dbl
  sortRandom : Int
  sortDemandLarge : Int
  sortDistDepotLarge : Int
  sortDistDepotSmall : Int

/-- The values the source gives to the parameters when no option is passed.  The literal `0.01`
is the `double` nearest to `1/100`; `0.5` is exact. -/
def defaultParams : Params where
  numberItLSConstant := 30000
  avRemovedCust := 10
  lengthRemovedStrings := 10
  numberOfStringsConstant := 4
  alpha := Dbl.round53 ⟨1, 100⟩
  probSplitString := ⟨1, 2⟩
  blinkRate := Dbl.round53 ⟨1, 100⟩
  sortRandom := 4
  sortDemandLarge := 4
  sortDistDepotLarge := 2
  sortDistDepotSmall := 1

/-- The instance data read by `readInput` (global variables).  Node index `0` is the depot;
a node with index `i` has the 1-based id `i + 1`. -/
structure Instance where
  numberNodes : Int
  nodeDemand : Int → Int
  distance : Int → Int → Int
  vehicleCap : Int
  nodeDistList : Int → Int → Int

/-- Source `struct solution`. -/
structure Solution where
  totalDist : Int
  numberTours : Int
  tours : Int → Int → Int
  numberNodesInTour : Int → Int
  capacityUsageTour : Int → Int
  numberAbsentNodes : Int
  absentNodes : Int → Int
  tourPerNode : Int → Int

/-- A zero-initialised `struct solution` (the three solutions are globals). -/
def Solution.zero : Solution where
  totalDist := 0
  numberTours := 0
  tours := fun _ _ => 0
  numberNodesInTour := fun _ => 0
  capacityUsageTour := fun _ => 0
  numberAbsentNodes := 0
  absentNodes := fun _ => 0
  tourPerNode := fun _ => 0

/-- The assignment `a[i] = x` on an array held as a function. -/
def upd {α : Type} (a : Int → α) (i : Int) (x : α) : Int → α :=
  fun j => if j = i then x else a j

/-- The assignment `a[i][j] = x` on a two-dimensional array. -/
def upd2 (a : Int → Int → Int) (i j : Int) (x : Int) : Int → Int → Int :=
  fun i' j' => if i' = i ∧ j' = j then x else a i' j'

/-- The values `hi-1, hi-2, ..., lo` taken by the control variable of a descending loop. -/
def forRangeDown (lo hi : Int) : List Int := (forRange lo hi).reverse

/-- Total read of a local array held as a list: `0` stands for an entry never written. -/
def readL (a : List Int) (i : Int) : Int := a.getD i.toNat 0

/-! ## Copies between the three solutions -/

/-- Source `copySISRsToCurrent()`. -/
def copySISRsToCurrent (I : Instance) (SISRsSol currentSol : Solution) : Solution :=
  let s : Solution := { currentSol with
    totalDist := SISRsSol.totalDist, numberTours := SISRsSol.numberTours }
  let s := (forRange 0 s.numberTours).foldl (fun (s : Solution) index1 =>
    let s := { s with
      numberNodesInTour := upd s.numberNodesInTour index1 (SISRsSol.numberNodesInTour index1) }
    (forRange 0 (s.numberNodesInTour index1)).foldl (fun (s : Solution) index2 =>
      { s with tours := upd2 s.tours index1 index2 (SISRsSol.tours index1 index2) }) s) s
  (forRange 1 I.numberNodes).foldl (fun (s : Solution) index1 =>
    { s with tourPerNode := upd s.tourPerNode index1 (SISRsSol.tourPerNode index1) }) s

/-- Source `copySISRsToBest()`. -/
def copySISRsToBest (SISRsSol bestSol : Solution) : Solution :=
  let s : Solution := { bestSol with
    totalDist := SISRsSol.totalDist, numberTours := SISRsSol.numberTours }
  (forRange 0 s.numberTours).foldl (fun (s : Solution) index1 =>
    let s := { s with
      numberNodesInTour := upd s.numberNodesInTour index1 (SISRsSol.numberNodesInTour index1),
      capacityUsageTour := upd s.capacityUsageTour index1 (SISRsSol.capacityUsageTour index1) }
    (forRange 0 (s.numberNodesInTour index1)).foldl (fun (s : Solution) index2 =>
      { s with tours := upd2 s.tours index1 index2 (SISRsSol.tours index1 index2) }) s) s

/-- Source `copyCurrentToBest()`. -/
def copyCurrentToBest (currentSol bestSol : Solution) : Solution :=
  let s : Solution := { bestSol with
    totalDist := currentSol.totalDist, numberTours := currentSol.numberTours }
  (forRange 0 s.numberTours).foldl (fun (s : Solution) index1 =>
    let s := { s with
      numberNodesInTour := upd s.numberNodesInTour index1 (currentSol.numberNodesInTour index1),
      capacityUsageTour := upd s.capacityUsageTour index1 (currentSol.capacityUsageTour index1) }
    (forRange 0 (s.numberNodesInTour index1)).foldl (fun (s : Solution) index2 =>
      { s with tours := upd2 s.tours index1 index2 (currentSol.tours index1 index2) }) s) s

/-- Source `copyCurrentToSISRs()`. -/
def copyCurrentToSISRs (I : Instance) (currentSol SISRsSol : Solution) : Solution :=
  let s : Solution := { SISRsSol with
    totalDist := currentSol.totalDist, numberTours := currentSol.numberTours }
  let s := (forRange 0 s.numberTours).foldl (fun (s : Solution) index1 =>
    let s := { s with
      numberNodesInTour := upd s.numberNodesInTour index1 (currentSol.numberNodesInTour index1) }
    (forRange 0 (s.numberNodesInTour index1)).foldl (fun (s : Solution) index2 =>
      { s with tours := upd2 s.tours index1 index2 (currentSol.tours index1 index2) }) s) s
  (forRange 1 I.numberNodes).foldl (fun (s : Solution) index1 =>
    { s with tourPerNode := upd s.tourPerNode index1 (currentSol.tourPerNode index1) }) s

/-! ## Initial solution (`startSol`) -/

/-- Source `quicksortIncrDouble(start, end, valList, countList)`.  Its code is that of
`quicksortIncrInt`; every sorted `double` is a draw `u / twoPow32` and is held as its
numerator `u`, which has the same order. -/
def quicksortIncrDouble (fuel : Nat) (start end_ : Int) (valList countList : List Int) :
    Option (List Int × List Int) :=
  quicksortInt (fun a b => decide (a < b)) fuel start end_ valList countList

/-- Source `quicksortDecrDouble(start, end, valList, countList)`, on numerators as
`quicksortIncrDouble`. -/
def quicksortDecrDouble (fuel : Nat) (start end_ : Int) (valList countList : List Int) :
    Option (List Int × List Int) :=
  quicksortInt (fun a b => decide (a > b)) fuel start end_ valList countList

/-- The global arrays and probabilities that `startSol` prepares for `recreate`.  The arrays
hold the entries `0..numberNodes-1`; entry `0` is never written. -/
structure Orders where
  copyRemovedNodeRandom : List Int
  copyRemovedNodeDemand : List Int
  copyRemovedNodeDistLarge : List Int
  copyRemovedNodeDistSmall : List Int
  probRandom : Dbl
  probDemandLarge : Dbl
  probDistLarge : Dbl

/-- Source `startSol`, first part: one customer per tour, stored in `currentSol`. -/
def startSolTours (I : Instance) (currentSol : Solution) : Solution :=
  let s : Solution := { currentSol with numberTours := I.numberNodes - 1, totalDist := 0 }
  let s := (forRange 0 s.numberTours).foldl (fun (s : Solution) index1 =>
    { s with
      numberNodesInTour := upd s.numberNodesInTour index1 1,
      tours := upd2 s.tours index1 0 (index1 + 2),
      capacityUsageTour := upd s.capacityUsageTour index1 (I.nodeDemand (index1 + 1)),
      totalDist := s.totalDist + I.distance 0 (index1 + 1) * 2 }) s
  let s := { s with numberAbsentNodes := 0, tourPerNode := upd s.tourPerNode 0 (-1) }
  (forRange 1 I.numberNodes).foldl (fun (s : Solution) index1 =>
    { s with tourPerNode := upd s.tourPerNode index1 index1 }) s

/-- Source `startSol`, the draws `weightNodeRandom[index1] = xorshift128() / twoPow32` of the
loop over `index1 = 1..numberNodes-1` (numerators), in order, and the final generator state. -/
def drawWeights (l : List Int) (g : Rng) : List Int × Rng :=
  l.foldl (fun (acc : List Int × Rng) _ =>
    let (u, g1) := xorshift128 acc.2
    (acc.1 ++ [(u : Int)], g1)) ([], g)

/-- Source `startSol()`: the initial `currentSol`, the four sorted node orders with the
cumulative probabilities, and the generator state. -/
def startSol (fuel : Nat) (P : Params) (I : Instance) (currentSol : Solution) (g : Rng) :
    Option (Solution × Orders × Rng) := do
  let s := startSolTours I currentSol
  let ids : List Int := 0 :: (forRange 1 I.numberNodes).map (fun index1 => index1 + 1)
  let (weights, g1) := drawWeights (forRange 1 I.numberNodes) g
  let weightNodeRandom : List Int := 0 :: weights
  let weightNodeDemand : List Int := 0 :: (forRange 1 I.numberNodes).map I.nodeDemand
  let weightNodeDist : List Int :=
    0 :: (forRange 1 I.numberNodes).map (fun index1 => I.distance index1 0)
  let (_, copyRemovedNodeRandom) ←
    quicksortIncrDouble fuel 1 (I.numberNodes - 1) weightNodeRandom ids
  let (_, copyRemovedNodeDemand) ←
    quicksortDecrInt fuel 1 (I.numberNodes - 1) weightNodeDemand ids
  let (_, copyRemovedNodeDistLarge) ←
    quicksortDecrInt fuel 1 (I.numberNodes - 1) weightNodeDist ids
  let (_, copyRemovedNodeDistSmall) ←
    quicksortIncrInt fuel 1 (I.numberNodes - 1) weightNodeDist ids
  let totalSort := P.sortRandom + P.sortDemandLarge + P.sortDistDepotLarge + P.sortDistDepotSmall
  let probRandom := Dbl.round53 (Dbl.div (Dbl.ofInt P.sortRandom) (Dbl.ofInt totalSort))
  let probDemandLarge :=
    Dbl.round53 (Dbl.add
      (Dbl.round53 (Dbl.div (Dbl.ofInt P.sortDemandLarge) (Dbl.ofInt totalSort))) probRandom)
  let probDistLarge :=
    Dbl.round53 (Dbl.add
      (Dbl.round53 (Dbl.div (Dbl.ofInt P.sortDistDepotLarge) (Dbl.ofInt totalSort)))
      probDemandLarge)
  pure (s,
    { copyRemovedNodeRandom := copyRemovedNodeRandom
      copyRemovedNodeDemand := copyRemovedNodeDemand
      copyRemovedNodeDistLarge := copyRemovedNodeDistLarge
      copyRemovedNodeDistSmall := copyRemovedNodeDistSmall
      probRandom := probRandom
      probDemandLarge := probDemandLarge
      probDistLarge := probDistLarge },
    g1)

/-! ## Ruin (`ruinString`, `ruinSplitString`, `ruin`) -/

/-- What a string removal works on: the solution `SISRsSol`, the generator, and the local arrays
`nodeRemoved` (of `ruin`) and `copyNodes` (of the removal function). -/
structure RuinState where
  sol : Solution
  g : Rng
  nodeRemoved : Int → Bool
  copyNodes : Int → Int

/-- Step 0 of both removal functions, the loop `while (!found && (index10 < numberNodesInTour))`
that looks for `startNodeIndex + 1` in the tour: the value of `posStartNode` after it (the loop
body does nothing more once `found` is set). -/
def findPosStartNode (s : Solution) (tourIndex startNodeIndex : Int) : Int :=
  ((forRange 0 (s.numberNodesInTour tourIndex)).foldl
    (fun (acc : Int × Bool) index10 =>
      if !acc.2 && s.tours tourIndex index10 == startNodeIndex + 1 then (index10, true) else acc)
    (0, false)).1

/-- Step 1 of both removal functions, the loop
`do { if ((index10 + len - 1 < numberNodesInTour) && (index10 >= 0)) options[countOptionsReal++]
= index10; countOptionsLoop++; index10--; } while ((countOptionsLoop < len) && (index10 >= 0));`
The result is the written part of `options`.  The first argument bounds the number of
iterations; the loop runs at most `len` times. -/
def windowOptions (numberNodesInTour len : Int) : Nat → Int → Int → List Int → List Int
  | 0, _, _, options => options
  | k + 1, index10, countOptionsLoop, options =>
    let options :=
      if index10 + len - 1 < numberNodesInTour ∧ index10 ≥ 0 then options ++ [index10]
      else options
    let countOptionsLoop := countOptionsLoop + 1
    let index10 := index10 - 1
    if countOptionsLoop < len ∧ index10 ≥ 0 then
      windowOptions numberNodesInTour len k index10 countOptionsLoop options
    else options

/-- The expression `(int)((xorshift128() / twoPow32) * count)`. -/
def drawIndex (g : Rng) (count : Int) : Int × Rng :=
  let (r, g1) := unitDraw g
  (Dbl.toInt (Dbl.mul r (Dbl.ofInt count)), g1)

/-- Step 1 of both removal functions: the start of the window of `len` positions. -/
def chooseStartRemoval (s : Solution) (g : Rng) (tourIndex len posStartNode : Int) :
    Int × Rng :=
  if len > 1 then
    if len < s.numberNodesInTour tourIndex then
      let options := windowOptions (s.numberNodesInTour tourIndex) len len.toNat posStartNode 0 []
      let (randomStart, g1) := drawIndex g options.length
      (readL options randomStart, g1)
    else (0, g)
  else (posStartNode, g)

/-- The copy `copyNodes[index1] = SISRsSol.tours[tourIndex][index1]` of the tour into the local
array (entries never written are read as `0`). -/
def copyTour (s : Solution) (tourIndex : Int) : Int → Int :=
  fun index1 => if 0 ≤ index1 ∧ index1 < s.numberNodesInTour tourIndex
    then s.tours tourIndex index1 else 0

/-- The body of the removal loops (step 2), for the position `pos` of the tour:
`absentNodes[numberAbsentNodes++] = copyNodes[pos]; capacityUsageTour[tourIndex] -=
nodeDemand[copyNodes[pos] - 1]; tourPerNode[copyNodes[pos] - 1] = -1;
nodeRemoved[copyNodes[pos] - 1] = true; copyNodes[pos] = -1;`. -/
def removeNode (I : Instance) (tourIndex : Int) (st : RuinState) (pos : Int) : RuinState :=
  let node := st.copyNodes pos
  { st with
    sol := { st.sol with
      absentNodes := upd st.sol.absentNodes st.sol.numberAbsentNodes node,
      numberAbsentNodes := st.sol.numberAbsentNodes + 1,
      capacityUsageTour := upd st.sol.capacityUsageTour tourIndex
        (st.sol.capacityUsageTour tourIndex - I.nodeDemand (node - 1)),
      tourPerNode := upd st.sol.tourPerNode (node - 1) (-1) },
    nodeRemoved := upd st.nodeRemoved (node - 1) true,
    copyNodes := upd st.copyNodes pos (-1) }

/-- Step 3 of both removal functions: the loop that writes the entries of `copyNodes` different
from `-1` back to the front of the tour, and `numberNodesInTour[tourIndex] -= lengthString`. -/
def reduceTour (st : RuinState) (tourIndex lengthString : Int) : Solution :=
  let r := (forRange 0 (st.sol.numberNodesInTour tourIndex)).foldl
    (fun (acc : (Int → Int → Int) × Int) index1 =>
      if st.copyNodes index1 ≠ -1 then
        (upd2 acc.1 tourIndex acc.2 (st.copyNodes index1), acc.2 + 1)
      else acc)
    (st.sol.tours, 0)
  { st.sol with
    tours := r.1,
    numberNodesInTour := upd st.sol.numberNodesInTour tourIndex
      (st.sol.numberNodesInTour tourIndex - lengthString) }

/-- Source `ruinString(tourIndex, lengthString, startNodeIndex, nodeRemoved)`. -/
def ruinString (I : Instance) (s : Solution) (g : Rng) (nodeRemoved : Int → Bool)
    (tourIndex lengthString startNodeIndex : Int) : Solution × Rng × (Int → Bool) :=
  let posStartNode := findPosStartNode s tourIndex startNodeIndex
  let (startRemoval, g1) := chooseStartRemoval s g tourIndex lengthString posStartNode
  let st : RuinState :=
    { sol := s, g := g1, nodeRemoved := nodeRemoved, copyNodes := copyTour s tourIndex }
  let st := (forRange startRemoval (startRemoval + lengthString)).foldl
    (removeNode I tourIndex) st
  let st := { st with sol := { st.sol with totalDist := 0 } }
  (reduceTour st tourIndex lengthString, st.g, st.nodeRemoved)

/-- Step 0bis of `ruinSplitString`: the loop `while (!stopIncr && (numberPreservedCust <
numberNodesInTour - lengthString))` that draws the number of preserved customers.  The first
argument bounds the number of iterations; each iteration that continues increments
`numberPreservedCust`. -/
def preservedLoop (P : Params) (bound : Int) : Nat → Int → Rng → Int × Rng
  | 0, numberPreservedCust, g => (numberPreservedCust, g)
  | k + 1, numberPreservedCust, g =>
    if numberPreservedCust < bound then
      let (rand1, g1) := unitDraw g
      if Dbl.lt P.alpha rand1 then preservedLoop P bound k (numberPreservedCust + 1) g1
      else (numberPreservedCust, g1)
    else (numberPreservedCust, g)

/-- Step 1bis of `ruinSplitString`, the loop `do { options[countOptions++] = index10;
index10++; } while ((index10 + numberPreservedCust - 1 < startRemoval + totalLength - 1) &&
(countOptions < totalLength - 2));`: the written part of `options`.  The first argument bounds
the number of iterations; the loop runs at most `totalLength - 2` times. -/
def retainOptions (numberPreservedCust startRemoval totalLength : Int) :
    Nat → Int → List Int → List Int
  | 0, _, options => options
  | k + 1, index10, options =>
    let options := options ++ [index10]
    let index10 := index10 + 1
    if index10 + numberPreservedCust - 1 < startRemoval + totalLength - 1 ∧
        (options.length : Int) < totalLength - 2 then
      retainOptions numberPreservedCust startRemoval totalLength k index10 options
    else options

/-- Source `ruinSplitString(tourIndex, lengthString, startNodeIndex, nodeRemoved)`. -/
def ruinSplitString (P : Params) (I : Instance) (s : Solution) (g : Rng)
    (nodeRemoved : Int → Bool) (tourIndex lengthString startNodeIndex : Int) :
    Solution × Rng × (Int → Bool) :=
  let posStartNode := findPosStartNode s tourIndex startNodeIndex
  let bound := s.numberNodesInTour tourIndex - lengthString
  let (numberPreservedCust, g1) := preservedLoop P bound bound.toNat 1 g
  let totalLength := lengthString + numberPreservedCust
  let (startRemoval, g2) := chooseStartRemoval s g1 tourIndex totalLength posStartNode
  let (startRetain, g3) :=
    if numberPreservedCust < totalLength - 2 then
      let options := retainOptions numberPreservedCust startRemoval totalLength
        (totalLength - 2).toNat (startRemoval + 1) []
      let (randomRetain, g3) := drawIndex g2 options.length
      (readL options randomRetain, g3)
    else (startRemoval + 1, g2)
  let st : RuinState :=
    { sol := s, g := g3, nodeRemoved := nodeRemoved, copyNodes := copyTour s tourIndex }
  let st := (forRange startRemoval startRetain).foldl (removeNode I tourIndex) st
  let st := (forRange (startRetain + numberPreservedCust) (startRemoval + totalLength)).foldl
    (removeNode I tourIndex) st
  (reduceTour st tourIndex lengthString, st.g, st.nodeRemoved)

/-- The state of the main loop of `ruin`: the solution `SISRsSol`, the generator, the local
arrays `ruinedTour` and `nodeRemoved`, and the counter `countRuinedTours`. -/
structure RuinLoop where
  sol : Solution
  g : Rng
  ruinedTour : Int → Bool
  nodeRemoved : Int → Bool
  countRuinedTours : Int

/-- The expression `(int)(c * (xorshift128() / twoPow32) + 1.0)` of `ruin`.  The quotient is a
`long double` (`twoPow32` is one) and exact; the product and the sum are `long double`
operations, each rounded to 64 digits; the conversion truncates. -/
def drawCount (g : Rng) (c : Dbl) : Int × Rng :=
  let (r, g1) := unitDraw g
  (Dbl.toInt (Dbl.round64 (Dbl.add (Dbl.round64 (Dbl.mul c r)) (Dbl.ofInt 1))), g1)

/-- Source `ruin`, body of the loop `while ((countRuinedTours < numberStringsToRemove) &&
(neighborIndex < numberNodes - 2))` for one value of `neighborIndex`.  Once
`countRuinedTours` has reached `numberStringsToRemove` the loop has ended and the body does
nothing. -/
def ruinStep (P : Params) (I : Instance) (maxStringCardinality : Dbl)
    (numberStringsToRemove randomSeedNodeIndex : Int) (st : RuinLoop) (neighborIndex : Int) :
    RuinLoop :=
  if st.countRuinedTours < numberStringsToRemove then
    let currentNodeIndex := I.nodeDistList randomSeedNodeIndex neighborIndex - 1
    let tourIndex := st.sol.tourPerNode currentNodeIndex - 1
    if !st.ruinedTour tourIndex && !st.nodeRemoved currentNodeIndex then
      let ruinedTour := upd st.ruinedTour tourIndex true
      let localStringCardinality :=
        Dbl.min (Dbl.ofInt (st.sol.numberNodesInTour tourIndex)) maxStringCardinality
      let (lengthStringToRemove, g1) := drawCount st.g localStringCardinality
      let (sol, g3, nodeRemoved) :=
        if st.sol.numberNodesInTour tourIndex > 1 ∧
            st.sol.numberNodesInTour tourIndex - lengthStringToRemove > 0 ∧
            lengthStringToRemove > 1 then
          let (randProb, g2) := unitDraw g1
          if Dbl.lt randProb P.probSplitString then
            ruinSplitString P I st.sol g2 st.nodeRemoved tourIndex lengthStringToRemove
              currentNodeIndex
          else
            ruinString I st.sol g2 st.nodeRemoved tourIndex lengthStringToRemove
              currentNodeIndex
        else
          ruinString I st.sol g1 st.nodeRemoved tourIndex lengthStringToRemove currentNodeIndex
      { sol := sol, g := g3, ruinedTour := ruinedTour, nodeRemoved := nodeRemoved,
        countRuinedTours := st.countRuinedTours + 1 }
    else st
  else st

/-- Source `ruin`, body of the loop `while ((indexEmpty >0) && (indexTours >= 0))` that removes
the empty tours, for one value of `indexTours`; the state is `SISRsSol` and `indexEmpty`. -/
def compactStep (acc : Solution × Int) (indexTours : Int) : Solution × Int :=
  if acc.2 > 0 then
    if acc.1.numberNodesInTour indexTours = 0 then
      let s := (forRange indexTours (acc.1.numberTours - 1)).foldl (fun (s : Solution) index1 =>
        let s := (forRange 0 (s.numberNodesInTour (index1 + 1))).foldl
          (fun (s : Solution) index2 =>
            { s with tours := upd2 s.tours index1 index2 (s.tours (index1 + 1) index2) }) s
        let count := s.numberNodesInTour (index1 + 1)
        { s with numberNodesInTour := upd s.numberNodesInTour index1 count })
        acc.1
      ({ s with numberTours := s.numberTours - 1 }, acc.2 - 1)
    else acc
  else acc

/-- Source `ruin`, the check for empty tours after the removals. -/
def compactTours (s : Solution) : Solution :=
  let countEmptyTours : Int :=
    ((forRange 0 s.numberTours).filter (fun index1 => s.numberNodesInTour index1 = 0)).length
  ((forRangeDown 0 s.numberTours).foldl compactStep (s, countEmptyTours)).1

/-- Source `ruin`, the loop "calculate remaining used capacity per tour". -/
def recomputeCapacity (I : Instance) (s : Solution) : Solution :=
  (forRange 0 s.numberTours).foldl (fun (s : Solution) index1 =>
    let s := { s with capacityUsageTour := upd s.capacityUsageTour index1 0 }
    (forRange 0 (s.numberNodesInTour index1)).foldl (fun (s : Solution) index2 =>
      let usage := s.capacityUsageTour index1 + I.nodeDemand (s.tours index1 index2 - 1)
      { s with capacityUsageTour := upd s.capacityUsageTour index1 usage }) s) s

/-- Source `ruin`, the loop "set tourPerNode correctly". -/
def resetTourPerNode (s : Solution) : Solution :=
  (forRange 0 s.numberTours).foldl (fun (s : Solution) index1 =>
    (forRange 0 (s.numberNodesInTour index1)).foldl (fun (s : Solution) index2 =>
      { s with tourPerNode := upd s.tourPerNode (s.tours index1 index2 - 1) (index1 + 1) }) s) s

/-- Source `ruin()`, operating on `SISRsSol`.  The argument `stack` is the content of the
memory that the local array `ruinedTour` occupies and adjoins before the function writes to it:
the array is read at the index `tourPerNode[currentNodeIndex] - 1`, which is `-2` for a node
that was removed earlier in the same call.  (The local array `nodeRemoved` is only read at
node indices, which the function initialises to `false`.) -/
def ruin (P : Params) (I : Instance) (stack : Int → Bool) (s : Solution) (g : Rng) :
    Solution × Rng :=
  let total : Int := ((forRange 0 s.numberTours).map s.numberNodesInTour).sum
  let tourCardinality := Dbl.round53 (Dbl.div (Dbl.ofInt total) (Dbl.ofInt s.numberTours))
  let maxStringCardinality := Dbl.min (Dbl.ofInt P.lengthRemovedStrings) tourCardinality
  let maxStrings :=
    Dbl.round53 (Dbl.sub
      (Dbl.round53 (Dbl.div
        (Dbl.round53 (Dbl.mul (Dbl.ofInt P.numberOfStringsConstant) (Dbl.ofInt P.avRemovedCust)))
        (Dbl.round53 (Dbl.add (Dbl.ofInt 1) maxStringCardinality))))
      (Dbl.ofInt 1))
  let (numberStringsToRemove, g1) := drawCount g maxStrings
  let (randomSeedNodeIndex, g2) := drawCount g1 (Dbl.ofInt (I.numberNodes - 1))
  let ruinedTour : Int → Bool :=
    fun index1 => if 0 ≤ index1 ∧ index1 < s.numberTours then false else stack index1
  let nodeRemoved : Int → Bool := fun _ => false
  let st : RuinLoop :=
    { sol := { s with numberAbsentNodes := 0 }, g := g2, ruinedTour := ruinedTour,
      nodeRemoved := nodeRemoved, countRuinedTours := 0 }
  let st := (forRange 0 (I.numberNodes - 2)).foldl
    (ruinStep P I maxStringCardinality numberStringsToRemove randomSeedNodeIndex) st
  let s1 := compactTours st.sol
  let s2 := recomputeCapacity I s1
  (resetTourPerNode s2, st.g)

/-! ## Recreate (`recreate`) -/

/-- The constant `VERYLARGE`. -/
def VERYLARGE : Int := 100000000

/-- Source `recreate`, one of the four loops `while ((count < numberAbsentNodes) && (index <
numberNodes))` that collect the removed nodes in the order of the array `order`
(`copyRemovedNodeRandom`, ...): the written part of `copyRemovedNode`.  Once `count` has reached
`numberAbsentNodes` the loop has ended and the body does nothing. -/
def collectRemoved (I : Instance) (s : Solution) (order : List Int) : List Int :=
  (forRange 1 I.numberNodes).foldl (fun (copyRemovedNode : List Int) index =>
    if (copyRemovedNode.length : Int) < s.numberAbsentNodes then
      if s.tourPerNode (readL order index - 1) = -1 then copyRemovedNode ++ [readL order index]
      else copyRemovedNode
    else copyRemovedNode) []

/-- Source `recreate`, the choice of the order by `randProb` and the collection of the removed
nodes. -/
def sortRemoved (I : Instance) (O : Orders) (s : Solution) (randProb : Dbl) : List Int :=
  if Dbl.lt randProb O.probRandom then collectRemoved I s O.copyRemovedNodeRandom
  else if Dbl.lt randProb O.probDemandLarge then collectRemoved I s O.copyRemovedNodeDemand
  else if Dbl.lt randProb O.probDistLarge then collectRemoved I s O.copyRemovedNodeDistLarge
  else collectRemoved I s O.copyRemovedNodeDistSmall

/-- The best insertion position found so far, with the generator: the local variables
`tempPos`, `tempTour`, `tempCost` of `recreate`. -/
structure Search where
  g : Rng
  tempPos : Int
  tempTour : Int
  tempCost : Int

/-- Source `recreate`, the cost `currentCost` of inserting the node `currentNodeIndex` at the
position `index3` of the tour `currentTourIndex`. -/
def insertionCost (I : Instance) (s : Solution) (currentNodeIndex currentTourIndex index3 : Int) :
    Int :=
  if index3 = 0 then
    I.distance 0 currentNodeIndex - I.distance 0 (s.tours currentTourIndex index3 - 1)
      + I.distance currentNodeIndex (s.tours currentTourIndex index3 - 1)
  else if index3 = s.numberNodesInTour currentTourIndex then
    I.distance currentNodeIndex 0 - I.distance (s.tours currentTourIndex (index3 - 1) - 1) 0
      + I.distance (s.tours currentTourIndex (index3 - 1) - 1) currentNodeIndex
  else
    I.distance (s.tours currentTourIndex (index3 - 1) - 1) currentNodeIndex
      - I.distance (s.tours currentTourIndex (index3 - 1) - 1)
          (s.tours currentTourIndex index3 - 1)
      + I.distance currentNodeIndex (s.tours currentTourIndex index3 - 1)

/-- Source `recreate`, body of the loop over the positions `index3` of one tour: the blink draw
and the update of the best position. -/
def tryPosition (P : Params) (I : Instance) (s : Solution)
    (currentNodeIndex currentTourIndex : Int) (b : Search) (index3 : Int) : Search :=
  let (randProb, g1) := unitDraw b.g
  if Dbl.lt randProb (Dbl.round53 (Dbl.sub (Dbl.ofInt 1) P.blinkRate)) then
    let currentCost := insertionCost I s currentNodeIndex currentTourIndex index3
    if currentCost < b.tempCost ∨ b.tempPos = -1 then
      { g := g1, tempPos := index3, tempTour := currentTourIndex, tempCost := currentCost }
    else { b with g := g1 }
  else { b with g := g1 }

/-- Source `recreate`, body of the loop over `index2`: the tour `tourIndices[index2]` is
examined when the node fits in its residual capacity. -/
def tryTour (P : Params) (I : Instance) (s : Solution) (tourIndices : Int → Int)
    (currentNodeIndex : Int) (b : Search) (index2 : Int) : Search :=
  let currentTourIndex := tourIndices index2
  if s.capacityUsageTour currentTourIndex + I.nodeDemand currentNodeIndex ≤ I.vehicleCap then
    (forRange 0 (s.numberNodesInTour currentTourIndex + 1)).foldl
      (tryPosition P I s currentNodeIndex currentTourIndex) b
  else b

/-- The state of the reinsertion loop of `recreate`: the solution `SISRsSol`, the generator and
the local array `tourIndices`. -/
structure Recreate where
  sol : Solution
  g : Rng
  tourIndices : Int → Int

/-- Source `recreate`, "actually reinsert node": the node `currentNodeIndex` is put at the
position `tempPos` of the tour `tempTour`. -/
def insertNode (I : Instance) (s : Solution) (currentNodeIndex tempTour tempPos : Int) :
    Solution :=
  let usage := s.capacityUsageTour tempTour + I.nodeDemand currentNodeIndex
  let s := { s with
    capacityUsageTour := upd s.capacityUsageTour tempTour usage,
    tourPerNode := upd s.tourPerNode currentNodeIndex (tempTour + 1) }
  let s := (forRangeDown (tempPos + 1) (s.numberNodesInTour tempTour + 1)).foldl
    (fun (s : Solution) index2 =>
      { s with tours := upd2 s.tours tempTour index2 (s.tours tempTour (index2 - 1)) }) s
  let s := { s with tours := upd2 s.tours tempTour tempPos (currentNodeIndex + 1) }
  { s with numberNodesInTour := upd s.numberNodesInTour tempTour (s.numberNodesInTour tempTour + 1) }

/-- Source `recreate`, body of the loop over the removed nodes, for the node with the 1-based
id `node` (the entry `copyRemovedNode[index1]`). -/
def reinsert (P : Params) (I : Instance) (st : Recreate) (node : Int) : Recreate :=
  let currentNodeIndex := node - 1
  let b0 : Search := { g := st.g, tempPos := -1, tempTour := -1, tempCost := VERYLARGE }
  let b := (forRange 0 st.sol.numberTours).foldl
    (tryTour P I st.sol st.tourIndices currentNodeIndex) b0
  if b.tempPos = -1 then
    let tourIndices := upd st.tourIndices st.sol.numberTours st.sol.numberTours
    let tempTour := st.sol.numberTours
    let s := { st.sol with
      numberTours := st.sol.numberTours + 1,
      capacityUsageTour := upd st.sol.capacityUsageTour tempTour 0,
      numberNodesInTour := upd st.sol.numberNodesInTour tempTour 0 }
    { sol := insertNode I s currentNodeIndex tempTour 0, g := b.g, tourIndices := tourIndices }
  else
    { sol := insertNode I st.sol currentNodeIndex b.tempTour b.tempPos, g := b.g,
      tourIndices := st.tourIndices }

/-- Source `recreate`, the draws `tourValues[index2] = xorshift128() / twoPow32` (numerators)
for `index2 = 0..numberTours-1`. -/
def drawTourValues (s : Solution) (g : Rng) : List Int × Rng :=
  drawWeights (forRange 0 s.numberTours) g

/-- Source `recreate()`, operating on `SISRsSol`. -/
def recreate (fuel : Nat) (P : Params) (I : Instance) (O : Orders) (s : Solution) (g : Rng) :
    Option (Solution × Rng) := do
  let (randProb, g1) := unitDraw g
  let copyRemovedNode := sortRemoved I O s randProb
  let (tourValues, g2) := drawTourValues s g1
  let (_, tourIndices) ←
    quicksortDecrDouble fuel 0 (s.numberTours - 1) tourValues (forRange 0 s.numberTours)
  let st : Recreate := { sol := s, g := g2, tourIndices := readL tourIndices }
  let st := (forRange 0 s.numberAbsentNodes).foldl (fun (st : Recreate) index1 =>
    reinsert P I st (readL copyRemovedNode index1)) st
  pure ({ st.sol with numberAbsentNodes := 0 }, st.g)

/-! ## The search (`SISRs`, `localSearchMH`) -/

/-- Source `SISRs`, "calculate totalDist": the length of the tours of `s`. -/
def computeTotalDist (I : Instance) (s : Solution) : Int :=
  (forRange 0 s.numberTours).foldl (fun (totalDist : Int) index1 =>
    if s.numberNodesInTour index1 > 0 then
      let totalDist := (forRange 0 (s.numberNodesInTour index1 - 1)).foldl
        (fun (totalDist : Int) index2 =>
          totalDist + I.distance (s.tours index1 index2 - 1) (s.tours index1 (index2 + 1) - 1))
        totalDist
      totalDist + (I.distance 0 (s.tours index1 0 - 1)
        + I.distance (s.tours index1 (s.numberNodesInTour index1 - 1) - 1) 0)
    else totalDist) 0

/-- Source `SISRs()`: the new `SISRsSol` and generator state, from `currentSol`. -/
def SISRs (fuel : Nat) (P : Params) (I : Instance) (O : Orders) (stack : Int → Bool)
    (currentSol SISRsSol : Solution) (g : Rng) : Option (Solution × Rng) := do
  let s := copyCurrentToSISRs I currentSol SISRsSol
  let (s1, g1) := ruin P I stack s g
  let (s2, g2) ← recreate fuel P I O s1 g1
  pure ({ s2 with totalDist := computeTotalDist I s2 }, g2)

/-- The three global solutions and the generator. -/
structure Search3 where
  currentSol : Solution
  bestSol : Solution
  SISRsSol : Solution
  g : Rng

/-- Source `localSearchMH`, body of the loop for the iteration `index1`.  The floating-point
test `SISRsSol.totalDist < currentSol.totalDist - currentTemp*log(randUniform)` is the
argument `accept`, a function of the iteration (which fixes `currentTemp`), of the drawn word
and of the two distances.  `stack` gives, per iteration, the memory that `ruin` finds. -/
def lsStep (fuel : Nat) (P : Params) (I : Instance) (O : Orders)
    (accept : Int → Nat → Int → Int → Bool) (stack : Int → Int → Bool)
    (st : Search3) (index1 : Int) : Option Search3 := do
  let (SISRsSol, g1) ← SISRs fuel P I O (stack index1) st.currentSol st.SISRsSol st.g
  let (u, g2) := xorshift128 g1
  let currentSol :=
    if accept index1 u SISRsSol.totalDist st.currentSol.totalDist then
      copySISRsToCurrent I SISRsSol st.currentSol
    else st.currentSol
  let bestSol :=
    if SISRsSol.totalDist < st.bestSol.totalDist then copySISRsToBest SISRsSol st.bestSol
    else st.bestSol
  pure { currentSol := currentSol, bestSol := bestSol, SISRsSol := SISRsSol, g := g2 }

/-- The state of `localSearchMH` after its first `iterations` iterations. -/
def localSearchIter (fuel : Nat) (P : Params) (I : Instance) (O : Orders)
    (accept : Int → Nat → Int → Int → Bool) (stack : Int → Int → Bool)
    (st : Search3) (iterations : Int) : Option Search3 :=
  (forRange 0 iterations).foldlM (lsStep fuel P I O accept stack)
    { st with bestSol := copyCurrentToBest st.currentSol st.bestSol }

/-- Source `localSearchMH()`: `copyCurrentToBest()` and
`numberItLSConstant*(numberNodes - 1)` iterations. -/
def localSearchMH (fuel : Nat) (P : Params) (I : Instance) (O : Orders)
    (accept : Int → Nat → Int → Int → Bool) (stack : Int → Int → Bool) (st : Search3) :
    Option Search3 :=
  localSearchIter fuel P I O accept stack st (P.numberItLSConstant * (I.numberNodes - 1))

/-! ## The program (`main`) -/

/-- The four values that `main` draws with `unifRealDistr(generator)`: `generator` is a
Mersenne twister seeded by `std::random_device`, so the values are an input of the run that
does not depend on the command line. -/
structure Entropy where
  forW : Dbl
  forX : Dbl
  forY : Dbl
  forZ : Dbl

/-- Source `main`, one assignment `w = unifRealDistr(generator) * seed;`: the product of the
drawn `double` and the seed is a `double`, rounded to 53 digits, and is converted to
`uint32_t`. -/
def seedWord (d : Dbl) (seed : Nat) : Nat :=
  (Dbl.toInt (Dbl.round53 (Dbl.mul d (Dbl.ofInt (seed : Int))))).toNat % 2 ^ 32

/-- Source `main`, the four assignments that initialise the generator state. -/
def seedGenerator (seed : Nat) (e : Entropy) : Rng :=
  { w := seedWord e.forW seed, x := seedWord e.forX seed, y := seedWord e.forY seed,
    z := seedWord e.forZ seed }

/-- Source `main()` after the command line is parsed and `readInput` has filled the instance
`I`: seeding, `startSol()`, `localSearchMH()`; the result is the final state of the search,
whose `bestSol.totalDist` is printed. -/
def main (fuel : Nat) (P : Params) (I : Instance) (accept : Int → Nat → Int → Int → Bool)
    (stack : Int → Int → Bool) (seed : Nat) (e : Entropy) : Option Search3 := do
  let g := seedGenerator seed e
  let (currentSol, O, g1) ← startSol fuel P I Solution.zero g
  localSearchMH fuel P I O accept stack
    { currentSol := currentSol, bestSol := Solution.zero, SISRsSol := Solution.zero, g := g1 }

/-! ## Parts of the solver functions named by the statements -/

/-- Source `startSol`, its first statements: `twoPow32 = 2; for (int index1 = 1; index1 < 32;
index1++) twoPow32 *= 2;`. -/
def startSolTwoPow32 : Int :=
  (forRange 1 32).foldl (fun (twoPow32 : Int) _ => twoPow32 * 2) 2

/-- Source `startSol`, the value given to `probRandom`:
`(double)sortRandom / (double)totalSort`. -/
def startSolProbRandom (P : Params) : Dbl :=
  Dbl.round53 (Dbl.div (Dbl.ofInt P.sortRandom)
    (Dbl.ofInt (P.sortRandom + P.sortDemandLarge + P.sortDistDepotLarge + P.sortDistDepotSmall)))

/-- Source `startSol`, the value given to `probDemandLarge`:
`(double)sortDemandLarge / (double)totalSort + probRandom`. -/
def startSolProbDemandLarge (P : Params) : Dbl :=
  Dbl.round53 (Dbl.add
    (Dbl.round53 (Dbl.div (Dbl.ofInt P.sortDemandLarge)
      (Dbl.ofInt (P.sortRandom + P.sortDemandLarge + P.sortDistDepotLarge
        + P.sortDistDepotSmall))))
    (startSolProbRandom P))

/-- Source `startSol`, the value given to `probDistLarge`:
`(double)sortDistDepotLarge / (double)totalSort + probDemandLarge`. -/
def startSolProbDistLarge (P : Params) : Dbl :=
  Dbl.round53 (Dbl.add
    (Dbl.round53 (Dbl.div (Dbl.ofInt P.sortDistDepotLarge)
      (Dbl.ofInt (P.sortRandom + P.sortDemandLarge + P.sortDistDepotLarge
        + P.sortDistDepotSmall))))
    (startSolProbDemandLarge P))

/-- Source `ruin`, the local `tourCardinality` after the division: the sum of the tour sizes
(a sum of `int`s, exact in a `double`) divided by `(double)SISRsSol.numberTours`. -/
def ruinTourCardinality (s : Solution) : Dbl :=
  Dbl.round53 (Dbl.div (Dbl.ofInt ((forRange 0 s.numberTours).map s.numberNodesInTour).sum)
    (Dbl.ofInt s.numberTours))

/-- Source `ruin`, the local `maxStringCardinality` (equation 5): `MIN(lengthRemovedStrings,
tourCardinality)` with `tourCardinality` the average number of nodes in a tour. -/
def ruinMaxStringCardinality (P : Params) (s : Solution) : Dbl :=
  let total : Int := ((forRange 0 s.numberTours).map s.numberNodesInTour).sum
  let tourCardinality := Dbl.round53 (Dbl.div (Dbl.ofInt total) (Dbl.ofInt s.numberTours))
  Dbl.min (Dbl.ofInt P.lengthRemovedStrings) tourCardinality

/-- Source `ruin`, the local `maxStrings` (equation 6):
`((double)numberOfStringsConstant*(double)avRemovedCust) / (1.0 + maxStringCardinality) - 1.0`. -/
def ruinMaxStrings (P : Params) (s : Solution) : Dbl :=
  Dbl.round53 (Dbl.sub
    (Dbl.round53 (Dbl.div
      (Dbl.round53 (Dbl.mul (Dbl.ofInt P.numberOfStringsConstant) (Dbl.ofInt P.avRemovedCust)))
      (Dbl.round53 (Dbl.add (Dbl.ofInt 1) (ruinMaxStringCardinality P s)))))
    (Dbl.ofInt 1))

/-- Source `ruin`, the local `numberStringsToRemove`:
`int(maxStrings * (xorshift128() / twoPow32) + 1.0)`, drawn with the first word of the call. -/
def numberStringsToRemove (P : Params) (s : Solution) (g : Rng) : Int :=
  (drawCount g (ruinMaxStrings P s)).1

/-- Source `ruin`, the local `randomSeedNodeIndex`, drawn with the second word of the call. -/
def randomSeedNodeIndex (I : Instance) (g : Rng) : Int :=
  (drawCount (xorshift128 g).2 (Dbl.ofInt (I.numberNodes - 1))).1

/-- Source `ruin`, the state on entry to the loop over the neighbours of the seed node. -/
def ruinLoopStart (I : Instance) (stack : Int → Bool) (s : Solution) (g : Rng) : RuinLoop :=
  { sol := { s with numberAbsentNodes := 0 }
    g := (drawCount (xorshift128 g).2 (Dbl.ofInt (I.numberNodes - 1))).2
    ruinedTour := fun index1 => if 0 ≤ index1 ∧ index1 < s.numberTours then false else stack index1
    nodeRemoved := fun _ => false
    countRuinedTours := 0 }

/-- Source `ruin`, the state after the loop over the neighbours of the seed node. -/
def ruinLoop (P : Params) (I : Instance) (stack : Int → Bool) (s : Solution) (g : Rng) :
    RuinLoop :=
  (forRange 0 (I.numberNodes - 2)).foldl
    (ruinStep P I (ruinMaxStringCardinality P s) (numberStringsToRemove P s g)
      (randomSeedNodeIndex I g))
    (ruinLoopStart I stack s g)

/-- Source `ruin`, the indices `SISRsSol.tourPerNode[currentNodeIndex] - 1` at which the
condition `(!ruinedTour[SISRsSol.tourPerNode[currentNodeIndex] - 1]) &&
(!nodeRemoved[currentNodeIndex])` of the loop reads the local array `ruinedTour`, in the order
of the reads: one for each execution of the loop body. -/
def ruinedTourReads (P : Params) (I : Instance) (stack : Int → Bool) (s : Solution) (g : Rng) :
    List Int :=
  ((forRange 0 (I.numberNodes - 2)).foldl
    (fun (acc : RuinLoop × List Int) neighborIndex =>
      if acc.1.countRuinedTours < numberStringsToRemove P s g then
        let currentNodeIndex := I.nodeDistList (randomSeedNodeIndex I g) neighborIndex - 1
        (ruinStep P I (ruinMaxStringCardinality P s) (numberStringsToRemove P s g)
            (randomSeedNodeIndex I g) acc.1 neighborIndex,
          acc.2 ++ [acc.1.sol.tourPerNode currentNodeIndex - 1])
      else acc)
    (ruinLoopStart I stack s g, [])).2

/-- Source `recreate`, the written part of the local array `copyRemovedNode`: the removed nodes
collected in the order that the first draw `randProb` of the call selects. -/
def copyRemovedNode (I : Instance) (O : Orders) (s : Solution) (g : Rng) : List Int :=
  sortRemoved I O s (unitDraw g).1

/-- Source `localSearchMH`, the right-hand side `currentSol.totalDist -
currentTemp*log(randUniform)` of the acceptance test, for a draw other than `0`: the conversion
of the `int`, a `double` product and a `double` difference.  The argument `lg` is the function
`log` of the C library, whose code is not part of the program. -/
def acceptanceThreshold (lg : Dbl → Dbl) (currentTemp randUniform : Dbl) (currentDist : Int) :
    Dbl :=
  Dbl.round53 (Dbl.sub (Dbl.ofInt currentDist)
    (Dbl.round53 (Dbl.mul currentTemp (lg randUniform))))

/-- Source `localSearchMH`, the acceptance test `SISRsSol.totalDist < currentSol.totalDist -
currentTemp*log(randUniform)`.  For the draw `0` the library returns `log(0) = -inf`: with a
positive temperature the product is `-inf` and the threshold `+inf`, so the test holds; with
the temperature `0` the product `0 * -inf` is not a number and the comparison is false; with a
negative temperature the threshold is `-inf` and the comparison is false. -/
def acceptanceTest (lg : Dbl → Dbl) (currentTemp randUniform : Dbl)
    (SISRsDist currentDist : Int) : Bool :=
  if randUniform.num = 0 then decide (0 < currentTemp.num)
  else Dbl.lt (Dbl.ofInt SISRsDist) (acceptanceThreshold lg currentTemp randUniform currentDist)

/-- Source `localSearchMH`, the value of `currentTemp` at the test of the iteration `index1`:
`startTemp`, multiplied by `tempConst` at the end of each earlier iteration
(`currentTemp *= tempConst`, a rounded `double` product). -/
def currentTempAt (startTemp tempConst : Dbl) (index1 : Int) : Dbl :=
  (forRange 0 index1).foldl
    (fun (currentTemp : Dbl) _ => Dbl.round53 (Dbl.mul currentTemp tempConst)) startTemp

/-- Source `localSearchMH`, the acceptance test of the iteration `index1` as the argument
`accept` of `lsStep`: `randUniform` is the drawn word divided by `twoPow32`.  The value
`tempConst` is the one that `main` computes with the library's `pow`. -/
def sourceAccept (lg : Dbl → Dbl) (startTemp tempConst : Dbl) : Int → Nat → Int → Int → Bool :=
  fun index1 u c cur =>
    acceptanceTest lg (currentTempAt startTemp tempConst index1) ⟨(u : Int), twoPow32⟩ c cur

/-- Source `ruin`, the local `lengthStringToRemove` for a tour with `size` nodes:
`(int)(localStringCardinality*(xorshift128() / twoPow32) + 1.0)` with `localStringCardinality =
MIN(SISRsSol.numberNodesInTour[...], maxStringCardinality)`. -/
def lengthStringToRemove (maxStringCardinality : Dbl) (size : Int) (g : Rng) : Int :=
  (drawCount g (Dbl.min (Dbl.ofInt size) maxStringCardinality)).1

/-- Source `ruin`, the tours that the loop touches, in order: for each execution of the loop
body that passes the test on `ruinedTour` and `nodeRemoved`, the tour index
`tourPerNode[currentNodeIndex] - 1`, the size `numberNodesInTour` of that tour at that moment
and the sampled `lengthStringToRemove`. -/
def ruinStringLengths (P : Params) (I : Instance) (stack : Int → Bool) (s : Solution) (g : Rng) :
    List (Int × Int × Int) :=
  ((forRange 0 (I.numberNodes - 2)).foldl
    (fun (acc : RuinLoop × List (Int × Int × Int)) neighborIndex =>
      if acc.1.countRuinedTours < numberStringsToRemove P s g then
        let currentNodeIndex := I.nodeDistList (randomSeedNodeIndex I g) neighborIndex - 1
        let tourIndex := acc.1.sol.tourPerNode currentNodeIndex - 1
        if !acc.1.ruinedTour tourIndex && !acc.1.nodeRemoved currentNodeIndex then
          (ruinStep P I (ruinMaxStringCardinality P s) (numberStringsToRemove P s g)
              (randomSeedNodeIndex I g) acc.1 neighborIndex,
            acc.2 ++ [(tourIndex, acc.1.sol.numberNodesInTour tourIndex,
              lengthStringToRemove (ruinMaxStringCardinality P s)
                (acc.1.sol.numberNodesInTour tourIndex) acc.1.g)])
        else acc
      else acc)
    (ruinLoopStart I stack s g, [])).2

/-- Source `partitionIncrInt` and `partitionDecrInt`, the indices at which the loop
`while (valList[start] lt pivot) start++;` reads `valList`, in the order of the reads. -/
def scanUpReads (lt : Int → Int → Bool) : Nat → List Int → Int → Int → List Int
  | 0, _, _, _ => []
  | fuel + 1, valList, pivot, start =>
    start :: (match rd valList start with
      | some x => if lt x pivot then scanUpReads lt fuel valList pivot (start + 1) else []
      | none => [])

/-- Source `partitionIncrInt` and `partitionDecrInt`, the indices at which the loop
`while (pivot lt valList[end]) end--;` reads `valList`, in the order of the reads. -/
def scanDownReads (lt : Int → Int → Bool) : Nat → List Int → Int → Int → List Int
  | 0, _, _, _ => []
  | fuel + 1, valList, pivot, end_ =>
    end_ :: (match rd valList end_ with
      | some x => if lt pivot x then scanDownReads lt fuel valList pivot (end_ - 1) else []
      | none => [])

/-- Source `partitionIncrInt` and `partitionDecrInt`, the indices at which the outer loop
`while (start<end) { ... }` reads or writes `valList` and `countList`, in order: the reads of
the two inner loops, the two reads of the test `valList[start] == valList[end]`, and the
accesses of the exchange (`valList` and `countList` at `start` and at `end`). -/
def partitionLoopAccesses (lt : Int → Int → Bool) :
    Nat → Int → Int → Int → List Int → List Int → List Int
  | 0, _, _, _, _, _ => []
  | fuel + 1, pivot, start, end_, valList, countList =>
    if start < end_ then
      scanUpReads lt fuel valList pivot start ++
      match scanUp lt fuel valList pivot start with
      | none => []
      | some start1 =>
        scanDownReads lt fuel valList pivot end_ ++
        match scanDown lt fuel valList pivot end_ with
        | none => []
        | some end1 =>
          [start1, end1] ++
          match rd valList start1, rd valList end1 with
          | some a, some b =>
            if a = b then
              partitionLoopAccesses lt fuel pivot (start1 + 1) end1 valList countList
            else if start1 < end1 then
              [start1, end1, start1, end1] ++
              match swapAt valList start1 end1, swapAt countList start1 end1 with
              | some valList1, some countList1 =>
                partitionLoopAccesses lt fuel pivot start1 end1 valList1 countList1
              | _, _ => []
            else
              partitionLoopAccesses lt fuel pivot start1 end1 valList countList
          | _, _ => []
    else []

/-- Source `partitionIncrInt` and `partitionDecrInt` (two-array versions), the indices at which
a call reads or writes its arrays: the read `valList[end]` of the pivot, then the accesses of
the loop. -/
def partitionIntAccesses (lt : Int → Int → Bool) (fuel : Nat) (start end_ : Int)
    (valList countList : List Int) : List Int :=
  end_ :: (match rd valList end_ with
    | some pivot => partitionLoopAccesses lt fuel pivot start end_ valList countList
    | none => [])

/-- Source `partitionIncrInt(start, end, valList, countList)`, the indices at which the call
reads or writes `valList` and `countList`. -/
def partitionIncrIntAccesses (fuel : Nat) (start end_ : Int) (valList countList : List Int) :
    List Int :=
  partitionIntAccesses (fun a b => decide (a < b)) fuel start end_ valList countList

/-- Source `ruin`, the executions of the body of
`if ((!ruinedTour[SISRsSol.tourPerNode[currentNodeIndex] - 1]) && (!nodeRemoved[currentNodeIndex]))`
in the loop over the neighbours of the seed node, in order: for each execution the value of
`neighborIndex` and the state of the loop before it. -/
def ruinRemovals (P : Params) (I : Instance) (stack : Int → Bool) (s : Solution) (g : Rng) :
    List (Int × RuinLoop) :=
  ((forRange 0 (I.numberNodes - 2)).foldl
    (fun (acc : RuinLoop × List (Int × RuinLoop)) neighborIndex =>
      if acc.1.countRuinedTours < numberStringsToRemove P s g then
        let currentNodeIndex := I.nodeDistList (randomSeedNodeIndex I g) neighborIndex - 1
        let tourIndex := acc.1.sol.tourPerNode currentNodeIndex - 1
        if !acc.1.ruinedTour tourIndex && !acc.1.nodeRemoved currentNodeIndex then
          (ruinStep P I (ruinMaxStringCardinality P s) (numberStringsToRemove P s g)
              (randomSeedNodeIndex I g) acc.1 neighborIndex,
            acc.2 ++ [(neighborIndex, acc.1)])
        else acc
      else acc)
    (ruinLoopStart I stack s g, [])).2

/-! ## Specification vocabulary -/

/-- Total read used in statements: `a[i]`, and `0` outside the array. -/
def getI (a : List Int) (i : Int) : Int := a.getD i.toNat 0

/-- The array `a` with the entries at `i` and `j` exchanged. -/
def swp (a : List Int) (i j : Int) : List Int :=
  (a.set i.toNat (getI a j)).set j.toNat (getI a i)

/-- The pairs `(valList[i], countList[i])` for `i` in `start..end`, in array order. -/
def segPairs (s e : Int) (v c : List Int) : List (Int × Int) :=
  ((v.zip c).drop s.toNat).take (e - s + 1).toNat

/-- `Rearranged s e v c v' c'`: the arrays `(v', c')` are `(v, c)` with the pairs at the
indices `s..e` permuted among themselves and every other entry untouched. -/
structure Rearranged (s e : Int) (v c v' c' : List Int) : Prop where
  lenV : v'.length = v.length
  lenC : c'.length = c.length
  perm : (v'.zip c').Perm (v.zip c)
  outside : ∀ i : Nat, ((i : Int) < s ∨ e < (i : Int)) → v'[i]? = v[i]? ∧ c'[i]? = (c)[i]?

/-- The comparison `lt` of a sort direction is the strict order of the keys `key x`:
`key x = x` for the increasing sorts and `key x = -x` for the decreasing ones. -/
structure Dir (key : Int → Int) (lt : Int → Int → Bool) : Prop where
  lt_iff : ∀ a b, lt a b = true ↔ key a < key b
  inj : ∀ a b, key a = key b → a = b

/-- Progress measure of the outer partition loop. -/
def measureP (key : Int → Int) (pivot s e : Int) (v : List Int) : Nat :=
  2 * (e - s).toNat +
    (if key pivot ≤ key (getI v s) ∧ key (getI v e) ≤ key pivot then 1 else 0)

/-- Invariant of the outer partition loop, for the call on the segment `s0..e0`. -/
structure PInv (key : Int → Int) (pivot s0 e0 s e : Int) (v cl : List Int) : Prop where
  hs0 : 0 ≤ s0
  hss : s0 ≤ s
  hee : e ≤ e0
  hse : s0 ≤ e
  hv : e0 < v.length
  hc : e0 < cl.length
  left : ∀ i, s0 ≤ i → i < s → key (getI v i) ≤ key pivot
  right : ∀ i, e < i → i ≤ e0 → key pivot ≤ key (getI v i)
  piv : (s ≤ e ∧ (getI v s = pivot ∨ getI v e = pivot)) ∨ (s = e + 1 ∧ getI v e = pivot)

/-- What a partition call establishes on the segment `s0..e0`. -/
structure PPost (key : Int → Int) (pivot s0 e0 p : Int) (v : List Int) : Prop where
  lo : s0 ≤ p
  hi : p ≤ e0
  atp : getI v p = pivot
  left : ∀ i, s0 ≤ i → i < p → key (getI v i) ≤ key pivot
  right : ∀ i, p < i → i ≤ e0 → key pivot ≤ key (getI v i)

/-- The keys of `v` are non-decreasing along the segment `s..e`. -/
def SortedSeg (key : Int → Int) (s e : Int) (v : List Int) : Prop :=
  ∀ i j, s ≤ i → i ≤ j → j ≤ e → key (getI v i) ≤ key (getI v j)

/-- What `readInput` stores in `nodeDistList[index1]`, as a list `row`. -/
structure RowSpec (numberNodes : Int) (distance : Int → Int → Int) (index1 : Int)
    (row : List Int) : Prop where
  len : row.length = (numberNodes - 2).toNat
  perm : row.Perm (((forRange 1 numberNodes).filter (· ≠ index1)).map (· + 1))
  sorted : ∀ a b, 0 ≤ a → a ≤ b → b < numberNodes - 2 →
    distance index1 (getI row a - 1) ≤ distance index1 (getI row b - 1)

/-- The word returned by the call number `k` (from `0`) of `xorshift128` after the state `g`. -/
def nthDraw (g : Rng) : Nat → Nat
  | 0 => (xorshift128 g).1
  | k + 1 => nthDraw (xorshift128 g).2 k

/-- An outcome of the four draws of `main`: all four values are `1/4`. -/
def entropyQuarter : Entropy := ⟨⟨1, 4⟩, ⟨1, 4⟩, ⟨1, 4⟩, ⟨1, 4⟩⟩

/-- Another outcome of the four draws: all four values are `1/2`. -/
def entropyHalf : Entropy := ⟨⟨1, 2⟩, ⟨1, 2⟩, ⟨1, 2⟩, ⟨1, 2⟩⟩

/-- The tour number `t` (from `0`) of a solution: its first `numberNodesInTour[t]` entries. -/
def tourList (s : Solution) (t : Int) : List Int :=
  (forRange 0 (s.numberNodesInTour t)).map (s.tours t)

/-- The tours `0..numberTours-1` of a solution. -/
def tourRows (s : Solution) : List (List Int) :=
  (forRange 0 s.numberTours).map (tourList s)

/-- All the node ids held by the tours of a solution, tour after tour. -/
def tourNodes (s : Solution) : List Int := (tourRows s).flatten

/-- The first `numberAbsentNodes` entries of `absentNodes`. -/
def absentList (s : Solution) : List Int :=
  (forRange 0 s.numberAbsentNodes).map s.absentNodes

/-- The 1-based ids `2..numberNodes` of the customers (node indices `1..numberNodes-1`). -/
def customers (I : Instance) : List Int :=
  (forRange 1 I.numberNodes).map (· + 1)

/-- The sum of the demands of the nodes with the ids in `l`. -/
def demandOf (I : Instance) (l : List Int) : Int :=
  (l.map fun id => I.nodeDemand (id - 1)).sum

/-- The effect of the removal loops of `ruinString` and `ruinSplitString` (step 2) on a list
`ps` of distinct positions. -/
structure Removed (st0 st : RuinState) (ps : List Int) : Prop where
  copyNodes : ∀ q, st.copyNodes q = if q ∈ ps then -1 else st0.copyNodes q
  absent : absentList st.sol = absentList st0.sol ++ ps.map st0.copyNodes
  numAbsent : st.sol.numberAbsentNodes = st0.sol.numberAbsentNodes + ps.length
  tourPerNode : ∀ x, st.sol.tourPerNode x
    = if x + 1 ∈ ps.map st0.copyNodes then -1 else st0.sol.tourPerNode x
  nodeRemoved : ∀ x, st.nodeRemoved x
    = if x + 1 ∈ ps.map st0.copyNodes then true else st0.nodeRemoved x
  tours : st.sol.tours = st0.sol.tours
  numberNodesInTour : st.sol.numberNodesInTour = st0.sol.numberNodesInTour
  numberTours : st.sol.numberTours = st0.sol.numberTours
  g : st.g = st0.g

/-- The nodes that step 3 of a removal keeps: the entries of `copyNodes` at the positions
`0..n-1` that are not `-1`. -/
def keptNodes (copyNodes : Int → Int) (n : Int) : List Int :=
  ((forRange 0 n).map copyNodes).filter (· ≠ -1)

/-- The positions `0..n-1` of a tour outside the removed positions `ps`. -/
def keptPositions (n : Int) (ps : List Int) : List Int :=
  (forRange 0 n).filter (fun q => decide (q ∉ ps))

/-- The effect of one string removal (`ruinString` or `ruinSplitString`) on the tour `t`:
the tour keeps the nodes `kept`, the nodes `removed` go to the absent list. -/
structure StringRemoved (s s' : Solution) (nr nr' : Int → Bool) (t : Int)
    (kept removed : List Int) : Prop where
  row : tourList s' t = kept
  others : ∀ t', t' ≠ t → tourList s' t' = tourList s t'
  numberTours : s'.numberTours = s.numberTours
  absent : absentList s' = absentList s ++ removed
  numAbsent : s'.numberAbsentNodes = s.numberAbsentNodes + removed.length
  tourPerNode : ∀ x, s'.tourPerNode x = if x + 1 ∈ removed then -1 else s.tourPerNode x
  nodeRemoved : ∀ x, nr' x = if x + 1 ∈ removed then true else nr x
  count : 0 ≤ s'.numberNodesInTour t
  counts : ∀ t', t' ≠ t → s'.numberNodesInTour t' = s.numberNodesInTour t'

/-- What one call of `ruinString` or `ruinSplitString` does to the tour `t`. -/
def RemovalResult (s : Solution) (nr : Int → Bool) (t l : Int)
    (r : Solution × Rng × (Int → Bool)) : Prop :=
  ∃ kept removed, StringRemoved s r.1 nr r.2.2 t kept removed ∧
    (kept ++ removed).Perm (tourList s t) ∧ (removed.length : Int) = l

/-- Invariant of the main loop of `ruin`, for a solution that entered with `NT` tours: every
customer is in exactly one tour or exactly once in the absent list, and `tourPerNode` and
`nodeRemoved` tell which. -/
structure RuinInv (I : Instance) (NT : Int) (st : RuinLoop) : Prop where
  nt : st.sol.numberTours = NT
  na : 0 ≤ st.sol.numberAbsentNodes
  perm : (tourNodes st.sol ++ absentList st.sol).Perm (customers I)
  inTour : ∀ t, 0 ≤ t → t < NT → ∀ x ∈ tourList st.sol t,
    st.sol.tourPerNode (x - 1) = t + 1 ∧ st.nodeRemoved (x - 1) = false
  inAbsent : ∀ x ∈ absentList st.sol,
    st.sol.tourPerNode (x - 1) = -1 ∧ st.nodeRemoved (x - 1) = true
  counts : ∀ t, 0 ≤ t → t < NT → 0 ≤ st.sol.numberNodesInTour t

/-- Invariant of the loop of `ruin` that removes the empty tours, when the tours `i..NT-1` of
the solution `s0` have been examined. -/
structure CompactInv (s0 : Solution) (i : Int) (acc : Solution × Int) : Prop where
  low : ∀ t, t < i →
    acc.1.numberNodesInTour t = s0.numberNodesInTour t ∧ acc.1.tours t = s0.tours t
  high : (forRange i acc.1.numberTours).map (tourList acc.1)
    = ((forRange i s0.numberTours).map (tourList s0)).filter (· ≠ [])
  le : i ≤ acc.1.numberTours
  empties : acc.2 = (((forRange 0 i).filter (fun t => s0.numberNodesInTour t = 0)).length : Int)
  absentNodes : acc.1.absentNodes = s0.absentNodes
  numberAbsentNodes : acc.1.numberAbsentNodes = s0.numberAbsentNodes
  tourPerNode : acc.1.tourPerNode = s0.tourPerNode

/-- A complete solution, as `ruin` receives it: every customer is in exactly one tour (the
tours hold every customer id exactly once and nothing else), no tour is empty, and
`tourPerNode` is the 1-based index of each customer's tour. -/
structure Tidy (I : Instance) (s : Solution) : Prop where
  nt : 0 ≤ s.numberTours
  nonempty : ∀ t, 0 ≤ t → t < s.numberTours → 0 < s.numberNodesInTour t
  perm : (tourNodes s).Perm (customers I)
  tourPerNode : ∀ t, 0 ≤ t → t < s.numberTours → ∀ x ∈ tourList s t,
    s.tourPerNode (x - 1) = t + 1

/-- A ruined solution, as `ruin` leaves it: every customer is in exactly one tour or exactly
once in the absent list, no tour is empty, `tourPerNode` is the 1-based tour index of the
customers in tours and `-1` for the absent ones, and the cached usage of every tour is the
demand of its members. -/
structure Ruined (I : Instance) (s : Solution) : Prop where
  nt : 0 ≤ s.numberTours
  na : 0 ≤ s.numberAbsentNodes
  nonempty : ∀ t, 0 ≤ t → t < s.numberTours → 0 < s.numberNodesInTour t
  perm : (tourNodes s ++ absentList s).Perm (customers I)
  inTour : ∀ t, 0 ≤ t → t < s.numberTours → ∀ x ∈ tourList s t,
    s.tourPerNode (x - 1) = t + 1
  inAbsent : ∀ x ∈ absentList s, s.tourPerNode (x - 1) = -1
  capacity : ∀ t, 0 ≤ t → t < s.numberTours →
    s.capacityUsageTour t = demandOf I (tourList s t)

/-- The neighbour lists hold customer ids: every entry `nodeDistList[i][k]` with `i` a customer
index and `k < numberNodes - 2` is one of the ids `2..numberNodes`. -/
def NeighboursOK (I : Instance) : Prop :=
  ∀ i k, 1 ≤ i → i < I.numberNodes → 0 ≤ k → k < I.numberNodes - 2 →
    2 ≤ I.nodeDistList i k ∧ I.nodeDistList i k ≤ I.numberNodes

/-- The insertion positions that the search of `recreate` examines for the node
`currentNodeIndex`, in the order of the search: the pairs `(currentTourIndex, index3)` for the
tours `tourIndices[0], tourIndices[1], ...` in which the node fits. -/
def candidates (I : Instance) (s : Solution) (tourIndices : Int → Int)
    (currentNodeIndex : Int) : List (Int × Int) :=
  ((forRange 0 s.numberTours).map fun index2 =>
    if s.capacityUsageTour (tourIndices index2) + I.nodeDemand currentNodeIndex
        ≤ I.vehicleCap then
      (forRange 0 (s.numberNodesInTour (tourIndices index2) + 1)).map
        fun index3 => (tourIndices index2, index3)
    else []).flatten

/-- The draw number `j` after the state `g` makes the search skip ("blink") a position: the
test `randProb < 1.0 - blinkRate` fails. -/
def blinked (P : Params) (g : Rng) (j : Nat) : Bool :=
  !Dbl.lt ⟨(nthDraw g j : Int), twoPow32⟩ (Dbl.round53 (Dbl.sub (Dbl.ofInt 1) P.blinkRate))

/-- The invariant of the reinsertion loop of `recreate`, with the list `R` of the nodes still to
be put back: every customer is in exactly one tour or is one of `R`, no tour is empty,
`tourPerNode` is right for the customers in tours, the cached usage of every tour is the demand
of its members, and `tourIndices` holds tour indices. -/
structure RecInv (I : Instance) (st : Recreate) (R : List Int) : Prop where
  nt : 0 ≤ st.sol.numberTours
  nonempty : ∀ t, 0 ≤ t → t < st.sol.numberTours → 0 < st.sol.numberNodesInTour t
  perm : (tourNodes st.sol ++ R).Perm (customers I)
  inTour : ∀ t, 0 ≤ t → t < st.sol.numberTours → ∀ x ∈ tourList st.sol t,
    st.sol.tourPerNode (x - 1) = t + 1
  capacity : ∀ t, 0 ≤ t → t < st.sol.numberTours →
    st.sol.capacityUsageTour t = demandOf I (tourList st.sol t)
  idx : ∀ k, 0 ≤ k → k < st.sol.numberTours →
    0 ≤ st.tourIndices k ∧ st.tourIndices k < st.sol.numberTours

/-- The four node orders that `startSol` prepares: the entries `1..numberNodes-1` of each array
are the customer ids, in some order. -/
structure OrdersOK (I : Instance) (O : Orders) : Prop where
  random : ((forRange 1 I.numberNodes).map (readL O.copyRemovedNodeRandom)).Perm (customers I)
  demand : ((forRange 1 I.numberNodes).map (readL O.copyRemovedNodeDemand)).Perm (customers I)
  distLarge :
    ((forRange 1 I.numberNodes).map (readL O.copyRemovedNodeDistLarge)).Perm (customers I)
  distSmall :
    ((forRange 1 I.numberNodes).map (readL O.copyRemovedNodeDistSmall)).Perm (customers I)

/-- An instance with the depot and one customer (id `2`) of demand `1`, and vehicles of
capacity `1`. -/
def oneCustomer : Instance where
  numberNodes := 2
  nodeDemand := fun i => if i = 1 then 1 else 0
  distance := fun i j => if i = j then 0 else 1
  vehicleCap := 1
  nodeDistList := fun _ _ => 0

/-- The solution of `oneCustomer` with the customer in one tour. -/
def oneTour : Solution where
  totalDist := 2
  numberTours := 1
  tours := fun _ _ => 2
  numberNodesInTour := fun t => if t = 0 then 1 else 0
  capacityUsageTour := fun t => if t = 0 then 1 else 0
  numberAbsentNodes := 0
  absentNodes := fun _ => 0
  tourPerNode := fun i => if i = 1 then 1 else 0

/-- The solution of `oneCustomer` with the customer removed: no tour, one absent node. -/
def oneAbsent : Solution where
  totalDist := 0
  numberTours := 0
  tours := fun _ _ => 0
  numberNodesInTour := fun _ => 0
  capacityUsageTour := fun _ => 0
  numberAbsentNodes := 1
  absentNodes := fun _ => 2
  tourPerNode := fun i => if i = 1 then -1 else 0

/-- The node orders of `oneCustomer`: each array is `[0, 2]`. -/
def oneOrders : Orders where
  copyRemovedNodeRandom := [0, 2]
  copyRemovedNodeDemand := [0, 2]
  copyRemovedNodeDistLarge := [0, 2]
  copyRemovedNodeDistSmall := [0, 2]
  probRandom := ⟨4, 11⟩
  probDemandLarge := ⟨8, 11⟩
  probDistLarge := ⟨10, 11⟩

/-- An instance with the depot and two customers (ids `2` and `3`) of demand `1`, and vehicles
of capacity `10`. -/
def twoCustomers : Instance where
  numberNodes := 3
  nodeDemand := fun i => if i = 0 then 0 else 1
  distance := fun i j => if i = j then 0 else 1
  vehicleCap := 10
  nodeDistList := fun i _ => if i = 1 then 3 else 2

/-- A state of the reinsertion loop on `twoCustomers`: customer `2` is alone in tour `0` (usage
`1` of `10`), customer `3` is absent, and the next two draws of the generator are
`4294959104` and `4294967295`, both at least `0.99 * 2^32`. -/
def blinkState : Recreate where
  sol :=
    { totalDist := 0
      numberTours := 1
      tours := fun _ _ => 2
      numberNodesInTour := fun t => if t = 0 then 1 else 0
      capacityUsageTour := fun t => if t = 0 then 1 else 0
      numberAbsentNodes := 1
      absentNodes := fun _ => 3
      tourPerNode := fun i => if i = 1 then 1 else -1 }
  g := ⟨4294967295, 0, 0, 0⟩
  tourIndices := fun _ => 0

/-- The tours of a solution respect the capacity: the demands of the members of each tour sum
to at most `vehicleCap`. -/
def Feasible (I : Instance) (s : Solution) : Prop :=
  ∀ t, 0 ≤ t → t < s.numberTours → demandOf I (tourList s t) ≤ I.vehicleCap

/-- Two solutions with the same tours. -/
def SameTours (a r : Solution) : Prop :=
  r.numberTours = a.numberTours ∧ ∀ t, 0 ≤ t → t < a.numberTours → tourList r t = tourList a t

/-- A valid instance: at least one customer, every customer demand between `0` and
`vehicleCap`, and neighbour lists that hold customer ids (as `readInput` builds them). -/
structure ValidInstance (I : Instance) : Prop where
  customers : 2 ≤ I.numberNodes
  demand : ∀ i, 1 ≤ i → i < I.numberNodes → 0 ≤ I.nodeDemand i ∧ I.nodeDemand i ≤ I.vehicleCap
  neighbours : NeighboursOK I

/-- A feasible solution: every customer is in exactly one tour (the tours hold the customer ids,
each once), there is no absent node, and the demands of the members of each tour sum to at
most `vehicleCap`. -/
structure FeasibleSolution (I : Instance) (s : Solution) : Prop where
  nt : 0 ≤ s.numberTours
  perm : (tourNodes s).Perm (customers I)
  noAbsent : s.numberAbsentNodes = 0
  feasible : Feasible I s

/-- The invariant of `localSearchMH`: `currentSol` is complete (with its `tourPerNode` right and
no empty tour) and feasible, and `bestSol` is feasible. -/
structure SearchInv (I : Instance) (st : Search3) : Prop where
  current : Tidy I st.currentSol
  currentFeasible : Feasible I st.currentSol
  currentAbsent : st.currentSol.numberAbsentNodes = 0
  best : FeasibleSolution I st.bestSol

/-- An instance with four customers on a line (the depot at `6`, the customers at `3`, `12`, `4`
and `2`), demands `6`, `8`, `4` and `-6`, and vehicles of capacity `10`; the distances are the
rounded Euclidean ones and the neighbour lists are those that `readInput` builds. -/
def negativeDemand : Instance where
  numberNodes := 5
  nodeDemand := readL [0, 6, 8, 4, -6]
  distance := fun a b => ((readL [6, 3, 12, 4, 2] a - readL [6, 3, 12, 4, 2] b).natAbs : Int)
  vehicleCap := 10
  nodeDistList := fun i k =>
    if i = 1 then readL [5, 4, 3] k else if i = 2 then readL [4, 2, 5] k
    else if i = 3 then readL [2, 5, 3] k else if i = 4 then readL [2, 4, 3] k else 0

/-- An instance with four customers on a line (the depot at `6`, the customers at `3`, `12`, `4`
and `2`), demands `6`, `8`, `4` and `6`, and vehicles of capacity `10`, so that only the
customers `4` and `5`, or `2` and `4`, fit in one tour; the distances are the rounded Euclidean
ones and the neighbour lists are those that `readInput` builds. -/
def tightDemand : Instance where
  numberNodes := 5
  nodeDemand := readL [0, 6, 8, 4, 6]
  distance := fun a b => ((readL [6, 3, 12, 4, 2] a - readL [6, 3, 12, 4, 2] b).natAbs : Int)
  vehicleCap := 10
  nodeDistList := fun i k =>
    if i = 1 then readL [5, 4, 3] k else if i = 2 then readL [4, 2, 5] k
    else if i = 3 then readL [2, 5, 3] k else if i = 4 then readL [2, 4, 3] k else 0

/-- The generator state with which `startSol` is entered in the run on `negativeDemand`. -/
def negativeDemandState : Rng := ⟨507740416, 372412217, 804452734, 107588319⟩

/-- The default parameters with `-lengthRemovedStrings -3`. -/
def negativeLength : Params := { defaultParams with lengthRemovedStrings := -3 }

/-- A solution of `twoCustomers` with the customers `2` and `3` alone in the tours `0` and `1`;
the entry `tours[1][1]`, beyond the end of tour `1`, still holds the id `2` (left there by an
earlier, longer tour). -/
def staleTour : Solution where
  totalDist := 4
  numberTours := 2
  tours := fun t p =>
    if t = 0 then (if p = 0 then 2 else 0) else if p = 0 then 3 else if p = 1 then 2 else 0
  numberNodesInTour := fun _ => 1
  capacityUsageTour := fun _ => 1
  numberAbsentNodes := 0
  absentNodes := fun _ => 0
  tourPerNode := fun i => if i = 1 then 1 else if i = 2 then 2 else -1

/-- The xorshift128 transform in the words of its contract: from the state `(x, y, z, w)`,
`t = x xor ((x << 11) mod 2^32)` and `w' = w xor (w >> 19) xor t xor (t >> 8)`; the result is
the returned word `w'` and the new state `(y, z, w, w')`. -/
def xorshiftWord (x w : Nat) : Nat :=
  let t := x ^^^ ((x <<< 11) % 2 ^ 32)
  w ^^^ (w >>> 19) ^^^ t ^^^ (t >>> 8)

/-- The parameters `avRemovedCust = 1` and `numberOfStringsConstant = 1`, the others at their
defaults. -/
def fewStrings : Params :=
  { defaultParams with avRemovedCust := 1, numberOfStringsConstant := 1 }

/-- The parameters `avRemovedCust = 100000` and `numberOfStringsConstant = 100000`, the others at
their defaults. -/
def manyStrings : Params :=
  { defaultParams with avRemovedCust := 100000, numberOfStringsConstant := 100000 }

/-- The start solution of `twoCustomers`: each customer in a tour of its own. -/
def twoTours : Solution where
  totalDist := 4
  numberTours := 2
  tours := fun t _ => t + 2
  numberNodesInTour := fun _ => 1
  capacityUsageTour := fun _ => 1
  numberAbsentNodes := 0
  absentNodes := fun _ => 0
  tourPerNode := fun i => i

/-- The distance from the first member of a tour along its consecutive members and back to the
depot: the consecutive member pairs and the last-to-depot leg. -/
def legsToDepot (I : Instance) : List Int → Int
  | [] => 0
  | [x] => I.distance (x - 1) 0
  | x :: y :: r => I.distance (x - 1) (y - 1) + legsToDepot I (y :: r)

/-- The length of one tour, recomputed from its members: the depot-to-first leg, the
consecutive member pairs and the last-to-depot leg. -/
def tourLength (I : Instance) (l : List Int) : Int :=
  match l with
  | [] => 0
  | x :: _ => I.distance 0 (x - 1) + legsToDepot I l

/-- The distance of a solution recomputed from its tour contents: the sum of the lengths of
its tours. -/
def routeLength (I : Instance) (s : Solution) : Int :=
  ((tourRows s).map (tourLength I)).sum

/-- The cached `totalDist` of the current and of the best solution equal the recomputed
distance. -/
def DistancesCached (I : Instance) (st : Search3) : Prop :=
  st.currentSol.totalDist = routeLength I st.currentSol ∧
  st.bestSol.totalDist = routeLength I st.bestSol

/-- An instance with four customers on a line (the depot at `6`, the customers at `3`, `12`, `4`
and `2`), demands `3`, `4`, `2` and `1`, and vehicles of capacity `10`; the distances are the
rounded Euclidean ones and the neighbour lists are those that `readInput` builds. -/
def fourCustomers : Instance where
  numberNodes := 5
  nodeDemand := readL [0, 3, 4, 2, 1]
  distance := fun a b => ((readL [6, 3, 12, 4, 2] a - readL [6, 3, 12, 4, 2] b).natAbs : Int)
  vehicleCap := 10
  nodeDistList := fun i k =>
    if i = 1 then readL [5, 4, 3] k else if i = 2 then readL [4, 2, 5] k
    else if i = 3 then readL [2, 5, 3] k else if i = 4 then readL [2, 4, 3] k else 0

/-- The solution of `fourCustomers` with the tours `[3, 4, 5]` and `[2]`. -/
def threeAndOne : Solution where
  totalDist := 26
  numberTours := 2
  tours := fun t p => if t = 0 then readL [3, 4, 5] p else 2
  numberNodesInTour := fun t => if t = 0 then 3 else if t = 1 then 1 else 0
  capacityUsageTour := fun t => if t = 0 then 7 else if t = 1 then 3 else 0
  numberAbsentNodes := 0
  absentNodes := fun _ => 0
  tourPerNode := fun i => if i = 1 then 2 else if 2 ≤ i ∧ i ≤ 4 then 1 else -1

/-- An instance with three customers at the corners of a rectangle: the depot at `(0, 0)` and
the customers `2`, `3` and `4` at `(0, 3)`, `(4, 0)` and `(4, 3)`, so that the distances are
`3`, `4` and `5`; demands `1`, vehicles of capacity `10`, and the neighbour lists that
`readInput` builds. -/
def rectangle : Instance where
  numberNodes := 4
  nodeDemand := readL [0, 1, 1, 1]
  distance := fun a b => readL [0, 3, 4, 5, 3, 0, 5, 4, 4, 5, 0, 3, 5, 4, 3, 0] (4 * a + b)
  vehicleCap := 10
  nodeDistList := fun i k =>
    if i = 1 then readL [4, 3] k else if i = 2 then readL [4, 2] k
    else if i = 3 then readL [3, 2] k else 0

/-- A state of the reinsertion loop on `rectangle`: the customers `2` and `3` are in tour `0`
(in this order), customer `4` is absent, and the next three draws of the generator are
`3701687786`, `4252246772` and `1932878204`, of which only the second is at least
`0.99 * 2^32`. -/
def midState : Recreate where
  sol :=
    { totalDist := 12
      numberTours := 1
      tours := fun _ p => readL [2, 3] p
      numberNodesInTour := fun t => if t = 0 then 2 else 0
      capacityUsageTour := fun t => if t = 0 then 2 else 0
      numberAbsentNodes := 1
      absentNodes := fun _ => 4
      tourPerNode := fun i => if i = 1 ∨ i = 2 then 1 else -1 }
  g := ⟨88675123, 123456789, 363235840, 521288629⟩
  tourIndices := fun _ => 0

/-- The members of a tour at the positions `a .. b - 1`, in order. -/
def segment (row : List Int) (a b : Int) : List Int :=
  (row.drop a.toNat).take (b - a).toNat

/-- The entries `tourIndices[0 .. numberTours - 1]` are indices of tours and every tour is
among them: it is how `recreate` visits all the tours, in the order of its sort. -/
def CoversTours (st : Recreate) : Prop :=
  (∀ k, 0 ≤ k → k < st.sol.numberTours →
    0 ≤ st.tourIndices k ∧ st.tourIndices k < st.sol.numberTours) ∧
  ∀ t, 0 ≤ t → t < st.sol.numberTours →
    ∃ k, 0 ≤ k ∧ k < st.sol.numberTours ∧ st.tourIndices k = t

/-- The default parameters with `-blinkRate 0`. -/
def noBlink : Params := { defaultParams with blinkRate := ⟨0, 1⟩ }

/-- The value of a `double` of the model: the quotient of its numerator by its denominator. -/
def Dbl.toRat (a : Dbl) : ℚ := (a.num : ℚ) / (a.den : ℚ)

/-- A value with a significand of at most `p` binary digits: `m * 2 ^ k` with `|m| < 2 ^ p`. -/
def Representable (p : Nat) (f : ℚ) : Prop :=
  ∃ m k : Int, |m| < 2 ^ p ∧ f = (m : ℚ) * (2 : ℚ) ^ k

/-- The priority ordering that the draw `randProb` of `recreate` selects: one of the four
arrays prepared by `startSol`. -/
def selectedOrder (O : Orders) (randProb : Dbl) : List Int :=
  if Dbl.lt randProb O.probRandom then O.copyRemovedNodeRandom
  else if Dbl.lt randProb O.probDemandLarge then O.copyRemovedNodeDemand
  else if Dbl.lt randProb O.probDistLarge then O.copyRemovedNodeDistLarge
  else O.copyRemovedNodeDistSmall

/-- The node orders that `startSol` prepares for `fourCustomers` from the generator state
`(x, y, z, w) = (123456789, 362436069, 521288629, 88675123)`, with the default weights. -/
def fourOrders : Orders where
  copyRemovedNodeRandom := [0, 3, 4, 5, 2]
  copyRemovedNodeDemand := [0, 3, 2, 4, 5]
  copyRemovedNodeDistLarge := [0, 3, 5, 2, 4]
  copyRemovedNodeDistSmall := [0, 4, 2, 5, 3]
  probRandom := startSolProbRandom defaultParams
  probDemandLarge := startSolProbDemandLarge defaultParams
  probDistLarge := startSolProbDistLarge defaultParams

/-- A stand-in for the library's `log` on the draws in `(0, 1)`: the rounded `x - 1`, which
bounds `log x` from above and has its sign. -/
def logBound (x : Dbl) : Dbl := Dbl.round53 (Dbl.sub x (Dbl.ofInt 1))

/-- A value of `tempConst`: the `double` `9006853597328021 / 2^53`, near
`(1/100)^(1/120000)`, the value for the default temperatures and four customers. -/
def fourTempConst : Dbl := ⟨9006853597328021, 2 ^ 53⟩

/-- The solution of `fourCustomers` with the tours `[3, 4]`, `[5]` and `[2]`. -/
def twoOneOne : Solution where
  totalDist := 30
  numberTours := 3
  tours := fun t p => if t = 0 then readL [3, 4] p else if t = 1 then 5 else 2
  numberNodesInTour := fun t => if t = 0 then 2 else if t = 1 ∨ t = 2 then 1 else 0
  capacityUsageTour := fun t => if t = 0 then 6 else if t = 1 then 1 else if t = 2 then 3 else 0
  numberAbsentNodes := 0
  absentNodes := fun _ => 0
  tourPerNode := fun i =>
    if i = 1 then 3 else if i = 2 ∨ i = 3 then 1 else if i = 4 then 2 else -1

/-- A state of the generator: four words of 32 bits. -/
def Rng.Words32 (g : Rng) : Prop :=
  g.w < 2 ^ 32 ∧ g.x < 2 ^ 32 ∧ g.y < 2 ^ 32 ∧ g.z < 2 ^ 32

/-- The state of the generator after `k` calls of `xorshift128`. -/
def stateAfter (g : Rng) : Nat → Rng
  | 0 => g
  | k + 1 => stateAfter (xorshift128 g).2 k

/-- The id of the neighbour at which an execution of the removal starts:
`nodeDistList[randomSeedNodeIndex][neighborIndex]`. -/
def removalNode (I : Instance) (g : Rng) (e : Int × RuinLoop) : Int :=
  I.nodeDistList (randomSeedNodeIndex I g) e.1

/-- The tour from which an execution of the removal takes its string:
`SISRsSol.tourPerNode[currentNodeIndex] - 1`. -/
def removalTour (I : Instance) (g : Rng) (e : Int × RuinLoop) : Int :=
  e.2.sol.tourPerNode (removalNode I g e - 1) - 1

end VRP

namespace SATVerifier

/-! ## The SAT verifier (`Sparkle-SAT-verifier/SAT.cc`)

The program reads two text files with `getline` and `operator>>`.  A line is modelled by what
these calls extract from it: for a line of the solver output the second token (the first is
the time stamp) and what follows it, for a line of the instance the integers that successive
`lss >> v` extract before the first extraction that fails (at the end of the line or at a token
that is no `int`).  The values are `int`s; `iabs` of the least `int` is outside the model.  The
map `variables` of the source is called `vars` here. -/

/-- Source `iabs`. -/
def iabs (a : Int) : Int := if a < 0 then -a else a

/-- The ways in which `main` ends: the last message it prints and the call of `exit_verifier`
that prints the result code. -/
inductive Outcome
  /-- The message "Solver reported unknown." and `exit_verifier(0, 0)`. -/
  | unknown
  /-- The message "Solver reported unsatisfiable. I guess it must be right!" and
  `exit_verifier(10, 0)`. -/
  | unsatisfiable
  /-- The messages "Clause ... not satisfied", "Wrong solution." and `exit_verifier(0, 0)`. -/
  | wrongSolution
  /-- The message "Solution verified." and `exit_verifier(11, 0)`. -/
  | verified
  /-- The message "Didn't really find anything interesting in the output" and
  `exit_verifier(0, 0)`. -/
  | nothing
  deriving DecidableEq

/-- The result code that `exit_verifier` prints. -/
def Outcome.resultCode : Outcome → Int
  | .unknown => 0
  | .unsatisfiable => 10
  | .wrongSolution => 0
  | .verified => 11
  | .nothing => 0

/-- A line of the solver output, after `lss >> timestamp >> prefix`. -/
inductive OutputLine
  /-- The prefix is `"s"`; `answer` is the next token. -/
  | s (answer : String)
  /-- The prefix is `"v"`; `values` are the integers that `lss >> v` extracts after it. -/
  | v (values : List Int)
  /-- Any other prefix. -/
  | other

/-- A line of the instance. -/
inductive InstanceLine
  /-- The line starts with `c` or `p` (`line.substr(0, 1) == "c" || line.substr(0, 1) == "p"`);
  no integer can be extracted from it. -/
  | comment
  /-- Any other line, with the integers that `lss >> v` extracts from it. -/
  | data (values : List Int)

/-- The integers that `lss >> v` extracts from a line. -/
def InstanceLine.values : InstanceLine → List Int
  | .comment => []
  | .data values => values

/-- The variables of the first loop of `main`: the map `variables` of the source (`none`
where `find` returns `end()`) and the flag `SAT_answer`. -/
structure Scan where
  vars : Int → Option Int
  SAT_answer : Bool

/-- Source `main`, the loop `while (lss >> v && v != 0) variables[iabs(v)] = v;` on the values
of a `v` line. -/
def readSolution (vars : Int → Option Int) : List Int → Int → Option Int
  | [] => vars
  | v :: rest =>
    if v ≠ 0 then
      readSolution (fun k => if k = iabs v then some v else vars k) rest
    else vars

/-- Source `main`, the loop `while (getline(solver_output, line))`: the variables after the
last line, or the outcome when a line makes the program exit. -/
def readOutput : List OutputLine → Scan → Except Outcome Scan
  | [], sc => .ok sc
  | .s answer :: rest, sc =>
    if answer = "UNKNOWN" then .error .unknown
    else if answer = "SATISFIABLE" then readOutput rest { sc with SAT_answer := true }
    else if answer = "UNSATISFIABLE" then .error .unsatisfiable
    else readOutput rest sc
  | .v values :: rest, sc =>
    readOutput rest { sc with vars := readSolution sc.vars values }
  | .other :: rest, sc => readOutput rest sc

/-- Source `main`, the loop `while (1==1)` on the values still unread on the current line,
from the current `sat_clause` and `num_vars`: the two variables when the values are used up or
the terminating `0` is met, and whether it was the `0` (`if(v == 0) break;`) that ended the
loop.  When the values are used up, `lss >> v` fails and the loop goes on with the next line
(see `checkClauses`). -/
def readLine (vars : Int → Option Int) : List Int → Bool → Int → Bool × Int × Bool
  | [], sat_clause, num_vars => (sat_clause, num_vars, false)
  | v :: rest, sat_clause, num_vars =>
    if v = 0 then (sat_clause, num_vars, true)
    else
      match vars (iabs v) with
      | none => readLine vars rest false (num_vars + 1)
      | some x =>
        if x = v then readLine vars rest true (num_vars + 1)
        else readLine vars rest sat_clause (num_vars + 1)

/-- Source `main`, the test `if (!sat_clause && num_vars > 0)` after the loop of a clause. -/
def clauseFails (sat_clause : Bool) (num_vars : Int) : Bool :=
  !sat_clause && decide (num_vars > 0)

/-- Source `main`, the loop `while (getline(instance, line))` with the loop `while (1==1)`
inside it, on the lines not yet read.  The second argument is `none` at the head of the outer
loop and `some (sat_clause, num_vars)` inside the inner loop when `lss >> v` has failed and the
next line is to be read.  At the head of the outer loop a line that starts with `c` or `p` is
skipped; in the inner loop every line is read for its values.  When no line is left the inner
loop ends (`if(!getline(instance, line)) break;`), the clause is tested, and the outer loop
ends with "Solution verified.". -/
def checkClauses (vars : Int → Option Int) :
    List InstanceLine → Option (Bool × Int) → Outcome
  | [], none => .verified
  | [], some (sat_clause, num_vars) =>
    if clauseFails sat_clause num_vars then .wrongSolution else .verified
  | .comment :: rest, none => checkClauses vars rest none
  | line :: rest, state =>
    let start : Bool × Int := match state with
      | none => (false, 0)
      | some st => st
    let r := readLine vars line.values start.1 start.2
    if r.2.2 then
      if clauseFails r.1 r.2.1 then .wrongSolution else checkClauses vars rest none
    else checkClauses vars rest (some (r.1, r.2.1))

/-- Source `main`: the outcome for the lines of the instance file `argv[1]` and of the solver
output `argv[2]`. -/
def main (instanceLines : List InstanceLine) (solver_output : List OutputLine) : Outcome :=
  match readOutput solver_output { vars := fun _ => none, SAT_answer := false } with
  | .error outcome => outcome
  | .ok sc =>
    if sc.SAT_answer then checkClauses sc.vars instanceLines none
    else .nothing

/-- The values of the instance, in the order of the file. -/
def tokens (instanceLines : List InstanceLine) : List Int :=
  (instanceLines.map InstanceLine.values).flatten

/-- The clauses that a sequence of values holds: the values are cut at every `0`; `clause`
holds the literals of the clause being read, and values left after the last `0` form a last
clause. -/
def clausesFrom : List Int → List Int → List (List Int)
  | [], clause => if clause = [] then [] else [clause]
  | v :: rest, clause =>
    if v = 0 then clause :: clausesFrom rest [] else clausesFrom rest (clause ++ [v])

/-- The clauses of an instance. -/
def clausesOf (instanceLines : List InstanceLine) : List (List Int) :=
  clausesFrom (tokens instanceLines) []

/-- The value of the literal `l` equals the value that the map gives to its variable. -/
def litTrue (vars : Int → Option Int) (l : Int) : Bool :=
  decide (vars (iabs l) = some l)

/-- The verdict in the words of the statement: "Solution verified" when every clause contains
at least one literal whose value equals the value assigned to its variable, "Wrong solution"
otherwise. -/
def statedOutcome (vars : Int → Option Int) (clauses : List (List Int)) : Outcome :=
  if clauses.all (fun clause => clause.any (litTrue vars)) then .verified else .wrongSolution

end SATVerifier

namespace VRP

/-! ## Lemmas and theorems -/

/-! ### Floating-point rounding -/

theorem Dbl.bits_spec (fuel : Nat) : ∀ n : Nat, 0 < n → n < 2 ^ fuel →
    2 ^ (Dbl.bits fuel n - 1) ≤ n ∧ n < 2 ^ Dbl.bits fuel n ∧ 1 ≤ Dbl.bits fuel n := by
  induction fuel with
  | zero =>
    intro n h0 h1
    simp at h1
    omega
  | succ f ih =>
    intro n h0 h1
    unfold Dbl.bits
    rw [if_neg (by omega)]
    by_cases h2 : n / 2 = 0
    · have hn : n = 1 := by omega
      subst hn
      have : Dbl.bits f (1 / 2) = 0 := by
        cases f <;> simp [Dbl.bits]
      rw [this]
      simp
    · have hlt : n / 2 < 2 ^ f := by
        rw [Nat.div_lt_iff_lt_mul (by norm_num)]
        rw [pow_succ] at h1
        exact h1
      obtain ⟨a, b, c⟩ := ih (n / 2) (by omega) hlt
      refine ⟨?_, ?_, by omega⟩
      · rw [Nat.add_sub_cancel]
        have : 2 ^ Dbl.bits f (n / 2) = 2 ^ (Dbl.bits f (n / 2) - 1) * 2 := by
          rw [← pow_succ]
          congr 1
          omega
        rw [this]
        omega
      · rw [pow_succ]
        omega

theorem Dbl.bits_self (n : Nat) (h0 : 0 < n) :
    2 ^ (Dbl.bits n n - 1) ≤ n ∧ n < 2 ^ Dbl.bits n n ∧ 1 ≤ Dbl.bits n n :=
  Dbl.bits_spec n n h0 (Nat.lt_two_pow n)

theorem Dbl.scale_pos (n d : Nat) (s : Int) (hd : 0 < d) : 0 < (Dbl.scale n d s).2 := by
  unfold Dbl.scale
  positivity

theorem Dbl.scale_val (n d : Nat) (s : Int) :
    ((Dbl.scale n d s).1 : ℚ) / ((Dbl.scale n d s).2 : ℚ) = (n : ℚ) / (d : ℚ) * (2 : ℚ) ^ s := by
  unfold Dbl.scale
  obtain ⟨k, rfl | rfl⟩ := Int.eq_nat_or_neg s
  · simp only [Int.toNat_ofNat, neg_nonpos, Int.ofNat_nonneg, Int.toNat_eq_zero.mpr,
      Int.toNat_neg_nat, pow_zero, mul_one, zpow_natCast]
    push_cast
    ring
  · simp only [Int.toNat_neg_nat, neg_neg, Int.toNat_ofNat, pow_zero, mul_one, zpow_neg,
      zpow_natCast]
    push_cast
    rw [div_mul_eq_mul_div]
    ring

theorem Dbl.exponent_spec (n d : Nat) (hn : 0 < n) (hd : 0 < d) :
    (2 : ℚ) ^ (Dbl.exponent n d) ≤ (n : ℚ) / (d : ℚ) ∧
      (n : ℚ) / (d : ℚ) < (2 : ℚ) ^ (Dbl.exponent n d + 1) := by
  obtain ⟨n1, n2, n3⟩ := Dbl.bits_self n hn
  obtain ⟨d1, d2, d3⟩ := Dbl.bits_self d hd
  have hdq : (0 : ℚ) < (d : ℚ) := by exact_mod_cast hd
  have qn1 : (2 : ℚ) ^ ((Dbl.bits n n : Int) - 1) ≤ (n : ℚ) := by
    have e : ((Dbl.bits n n : Int) - 1) = ((Dbl.bits n n - 1 : Nat) : Int) := by omega
    rw [e, zpow_natCast]
    exact_mod_cast n1
  have qn2 : (n : ℚ) < (2 : ℚ) ^ (Dbl.bits n n : Int) := by
    rw [zpow_natCast]
    exact_mod_cast n2
  have qd1 : (2 : ℚ) ^ ((Dbl.bits d d : Int) - 1) ≤ (d : ℚ) := by
    have e : ((Dbl.bits d d : Int) - 1) = ((Dbl.bits d d - 1 : Nat) : Int) := by omega
    rw [e, zpow_natCast]
    exact_mod_cast d1
  have qd2 : (d : ℚ) < (2 : ℚ) ^ (Dbl.bits d d : Int) := by
    rw [zpow_natCast]
    exact_mod_cast d2
  have two : (2 : ℚ) ≠ 0 := by norm_num
  -- the two bounds that hold for the difference of the digit counts
  have up : (n : ℚ) / (d : ℚ) < (2 : ℚ) ^ ((Dbl.bits n n : Int) - (Dbl.bits d d : Int) + 1) := by
    rw [div_lt_iff₀ hdq]
    have e : (2 : ℚ) ^ (Dbl.bits n n : Int) =
        (2 : ℚ) ^ ((Dbl.bits n n : Int) - (Dbl.bits d d : Int) + 1)
          * (2 : ℚ) ^ ((Dbl.bits d d : Int) - 1) := by
      rw [← zpow_add₀ two]
      congr 1
      ring
    have hp : (0 : ℚ) < (2 : ℚ) ^ ((Dbl.bits n n : Int) - (Dbl.bits d d : Int) + 1) := by
      positivity
    calc (n : ℚ) < (2 : ℚ) ^ (Dbl.bits n n : Int) := qn2
      _ = _ := e
      _ ≤ _ := mul_le_mul_of_nonneg_left qd1 (le_of_lt hp)
  have lo : (2 : ℚ) ^ ((Dbl.bits n n : Int) - (Dbl.bits d d : Int) - 1) ≤ (n : ℚ) / (d : ℚ) := by
    rw [le_div_iff₀ hdq]
    have e : (2 : ℚ) ^ ((Dbl.bits n n : Int) - 1) =
        (2 : ℚ) ^ ((Dbl.bits n n : Int) - (Dbl.bits d d : Int) - 1)
          * (2 : ℚ) ^ (Dbl.bits d d : Int) := by
      rw [← zpow_add₀ two]
      congr 1
      ring
    have hp : (0 : ℚ) < (2 : ℚ) ^ ((Dbl.bits n n : Int) - (Dbl.bits d d : Int) - 1) := by
      positivity
    calc _ ≤ (2 : ℚ) ^ ((Dbl.bits n n : Int) - (Dbl.bits d d : Int) - 1)
          * (2 : ℚ) ^ (Dbl.bits d d : Int) := mul_le_mul_of_nonneg_left (le_of_lt qd2) (le_of_lt hp)
      _ = _ := e.symm
      _ ≤ _ := qn1
  unfold Dbl.exponent
  dsimp only
  have hs := Dbl.scale_val n d (-((Dbl.bits n n : Int) - (Dbl.bits d d : Int)))
  have hD := Dbl.scale_pos n d (-((Dbl.bits n n : Int) - (Dbl.bits d d : Int))) hd
  have hDq : (0 : ℚ) < ((Dbl.scale n d (-((Dbl.bits n n : Int) - (Dbl.bits d d : Int)))).2 : ℚ) := by
    exact_mod_cast hD
  have hpe : (0 : ℚ) < (2 : ℚ) ^ ((Dbl.bits n n : Int) - (Dbl.bits d d : Int)) := by positivity
  have key : (Dbl.scale n d (-((Dbl.bits n n : Int) - (Dbl.bits d d : Int)))).2 ≤
      (Dbl.scale n d (-((Dbl.bits n n : Int) - (Dbl.bits d d : Int)))).1 ↔
      (2 : ℚ) ^ ((Dbl.bits n n : Int) - (Dbl.bits d d : Int)) ≤ (n : ℚ) / (d : ℚ) := by
    rw [← Nat.cast_le (α := ℚ), ← one_le_div hDq, hs, zpow_neg, ← div_eq_mul_inv, le_div_iff₀ hpe,
      one_mul]
  by_cases h : (Dbl.scale n d (-((Dbl.bits n n : Int) - (Dbl.bits d d : Int)))).2 ≤
      (Dbl.scale n d (-((Dbl.bits n n : Int) - (Dbl.bits d d : Int)))).1
  · rw [if_pos h]
    exact ⟨key.1 h, up⟩
  · rw [if_neg h]
    refine ⟨lo, ?_⟩
    rw [sub_add_cancel]
    exact lt_of_not_le (fun hc => h (key.2 hc))

theorem Dbl.roundPos_spec (p n d : Nat) (hp : 1 ≤ p) (hn : 0 < n) (hd : 0 < d) :
    ∃ (q : Nat) (s : Int),
      (Dbl.roundPos p n d).num = ((q * 2 ^ (-s).toNat : Nat) : Int) ∧
      (Dbl.roundPos p n d).den = ((2 ^ s.toNat : Nat) : Int) ∧
      (Dbl.roundPos p n d).toRat = (q : ℚ) * (2 : ℚ) ^ (-s) ∧
      2 ^ (p - 1) ≤ q ∧ q ≤ 2 ^ p ∧
      (2 : ℚ) ^ (p - 1) ≤ (n : ℚ) / (d : ℚ) * (2 : ℚ) ^ s ∧
      (n : ℚ) / (d : ℚ) * (2 : ℚ) ^ s < (2 : ℚ) ^ p ∧
      |(q : ℚ) - (n : ℚ) / (d : ℚ) * (2 : ℚ) ^ s| ≤ 1 / 2 ∧
      (∀ j : Int, (j : ℚ) ≤ (n : ℚ) / (d : ℚ) * (2 : ℚ) ^ s → j ≤ (q : Int)) ∧
      (∀ j : Int, (n : ℚ) / (d : ℚ) * (2 : ℚ) ^ s ≤ (j : ℚ) → (q : Int) ≤ j) := by
  obtain ⟨e1, e2⟩ := Dbl.exponent_spec n d hn hd
  have two : (2 : ℚ) ≠ 0 := by norm_num
  generalize hs : ((p : Int) - 1 - Dbl.exponent n d) = s
  have hE : Dbl.exponent n d = (p : Int) - 1 - s := by omega
  rw [hE] at e1 e2
  have hps : (0 : ℚ) < (2 : ℚ) ^ s := by positivity
  -- the scaled value lies between 2^(p-1) and 2^p
  have b1 : (2 : ℚ) ^ (p - 1) ≤ (n : ℚ) / (d : ℚ) * (2 : ℚ) ^ s := by
    have := mul_le_mul_of_nonneg_right e1 (le_of_lt hps)
    rw [← zpow_add₀ two] at this
    have e : (p : Int) - 1 - s + s = ((p - 1 : Nat) : Int) := by omega
    rw [e, zpow_natCast] at this
    exact this
  have b2 : (n : ℚ) / (d : ℚ) * (2 : ℚ) ^ s < (2 : ℚ) ^ p := by
    have := mul_lt_mul_of_pos_right e2 hps
    rw [← zpow_add₀ two] at this
    have e : (p : Int) - 1 - s + 1 + s = ((p : Nat) : Int) := by omega
    rw [e, zpow_natCast] at this
    exact this
  have hv := Dbl.scale_val n d s
  have hD := Dbl.scale_pos n d s hd
  generalize hN : (Dbl.scale n d s).1 = N at hv
  generalize hDD : (Dbl.scale n d s).2 = D at hv hD
  rw [← hv] at b1 b2
  have hDq : (0 : ℚ) < (D : ℚ) := by exact_mod_cast hD
  have hdm : D * (N / D) + N % D = N := Nat.div_add_mod N D
  have hr : N % D < D := Nat.mod_lt N hD
  generalize hq0 : N / D = q0 at hdm
  generalize hr0 : N % D = r at hdm hr
  have hX : (N : ℚ) / (D : ℚ) = (q0 : ℚ) + (r : ℚ) / (D : ℚ) := by
    rw [← hdm]
    push_cast
    field_simp
    ring
  have hrq : (r : ℚ) / (D : ℚ) < 1 := by
    rw [div_lt_one hDq]
    exact_mod_cast hr
  have hrq0 : (0 : ℚ) ≤ (r : ℚ) / (D : ℚ) := by positivity
  -- the rounded significand
  generalize hq1 : (if 2 * r < D then q0 else if D < 2 * r then q0 + 1 else q0 + q0 % 2) = q1
  have c1 : q0 ≤ q1 ∧ q1 ≤ q0 + 1 ∧ (q1 = q0 ∨ 0 < r) ∧
      |(q1 : ℚ) - ((q0 : ℚ) + (r : ℚ) / (D : ℚ))| ≤ 1 / 2 := by
    by_cases h1 : 2 * r < D
    · rw [if_pos h1] at hq1
      subst hq1
      refine ⟨le_refl _, by omega, Or.inl rfl, ?_⟩
      have : (r : ℚ) / (D : ℚ) ≤ 1 / 2 := by
        rw [div_le_iff₀ hDq]
        have : ((2 * r : Nat) : ℚ) ≤ (D : ℚ) := by exact_mod_cast le_of_lt h1
        push_cast at this
        linarith
      rw [abs_le]
      constructor <;> linarith
    · rw [if_neg h1] at hq1
      by_cases h2 : D < 2 * r
      · rw [if_pos h2] at hq1
        subst hq1
        refine ⟨by omega, le_refl _, Or.inr (by omega), ?_⟩
        have : 1 / 2 ≤ (r : ℚ) / (D : ℚ) := by
          rw [le_div_iff₀ hDq]
          have : ((D : Nat) : ℚ) ≤ ((2 * r : Nat) : ℚ) := by exact_mod_cast le_of_lt h2
          push_cast at this
          linarith
        rw [abs_le]
        push_cast
        constructor <;> linarith
      · rw [if_neg h2] at hq1
        have h3 : D = 2 * r := by omega
        have hhalf : (r : ℚ) / (D : ℚ) = 1 / 2 := by
          rw [div_eq_iff (ne_of_gt hDq)]
          have : ((D : Nat) : ℚ) = ((2 * r : Nat) : ℚ) := by exact_mod_cast h3
          push_cast at this
          linarith
        have hm : q0 % 2 = 0 ∨ q0 % 2 = 1 := by omega
        refine ⟨by omega, by omega, Or.inr (by omega), ?_⟩
        rw [hhalf, abs_le]
        rcases hm with hm | hm
        · have : q1 = q0 := by omega
          subst this
          constructor <;> linarith
        · have : q1 = q0 + 1 := by omega
          subst this
          push_cast
          constructor <;> linarith
  obtain ⟨c1, c2, c3, c4⟩ := c1
  rw [← hX] at c4
  have hfloor : ∀ j : Int, (j : ℚ) ≤ (N : ℚ) / (D : ℚ) → j ≤ (q0 : Int) := by
    intro j hj
    have : (j : ℚ) < ((q0 + 1 : Int) : ℚ) := by
      push_cast
      rw [hX] at hj
      linarith
    have := Int.cast_lt.1 this
    omega
  have hceil : ∀ j : Int, (N : ℚ) / (D : ℚ) ≤ (j : ℚ) → (q1 : Int) ≤ j := by
    intro j hj
    rw [hX] at hj
    rcases c3 with c3 | c3
    · have : ((q0 : Int) : ℚ) ≤ (j : ℚ) := by
        push_cast
        linarith
      have := Int.cast_le.1 this
      omega
    · have hrpos : (0 : ℚ) < (r : ℚ) / (D : ℚ) := by
        apply div_pos _ hDq
        exact_mod_cast c3
      have : ((q0 : Int) : ℚ) < (j : ℚ) := by
        push_cast
        linarith
      have := Int.cast_lt.1 this
      omega
  have hlow : 2 ^ (p - 1) ≤ q0 := by
    have := hfloor ((2 ^ (p - 1) : Nat) : Int) (by push_cast; exact b1)
    exact_mod_cast this
  have hup : q0 < 2 ^ p := by
    have : (q0 : ℚ) < ((2 ^ p : Nat) : ℚ) := by
      push_cast
      rw [hX] at b2
      linarith
    exact_mod_cast this
  have hnum : (Dbl.roundPos p n d).num = ((q1 * 2 ^ (-s).toNat : Nat) : Int) := by
    unfold Dbl.roundPos
    simp only [hs, hN, hDD, hq0, hr0, hq1]
  have hden : (Dbl.roundPos p n d).den = ((2 ^ s.toNat : Nat) : Int) := by
    unfold Dbl.roundPos
    simp only [hs]
  refine ⟨q1, s, hnum, hden, ?_, by omega, by omega, ?_, ?_, ?_, ?_, ?_⟩
  rotate_left
  · rw [← hv]; exact b1
  · rw [← hv]; exact b2
  · rw [← hv]; exact c4
  · rw [← hv]
    intro j hj
    have := hfloor j hj
    omega
  · rw [← hv]; exact hceil
  have hv2 := Dbl.scale_val q1 1 (-s)
  unfold Dbl.scale at hv2
  rw [neg_neg] at hv2
  unfold Dbl.toRat
  rw [hnum, hden]
  simp only [Nat.cast_one, div_one, one_mul, Int.cast_natCast] at hv2 ⊢
  exact hv2

theorem Dbl.round_cases (p : Nat) (a : Dbl) (hp : 1 ≤ p) (hd : 0 < a.den) :
    (a.num = 0 ∧ Dbl.round p a = a) ∨
    ∃ (sg : ℚ) (q : Nat) (s : Int), (sg = 1 ∧ 0 < a.num ∧ 0 < (Dbl.round p a).num ∨
        sg = -1 ∧ a.num < 0 ∧ (Dbl.round p a).num < 0) ∧
      0 < (Dbl.round p a).den ∧
      (Dbl.round p a).toRat = sg * ((q : ℚ) * (2 : ℚ) ^ (-s)) ∧
      2 ^ (p - 1) ≤ q ∧ q ≤ 2 ^ p ∧
      (2 : ℚ) ^ (p - 1) ≤ sg * a.toRat * (2 : ℚ) ^ s ∧
      sg * a.toRat * (2 : ℚ) ^ s < (2 : ℚ) ^ p ∧
      |(q : ℚ) - sg * a.toRat * (2 : ℚ) ^ s| ≤ 1 / 2 ∧
      (∀ j : Int, (j : ℚ) ≤ sg * a.toRat * (2 : ℚ) ^ s → j ≤ (q : Int)) ∧
      (∀ j : Int, sg * a.toRat * (2 : ℚ) ^ s ≤ (j : ℚ) → (q : Int) ≤ j) := by
  by_cases h0 : a.num = 0
  · left
    refine ⟨h0, ?_⟩
    unfold Dbl.round
    rw [if_pos (Or.inr h0)]
  right
  have hdn : 0 < a.den.toNat := by omega
  have hdc : ((a.den.toNat : Nat) : ℚ) = (a.den : ℚ) := by
    have : ((a.den.toNat : Nat) : Int) = a.den := Int.toNat_of_nonneg (le_of_lt hd)
    exact_mod_cast this
  by_cases h1 : 0 < a.num
  · have hnn : 0 < a.num.toNat := by omega
    have hnc : ((a.num.toNat : Nat) : ℚ) = (a.num : ℚ) := by
      have : ((a.num.toNat : Nat) : Int) = a.num := Int.toNat_of_nonneg (le_of_lt h1)
      exact_mod_cast this
    obtain ⟨q, s, r1, r2, r3, r4, r5, r6, r7, r8, r9, r10⟩ :=
      Dbl.roundPos_spec p a.num.toNat a.den.toNat hp hnn hdn
    have hr : Dbl.round p a = Dbl.roundPos p a.num.toNat a.den.toNat := by
      unfold Dbl.round
      rw [if_neg (by omega), if_pos h1]
    rw [hnc, hdc] at r6 r7 r8 r9 r10
    have hx : (1 : ℚ) * a.toRat = (a.num : ℚ) / (a.den : ℚ) := by
      unfold Dbl.toRat
      ring
    refine ⟨1, q, s, Or.inl ⟨rfl, h1, ?_⟩, ?_, ?_, r4, r5, ?_, ?_, ?_, ?_, ?_⟩
    · rw [hr, r1]
      have : 0 < 2 ^ (p - 1) := by positivity
      have : 0 < q * 2 ^ (-s).toNat := by
        apply Nat.mul_pos (by omega)
        positivity
      exact_mod_cast this
    · rw [hr, r2]
      have : 0 < 2 ^ s.toNat := by positivity
      exact_mod_cast this
    · rw [hr, r3, one_mul]
    · rw [hx]; exact r6
    · rw [hx]; exact r7
    · rw [hx]; exact r8
    · rw [hx]; exact r9
    · rw [hx]; exact r10
  · have h2 : a.num < 0 := by omega
    have hnn : 0 < (-a.num).toNat := by omega
    have hnc : (((-a.num).toNat : Nat) : ℚ) = -(a.num : ℚ) := by
      have : (((-a.num).toNat : Nat) : Int) = -a.num := Int.toNat_of_nonneg (by omega)
      exact_mod_cast this
    obtain ⟨q, s, r1, r2, r3, r4, r5, r6, r7, r8, r9, r10⟩ :=
      Dbl.roundPos_spec p (-a.num).toNat a.den.toNat hp hnn hdn
    have hr : Dbl.round p a = ⟨-(Dbl.roundPos p (-a.num).toNat a.den.toNat).num,
        (Dbl.roundPos p (-a.num).toNat a.den.toNat).den⟩ := by
      unfold Dbl.round
      rw [if_neg (by omega), if_neg h1]
    rw [hnc, hdc] at r6 r7 r8 r9 r10
    have hx : (-1 : ℚ) * a.toRat = -(a.num : ℚ) / (a.den : ℚ) := by
      unfold Dbl.toRat
      ring
    have hpos : 0 < (Dbl.roundPos p (-a.num).toNat a.den.toNat).num := by
      rw [r1]
      have : 0 < 2 ^ (p - 1) := by positivity
      have : 0 < q * 2 ^ (-s).toNat := by
        apply Nat.mul_pos (by omega)
        positivity
      exact_mod_cast this
    refine ⟨-1, q, s, Or.inr ⟨rfl, h2, ?_⟩, ?_, ?_, r4, r5, ?_, ?_, ?_, ?_, ?_⟩
    · rw [hr]
      dsimp only
      omega
    · rw [hr]
      dsimp only
      rw [r2]
      have : 0 < 2 ^ s.toNat := by positivity
      exact_mod_cast this
    · rw [← r3, hr]
      unfold Dbl.toRat
      dsimp only
      push_cast
      ring
    · rw [hx]; exact r6
    · rw [hx]; exact r7
    · rw [hx]; exact r8
    · rw [hx]; exact r9
    · rw [hx]; exact r10

/-- Below a significand `q` found by rounding down or up lies every value `m * 2 ^ t` of `p`
digits that is below the scaled value. -/
theorem Dbl.grid_below (p : Nat) (q : Nat) (X : ℚ) (m t : Int) (hp : 1 ≤ p)
    (hq : 2 ^ (p - 1) ≤ q) (hfl : ∀ j : Int, (j : ℚ) ≤ X → j ≤ (q : Int))
    (hm1 : m < 2 ^ p) (hle : (m : ℚ) * (2 : ℚ) ^ t ≤ X) :
    (m : ℚ) * (2 : ℚ) ^ t ≤ (q : ℚ) := by
  by_cases hm0 : m ≤ 0
  · have : (m : ℚ) ≤ 0 := by exact_mod_cast hm0
    have h2 : (0 : ℚ) < (2 : ℚ) ^ t := by positivity
    have : (m : ℚ) * (2 : ℚ) ^ t ≤ 0 := mul_nonpos_of_nonpos_of_nonneg this (le_of_lt h2)
    have : (0 : ℚ) ≤ (q : ℚ) := by positivity
    linarith
  have hm0 : 0 < m := by omega
  by_cases ht : 0 ≤ t
  · obtain ⟨u, rfl⟩ := Int.eq_ofNat_of_zero_le ht
    have e : ((m * 2 ^ u : Int) : ℚ) = (m : ℚ) * (2 : ℚ) ^ (u : Int) := by
      push_cast
      rw [zpow_natCast]
    have := hfl (m * 2 ^ u) (by rw [e]; exact hle)
    rw [← e]
    exact_mod_cast this
  · have ht1 : t ≤ -1 := by omega
    have h2 : (2 : ℚ) ^ t ≤ (2 : ℚ) ^ (-1 : Int) := zpow_le_zpow_right₀ (by norm_num) ht1
    have h3 : (2 : ℚ) ^ (-1 : Int) = 1 / 2 := by norm_num
    have hmq : (m : ℚ) ≤ (2 : ℚ) ^ p := by exact_mod_cast le_of_lt hm1
    have hmq0 : (0 : ℚ) < (m : ℚ) := by exact_mod_cast hm0
    have hpp : (2 : ℚ) ^ p = 2 * (2 : ℚ) ^ (p - 1) := by
      rw [← pow_succ']
      congr 1
      omega
    have hqq : (2 : ℚ) ^ (p - 1) ≤ (q : ℚ) := by exact_mod_cast hq
    calc (m : ℚ) * (2 : ℚ) ^ t ≤ (m : ℚ) * (1 / 2) := by
          rw [← h3]
          exact mul_le_mul_of_nonneg_left h2 (le_of_lt hmq0)
      _ ≤ (2 : ℚ) ^ (p - 1) := by linarith
      _ ≤ (q : ℚ) := hqq

/-- Above a significand `q` found by rounding down or up lies every value `m * 2 ^ t` of `p`
digits that is above the scaled value. -/
theorem Dbl.grid_above (p : Nat) (q : Nat) (X : ℚ) (m t : Int) (hp : 1 ≤ p)
    (hX : (2 : ℚ) ^ (p - 1) ≤ X) (hce : ∀ j : Int, X ≤ (j : ℚ) → (q : Int) ≤ j)
    (hm1 : m < 2 ^ p) (hle : X ≤ (m : ℚ) * (2 : ℚ) ^ t) :
    (q : ℚ) ≤ (m : ℚ) * (2 : ℚ) ^ t := by
  by_cases ht : 0 ≤ t
  · obtain ⟨u, rfl⟩ := Int.eq_ofNat_of_zero_le ht
    have e : ((m * 2 ^ u : Int) : ℚ) = (m : ℚ) * (2 : ℚ) ^ (u : Int) := by
      push_cast
      rw [zpow_natCast]
    have := hce (m * 2 ^ u) (by rw [e]; exact hle)
    rw [← e]
    exact_mod_cast this
  · exfalso
    have ht1 : t ≤ -1 := by omega
    have h2 : (2 : ℚ) ^ t ≤ (2 : ℚ) ^ (-1 : Int) := zpow_le_zpow_right₀ (by norm_num) ht1
    have h3 : (2 : ℚ) ^ (-1 : Int) = 1 / 2 := by norm_num
    have hmq : (m : ℚ) + 1 ≤ (2 : ℚ) ^ p := by
      have : m + 1 ≤ 2 ^ p := by omega
      exact_mod_cast this
    have hpp : (2 : ℚ) ^ p = 2 * (2 : ℚ) ^ (p - 1) := by
      rw [← pow_succ']
      congr 1
      omega
    have hpos : (0 : ℚ) < (2 : ℚ) ^ (p - 1) := by positivity
    have h2t : (0 : ℚ) < (2 : ℚ) ^ t := by positivity
    have hmq0 : (0 : ℚ) < (m : ℚ) := by
      by_contra hc
      have : (m : ℚ) * (2 : ℚ) ^ t ≤ 0 :=
        mul_nonpos_of_nonpos_of_nonneg (not_lt.1 hc) (le_of_lt h2t)
      linarith
    have : (m : ℚ) * (2 : ℚ) ^ t ≤ (m : ℚ) * (1 / 2) := by
      rw [← h3]
      exact mul_le_mul_of_nonneg_left h2 (le_of_lt hmq0)
    linarith

theorem Dbl.round_den_pos (p : Nat) (a : Dbl) (hp : 1 ≤ p) (hd : 0 < a.den) :
    0 < (Dbl.round p a).den := by
  rcases Dbl.round_cases p a hp hd with ⟨_, h⟩ | ⟨sg, q, s, _, h, _⟩
  · rw [h]; exact hd
  · exact h

theorem Dbl.round_num_sign (p : Nat) (a : Dbl) (hp : 1 ≤ p) (hd : 0 < a.den) :
    (0 < a.num → 0 < (Dbl.round p a).num) ∧ (a.num < 0 → (Dbl.round p a).num < 0) ∧
      (a.num = 0 → (Dbl.round p a).num = 0) ∧ (0 ≤ a.num → 0 ≤ (Dbl.round p a).num) ∧
      (a.num ≤ 0 → (Dbl.round p a).num ≤ 0) := by
  rcases Dbl.round_cases p a hp hd with ⟨h0, h⟩ | ⟨sg, q, s, h | h, _⟩
  · rw [h]
    refine ⟨fun h => h, fun h => h, fun h => h, fun h => h, fun h => h⟩
  · obtain ⟨_, h1, h2⟩ := h
    exact ⟨fun _ => h2, fun h => by omega, fun h => by omega, fun _ => by omega, fun h => by omega⟩
  · obtain ⟨_, h1, h2⟩ := h
    exact ⟨fun h => by omega, fun _ => h2, fun h => by omega, fun h => by omega, fun _ => by omega⟩

/-- The relative error of a rounding to `p` digits is at most `2 ^ (-p)`. -/
theorem Dbl.round_error (p : Nat) (a : Dbl) (hp : 1 ≤ p) (hd : 0 < a.den) :
    |(Dbl.round p a).toRat - a.toRat| ≤ |a.toRat| / (2 : ℚ) ^ p := by
  rcases Dbl.round_cases p a hp hd with ⟨_, h⟩ | ⟨sg, q, s, hsg, _, r3, r4, r5, r6, r7, r8, _⟩
  · rw [h, sub_self, abs_zero]
    positivity
  have hu : (0 : ℚ) < (2 : ℚ) ^ s := by positivity
  have hui : (2 : ℚ) ^ (-s) = ((2 : ℚ) ^ s)⁻¹ := zpow_neg _ _
  have hpp : (2 : ℚ) ^ p = 2 * (2 : ℚ) ^ (p - 1) := by
    rw [← pow_succ']
    congr 1
    omega
  have hp1 : (0 : ℚ) < (2 : ℚ) ^ (p - 1) := by positivity
  generalize hy : sg * a.toRat = y at r6 r7 r8
  have hy0 : 0 < y := by
    by_contra hc
    have : y * (2 : ℚ) ^ s ≤ 0 := mul_nonpos_of_nonpos_of_nonneg (not_lt.1 hc) (le_of_lt hu)
    linarith
  have habs : |a.toRat| = y := by
    rcases hsg with ⟨h, _⟩ | ⟨h, _⟩
    · subst h
      rw [one_mul] at hy
      rw [hy, abs_of_pos hy0]
    · subst h
      have : a.toRat = -y := by linarith
      rw [this, abs_neg, abs_of_pos hy0]
  have hdiff : |(Dbl.round p a).toRat - a.toRat| = |(q : ℚ) - y * (2 : ℚ) ^ s| * ((2 : ℚ) ^ s)⁻¹ := by
    have e : (q : ℚ) * (2 : ℚ) ^ (-s) - y = ((q : ℚ) - y * (2 : ℚ) ^ s) * ((2 : ℚ) ^ s)⁻¹ := by
      rw [hui]
      field_simp
      ring
    have e2 : |(Dbl.round p a).toRat - a.toRat| = |(q : ℚ) * (2 : ℚ) ^ (-s) - y| := by
      rcases hsg with ⟨h, _⟩ | ⟨h, _⟩
      · subst h
        rw [one_mul] at hy r3
        rw [r3, hy]
      · subst h
        have : a.toRat = -y := by linarith
        rw [r3, this, ← abs_neg]
        congr 1
        ring
    rw [e2, e, abs_mul, abs_of_pos (inv_pos.2 hu)]
  rw [hdiff, habs]
  have h1 : |(q : ℚ) - y * (2 : ℚ) ^ s| * ((2 : ℚ) ^ s)⁻¹ ≤ 1 / 2 * ((2 : ℚ) ^ s)⁻¹ :=
    mul_le_mul_of_nonneg_right r8 (le_of_lt (inv_pos.2 hu))
  have h2 : 1 / 2 * ((2 : ℚ) ^ s)⁻¹ ≤ y / (2 : ℚ) ^ p := by
    rw [le_div_iff₀ (by positivity), hpp]
    have : ((2 : ℚ) ^ s)⁻¹ * (2 : ℚ) ^ (p - 1) ≤ y := by
      rw [inv_mul_le_iff₀ hu]
      linarith
    linarith
  linarith

/-- A value of `p` digits that is at most `a` is at most the rounded `a`. -/
theorem Dbl.le_round (p : Nat) (a : Dbl) (f : ℚ) (hp : 1 ≤ p) (hd : 0 < a.den)
    (hf : Representable p f) (h : f ≤ a.toRat) : f ≤ (Dbl.round p a).toRat := by
  rcases Dbl.round_cases p a hp hd with ⟨_, h0⟩ | ⟨sg, q, s, hsg, _, r3, r4, r5, r6, r7, r8, r9, r10⟩
  · rw [h0]; exact h
  obtain ⟨m, k, hm, rfl⟩ := hf
  have hm' := abs_lt.1 hm
  have two : (2 : ℚ) ≠ 0 := by norm_num
  have hu : (0 : ℚ) < (2 : ℚ) ^ s := by positivity
  have hui : (2 : ℚ) ^ (-s) = ((2 : ℚ) ^ s)⁻¹ := zpow_neg _ _
  rcases hsg with ⟨hs, _⟩ | ⟨hs, _⟩
  · subst hs
    rw [one_mul] at r3 r6 r9
    have := Dbl.grid_below p q (a.toRat * (2 : ℚ) ^ s) m (k + s) hp r4 r9 hm'.2
      (by rw [zpow_add₀ two, ← mul_assoc]; exact mul_le_mul_of_nonneg_right h (le_of_lt hu))
    rw [r3, hui, le_mul_inv_iff₀ hu, mul_assoc, ← zpow_add₀ two]
    exact this
  · subst hs
    have hX : -1 * a.toRat * (2 : ℚ) ^ s ≤ ((-m : Int) : ℚ) * (2 : ℚ) ^ (k + s) := by
      rw [zpow_add₀ two, ← mul_assoc]
      apply mul_le_mul_of_nonneg_right _ (le_of_lt hu)
      push_cast
      linarith
    have := Dbl.grid_above p q (-1 * a.toRat * (2 : ℚ) ^ s) (-m) (k + s) hp r6 r10
      (by omega) hX
    rw [r3, hui]
    have e : (m : ℚ) * (2 : ℚ) ^ k = (m : ℚ) * (2 : ℚ) ^ (k + s) * ((2 : ℚ) ^ s)⁻¹ := by
      rw [zpow_add₀ two]
      field_simp
      ring
    rw [e]
    have hi := inv_pos.2 hu
    push_cast at this
    nlinarith [mul_le_mul_of_nonneg_right this (le_of_lt hi)]

/-- The rounded `a` is at most every value of `p` digits that is at least `a`. -/
theorem Dbl.round_le (p : Nat) (a : Dbl) (f : ℚ) (hp : 1 ≤ p) (hd : 0 < a.den)
    (hf : Representable p f) (h : a.toRat ≤ f) : (Dbl.round p a).toRat ≤ f := by
  rcases Dbl.round_cases p a hp hd with ⟨_, h0⟩ | ⟨sg, q, s, hsg, _, r3, r4, r5, r6, r7, r8, r9, r10⟩
  · rw [h0]; exact h
  obtain ⟨m, k, hm, rfl⟩ := hf
  have hm' := abs_lt.1 hm
  have two : (2 : ℚ) ≠ 0 := by norm_num
  have hu : (0 : ℚ) < (2 : ℚ) ^ s := by positivity
  have hui : (2 : ℚ) ^ (-s) = ((2 : ℚ) ^ s)⁻¹ := zpow_neg _ _
  have e : (m : ℚ) * (2 : ℚ) ^ k = (m : ℚ) * (2 : ℚ) ^ (k + s) * ((2 : ℚ) ^ s)⁻¹ := by
    rw [zpow_add₀ two]
    field_simp
    ring
  have hi := inv_pos.2 hu
  rcases hsg with ⟨hs, _⟩ | ⟨hs, _⟩
  · subst hs
    rw [one_mul] at r3 r6 r10
    have := Dbl.grid_above p q (a.toRat * (2 : ℚ) ^ s) m (k + s) hp r6 r10 hm'.2
      (by rw [zpow_add₀ two, ← mul_assoc]; exact mul_le_mul_of_nonneg_right h (le_of_lt hu))
    rw [r3, hui, e]
    exact mul_le_mul_of_nonneg_right this (le_of_lt hi)
  · subst hs
    have hX : ((-m : Int) : ℚ) * (2 : ℚ) ^ (k + s) ≤ -1 * a.toRat * (2 : ℚ) ^ s := by
      rw [zpow_add₀ two, ← mul_assoc]
      apply mul_le_mul_of_nonneg_right _ (le_of_lt hu)
      push_cast
      linarith
    have := Dbl.grid_below p q (-1 * a.toRat * (2 : ℚ) ^ s) (-m) (k + s) hp r4 r9
      (by omega) hX
    rw [r3, hui, e]
    push_cast at this
    nlinarith [mul_le_mul_of_nonneg_right this (le_of_lt hi)]

theorem Dbl.round53_den_pos (a : Dbl) (hd : 0 < a.den) : 0 < (Dbl.round53 a).den :=
  Dbl.round_den_pos 53 a (by norm_num) hd

theorem Dbl.round53_num_nonneg (a : Dbl) (hd : 0 < a.den) (h : 0 ≤ a.num) :
    0 ≤ (Dbl.round53 a).num :=
  (Dbl.round_num_sign 53 a (by norm_num) hd).2.2.2.1 h

theorem Dbl.round53_num_pos (a : Dbl) (hd : 0 < a.den) (h : 0 < a.num) :
    0 < (Dbl.round53 a).num :=
  (Dbl.round_num_sign 53 a (by norm_num) hd).1 h

/-- A whole number below `2 ^ p` in absolute value has `p` digits. -/
theorem representable_int (p : Nat) (n : Int) (h : |n| < 2 ^ p) : Representable p (n : ℚ) :=
  ⟨n, 0, h, by simp⟩

/-- A rounding leaves a value of `p` digits as it is. -/
theorem Dbl.round_of_representable (p : Nat) (a : Dbl) (hp : 1 ≤ p) (hd : 0 < a.den)
    (hf : Representable p a.toRat) : (Dbl.round p a).toRat = a.toRat :=
  le_antisymm (Dbl.round_le p a _ hp hd hf (le_refl _)) (Dbl.le_round p a _ hp hd hf (le_refl _))

/-! ### Arrays and rearrangements -/

theorem rd_eq {a : List Int} {i : Int} (h0 : 0 ≤ i) (h1 : i < a.length) :
    rd a i = some (getI a i) := by
  have h2 : i.toNat < a.length := by omega
  simp [rd, getI, h0, List.getD_eq_getElem?_getD, List.getElem?_eq_getElem h2]

theorem wr_eq {a : List Int} {i : Int} (x : Int) (h0 : 0 ≤ i) (h1 : i < a.length) :
    wr a i x = some (a.set i.toNat x) := by
  have h2 : i.toNat < a.length := by omega
  simp [wr, h0, h2]

theorem swapAt_eq {a : List Int} {i j : Int} (hi0 : 0 ≤ i) (hi1 : i < a.length)
    (hj0 : 0 ≤ j) (hj1 : j < a.length) : swapAt a i j = some (swp a i j) := by
  have h : j < (a.set i.toNat (getI a j)).length := by simpa using hj1
  simp [swapAt, swp, rd_eq hi0 hi1, rd_eq hj0 hj1, wr_eq _ hi0 hi1, wr_eq _ hj0 h]

theorem length_swp (a : List Int) (i j : Int) : (swp a i j).length = a.length := by
  simp [swp]

theorem getI_swp {a : List Int} {i j : Int} (hi0 : 0 ≤ i) (hi1 : i < a.length)
    (hj0 : 0 ≤ j) (hj1 : j < a.length) (k : Int) (hk : 0 ≤ k) :
    getI (swp a i j) k = if k = j then getI a i else if k = i then getI a j else getI a k := by
  have e1 : (k = j) ↔ (j.toNat = k.toNat) := by omega
  have e2 : (k = i) ↔ (i.toNat = k.toNat) := by omega
  have h2 : i.toNat < a.length := by omega
  have h3 : j.toNat < a.length := by omega
  simp only [swp, getI, List.getD_eq_getElem?_getD, List.getElem?_set, List.length_set, e1, e2]
  by_cases c1 : j.toNat = k.toNat
  · rw [if_pos c1, if_pos c1, if_pos h3]; rfl
  · rw [if_neg c1, if_neg c1]
    by_cases c2 : i.toNat = k.toNat
    · rw [if_pos c2, if_pos c2, if_pos h2]; rfl
    · rw [if_neg c2, if_neg c2]

theorem getElem?_swp_of_ne (a : List Int) (i j : Int) (k : Nat) (hi : k ≠ i.toNat)
    (hj : k ≠ j.toNat) : (swp a i j)[k]? = a[k]? := by
  simp [swp, List.getElem?_set, Ne.symm hi, Ne.symm hj]

theorem cons_set_perm {α : Type} (x : α) (d : α) : ∀ (t : List α) (j : Nat), j < t.length →
    (t.getD j d :: t.set j x).Perm (x :: t)
  | [], j, h => by simp at h
  | y :: t, 0, _ => by simpa using List.Perm.swap x y t
  | y :: t, j + 1, h => by
    have ih := cons_set_perm x d t j (by simpa using h)
    simp only [List.getD_cons_succ, List.set_cons_succ]
    exact (List.Perm.swap y _ _).trans ((ih.cons y).trans (List.Perm.swap x y t))

theorem set_set_perm {α : Type} (d : α) : ∀ (l : List α) (i j : Nat), i < j → j < l.length →
    ((l.set i (l.getD j d)).set j (l.getD i d)).Perm l
  | [], _, _, _, h => by simp at h
  | x :: t, 0, 0, h, _ => by omega
  | x :: t, 0, j + 1, _, h => by
    simpa using cons_set_perm x d t j (by simpa using h)
  | x :: t, i + 1, 0, h, _ => by omega
  | x :: t, i + 1, j + 1, h1, h2 => by
    simpa using set_set_perm d t i j (by omega) (by simpa using h2)

theorem zip_set {α β : Type} (a : α) (b : β) : ∀ (v : List α) (c : List β) (i : Nat),
    (v.set i a).zip (c.set i b) = (v.zip c).set i (a, b)
  | [], _, _ => by simp
  | _ :: _, [], _ => by simp
  | x :: v, y :: c, 0 => by simp
  | x :: v, y :: c, i + 1 => by simp [zip_set a b v c i]

theorem getD_zip {α β : Type} (d1 : α) (d2 : β) : ∀ (v : List α) (c : List β) (i : Nat),
    i < v.length → i < c.length → (v.zip c).getD i (d1, d2) = (v.getD i d1, c.getD i d2)
  | [], _, _, h, _ => by simp at h
  | _ :: _, [], _, _, h => by simp at h
  | x :: v, y :: c, 0, _, _ => by simp
  | x :: v, y :: c, i + 1, h1, h2 => by
    simpa using getD_zip d1 d2 v c i (by simpa using h1) (by simpa using h2)

theorem Rearranged.refl (s e : Int) (v c : List Int) : Rearranged s e v c v c :=
  ⟨rfl, rfl, List.Perm.refl _, fun _ _ => ⟨rfl, rfl⟩⟩

theorem Rearranged.trans {s e s1 e1 s2 e2 : Int} {v c v1 c1 v2 c2 : List Int}
    (h1 : Rearranged s1 e1 v c v1 c1) (h2 : Rearranged s2 e2 v1 c1 v2 c2)
    (hs1 : s ≤ s1) (hs2 : s ≤ s2) (he1 : e1 ≤ e) (he2 : e2 ≤ e) :
    Rearranged s e v c v2 c2 := by
  refine ⟨h2.lenV.trans h1.lenV, h2.lenC.trans h1.lenC, h2.perm.trans h1.perm, ?_⟩
  intro i hi
  have a := h1.outside i (by omega)
  have b := h2.outside i (by omega)
  exact ⟨b.1.trans a.1, b.2.trans a.2⟩

theorem Rearranged.swp {s e i j : Int} (v c : List Int) (hs : 0 ≤ s) (hsi : s ≤ i)
    (hij : i < j) (hje : j ≤ e) (hv : e < v.length) (hc : e < c.length) :
    Rearranged s e v c (swp v i j) (swp c i j) := by
  refine ⟨length_swp _ _ _, length_swp _ _ _, ?_, ?_⟩
  · have hi1 : i.toNat < j.toNat := by omega
    have hjv : j.toNat < v.length := by omega
    have hjc : j.toNat < c.length := by omega
    have hz : j.toNat < (v.zip c).length := by simp; omega
    have := set_set_perm ((0 : Int), (0 : Int)) (v.zip c) i.toNat j.toNat hi1 hz
    rw [getD_zip 0 0 v c _ hjv hjc, getD_zip 0 0 v c _ (by omega) (by omega)] at this
    simpa [VRP.swp, getI, zip_set] using this
  · intro k hk
    exact ⟨getElem?_swp_of_ne v i j k (by omega) (by omega),
      getElem?_swp_of_ne c i j k (by omega) (by omega)⟩

theorem take_eq_of_getElem? {α : Type} {l l' : List α} {n : Nat}
    (h : ∀ i, i < n → l'[i]? = l[i]?) : l'.take n = l.take n := by
  apply List.ext_getElem?
  intro i
  by_cases hi : i < n
  · simp [List.getElem?_take, hi, h i hi]
  · simp [List.getElem?_take, hi]

theorem drop_eq_of_getElem? {α : Type} {l l' : List α} {n : Nat}
    (h : ∀ i, n ≤ i → l'[i]? = l[i]?) : l'.drop n = l.drop n := by
  apply List.ext_getElem?
  intro i
  simp [List.getElem?_drop, h (n + i) (by omega)]

theorem getElem?_zip_congr {v c v' c' : List Int} {i : Nat} (h1 : v'[i]? = v[i]?)
    (h2 : c'[i]? = (c)[i]?) : (v'.zip c')[i]? = (v.zip c)[i]? := by
  simp [List.zip, List.getElem?_zipWith, h1, h2]

theorem Rearranged.segPairs_perm {s e : Int} {v c v' c' : List Int}
    (h : Rearranged s e v c v' c') (hs : 0 ≤ s) :
    (segPairs s e v' c').Perm (segPairs s e v c) := by
  have hA : (v'.zip c').take s.toNat = (v.zip c).take s.toNat :=
    take_eq_of_getElem? fun i hi =>
      getElem?_zip_congr (h.outside i (by omega)).1 (h.outside i (by omega)).2
  have hB : ((v'.zip c').drop s.toNat).drop (e - s + 1).toNat
      = ((v.zip c).drop s.toNat).drop (e - s + 1).toNat := by
    rw [List.drop_drop, List.drop_drop]
    exact drop_eq_of_getElem? fun i hi =>
      getElem?_zip_congr (h.outside i (by omega)).1 (h.outside i (by omega)).2
  have hp := h.perm
  rw [← List.take_append_drop s.toNat (v'.zip c'), ← List.take_append_drop s.toNat (v.zip c),
    hA, List.perm_append_left_iff,
    ← List.take_append_drop (e - s + 1).toNat ((v'.zip c').drop s.toNat),
    ← List.take_append_drop (e - s + 1).toNat ((v.zip c).drop s.toNat),
    hB, List.perm_append_right_iff] at hp
  exact hp

theorem mem_segPairs {s e : Int} {v c : List Int} (hs : 0 ≤ s) (hv : e < v.length)
    (hc : e < c.length) (x : Int × Int) :
    x ∈ segPairs s e v c ↔ ∃ i : Int, s ≤ i ∧ i ≤ e ∧ x = (getI v i, getI c i) := by
  simp only [segPairs, List.mem_iff_getElem?, List.getElem?_take, List.getElem?_drop]
  constructor
  · rintro ⟨n, hn⟩
    split_ifs at hn with h1
    refine ⟨((s.toNat + n : Nat) : Int), by omega, by omega, ?_⟩
    have h2 : s.toNat + n < v.length := by omega
    have h3 : s.toNat + n < c.length := by omega
    simp only [List.zip, List.getElem?_zipWith, List.getElem?_eq_getElem h2,
      List.getElem?_eq_getElem h3] at hn
    simp only [getI, Int.toNat_ofNat, List.getD_eq_getElem?_getD, List.getElem?_eq_getElem h2,
      List.getElem?_eq_getElem h3, Option.getD_some]
    simpa using hn.symm
  · rintro ⟨i, h1, h2, rfl⟩
    refine ⟨(i - s).toNat, ?_⟩
    have h4 : s.toNat + (i - s).toNat = i.toNat := by omega
    have h5 : i.toNat < v.length := by omega
    have h6 : i.toNat < c.length := by omega
    rw [if_pos (by omega), h4]
    simp [List.zip, List.getElem?_zipWith, getI, List.getD_eq_getElem?_getD,
      List.getElem?_eq_getElem h5, List.getElem?_eq_getElem h6]

/-! ### The partition loop -/

theorem dir_incr : Dir (fun x => x) (fun a b => decide (a < b)) :=
  ⟨fun a b => by simp, fun a b h => h⟩

theorem dir_decr : Dir (fun x => -x) (fun a b => decide (a > b)) :=
  ⟨fun a b => by simp, fun a b h => by simpa using h⟩

theorem scanUp_spec {key : Int → Int} {lt : Int → Int → Bool} (hd : Dir key lt)
    (v : List Int) (pivot : Int) : ∀ (n : Nat) (s j : Int), 0 ≤ s → s ≤ j → j < v.length →
      (j - s).toNat ≤ n → key pivot ≤ key (getI v j) →
      ∃ s', s ≤ s' ∧ s' ≤ j ∧ key pivot ≤ key (getI v s') ∧
        (∀ i, s ≤ i → i < s' → key (getI v i) < key pivot) ∧
        ∀ fuel, n + 1 ≤ fuel → scanUp lt fuel v pivot s = some s' := by
  intro n
  induction n with
  | zero =>
    intro s j h0 hsj hj hn hp
    have : s = j := by omega
    subst this
    refine ⟨s, le_refl _, le_refl _, hp, fun i h1 h2 => by omega, ?_⟩
    intro fuel hf
    obtain ⟨f, rfl⟩ : ∃ f, fuel = f + 1 := ⟨fuel - 1, by omega⟩
    have hlt : lt (getI v s) pivot = false := by
      rw [Bool.eq_false_iff, Ne, hd.lt_iff]; omega
    simp [scanUp, rd_eq h0 hj, hlt]
  | succ n ih =>
    intro s j h0 hsj hj hn hp
    by_cases hlt : key (getI v s) < key pivot
    · have hne : s ≠ j := by rintro rfl; omega
      obtain ⟨s', h1, h2, h3, h4, h5⟩ := ih (s + 1) j (by omega) (by omega) hj (by omega) hp
      refine ⟨s', by omega, h2, h3, ?_, ?_⟩
      · intro i hi1 hi2
        by_cases hi : i = s
        · subst hi; exact hlt
        · exact h4 i (by omega) hi2
      · intro fuel hf
        obtain ⟨f, rfl⟩ : ∃ f, fuel = f + 1 := ⟨fuel - 1, by omega⟩
        have hlt' : lt (getI v s) pivot = true := (hd.lt_iff _ _).2 hlt
        simp [scanUp, rd_eq h0 (by omega : s < v.length), hlt', h5 f (by omega)]
    · refine ⟨s, le_refl _, hsj, by omega, fun i h1 h2 => by omega, ?_⟩
      intro fuel hf
      obtain ⟨f, rfl⟩ : ∃ f, fuel = f + 1 := ⟨fuel - 1, by omega⟩
      have hlt' : lt (getI v s) pivot = false := by
        rw [Bool.eq_false_iff, Ne, hd.lt_iff]; omega
      simp [scanUp, rd_eq h0 (by omega : s < v.length), hlt']

theorem scanDown_spec {key : Int → Int} {lt : Int → Int → Bool} (hd : Dir key lt)
    (v : List Int) (pivot : Int) : ∀ (n : Nat) (e j : Int), 0 ≤ j → j ≤ e → e < v.length →
      (e - j).toNat ≤ n → key (getI v j) ≤ key pivot →
      ∃ e', j ≤ e' ∧ e' ≤ e ∧ key (getI v e') ≤ key pivot ∧
        (∀ i, e' < i → i ≤ e → key pivot < key (getI v i)) ∧
        ∀ fuel, n + 1 ≤ fuel → scanDown lt fuel v pivot e = some e' := by
  intro n
  induction n with
  | zero =>
    intro e j h0 hje he hn hp
    have : e = j := by omega
    subst this
    refine ⟨e, le_refl _, le_refl _, hp, fun i h1 h2 => by omega, ?_⟩
    intro fuel hf
    obtain ⟨f, rfl⟩ : ∃ f, fuel = f + 1 := ⟨fuel - 1, by omega⟩
    have hlt : lt pivot (getI v e) = false := by
      rw [Bool.eq_false_iff, Ne, hd.lt_iff]; omega
    simp [scanDown, rd_eq h0 he, hlt]
  | succ n ih =>
    intro e j h0 hje he hn hp
    by_cases hlt : key pivot < key (getI v e)
    · have hne : e ≠ j := by rintro rfl; omega
      obtain ⟨e', h1, h2, h3, h4, h5⟩ := ih (e - 1) j h0 (by omega) (by omega) (by omega) hp
      refine ⟨e', h1, by omega, h3, ?_, ?_⟩
      · intro i hi1 hi2
        by_cases hi : i = e
        · subst hi; exact hlt
        · exact h4 i hi1 (by omega)
      · intro fuel hf
        obtain ⟨f, rfl⟩ : ∃ f, fuel = f + 1 := ⟨fuel - 1, by omega⟩
        have hlt' : lt pivot (getI v e) = true := (hd.lt_iff _ _).2 hlt
        simp [scanDown, rd_eq (by omega : 0 ≤ e) he, hlt', h5 f (by omega)]
    · refine ⟨e, hje, le_refl _, by omega, fun i h1 h2 => by omega, ?_⟩
      intro fuel hf
      obtain ⟨f, rfl⟩ : ∃ f, fuel = f + 1 := ⟨fuel - 1, by omega⟩
      have hlt' : lt pivot (getI v e) = false := by
        rw [Bool.eq_false_iff, Ne, hd.lt_iff]; omega
      simp [scanDown, rd_eq (by omega : 0 ≤ e) he, hlt']

theorem partitionLoop_exit {key : Int → Int} (lt : Int → Int → Bool)
    {pivot s0 e0 s e : Int} {v cl : List Int} (hI : PInv key pivot s0 e0 s e v cl)
    (hse : ¬ s < e) :
    (∀ fuel, 1 ≤ fuel → partitionLoop lt fuel pivot s e v cl = some (e, v, cl)) ∧
      PPost key pivot s0 e0 e v := by
  constructor
  · intro fuel hf
    obtain ⟨f, rfl⟩ : ∃ f, fuel = f + 1 := ⟨fuel - 1, by omega⟩
    simp [partitionLoop, hse]
  · refine ⟨hI.hse, hI.hee, ?_, fun i h1 h2 => hI.left i h1 (by omega), hI.right⟩
    rcases hI.piv with ⟨h1, h2⟩ | ⟨_, h2⟩
    · have : s = e := by omega
      subst this
      rcases h2 with h | h <;> exact h
    · exact h2

theorem partitionLoop_spec {key : Int → Int} {lt : Int → Int → Bool} (hd : Dir key lt)
    (pivot s0 e0 : Int) : ∀ (n : Nat) (s e : Int) (v cl : List Int),
      PInv key pivot s0 e0 s e v cl → measureP key pivot s e v ≤ n →
      ∃ p v' cl', (∀ fuel, n + 2 ≤ fuel →
          partitionLoop lt fuel pivot s e v cl = some (p, v', cl')) ∧
        PPost key pivot s0 e0 p v' ∧ Rearranged s0 e0 v cl v' cl' := by
  intro n
  induction n with
  | zero =>
    intro s e v cl hI hm
    have hse : ¬ s < e := by
      intro h
      have : 1 ≤ (e - s).toNat := by omega
      simp only [measureP] at hm
      omega
    obtain ⟨h1, h2⟩ := partitionLoop_exit lt hI hse
    exact ⟨e, v, cl, fun fuel hf => h1 fuel (by omega), h2, Rearranged.refl _ _ _ _⟩
  | succ n ih =>
    intro s e v cl hI hm
    by_cases hse : s < e
    swap
    · obtain ⟨h1, h2⟩ := partitionLoop_exit lt hI hse
      exact ⟨e, v, cl, fun fuel hf => h1 fuel (by omega), h2, Rearranged.refl _ _ _ _⟩
    have hpiv : getI v s = pivot ∨ getI v e = pivot := by
      rcases hI.piv with ⟨_, h⟩ | ⟨h, _⟩
      · exact h
      · omega
    have hm2 : 2 * (e - s).toNat ≤ n + 1 := by
      simp only [measureP] at hm; omega
    have hv := hI.hv
    have hc := hI.hc
    have hs0 := hI.hs0
    have hss := hI.hss
    have hee := hI.hee
    -- the two inner scans
    obtain ⟨s', hu1, hu2, hu3, hu4, hu5⟩ :
        ∃ s', s ≤ s' ∧ s' ≤ e ∧ key pivot ≤ key (getI v s') ∧
        (∀ i, s ≤ i → i < s' → key (getI v i) < key pivot) ∧
        ∀ fuel, (e - s).toNat + 1 ≤ fuel → scanUp lt fuel v pivot s = some s' := by
      rcases hpiv with h | h
      · obtain ⟨s', a1, a2, a3, a4, a5⟩ := scanUp_spec hd v pivot (e - s).toNat s s
          (by omega) (le_refl _) (by omega) (by omega) (by rw [h])
        exact ⟨s', a1, by omega, a3, a4, a5⟩
      · exact scanUp_spec hd v pivot (e - s).toNat s e (by omega) (by omega) (by omega)
          (le_refl _) (by rw [h])
    have hs's : key pivot ≤ key (getI v s) → s' = s := by
      intro h
      by_contra hne
      have := hu4 s (le_refl _) (by omega)
      omega
    obtain ⟨e', hd1, hd2, hd3, hd4, hd5⟩ :
        ∃ e', s' ≤ e' ∧ e' ≤ e ∧ key (getI v e') ≤ key pivot ∧
        (∀ i, e' < i → i ≤ e → key pivot < key (getI v i)) ∧
        ∀ fuel, (e - s).toNat + 1 ≤ fuel → scanDown lt fuel v pivot e = some e' := by
      rcases hpiv with h | h
      · have hss' : s' = s := hs's (by rw [h])
        obtain ⟨e', a1, a2, a3, a4, a5⟩ := scanDown_spec hd v pivot (e - s).toNat e s
          (by omega) (by omega) (by omega) (le_refl _) (by rw [h])
        exact ⟨e', by omega, a2, a3, a4, a5⟩
      · obtain ⟨e', a1, a2, a3, a4, a5⟩ := scanDown_spec hd v pivot (e - s).toNat e e
          (by omega) (le_refl _) (by omega) (by omega) (by rw [h])
        exact ⟨e', by omega, a2, a3, a4, a5⟩
    have he'e : key (getI v e) ≤ key pivot → e' = e := by
      intro h
      by_contra hne
      have := hd4 e (by omega) (le_refl _)
      omega
    have hrs : rd v s' = some (getI v s') := rd_eq (by omega) (by omega)
    have hre : rd v e' = some (getI v e') := rd_eq (by omega) (by omega)
    by_cases hab : getI v s' = getI v e'
    · -- equal elements: `start++`
      have hkp : key (getI v s') = key pivot := by rw [hab] at hu3 ⊢; omega
      have hsp : getI v s' = pivot := hd.inj _ _ hkp
      have hI' : PInv key pivot s0 e0 (s' + 1) e' v cl := by
        refine ⟨hs0, by omega, by omega, by omega, hv, hc, ?_, ?_, ?_⟩
        · intro i h1 h2
          by_cases c1 : i < s
          · exact hI.left i h1 c1
          · by_cases c2 : i = s'
            · rw [c2, hkp]
            · exact le_of_lt (hu4 i (by omega) (by omega))
        · intro i h1 h2
          by_cases c1 : e < i
          · exact hI.right i c1 h2
          · exact le_of_lt (hd4 i h1 (by omega))
        · by_cases c : s' + 1 ≤ e'
          · exact Or.inl ⟨c, Or.inr (hab ▸ hsp)⟩
          · exact Or.inr ⟨by omega, hab ▸ hsp⟩
      have hm' : measureP key pivot (s' + 1) e' v ≤ n := by
        simp only [measureP]
        split_ifs <;> omega
      obtain ⟨p, v', cl', r1, r2, r3⟩ := ih (s' + 1) e' v cl hI' hm'
      refine ⟨p, v', cl', ?_, r2, r3⟩
      intro fuel hf
      obtain ⟨f, rfl⟩ : ∃ f, fuel = f + 1 := ⟨fuel - 1, by omega⟩
      simp [partitionLoop, hse, hu5 f (by omega), hd5 f (by omega), hrs, hre, hab,
        r1 f (by omega)]
    · -- different elements: swap
      have hlt : s' < e' := by
        by_contra hcon
        have : s' = e' := by omega
        exact hab (by rw [this])
      have hpiv' : getI v e' = pivot ∨ getI v s' = pivot := by
        rcases hpiv with h | h
        · right; rw [hs's (by rw [h])]; exact h
        · left; rw [he'e (by rw [h])]; exact h
      have gs := getI_swp (a := v) (i := s') (j := e') (by omega) (by omega) (by omega)
        (by omega)
      have g1 : getI (swp v s' e') s' = getI v e' := by
        rw [gs s' (by omega), if_neg (by omega), if_pos rfl]
      have g2 : getI (swp v s' e') e' = getI v s' := by
        rw [gs e' (by omega), if_pos rfl]
      have hI' : PInv key pivot s0 e0 s' e' (swp v s' e') (swp cl s' e') := by
        refine ⟨hs0, by omega, by omega, by omega, by rw [length_swp]; exact hv,
          by rw [length_swp]; exact hc, ?_, ?_, ?_⟩
        · intro i h1 h2
          rw [gs i (by omega), if_neg (by omega), if_neg (by omega)]
          by_cases c1 : i < s
          · exact hI.left i h1 c1
          · exact le_of_lt (hu4 i (by omega) (by omega))
        · intro i h1 h2
          rw [gs i (by omega), if_neg (by omega), if_neg (by omega)]
          by_cases c1 : e < i
          · exact hI.right i c1 h2
          · exact le_of_lt (hd4 i h1 (by omega))
        · refine Or.inl ⟨by omega, ?_⟩
          rw [g1, g2]
          exact hpiv'
      have hm' : measureP key pivot s' e' (swp v s' e') ≤ n := by
        simp only [measureP] at hm ⊢
        rw [g1, g2]
        by_cases c : s' = s ∧ e' = e
        · obtain ⟨c1, c2⟩ := c
          subst c1 c2
          have hne : key (getI v s') ≠ key (getI v e') := fun h => hab (hd.inj _ _ h)
          rw [if_pos ⟨hu3, hd3⟩] at hm
          rw [if_neg (by omega)]
          omega
        · split_ifs <;> omega
      obtain ⟨p, v', cl', r1, r2, r3⟩ := ih s' e' _ _ hI' hm'
      refine ⟨p, v', cl', ?_, r2, ?_⟩
      · intro fuel hf
        obtain ⟨f, rfl⟩ : ∃ f, fuel = f + 1 := ⟨fuel - 1, by omega⟩
        have w1 : swapAt v s' e' = some (swp v s' e') :=
          swapAt_eq (by omega) (by omega) (by omega) (by omega)
        have w2 : swapAt cl s' e' = some (swp cl s' e') :=
          swapAt_eq (by omega) (by omega) (by omega) (by omega)
        simp [partitionLoop, hse, hu5 f (by omega), hd5 f (by omega), hrs, hre, hab, hlt,
          w1, w2, r1 f (by omega)]
      · exact Rearranged.trans (Rearranged.swp v cl hs0 (by omega) hlt (by omega) hv hc) r3
          (le_refl _) (le_refl _) (le_refl _) (le_refl _)

/-! ### Quicksort -/

theorem Rearranged.getI_outside {s e : Int} {v cl v' cl' : List Int}
    (h : Rearranged s e v cl v' cl') (i : Int) (h0 : 0 ≤ i) (hi : i < s ∨ e < i) :
    getI v' i = getI v i ∧ getI cl' i = getI cl i := by
  have := h.outside i.toNat (by omega)
  simp only [getI, List.getD_eq_getElem?_getD, this.1, this.2, and_self]

theorem Rearranged.exists_index {s e : Int} {v cl v' cl' : List Int}
    (h : Rearranged s e v cl v' cl') (hs : 0 ≤ s) (hv : e < v.length) (hc : e < cl.length)
    (i : Int) (h1 : s ≤ i) (h2 : i ≤ e) :
    ∃ j, s ≤ j ∧ j ≤ e ∧ getI v' i = getI v j ∧ getI cl' i = getI cl j := by
  have hm : (getI v' i, getI cl' i) ∈ segPairs s e v' cl' :=
    (mem_segPairs hs (by rw [h.lenV]; exact hv) (by rw [h.lenC]; exact hc) _).2
      ⟨i, h1, h2, rfl⟩
  obtain ⟨j, j1, j2, j3⟩ := (mem_segPairs hs hv hc _).1 ((h.segPairs_perm hs).subset hm)
  simp only [Prod.mk.injEq] at j3
  exact ⟨j, j1, j2, j3.1, j3.2⟩

theorem partitionInt_spec {key : Int → Int} {lt : Int → Int → Bool} (hd : Dir key lt)
    (s e : Int) (v cl : List Int) (hs : 0 ≤ s) (hse : s ≤ e) (hv : e < v.length)
    (hc : e < cl.length) :
    ∃ p v' cl', (∀ fuel, 2 * (e - s).toNat + 3 ≤ fuel →
        partitionInt lt fuel s e v cl = some (p, v', cl')) ∧
      PPost key (getI v e) s e p v' ∧ Rearranged s e v cl v' cl' := by
  have hI : PInv key (getI v e) s e s e v cl :=
    ⟨hs, le_refl _, le_refl _, hse, hv, hc, fun i h1 h2 => by omega, fun i h1 h2 => by omega,
      Or.inl ⟨hse, Or.inr rfl⟩⟩
  have hm : measureP key (getI v e) s e v ≤ 2 * (e - s).toNat + 1 := by
    simp only [measureP]; split_ifs <;> omega
  obtain ⟨p, v', cl', r1, r2, r3⟩ := partitionLoop_spec hd (getI v e) s e _ s e v cl hI hm
  refine ⟨p, v', cl', ?_, r2, r3⟩
  intro fuel hf
  simp [partitionInt, rd_eq (by omega : 0 ≤ e) hv, r1 fuel (by omega)]

theorem quicksortInt_spec {key : Int → Int} {lt : Int → Int → Bool} (hd : Dir key lt) :
    ∀ (n : Nat) (s e : Int) (v cl : List Int), 0 ≤ s → e < v.length → e < cl.length →
      (e - s + 1).toNat ≤ n →
      ∃ v' cl', (∀ fuel, 2 * n + 2 ≤ fuel → quicksortInt lt fuel s e v cl = some (v', cl')) ∧
        Rearranged s e v cl v' cl' ∧ SortedSeg key s e v' := by
  intro n
  induction n with
  | zero =>
    intro s e v cl hs hv hc hn
    refine ⟨v, cl, ?_, Rearranged.refl _ _ _ _, fun i j h1 h2 h3 => by omega⟩
    intro fuel hf
    obtain ⟨f, rfl⟩ : ∃ f, fuel = f + 1 := ⟨fuel - 1, by omega⟩
    have hse : ¬ s < e := by omega
    simp [quicksortInt, hse]
  | succ n ih =>
    intro s e v cl hs hv hc hn
    by_cases hse : s < e
    swap
    · refine ⟨v, cl, ?_, Rearranged.refl _ _ _ _, ?_⟩
      · intro fuel hf
        obtain ⟨f, rfl⟩ : ∃ f, fuel = f + 1 := ⟨fuel - 1, by omega⟩
        simp [quicksortInt, hse]
      · intro i j h1 h2 h3
        have : i = j := by omega
        rw [this]
    obtain ⟨p, v1, c1, a1, a2, a3⟩ := partitionInt_spec hd s e v cl hs (le_of_lt hse) hv hc
    have hv1 : e < v1.length := by rw [a3.lenV]; exact hv
    have hc1 : e < c1.length := by rw [a3.lenC]; exact hc
    have hplo := a2.lo
    have hphi := a2.hi
    obtain ⟨v2, c2, b1, b2, b3⟩ := ih s (p - 1) v1 c1 hs (by omega) (by omega) (by omega)
    have hv2 : e < v2.length := by rw [b2.lenV]; exact hv1
    have hc2 : e < c2.length := by rw [b2.lenC]; exact hc1
    obtain ⟨v3, c3, d1, d2, d3⟩ := ih (p + 1) e v2 c2 (by omega) hv2 hc2 (by omega)
    refine ⟨v3, c3, ?_, ?_, ?_⟩
    · intro fuel hf
      obtain ⟨f, rfl⟩ : ∃ f, fuel = f + 1 := ⟨fuel - 1, by omega⟩
      simp [quicksortInt, hse, a1 f (by omega), b1 f (by omega), d1 f (by omega)]
    · exact Rearranged.trans a3 (Rearranged.trans b2 d2 (le_refl _) (by omega) (by omega)
        (le_refl _)) (le_refl _) (le_refl _) (le_refl _) (le_refl _)
    · -- the three zones of the final array
      have zL : ∀ i, s ≤ i → i < p → getI v3 i = getI v2 i ∧
          key (getI v2 i) ≤ key (getI v e) := by
        intro i h1 h2
        refine ⟨(d2.getI_outside i (by omega) (Or.inl (by omega))).1, ?_⟩
        obtain ⟨j, j1, j2, j3, _⟩ := b2.exists_index hs (by omega) (by omega) i h1 (by omega)
        rw [j3]
        exact a2.left j j1 (by omega)
      have zP : getI v3 p = getI v e := by
        rw [(d2.getI_outside p (by omega) (Or.inl (by omega))).1,
          (b2.getI_outside p (by omega) (Or.inr (by omega))).1]
        exact a2.atp
      have zR : ∀ i, p < i → i ≤ e → key (getI v e) ≤ key (getI v3 i) := by
        intro i h1 h2
        obtain ⟨j, j1, j2, j3, _⟩ := d2.exists_index (by omega) hv2 hc2 i (by omega) h2
        rw [j3, (b2.getI_outside j (by omega) (Or.inr (by omega))).1]
        exact a2.right j (by omega) j2
      intro i j h1 h2 h3
      rcases lt_trichotomy i p with hi | hi | hi
      · rcases lt_trichotomy j p with hj | hj | hj
        · rw [(zL i h1 hi).1, (zL j (by omega) hj).1]
          exact b3 i j h1 h2 (by omega)
        · rw [hj, zP, (zL i h1 hi).1]
          exact (zL i h1 hi).2
        · rw [(zL i h1 hi).1]
          exact le_trans (zL i h1 hi).2 (zR j hj h3)
      · rcases lt_or_eq_of_le h2 with hj | hj
        · rw [hi, zP]
          exact zR j (by omega) h3
        · rw [hj]
      · exact d3 i j (by omega) h2 h3

/-! ### Quicksort: the sorted segment and the permutation (C8, C9) -/

theorem rd_of_segment {v : List Int} {i : Int} (h0 : 0 ≤ i) (h1 : i < v.length) :
    rd v i = some (getI v i) := rd_eq h0 h1

theorem rd_congr_of_getElem? {v v' : List Int} (i : Int) (h : v'[i.toNat]? = v[i.toNat]?) :
    rd v' i = rd v i := by
  simp only [rd, h]

/-- C8: on every in-range segment `start <= end` of a pair of parallel arrays (duplicates
allowed), `quicksortIncrInt` returns (given enough fuel) with `valList[start..end]` in
non-decreasing order, and `quicksortDecrInt` returns with it in non-increasing order. -/
theorem quicksort_sorts (valList countList : List Int) (start end_ : Int)
    (h0 : 0 ≤ start) (_hse : start ≤ end_) (hv : end_ < valList.length)
    (hc : end_ < countList.length) :
    (∃ v' c', (∀ fuel, 2 * (end_ - start + 1).toNat + 2 ≤ fuel →
          quicksortIncrInt fuel start end_ valList countList = some (v', c')) ∧
        ∀ i j, start ≤ i → i ≤ j → j ≤ end_ →
          ∃ a b, rd v' i = some a ∧ rd v' j = some b ∧ a ≤ b) ∧
    (∃ v' c', (∀ fuel, 2 * (end_ - start + 1).toNat + 2 ≤ fuel →
          quicksortDecrInt fuel start end_ valList countList = some (v', c')) ∧
        ∀ i j, start ≤ i → i ≤ j → j ≤ end_ →
          ∃ a b, rd v' i = some a ∧ rd v' j = some b ∧ b ≤ a) := by
  constructor
  · obtain ⟨v', c', r1, r2, r3⟩ := quicksortInt_spec dir_incr (end_ - start + 1).toNat
      start end_ valList countList h0 hv hc (le_refl _)
    refine ⟨v', c', r1, ?_⟩
    intro i j h1 h2 h3
    have hl : end_ < v'.length := by rw [r2.lenV]; exact hv
    exact ⟨_, _, rd_eq (by omega) (by omega), rd_eq (by omega) (by omega), r3 i j h1 h2 h3⟩
  · obtain ⟨v', c', r1, r2, r3⟩ := quicksortInt_spec dir_decr (end_ - start + 1).toNat
      start end_ valList countList h0 hv hc (le_refl _)
    refine ⟨v', c', r1, ?_⟩
    intro i j h1 h2 h3
    have hl : end_ < v'.length := by rw [r2.lenV]; exact hv
    have : -getI v' i ≤ -getI v' j := r3 i j h1 h2 h3
    exact ⟨_, _, rd_eq (by omega) (by omega), rd_eq (by omega) (by omega), by omega⟩

/-- Witness for `quicksort_sorts`: the arrays `[3,1,2,3,1]` / `[10,20,30,40,50]`, segment `1..4`. -/
theorem quicksort_sorts_witness :
    (∃ v' c', (∀ fuel, 2 * ((4 : Int) - 1 + 1).toNat + 2 ≤ fuel →
          quicksortIncrInt fuel 1 4 [3, 1, 2, 3, 1] [10, 20, 30, 40, 50] = some (v', c')) ∧
        ∀ i j, (1 : Int) ≤ i → i ≤ j → j ≤ 4 →
          ∃ a b, rd v' i = some a ∧ rd v' j = some b ∧ a ≤ b) ∧
    (∃ v' c', (∀ fuel, 2 * ((4 : Int) - 1 + 1).toNat + 2 ≤ fuel →
          quicksortDecrInt fuel 1 4 [3, 1, 2, 3, 1] [10, 20, 30, 40, 50] = some (v', c')) ∧
        ∀ i j, (1 : Int) ≤ i → i ≤ j → j ≤ 4 →
          ∃ a b, rd v' i = some a ∧ rd v' j = some b ∧ b ≤ a) :=
  quicksort_sorts [3, 1, 2, 3, 1] [10, 20, 30, 40, 50] 1 4 (by decide) (by decide)
    (by decide) (by decide)

theorem quicksortInt_permutes {key : Int → Int} {lt : Int → Int → Bool} (hd : Dir key lt)
    (valList countList : List Int) (start end_ : Int)
    (h0 : 0 ≤ start) (hv : end_ < valList.length) (hc : end_ < countList.length) :
    ∃ v' c', (∀ fuel, 2 * (end_ - start + 1).toNat + 2 ≤ fuel →
        quicksortInt lt fuel start end_ valList countList = some (v', c')) ∧
      v'.length = valList.length ∧ c'.length = countList.length ∧
      (segPairs start end_ v' c').Perm (segPairs start end_ valList countList) ∧
      ∀ i : Int, (i < start ∨ end_ < i) → rd v' i = rd valList i ∧ rd c' i = rd countList i := by
  obtain ⟨v', c', r1, r2, _⟩ := quicksortInt_spec hd (end_ - start + 1).toNat
    start end_ valList countList h0 hv hc (le_refl _)
  refine ⟨v', c', r1, r2.lenV, r2.lenC, r2.segPairs_perm h0, ?_⟩
  intro i hi
  by_cases hneg : 0 ≤ i
  · have := r2.outside i.toNat (by omega)
    exact ⟨rd_congr_of_getElem? i this.1, rd_congr_of_getElem? i this.2⟩
  · simp [rd, hneg]

/-- C9: on every in-range segment `start <= end` of a pair of parallel arrays,
`quicksortIncrInt` and `quicksortDecrInt` move the entries of `valList` and `countList`
together: the pairs `(valList[i], countList[i])` with `i` in `start..end` are the same multiset
before and after, the array lengths are kept, and every entry outside `start..end` is unchanged. -/
theorem quicksort_permutes (valList countList : List Int) (start end_ : Int)
    (h0 : 0 ≤ start) (_hse : start ≤ end_) (hv : end_ < valList.length)
    (hc : end_ < countList.length) :
    (∃ v' c', (∀ fuel, 2 * (end_ - start + 1).toNat + 2 ≤ fuel →
          quicksortIncrInt fuel start end_ valList countList = some (v', c')) ∧
        v'.length = valList.length ∧ c'.length = countList.length ∧
        (segPairs start end_ v' c').Perm (segPairs start end_ valList countList) ∧
        ∀ i : Int, (i < start ∨ end_ < i) →
          rd v' i = rd valList i ∧ rd c' i = rd countList i) ∧
    (∃ v' c', (∀ fuel, 2 * (end_ - start + 1).toNat + 2 ≤ fuel →
          quicksortDecrInt fuel start end_ valList countList = some (v', c')) ∧
        v'.length = valList.length ∧ c'.length = countList.length ∧
        (segPairs start end_ v' c').Perm (segPairs start end_ valList countList) ∧
        ∀ i : Int, (i < start ∨ end_ < i) →
          rd v' i = rd valList i ∧ rd c' i = rd countList i) :=
  ⟨quicksortInt_permutes dir_incr valList countList start end_ h0 hv hc,
    quicksortInt_permutes dir_decr valList countList start end_ h0 hv hc⟩

/-- Witness for `quicksort_permutes`: the arrays `[3,1,2,3,1]` / `[10,20,30,40,50]`,
segment `1..4`. -/
theorem quicksort_permutes_witness :
    (∃ v' c', (∀ fuel, 2 * ((4 : Int) - 1 + 1).toNat + 2 ≤ fuel →
          quicksortIncrInt fuel 1 4 [3, 1, 2, 3, 1] [10, 20, 30, 40, 50] = some (v', c')) ∧
        v'.length = [3, 1, 2, 3, (1 : Int)].length ∧
        c'.length = [10, 20, 30, 40, (50 : Int)].length ∧
        (segPairs 1 4 v' c').Perm (segPairs 1 4 [3, 1, 2, 3, 1] [10, 20, 30, 40, 50]) ∧
        ∀ i : Int, (i < 1 ∨ 4 < i) →
          rd v' i = rd [3, 1, 2, 3, 1] i ∧ rd c' i = rd [10, 20, 30, 40, 50] i) ∧
    (∃ v' c', (∀ fuel, 2 * ((4 : Int) - 1 + 1).toNat + 2 ≤ fuel →
          quicksortDecrInt fuel 1 4 [3, 1, 2, 3, 1] [10, 20, 30, 40, 50] = some (v', c')) ∧
        v'.length = [3, 1, 2, 3, (1 : Int)].length ∧
        c'.length = [10, 20, 30, 40, (50 : Int)].length ∧
        (segPairs 1 4 v' c').Perm (segPairs 1 4 [3, 1, 2, 3, 1] [10, 20, 30, 40, 50]) ∧
        ∀ i : Int, (i < 1 ∨ 4 < i) →
          rd v' i = rd [3, 1, 2, 3, 1] i ∧ rd c' i = rd [10, 20, 30, 40, 50] i) :=
  quicksort_permutes [3, 1, 2, 3, 1] [10, 20, 30, 40, 50] 1 4 (by decide) (by decide)
    (by decide) (by decide)

/-! ### The neighbour lists of `readInput` (C10) -/

theorem mem_forRange {lo hi x : Int} : x ∈ forRange lo hi ↔ lo ≤ x ∧ x < hi := by
  simp only [forRange, List.mem_map, List.mem_range]
  constructor
  · rintro ⟨k, hk, rfl⟩
    omega
  · rintro ⟨h1, h2⟩
    exact ⟨(x - lo).toNat, by omega, by omega⟩

theorem nodup_forRange (lo hi : Int) : (forRange lo hi).Nodup := by
  apply List.Nodup.map _ (List.nodup_range _)
  intro a b h
  simpa using h

theorem length_forRange (lo hi : Int) : (forRange lo hi).length = (hi - lo).toNat := by
  simp [forRange]

theorem forRange_zero_map_getI (l : List Int) (m : Int) (h : l.length = m.toNat) :
    (forRange 0 m).map (getI l) = l := by
  apply List.ext_getElem
  · simp [forRange, h]
  · intro k h1 h2
    simp [forRange, getI, List.getD_eq_getElem?_getD, List.getElem?_eq_getElem h2]

theorem mapM_eq_some_map {α β : Type} (f : α → Option β) (g : α → β) :
    ∀ l : List α, (∀ x ∈ l, f x = some (g x)) → l.mapM f = some (l.map g)
  | [], _ => rfl
  | a :: l, h => by
    have h1 := h a (List.mem_cons_self _ _)
    have h2 := mapM_eq_some_map f g l (fun x hx => h x (List.mem_cons_of_mem _ hx))
    rw [List.mapM_cons, h1, h2]
    rfl

theorem fillNeighbours_fold (distance : Int → Int → Int) (index1 : Int) :
    ∀ (l : List Int) (acc : List Int × List Int),
      l.foldl (fun (acc : List Int × List Int) index2 =>
          if index2 ≠ index1 then (acc.1 ++ [index2 + 1], acc.2 ++ [distance index1 index2])
          else acc) acc
        = (acc.1 ++ (l.filter (· ≠ index1)).map (· + 1),
            acc.2 ++ (l.filter (· ≠ index1)).map (distance index1))
  | [], acc => by simp
  | a :: l, acc => by
    rw [List.foldl_cons, fillNeighbours_fold distance index1 l]
    by_cases h : a = index1
    · simp [h]
    · simp [h]

theorem fillNeighbours_eq (numberNodes : Int) (distance : Int → Int → Int) (index1 : Int) :
    fillNeighbours numberNodes distance index1
      = (((forRange 1 numberNodes).filter (· ≠ index1)).map (· + 1),
          ((forRange 1 numberNodes).filter (· ≠ index1)).map (distance index1)) := by
  unfold fillNeighbours
  rw [fillNeighbours_fold]
  simp

theorem length_filter_ne {numberNodes index1 : Int} (h1 : 1 ≤ index1)
    (h2 : index1 < numberNodes) :
    ((forRange 1 numberNodes).filter (· ≠ index1)).length = (numberNodes - 2).toNat := by
  have hm : index1 ∈ forRange 1 numberNodes := mem_forRange.2 ⟨h1, h2⟩
  have e : (List.filter (fun x => decide (x ≠ index1)) (forRange 1 numberNodes))
      = (forRange 1 numberNodes).erase index1 := by
    rw [(nodup_forRange 1 numberNodes).erase_eq_filter index1]
    congr 1
    funext x
    by_cases hx : x = index1 <;> simp [hx]
  rw [e, List.length_erase_of_mem hm, length_forRange]
  omega

theorem getI_map (f : Int → Int) (l : List Int) (j : Int) (h : j.toNat < l.length) :
    getI (l.map f) j = f (getI l j) := by
  simp [getI, List.getD_eq_getElem?_getD, List.getElem?_eq_getElem h]

theorem nodeDistRow_spec (numberNodes : Int) (distance : Int → Int → Int) (index1 : Int)
    (h1 : 1 ≤ index1) (h2 : index1 < numberNodes) :
    ∃ row, (∀ fuel, 2 * numberNodes.toNat ≤ fuel →
        nodeDistRow fuel numberNodes distance index1 = some row) ∧
      RowSpec numberNodes distance index1 row := by
  have hlen := length_filter_ne h1 h2
  generalize hF : (forRange 1 numberNodes).filter (· ≠ index1) = F at hlen
  have hl1 : (F.map (· + 1)).length = (numberNodes - 2).toNat := by simpa using hlen
  have hl2 : (F.map (distance index1)).length = (numberNodes - 2).toNat := by simpa using hlen
  obtain ⟨v', c', r1, r2, r3⟩ := quicksortInt_spec dir_incr (numberNodes - 2).toNat 0
    (numberNodes - 3) (F.map (distance index1)) (F.map (· + 1)) (le_refl _)
    (by rw [hl2]; omega) (by rw [hl1]; omega) (by omega)
  have hc' : c'.length = (numberNodes - 2).toNat := by rw [r2.lenC]; exact hl1
  refine ⟨c', ?_, hc', ?_, ?_⟩
  · intro fuel hf
    have hm : (forRange 0 (numberNodes - 2)).mapM (fun index2 => rd c' index2)
        = some ((forRange 0 (numberNodes - 2)).map (getI c')) := by
      apply mapM_eq_some_map
      intro x hx
      rw [mem_forRange] at hx
      exact rd_eq hx.1 (by omega)
    rw [forRange_zero_map_getI c' _ hc'] at hm
    simp only [nodeDistRow, fillNeighbours_eq, hF, quicksortIncrInt]
    rw [r1 fuel (by omega)]
    exact hm
  · have hp := r2.perm.map Prod.snd
    rw [List.map_snd_zip, List.map_snd_zip] at hp
    · rw [hF]; exact hp
    · rw [hl1, hl2]
    · rw [r2.lenV, r2.lenC, hl1, hl2]
  · intro a b ha hab hb
    have key : ∀ k, 0 ≤ k → k < numberNodes - 2 →
        getI v' k = distance index1 (getI c' k - 1) := by
      intro k hk0 hk1
      obtain ⟨j, j1, j2, j3, j4⟩ := r2.exists_index (le_refl _) (by rw [hl2]; omega)
        (by rw [hl1]; omega) k hk0 (by omega)
      have hj : j.toNat < F.length := by omega
      rw [j3, j4, getI_map _ _ _ hj, getI_map _ _ _ hj]
      simp
    rw [← key a ha (by omega), ← key b (by omega) hb]
    exact r3 a b ha hab (by omega)

theorem readInputNeighbours_fold (numberNodes : Int) (distance : Int → Int → Int)
    (rowOf : Int → List Int)
    (hrow : ∀ i, 1 ≤ i → i < numberNodes → ∀ fuel, 2 * numberNodes.toNat ≤ fuel →
      nodeDistRow fuel numberNodes distance i = some (rowOf i)) :
    ∀ (l : List Int) (t0 : Int → Int → Int), (∀ i ∈ l, 1 ≤ i ∧ i < numberNodes) → l.Nodup →
      ∃ t, (∀ fuel, 2 * numberNodes.toNat ≤ fuel →
          l.foldlM (fun (nodeDistList : Int → Int → Int) index1 => do
            let row ← nodeDistRow fuel numberNodes distance index1
            pure fun a b =>
              if a = index1 ∧ 0 ≤ b ∧ b < numberNodes - 2 then row.getD b.toNat 0
              else nodeDistList a b) t0 = some t) ∧
        (∀ i ∈ l, ∀ k, 0 ≤ k → k < numberNodes - 2 → t i k = getI (rowOf i) k) ∧
        (∀ i, i ∉ l → t i = t0 i)
  | [], t0, _, _ => ⟨t0, fun _ _ => rfl, fun i hi => by simp at hi, fun _ _ => rfl⟩
  | a :: l, t0, hmem, hnd => by
    have ha := hmem a (List.mem_cons_self _ _)
    obtain ⟨t, r1, r2, r3⟩ := readInputNeighbours_fold numberNodes distance rowOf hrow l
      (fun x y => if x = a ∧ 0 ≤ y ∧ y < numberNodes - 2 then (rowOf a).getD y.toNat 0
        else t0 x y)
      (fun i hi => hmem i (List.mem_cons_of_mem _ hi)) (List.nodup_cons.1 hnd).2
    have hal : a ∉ l := (List.nodup_cons.1 hnd).1
    refine ⟨t, ?_, ?_, ?_⟩
    · intro fuel hf
      rw [List.foldlM_cons, hrow a ha.1 ha.2 fuel hf]
      exact r1 fuel hf
    · intro i hi k hk0 hk1
      rcases List.mem_cons.1 hi with rfl | hi'
      · rw [r3 i hal]
        simp [hk0, hk1, getI]
      · exact r2 i hi' k hk0 hk1
    · intro i hi
      rw [List.mem_cons, not_or] at hi
      rw [r3 i hi.2]
      funext y
      simp [hi.1]

theorem count_customers (numberNodes i x : Int) :
    (((forRange 1 numberNodes).filter (· ≠ i)).map (· + 1)).count x
      = if 2 ≤ x ∧ x ≤ numberNodes ∧ x ≠ i + 1 then 1 else 0 := by
  have hnd : (((forRange 1 numberNodes).filter (· ≠ i)).map (· + 1)).Nodup := by
    apply List.Nodup.map
    · intro a b h
      simpa using h
    · exact (nodup_forRange _ _).filter _
  rw [List.count_eq_of_nodup hnd]
  have hmem : x ∈ ((forRange 1 numberNodes).filter (· ≠ i)).map (· + 1)
      ↔ (2 ≤ x ∧ x ≤ numberNodes ∧ x ≠ i + 1) := by
    simp only [List.mem_map, List.mem_filter, mem_forRange, decide_eq_true_eq]
    constructor
    · rintro ⟨y, ⟨⟨h1, h2⟩, h3⟩, rfl⟩
      exact ⟨by omega, by omega, by omega⟩
    · rintro ⟨h1, h2, h3⟩
      exact ⟨x - 1, ⟨⟨by omega, by omega⟩, by omega⟩, by omega⟩
  simp only [hmem]

/-- The table that `readInput` builds, row by row: the first `numberNodes-2` entries of the row
of every customer `i` are the entries of a list `rowOf i` that satisfies `RowSpec`. -/
theorem readInputNeighbours_rows (numberNodes : Int) (distance : Int → Int → Int) :
    ∃ (nodeDistList : Int → Int → Int) (rowOf : Int → List Int),
      (∀ fuel, 2 * numberNodes.toNat ≤ fuel →
        readInputNeighbours fuel numberNodes distance = some nodeDistList) ∧
      ∀ i, 1 ≤ i → i < numberNodes →
        RowSpec numberNodes distance i (rowOf i) ∧
        ∀ k, 0 ≤ k → k < numberNodes - 2 → nodeDistList i k = getI (rowOf i) k := by
  have hrows : ∀ i, ∃ row, 1 ≤ i → i < numberNodes →
      (∀ fuel, 2 * numberNodes.toNat ≤ fuel →
        nodeDistRow fuel numberNodes distance i = some row) ∧
      RowSpec numberNodes distance i row := by
    intro i
    by_cases h : 1 ≤ i ∧ i < numberNodes
    · obtain ⟨row, r1, r2⟩ := nodeDistRow_spec numberNodes distance i h.1 h.2
      exact ⟨row, fun _ _ => ⟨r1, r2⟩⟩
    · exact ⟨[], fun h1 h2 => absurd ⟨h1, h2⟩ h⟩
  choose rowOf hrowOf using hrows
  obtain ⟨t, r1, r2, _⟩ := readInputNeighbours_fold numberNodes distance rowOf
    (fun i h1 h2 => (hrowOf i h1 h2).1) (forRange 1 numberNodes) (fun _ _ => 0)
    (fun i hi => mem_forRange.1 hi) (nodup_forRange _ _)
  exact ⟨t, rowOf, r1, fun i h1 h2 =>
    ⟨(hrowOf i h1 h2).2, r2 i (mem_forRange.2 ⟨h1, h2⟩)⟩⟩

/-- C10: `readInput` returns (given enough fuel) a table `nodeDistList` such that, for every
customer index `i` in `1..numberNodes-1`, the first `numberNodes-2` entries of
`nodeDistList[i]` contain the 1-based id `j+1` of every customer `j` other than `i` exactly
once, contain neither `i+1` nor the depot id `1` nor any other value, and are in non-decreasing
order of `distance[i][.]`. -/
theorem readInput_neighbour_lists (numberNodes : Int) (distance : Int → Int → Int) :
    ∃ nodeDistList, (∀ fuel, 2 * numberNodes.toNat ≤ fuel →
        readInputNeighbours fuel numberNodes distance = some nodeDistList) ∧
      ∀ i, 1 ≤ i → i < numberNodes →
        (∀ x, ((forRange 0 (numberNodes - 2)).map (nodeDistList i)).count x
            = if 2 ≤ x ∧ x ≤ numberNodes ∧ x ≠ i + 1 then 1 else 0) ∧
        ∀ a b, 0 ≤ a → a ≤ b → b < numberNodes - 2 →
          distance i (nodeDistList i a - 1) ≤ distance i (nodeDistList i b - 1) := by
  obtain ⟨t, rowOf, r1, r2⟩ := readInputNeighbours_rows numberNodes distance
  refine ⟨t, r1, ?_⟩
  intro i h1 h2
  obtain ⟨hspec, hti⟩ := r2 i h1 h2
  constructor
  · intro x
    have e : (forRange 0 (numberNodes - 2)).map (t i) = rowOf i := by
      rw [← forRange_zero_map_getI (rowOf i) _ hspec.len]
      apply List.map_congr_left
      intro k hk
      rw [mem_forRange] at hk
      rw [hti k hk.1 hk.2]
    rw [e, hspec.perm.count_eq, count_customers]
  · intro a b ha hab hb
    rw [hti a ha (by omega), hti b (by omega) hb]
    exact hspec.sorted a b ha hab hb

/-- Witness for `readInput_neighbour_lists`: five nodes with `distance[a][b] = |a - b|`. -/
theorem readInput_neighbour_lists_witness :
    ∃ nodeDistList, (∀ fuel, 2 * (5 : Int).toNat ≤ fuel →
        readInputNeighbours fuel 5 (fun a b => |a - b|) = some nodeDistList) ∧
      ∀ i, 1 ≤ i → i < 5 →
        (∀ x, ((forRange 0 (5 - 2)).map (nodeDistList i)).count x
            = if 2 ≤ x ∧ x ≤ 5 ∧ x ≠ i + 1 then 1 else 0) ∧
        ∀ a b, 0 ≤ a → a ≤ b → b < 5 - 2 →
          (fun a b : Int => |a - b|) i (nodeDistList i a - 1)
            ≤ (fun a b : Int => |a - b|) i (nodeDistList i b - 1) :=
  readInput_neighbour_lists 5 (fun a b => |a - b|)

/-! ### The best distance over the iterations -/

theorem foldl_keeps {α β γ : Type} (proj : α → γ) (f : α → β → α)
    (h : ∀ a b, proj (f a b) = proj a) : ∀ (l : List β) (a : α), proj (l.foldl f a) = proj a
  | [], _ => rfl
  | b :: l, a => by rw [List.foldl_cons, foldl_keeps proj f h l, h]

theorem copySISRsToBest_totalDist (a b : Solution) :
    (copySISRsToBest a b).totalDist = a.totalDist := by
  unfold copySISRsToBest
  rw [foldl_keeps Solution.totalDist]
  intro s index1
  rw [foldl_keeps Solution.totalDist]
  intro s index2
  rfl

theorem copyCurrentToBest_totalDist (a b : Solution) :
    (copyCurrentToBest a b).totalDist = a.totalDist := by
  unfold copyCurrentToBest
  rw [foldl_keeps Solution.totalDist]
  intro s index1
  rw [foldl_keeps Solution.totalDist]
  intro s index2
  rfl

theorem lsStep_best {fuel : Nat} {P : Params} {I : Instance} {O : Orders}
    {accept : Int → Nat → Int → Int → Bool} {stack : Int → Int → Bool} {st st' : Search3}
    {index1 : Int} (h : lsStep fuel P I O accept stack st index1 = some st') :
    st'.bestSol.totalDist = min st.bestSol.totalDist st'.SISRsSol.totalDist := by
  unfold lsStep at h
  cases hS : SISRs fuel P I O (stack index1) st.currentSol st.SISRsSol st.g with
  | none => simp [hS] at h
  | some r =>
    obtain ⟨cand, g1⟩ := r
    simp only [hS, Option.bind_eq_bind, Option.some_bind, Option.pure_def, Option.some.injEq] at h
    subst h
    by_cases hlt : cand.totalDist < st.bestSol.totalDist
    · simp only [hlt, if_true, copySISRsToBest_totalDist]
      exact (min_eq_right (le_of_lt hlt)).symm
    · simp only [hlt, if_false]
      exact (min_eq_left (not_lt.1 hlt)).symm

theorem forRange_succ (lo hi : Int) (h : lo ≤ hi) :
    forRange lo (hi + 1) = forRange lo hi ++ [hi] := by
  unfold forRange
  have e : (hi + 1 - lo).toNat = (hi - lo).toNat + 1 := by omega
  rw [e, List.range_succ, List.map_append]
  simp
  omega

theorem localSearchIter_succ (fuel : Nat) (P : Params) (I : Instance) (O : Orders)
    (accept : Int → Nat → Int → Int → Bool) (stack : Int → Int → Bool) (st : Search3)
    (k : Int) (hk : 0 ≤ k) :
    localSearchIter fuel P I O accept stack st (k + 1)
      = (localSearchIter fuel P I O accept stack st k).bind
          fun a => lsStep fuel P I O accept stack a k := by
  unfold localSearchIter
  rw [forRange_succ 0 k hk, List.foldlM_append]
  simp

theorem localSearchIter_best_mono (fuel : Nat) (P : Params) (I : Instance) (O : Orders)
    (accept : Int → Nat → Int → Int → Bool) (stack : Int → Int → Bool) (st : Search3)
    (k : Int) (hk : 0 ≤ k) (a : Search3)
    (ha : localSearchIter fuel P I O accept stack st k = some a) :
    ∀ (j : Nat) (b : Search3),
      localSearchIter fuel P I O accept stack st (k + (j : Int)) = some b →
      b.bestSol.totalDist ≤ a.bestSol.totalDist
  | 0, b, hb => by
    simp only [Nat.cast_zero, add_zero, ha, Option.some.injEq] at hb
    rw [hb]
  | j + 1, b, hb => by
    have e : k + ((j + 1 : Nat) : Int) = (k + (j : Int)) + 1 := by push_cast; ring
    rw [e, localSearchIter_succ _ _ _ _ _ _ _ _ (by omega)] at hb
    cases hc : localSearchIter fuel P I O accept stack st (k + (j : Int)) with
    | none => simp [hc] at hb
    | some c =>
      rw [hc, Option.some_bind] at hb
      have h1 := localSearchIter_best_mono fuel P I O accept stack st k hk a ha j c hc
      have h2 := lsStep_best hb
      have h3 : b.bestSol.totalDist ≤ c.bestSol.totalDist := by
        rw [h2]; exact min_le_left _ _
      exact le_trans h3 h1

/-! ### The generator state and the seed -/

/-- C7 (failing input): the seed alone does not fix the state of the generator.  Two runs
with the default seed `1000000000` whose four draws of the `random_device`-seeded Mersenne
twister are `1/4` in one run and `1/2` in the other start the generator from different state
words (`250000000` and `500000000`), and already their first draws differ. -/
theorem seed_alone_does_not_fix_state :
    seedGenerator 1000000000 entropyQuarter
      = ⟨250000000, 250000000, 250000000, 250000000⟩ ∧
    seedGenerator 1000000000 entropyHalf = ⟨500000000, 500000000, 500000000, 500000000⟩ ∧
    seedGenerator 1000000000 entropyQuarter ≠ seedGenerator 1000000000 entropyHalf ∧
    nthDraw (seedGenerator 1000000000 entropyQuarter) 0 = 900690798 ∧
    nthDraw (seedGenerator 1000000000 entropyHalf) 0 = 1801381596 := by
  decide

set_option maxRecDepth 100000 in
/-- The state word is the integer part of the product rounded to a `double`: for the `double`
nearest to `0.3` and the default seed the exact product is just below `300000000`, the rounded
one is `300000000`. -/
theorem seedWord_rounds_product :
    (Dbl.round53 ⟨3, 10⟩).num = 5404319552844595 ∧ (Dbl.round53 ⟨3, 10⟩).den = 2 ^ 54 ∧
    Dbl.toInt (Dbl.mul ⟨5404319552844595, 2 ^ 54⟩ (Dbl.ofInt 1000000000)) = 299999999 ∧
    seedWord ⟨5404319552844595, 2 ^ 54⟩ 1000000000 = 300000000 := by
  decide

/-! ### Loop rules -/

theorem forRange_eq_nil {lo hi : Int} (h : hi ≤ lo) : forRange lo hi = [] := by
  unfold forRange
  have : (hi - lo).toNat = 0 := by omega
  rw [this]
  rfl

theorem forRange_cons {lo hi : Int} (h : lo < hi) :
    forRange lo hi = lo :: forRange (lo + 1) hi := by
  unfold forRange
  have e : (hi - lo).toNat = (hi - (lo + 1)).toNat + 1 := by omega
  rw [e, List.range_succ_eq_map, List.map_cons, List.map_map]
  congr 1
  · simp
  · apply List.map_congr_left
    intro k _
    simp only [Function.comp, Nat.cast_succ]
    ring

theorem forRange_append {lo mid hi : Int} (h1 : lo ≤ mid) (h2 : mid ≤ hi) :
    forRange lo mid ++ forRange mid hi = forRange lo hi := by
  unfold forRange
  have e : (hi - lo).toNat = (mid - lo).toNat + (hi - mid).toNat := by omega
  rw [e, List.range_add, List.map_append, List.map_map]
  congr 1
  apply List.map_congr_left
  intro k _
  simp only [Function.comp]
  push_cast
  omega

theorem forRange_one (lo : Int) : forRange lo (lo + 1) = [lo] := by
  rw [forRange_cons (by omega), forRange_eq_nil (le_refl _)]

theorem foldl_forRange_ind {α : Type} (f : α → Int → α) (Q : Int → α → Prop) (lo : Int)
    (a : α) (h0 : Q lo a) :
    ∀ (n : Nat) (hi : Int), hi = lo + (n : Int) →
      (∀ i b, lo ≤ i → i < hi → Q i b → Q (i + 1) (f b i)) →
      Q hi ((forRange lo hi).foldl f a)
  | 0, hi, hhi, _ => by
    have : hi = lo := by simpa using hhi
    subst this
    rw [forRange_eq_nil (le_refl _)]
    exact h0
  | n + 1, hi, hhi, hstep => by
    have e : hi = (lo + (n : Int)) + 1 := by rw [hhi]; push_cast; ring
    rw [e, forRange_succ lo _ (by omega), List.foldl_append]
    simp only [List.foldl_cons, List.foldl_nil]
    apply hstep _ _ (by omega) (by omega)
    exact foldl_forRange_ind f Q lo a h0 n (lo + n) rfl
      (fun i b h1 h2 hq => hstep i b h1 (by omega) hq)

/-- Loop rule for `for (i = lo; i < hi; i++)`. -/
theorem foldl_forRange {α : Type} (f : α → Int → α) (Q : Int → α → Prop) {lo hi : Int}
    (hle : lo ≤ hi) (a : α) (h0 : Q lo a)
    (hstep : ∀ i b, lo ≤ i → i < hi → Q i b → Q (i + 1) (f b i)) :
    Q hi ((forRange lo hi).foldl f a) :=
  foldl_forRange_ind f Q lo a h0 (hi - lo).toNat hi (by omega) hstep

/-- Loop rule for a loop whose control variable runs down from `hi - 1` to `lo`. -/
theorem foldl_forRangeDown {α : Type} (f : α → Int → α) (Q : Int → α → Prop) {lo hi : Int}
    (hle : lo ≤ hi) (a : α) (h0 : Q hi a)
    (hstep : ∀ i b, lo ≤ i → i < hi → Q (i + 1) b → Q i (f b i)) :
    Q lo ((forRangeDown lo hi).foldl f a) := by
  have key : ∀ (n : Nat) (lo : Int), hi = lo + (n : Int) →
      (∀ i b, lo ≤ i → i < hi → Q (i + 1) b → Q i (f b i)) →
      Q lo ((forRangeDown lo hi).foldl f a) := by
    intro n
    induction n with
    | zero =>
      intro lo hlo _
      have : lo = hi := by simpa using hlo.symm
      subst this
      unfold forRangeDown
      rw [forRange_eq_nil (le_refl _)]
      exact h0
    | succ n ih =>
      intro lo hlo hstep
      unfold forRangeDown
      rw [forRange_cons (by omega), List.reverse_cons, List.foldl_append]
      simp only [List.foldl_cons, List.foldl_nil]
      apply hstep lo _ (le_refl _) (by omega)
      exact ih (lo + 1) (by rw [hlo]; push_cast; ring)
        (fun i b h1 h2 hq => hstep i b (by omega) h2 hq)
  exact key (hi - lo).toNat lo (by omega) hstep

theorem readL_map_forRange (f : Int → Int) (n p : Int) (h0 : 0 ≤ p) (h1 : p < n) :
    readL ((forRange 0 n).map f) p = f p := by
  unfold readL forRange
  have hp : p.toNat < (n - 0).toNat := by omega
  have hp' : p.toNat < (List.range (n - 0).toNat).length := by simpa using hp
  rw [List.getD_eq_getElem?_getD, List.map_map, List.getElem?_map,
    List.getElem?_eq_getElem hp']
  simp [h0]

/-! ### String removal (`ruinString`, `ruinSplitString`) -/

theorem absentList_push (s : Solution) (x : Int) (h : 0 ≤ s.numberAbsentNodes)
    (s' : Solution) (h1 : s'.numberAbsentNodes = s.numberAbsentNodes + 1)
    (h2 : s'.absentNodes = upd s.absentNodes s.numberAbsentNodes x) :
    absentList s' = absentList s ++ [x] := by
  unfold absentList
  rw [h1, h2, forRange_succ 0 _ h, List.map_append]
  congr 1
  · apply List.map_congr_left
    intro k hk
    rw [mem_forRange] at hk
    simp only [upd]
    rw [if_neg (by omega)]
  · simp [upd]

theorem removeNode_fold (I : Instance) (tourIndex : Int) :
    ∀ (ps : List Int) (st0 : RuinState), ps.Nodup → 0 ≤ st0.sol.numberAbsentNodes →
      Removed st0 (ps.foldl (removeNode I tourIndex) st0) ps
  | [], st0, _, _ => by
    refine ⟨fun q => by simp, by simp, by simp, fun x => by simp, fun x => by simp,
      rfl, rfl, rfl, rfl⟩
  | p :: ps, st0, hnd, hna => by
    have hp : p ∉ ps := (List.nodup_cons.1 hnd).1
    have hnd' : ps.Nodup := (List.nodup_cons.1 hnd).2
    have ih := removeNode_fold I tourIndex ps (removeNode I tourIndex st0 p) hnd'
      (by simp only [removeNode]; omega)
    rw [List.foldl_cons]
    generalize ps.foldl (removeNode I tourIndex) (removeNode I tourIndex st0 p) = st at ih
    have hmap : ps.map (removeNode I tourIndex st0 p).copyNodes = ps.map st0.copyNodes := by
      apply List.map_congr_left
      intro q hq
      simp only [removeNode, upd]
      rw [if_neg (by rintro rfl; exact hp hq)]
    have hab : absentList (removeNode I tourIndex st0 p).sol
        = absentList st0.sol ++ [st0.copyNodes p] :=
      absentList_push st0.sol _ hna _ rfl rfl
    refine ⟨?_, ?_, ?_, ?_, ?_, ?_, ?_, ?_, ?_⟩
    · intro q
      rw [ih.copyNodes q]
      by_cases h1 : q ∈ ps
      · simp [h1]
      · by_cases h2 : q = p
        · simp [h2, removeNode, upd, hp]
        · simp [h1, h2, removeNode, upd]
    · rw [ih.absent, hmap, hab]
      simp
    · rw [ih.numAbsent]
      simp only [removeNode, List.length_cons]
      push_cast
      ring
    · intro x
      rw [ih.tourPerNode x, hmap]
      by_cases h1 : x + 1 ∈ ps.map st0.copyNodes
      · simp [h1]
      · by_cases h2 : x = st0.copyNodes p - 1
        · simp [h2, removeNode, upd]
        · have h3 : ¬ (x + 1 = st0.copyNodes p) := by omega
          have hm : x + 1 ∉ (p :: ps).map st0.copyNodes := by
            simp only [List.map_cons, List.mem_cons, not_or]
            exact ⟨h3, h1⟩
          rw [if_neg h1, if_neg hm]
          simp [removeNode, upd, h2]
    · intro x
      rw [ih.nodeRemoved x, hmap]
      by_cases h1 : x + 1 ∈ ps.map st0.copyNodes
      · simp [h1]
      · by_cases h2 : x = st0.copyNodes p - 1
        · simp [h2, removeNode, upd]
        · have h3 : ¬ (x + 1 = st0.copyNodes p) := by omega
          have hm : x + 1 ∉ (p :: ps).map st0.copyNodes := by
            simp only [List.map_cons, List.mem_cons, not_or]
            exact ⟨h3, h1⟩
          rw [if_neg h1, if_neg hm]
          simp [removeNode, upd, h2]
    · rw [ih.tours]; rfl
    · rw [ih.numberNodesInTour]; rfl
    · rw [ih.numberTours]; rfl
    · rw [ih.g]; rfl

theorem readL_append_left (K : List Int) (x : List Int) (k : Int) (h0 : 0 ≤ k)
    (h1 : k < K.length) : readL (K ++ x) k = readL K k := by
  unfold readL
  have : k.toNat < K.length := by omega
  simp [List.getD_eq_getElem?_getD, List.getElem?_append_left this]

theorem readL_append_length (K : List Int) (x : Int) :
    readL (K ++ [x]) (K.length : Int) = x := by
  unfold readL
  simp [List.getD_eq_getElem?_getD]

theorem map_forRange_eq (f : Int → Int) (K : List Int) (n : Int) (hn : n = K.length)
    (h : ∀ k, 0 ≤ k → k < n → f k = readL K k) : (forRange 0 n).map f = K := by
  have e : (forRange 0 n).map f = (forRange 0 n).map (readL K) := by
    apply List.map_congr_left
    intro k hk
    rw [mem_forRange] at hk
    exact h k hk.1 hk.2
  rw [e]
  exact forRange_zero_map_getI K n (by omega)

theorem keptNodes_succ (copyNodes : Int → Int) (i : Int) (hi : 0 ≤ i) :
    keptNodes copyNodes (i + 1)
      = keptNodes copyNodes i ++ (if copyNodes i ≠ -1 then [copyNodes i] else []) := by
  unfold keptNodes
  rw [forRange_succ 0 i hi, List.map_append, List.filter_append]
  congr 1
  by_cases h : copyNodes i = -1 <;> simp [h]

theorem reduceTour_spec (st : RuinState) (t l : Int) (hn : 0 ≤ st.sol.numberNodesInTour t) :
    (reduceTour st t l).numberNodesInTour
        = upd st.sol.numberNodesInTour t (st.sol.numberNodesInTour t - l) ∧
      (∀ k : Int, 0 ≤ k → k < (keptNodes st.copyNodes (st.sol.numberNodesInTour t)).length →
        (reduceTour st t l).tours t k
          = readL (keptNodes st.copyNodes (st.sol.numberNodesInTour t)) k) ∧
      (∀ t' p, t' ≠ t → (reduceTour st t l).tours t' p = st.sol.tours t' p) ∧
      (reduceTour st t l).numberTours = st.sol.numberTours ∧
      (reduceTour st t l).numberAbsentNodes = st.sol.numberAbsentNodes ∧
      (reduceTour st t l).absentNodes = st.sol.absentNodes ∧
      (reduceTour st t l).tourPerNode = st.sol.tourPerNode := by
  have key := foldl_forRange
    (fun (acc : (Int → Int → Int) × Int) index1 =>
      if st.copyNodes index1 ≠ -1 then
        (upd2 acc.1 t acc.2 (st.copyNodes index1), acc.2 + 1)
      else acc)
    (fun i acc => acc.2 = (keptNodes st.copyNodes i).length ∧
      (∀ k : Int, 0 ≤ k → k < (keptNodes st.copyNodes i).length →
        acc.1 t k = readL (keptNodes st.copyNodes i) k) ∧
      (∀ t' p, t' ≠ t → acc.1 t' p = st.sol.tours t' p))
    hn (st.sol.tours, 0)
    (by
      refine ⟨by simp [keptNodes, forRange_eq_nil], ?_, fun _ _ _ => rfl⟩
      intro k h0 h1
      simp [keptNodes, forRange_eq_nil] at h1
      omega)
    (by
      intro i acc hi0 hi1 ⟨q1, q2, q3⟩
      rw [keptNodes_succ _ _ hi0]
      by_cases hc : st.copyNodes i = -1
      · simp only [hc, ne_eq, not_true_eq_false, if_false, List.append_nil]
        exact ⟨q1, q2, q3⟩
      · simp only [ne_eq, hc, not_false_eq_true, if_true]
        refine ⟨by simp [q1], ?_, ?_⟩
        · intro k h0 h1
          simp only [List.length_append, List.length_singleton] at h1
          by_cases hk : k < (keptNodes st.copyNodes i).length
          · rw [readL_append_left _ _ _ h0 hk]
            simp only [upd2]
            rw [if_neg (by omega)]
            exact q2 k h0 hk
          · have hk' : k = ((keptNodes st.copyNodes i).length : Int) := by omega
            rw [hk', readL_append_length]
            simp [upd2, q1]
        · intro t' p ht
          simp only [upd2]
          rw [if_neg (by simp [ht])]
          exact q3 t' p ht)
  obtain ⟨_, k2, k3⟩ := key
  exact ⟨rfl, k2, k3, rfl, rfl, rfl, rfl⟩

theorem keptPositions_perm (n : Int) (ps : List Int) (hnd : ps.Nodup)
    (hsub : ∀ p ∈ ps, 0 ≤ p ∧ p < n) : (keptPositions n ps ++ ps).Perm (forRange 0 n) := by
  have h1 := List.filter_append_perm (fun q => decide (q ∉ ps)) (forRange 0 n)
  have h2 : ((forRange 0 n).filter (fun q => !decide (q ∉ ps))).Perm ps := by
    rw [List.perm_ext_iff_of_nodup ((nodup_forRange 0 n).filter _) hnd]
    intro a
    simp only [List.mem_filter, mem_forRange, Bool.not_eq_true', decide_eq_false_iff_not,
      not_not]
    constructor
    · exact fun h => h.2
    · exact fun h => ⟨hsub a h, h⟩
  exact (List.Perm.append_left _ h2.symm).trans h1

theorem tourList_congr {s s' : Solution} {t t' : Int}
    (h1 : s'.numberNodesInTour t' = s.numberNodesInTour t)
    (h2 : ∀ p, 0 ≤ p → p < s.numberNodesInTour t → s'.tours t' p = s.tours t p) :
    tourList s' t' = tourList s t := by
  unfold tourList
  rw [h1]
  apply List.map_congr_left
  intro p hp
  rw [mem_forRange] at hp
  exact h2 p hp.1 hp.2

theorem removal_spec (s : Solution) (t l : Int) (nr : Int → Bool) (ps : List Int)
    (st0 st : RuinState) (h0 : st0.sol = s) (hcn : st0.copyNodes = copyTour s t)
    (hnr : st0.nodeRemoved = nr) (hR : Removed st0 st ps)
    (hnd : ps.Nodup) (hsub : ∀ p ∈ ps, 0 ≤ p ∧ p < s.numberNodesInTour t)
    (hl : l = ps.length) (hn : 0 ≤ s.numberNodesInTour t)
    (hne : ∀ x ∈ tourList s t, x ≠ -1) :
    StringRemoved s (reduceTour st t l) nr st.nodeRemoved t
        ((keptPositions (s.numberNodesInTour t) ps).map (s.tours t)) (ps.map (s.tours t)) ∧
      ((keptPositions (s.numberNodesInTour t) ps).map (s.tours t) ++ ps.map (s.tours t)).Perm
        (tourList s t) := by
  subst h0
  have hn' : st.sol.numberNodesInTour t = st0.sol.numberNodesInTour t := by
    rw [hR.numberNodesInTour]
  have hmapps : ps.map st0.copyNodes = ps.map (st0.sol.tours t) := by
    apply List.map_congr_left
    intro p hp
    rw [hcn]
    simp only [copyTour]
    rw [if_pos (hsub p hp)]
  -- the kept nodes
  have hK : keptNodes st.copyNodes (st0.sol.numberNodesInTour t)
      = (keptPositions (st0.sol.numberNodesInTour t) ps).map (st0.sol.tours t) := by
    unfold keptNodes keptPositions
    rw [List.filter_map]
    have e1 : (forRange 0 (st0.sol.numberNodesInTour t)).filter
          ((fun x => decide (x ≠ -1)) ∘ st.copyNodes)
        = (forRange 0 (st0.sol.numberNodesInTour t)).filter (fun q => decide (q ∉ ps)) := by
      apply List.filter_congr
      intro q hq
      rw [mem_forRange] at hq
      simp only [Function.comp, hR.copyNodes q]
      by_cases hqp : q ∈ ps
      · simp [hqp]
      · have : st0.copyNodes q ≠ -1 := by
          rw [hcn]
          simp only [copyTour]
          rw [if_pos hq]
          apply hne
          unfold tourList
          exact List.mem_map.2 ⟨q, mem_forRange.2 hq, rfl⟩
        simp [hqp, this]
    rw [e1]
    apply List.map_congr_left
    intro q hq
    rw [List.mem_filter, mem_forRange] at hq
    have hqp : q ∉ ps := by simpa using hq.2
    rw [hR.copyNodes q, if_neg hqp, hcn]
    simp only [copyTour]
    rw [if_pos hq.1]
  have hperm := keptPositions_perm (st0.sol.numberNodesInTour t) ps hnd hsub
  have hlen : ((keptPositions (st0.sol.numberNodesInTour t) ps).length : Int)
      = st0.sol.numberNodesInTour t - l := by
    have := hperm.length_eq
    rw [List.length_append, length_forRange] at this
    omega
  obtain ⟨q1, q2, q3, q4, q5, q6, q7⟩ := reduceTour_spec st t l (by rw [hn']; exact hn)
  rw [hn'] at q1 q2
  refine ⟨⟨?_, ?_, ?_, ?_, ?_, ?_, ?_, ?_, ?_⟩, ?_⟩
  · unfold tourList
    apply map_forRange_eq
    · rw [q1]
      simp only [upd, if_true, List.length_map]
      exact hlen.symm
    · intro k hk0 hk1
      rw [q1] at hk1
      simp only [upd, if_true] at hk1
      rw [← hK]
      apply q2 k hk0
      rw [hK, List.length_map]
      omega
  · intro t' ht
    apply tourList_congr
    · rw [q1]
      simp only [upd]
      rw [if_neg ht, hR.numberNodesInTour]
    · intro p _ _
      rw [q3 t' p ht, hR.tours]
  · rw [q4, hR.numberTours]
  · unfold absentList
    rw [q5, q6]
    have := hR.absent
    unfold absentList at this
    rw [this, hmapps]
  · rw [q5, hR.numAbsent]
    simp
  · intro x
    rw [q7, hR.tourPerNode x, hmapps]
  · intro x
    rw [hR.nodeRemoved x, hmapps, hnr]
  · rw [q1]
    simp only [upd, if_true]
    omega
  · intro t' ht
    rw [q1]
    simp only [upd]
    rw [if_neg ht, hR.numberNodesInTour]
  · have := hperm.map (st0.sol.tours t)
    rw [List.map_append] at this
    exact this

theorem xorshift128_lt (g : Rng) : (xorshift128 g).1 < 2 ^ 32 := by
  unfold xorshift128
  exact Nat.mod_lt _ (by norm_num)

theorem drawIndex_snd (g : Rng) (count : Int) : (drawIndex g count).2 = (xorshift128 g).2 := rfl

theorem drawIndex_range (g : Rng) (count : Int) (h : 1 ≤ count) :
    0 ≤ (drawIndex g count).1 ∧ (drawIndex g count).1 < count := by
  have hu := xorshift128_lt g
  have hu' : ((xorshift128 g).1 : Int) < 2 ^ 32 := by exact_mod_cast hu
  have hu0 : (0 : Int) ≤ ((xorshift128 g).1 : Int) := Int.natCast_nonneg _
  show 0 ≤ Int.tdiv (((xorshift128 g).1 : Int) * count) (twoPow32 * 1) ∧
    Int.tdiv (((xorshift128 g).1 : Int) * count) (twoPow32 * 1) < count
  have hnum : 0 ≤ ((xorshift128 g).1 : Int) * count := by positivity
  rw [Int.tdiv_eq_ediv hnum (by unfold twoPow32; norm_num)]
  constructor
  · exact Int.ediv_nonneg hnum (by unfold twoPow32; norm_num)
  · apply Int.ediv_lt_of_lt_mul (by unfold twoPow32; norm_num)
    unfold twoPow32
    nlinarith

theorem Dbl.toRat_mul (a b : Dbl) : (Dbl.mul a b).toRat = a.toRat * b.toRat := by
  unfold Dbl.mul Dbl.toRat
  push_cast
  rw [mul_div_mul_comm]

theorem Dbl.toRat_add (a b : Dbl) (ha : a.den ≠ 0) (hb : b.den ≠ 0) :
    (Dbl.add a b).toRat = a.toRat + b.toRat := by
  unfold Dbl.add Dbl.toRat
  have ha' : (a.den : ℚ) ≠ 0 := by exact_mod_cast ha
  have hb' : (b.den : ℚ) ≠ 0 := by exact_mod_cast hb
  push_cast
  field_simp

theorem Dbl.toRat_sub (a b : Dbl) (ha : a.den ≠ 0) (hb : b.den ≠ 0) :
    (Dbl.sub a b).toRat = a.toRat - b.toRat := by
  unfold Dbl.sub Dbl.toRat
  have ha' : (a.den : ℚ) ≠ 0 := by exact_mod_cast ha
  have hb' : (b.den : ℚ) ≠ 0 := by exact_mod_cast hb
  push_cast
  field_simp
  ring

theorem Dbl.toRat_ofInt (n : Int) : (Dbl.ofInt n).toRat = (n : ℚ) := by
  unfold Dbl.ofInt Dbl.toRat
  simp

theorem Dbl.toRat_nonneg (a : Dbl) (h0 : 0 ≤ a.num) (h1 : 0 < a.den) : 0 ≤ a.toRat := by
  unfold Dbl.toRat
  have : (0 : ℚ) ≤ (a.num : ℚ) := by exact_mod_cast h0
  have : (0 : ℚ) < (a.den : ℚ) := by exact_mod_cast h1
  positivity

/-- The conversion `(int) a` of a non-negative value is its integer part. -/
theorem Dbl.toInt_floor (a : Dbl) (h0 : 0 ≤ a.num) (h1 : 0 < a.den) (k : Int) :
    k ≤ Dbl.toInt a ↔ (k : ℚ) ≤ a.toRat := by
  unfold Dbl.toInt Dbl.toRat
  rw [Int.tdiv_eq_ediv h0 (le_of_lt h1), Int.le_ediv_iff_mul_le h1]
  have hd : (0 : ℚ) < (a.den : ℚ) := by exact_mod_cast h1
  rw [le_div_iff₀ hd]
  exact_mod_cast Iff.rfl

theorem Dbl.unitDraw_le (g : Rng) :
    0 ≤ (unitDraw g).1.toRat ∧ (unitDraw g).1.toRat ≤ 1 - 1 / 2 ^ 32 ∧ 0 < (unitDraw g).1.den ∧
      0 ≤ (unitDraw g).1.num := by
  have hu := xorshift128_lt g
  have hu1 : (xorshift128 g).1 + 1 ≤ 2 ^ 32 := hu
  have hq : (((xorshift128 g).1 : Nat) : ℚ) + 1 ≤ 2 ^ 32 := by exact_mod_cast hu1
  show 0 ≤ (((xorshift128 g).1 : Int) : ℚ) / ((twoPow32 : Int) : ℚ) ∧
    (((xorshift128 g).1 : Int) : ℚ) / ((twoPow32 : Int) : ℚ) ≤ 1 - 1 / 2 ^ 32 ∧
    0 < twoPow32 ∧ 0 ≤ ((xorshift128 g).1 : Int)
  unfold twoPow32
  push_cast
  refine ⟨by positivity, ?_, by norm_num, Int.natCast_nonneg _⟩
  rw [div_le_iff₀ (by norm_num)]
  norm_num
  linarith

/-- The value `l = (int)(c * u + 1.0)` for a non-negative `c`, with the two roundings of the
`long double` operations: `l` is at least `1`, and below `N + 1` for every bound `N ≥ 1` of
`c`. -/
theorem drawCount_bound (g : Rng) (c : Dbl) (h0 : 0 ≤ c.num) (h1 : 0 < c.den) :
    1 ≤ (drawCount g c).1 ∧
      ∀ N : ℚ, 1 ≤ N → c.toRat ≤ N → ((drawCount g c).1 : ℚ) < N + 1 := by
  obtain ⟨u0, u1, u2, u3⟩ := Dbl.unitDraw_le g
  have hc0 := Dbl.toRat_nonneg c h0 h1
  -- the product and its rounding
  have xd : 0 < (Dbl.mul c (unitDraw g).1).den := by
    show 0 < c.den * (unitDraw g).1.den
    positivity
  have xn : 0 ≤ (Dbl.mul c (unitDraw g).1).num := by
    show 0 ≤ c.num * (unitDraw g).1.num
    positivity
  have xv := Dbl.toRat_mul c (unitDraw g).1
  have yd := Dbl.round_den_pos 64 _ (by norm_num) xd
  have yn := (Dbl.round_num_sign 64 _ (by norm_num) xd).2.2.2.1 xn
  have ye := Dbl.round_error 64 _ (by norm_num) xd
  have x0 := Dbl.toRat_nonneg _ xn xd
  rw [abs_of_nonneg x0] at ye
  have y0 := Dbl.toRat_nonneg _ yn yd
  -- the sum and its rounding
  have zd : 0 < (Dbl.add (Dbl.round 64 (Dbl.mul c (unitDraw g).1)) (Dbl.ofInt 1)).den := by
    show 0 < (Dbl.round 64 (Dbl.mul c (unitDraw g).1)).den * 1
    omega
  have zn : 0 ≤ (Dbl.add (Dbl.round 64 (Dbl.mul c (unitDraw g).1)) (Dbl.ofInt 1)).num := by
    show 0 ≤ (Dbl.round 64 (Dbl.mul c (unitDraw g).1)).num * 1
      + 1 * (Dbl.round 64 (Dbl.mul c (unitDraw g).1)).den
    omega
  have zv := Dbl.toRat_add (Dbl.round 64 (Dbl.mul c (unitDraw g).1)) (Dbl.ofInt 1)
    (by omega) (by simp [Dbl.ofInt])
  rw [Dbl.toRat_ofInt] at zv
  have rd := Dbl.round_den_pos 64 _ (by norm_num) zd
  have rn := (Dbl.round_num_sign 64 _ (by norm_num) zd).2.2.2.1 zn
  have re := Dbl.round_error 64 _ (by norm_num) zd
  have z0 := Dbl.toRat_nonneg _ zn zd
  rw [abs_of_nonneg z0] at re
  have r1 := Dbl.le_round 64 _ 1 (by norm_num) zd
    (by have := representable_int 64 1 (by norm_num); exact_mod_cast this)
    (by rw [zv]; push_cast; linarith)
  have hl : (drawCount g c).1 = Dbl.toInt (Dbl.round 64
      (Dbl.add (Dbl.round 64 (Dbl.mul c (unitDraw g).1)) (Dbl.ofInt 1))) := rfl
  have hfl := Dbl.toInt_floor _ rn rd
  refine ⟨?_, ?_⟩
  · rw [hl, hfl]
    exact_mod_cast r1
  · intro N hN hcN
    have hle : ((drawCount g c).1 : ℚ) ≤ (Dbl.round 64
        (Dbl.add (Dbl.round 64 (Dbl.mul c (unitDraw g).1)) (Dbl.ofInt 1))).toRat := by
      rw [← hfl, hl]
    refine lt_of_le_of_lt hle ?_
    generalize (Dbl.round 64
      (Dbl.add (Dbl.round 64 (Dbl.mul c (unitDraw g).1)) (Dbl.ofInt 1))).toRat = r at re
    rw [zv] at re
    generalize (Dbl.round 64 (Dbl.mul c (unitDraw g).1)).toRat = y at ye re y0
    rw [xv] at ye x0
    generalize (unitDraw g).1.toRat = u at u0 u1 ye x0
    generalize c.toRat = C at hc0 hcN ye x0
    have e1 := (abs_le.1 ye).2
    have e2 := (abs_le.1 re).2
    -- y ≤ C u (1 + 2^-64) ≤ N (1 - 2^-32) (1 + 2^-64)
    have hCu : C * u ≤ N * (1 - 1 / 2 ^ 32) := by
      calc C * u ≤ C * (1 - 1 / 2 ^ 32) := mul_le_mul_of_nonneg_left u1 hc0
        _ ≤ N * (1 - 1 / 2 ^ 32) := mul_le_mul_of_nonneg_right hcN (by norm_num)
    have hy : y ≤ N * ((1 - 1 / 2 ^ 32) * (1 + 1 / 2 ^ 64)) := by
      have : y ≤ C * u * (1 + 1 / 2 ^ 64) := by
        have : C * u / 2 ^ 64 = C * u * (1 / 2 ^ 64) := by ring
        linarith
      have h2 : C * u * (1 + 1 / 2 ^ 64) ≤ N * (1 - 1 / 2 ^ 32) * (1 + 1 / 2 ^ 64) :=
        mul_le_mul_of_nonneg_right hCu (by norm_num)
      linarith
    have hr : r ≤ (y + 1) * (1 + 1 / 2 ^ 64) := by
      have : (y + 1) / 2 ^ 64 = (y + 1) * (1 / 2 ^ 64) := by ring
      linarith
    have hr2 : (y + 1) * (1 + 1 / 2 ^ 64) ≤
        (N * ((1 - 1 / 2 ^ 32) * (1 + 1 / 2 ^ 64)) + 1) * (1 + 1 / 2 ^ 64) :=
      mul_le_mul_of_nonneg_right (by linarith) (by norm_num)
    have hK : ((1 : ℚ) - 1 / 2 ^ 32) * (1 + 1 / 2 ^ 64) * (1 + 1 / 2 ^ 64) ≤ 1 - 1 / 2 ^ 33 := by
      norm_num
    have h3 : (N * ((1 - 1 / 2 ^ 32) * (1 + 1 / 2 ^ 64)) + 1) * (1 + 1 / 2 ^ 64)
        = N * ((1 - 1 / 2 ^ 32) * (1 + 1 / 2 ^ 64) * (1 + 1 / 2 ^ 64)) + (1 + 1 / 2 ^ 64) := by
      ring
    have h4 : N * ((1 - 1 / 2 ^ 32) * (1 + 1 / 2 ^ 64) * (1 + 1 / 2 ^ 64))
        ≤ N * (1 - 1 / 2 ^ 33) := mul_le_mul_of_nonneg_left hK (by linarith)
    have h5 : N * (1 - 1 / 2 ^ 33) + (1 + 1 / 2 ^ 64) < N + 1 := by
      have : (1 : ℚ) / 2 ^ 64 < 1 / 2 ^ 33 := by norm_num
      have : N * (1 / 2 ^ 33) ≥ 1 * (1 / 2 ^ 33) :=
        mul_le_mul_of_nonneg_right hN (by norm_num)
      linarith
    linarith

theorem drawCount_snd (g : Rng) (c : Dbl) : (drawCount g c).2 = (xorshift128 g).2 := rfl

theorem drawCount_range (g : Rng) (c : Dbl) (N : Int) (h0 : 0 ≤ c.num) (h1 : 0 < c.den)
    (h2 : c.num ≤ N * c.den) : 1 ≤ (drawCount g c).1 ∧ (drawCount g c).1 ≤ max N 1 := by
  obtain ⟨b1, b2⟩ := drawCount_bound g c h0 h1
  refine ⟨b1, ?_⟩
  have hcN : c.toRat ≤ ((max N 1 : Int) : ℚ) := by
    unfold Dbl.toRat
    have hd : (0 : ℚ) < (c.den : ℚ) := by exact_mod_cast h1
    rw [div_le_iff₀ hd]
    have : c.num ≤ max N 1 * c.den := by
      have : N * c.den ≤ max N 1 * c.den :=
        mul_le_mul_of_nonneg_right (le_max_left _ _) (le_of_lt h1)
      omega
    exact_mod_cast this
  have := b2 ((max N 1 : Int) : ℚ) (by exact_mod_cast le_max_right N 1) hcN
  have : (drawCount g c).1 < max N 1 + 1 := by exact_mod_cast this
  omega

theorem readL_mem (l : List Int) (i : Int) (h0 : 0 ≤ i) (h1 : i < l.length) : readL l i ∈ l := by
  unfold readL
  have h : i.toNat < l.length := by omega
  rw [List.getD_eq_getElem?_getD, List.getElem?_eq_getElem h]
  exact List.getElem_mem h

theorem findPosStartNode_range (s : Solution) (tourIndex startNodeIndex : Int) :
    0 ≤ findPosStartNode s tourIndex startNodeIndex ∧
      findPosStartNode s tourIndex startNodeIndex < max (s.numberNodesInTour tourIndex) 1 := by
  unfold findPosStartNode
  by_cases hn : 0 ≤ s.numberNodesInTour tourIndex
  · have := foldl_forRange
      (fun (acc : Int × Bool) index10 =>
        if !acc.2 && s.tours tourIndex index10 == startNodeIndex + 1 then (index10, true)
        else acc)
      (fun i acc => 0 ≤ acc.1 ∧ acc.1 < max i 1) hn (0, false)
      (by simp)
      (by
        intro i acc h0 h1 ⟨q1, q2⟩
        dsimp only
        split_ifs
        · exact ⟨h0, by simp⟩
        · refine ⟨q1, lt_of_lt_of_le q2 ?_⟩
          apply max_le_max_right
          omega)
    exact this
  · rw [forRange_eq_nil (by omega)]
    simp

theorem windowOptions_spec (n len : Int) (hlen : len < n) :
    ∀ (k : Nat) (index10 count : Int) (options : List Int),
      (∀ o ∈ options, 0 ≤ o ∧ o + len ≤ n) →
      (∀ o ∈ windowOptions n len k index10 count options, 0 ≤ o ∧ o + len ≤ n) ∧
      (options ≠ [] → windowOptions n len k index10 count options ≠ []) ∧
      (0 ≤ index10 → count + index10 < n → (k : Int) + count = len → count < len →
        windowOptions n len k index10 count options ≠ []) := by
  intro k
  induction k with
  | zero =>
    intro index10 count options hop
    refine ⟨hop, fun h => h, ?_⟩
    intro _ _ h3 h4
    simp at h3
    omega
  | succ k ih =>
    intro index10 count options hop
    simp only [windowOptions]
    by_cases hq : index10 + len - 1 < n ∧ index10 ≥ 0
    · -- the current index is an option
      have hop' : ∀ o ∈ options ++ [index10], 0 ≤ o ∧ o + len ≤ n := by
        intro o ho
        rcases List.mem_append.1 ho with h | h
        · exact hop o h
        · simp only [List.mem_singleton] at h
          subst h
          omega
      have hne : options ++ [index10] ≠ [] := by simp
      rw [if_pos hq]
      obtain ⟨i1, i2, _⟩ := ih (index10 - 1) (count + 1) (options ++ [index10]) hop'
      split_ifs
      · exact ⟨i1, fun _ => i2 hne, fun _ _ _ _ => i2 hne⟩
      · exact ⟨hop', fun _ => hne, fun _ _ _ _ => hne⟩
    · rw [if_neg hq]
      obtain ⟨i1, i2, i3⟩ := ih (index10 - 1) (count + 1) options hop
      split_ifs with hc
      · refine ⟨i1, i2, ?_⟩
        intro h1 h2 h3 h4
        apply i3 (by omega) (by omega) (by push_cast at h3 ⊢; omega)
        omega
      · refine ⟨hop, fun h => h, ?_⟩
        intro h1 h2 h3 h4
        exfalso
        apply hc
        constructor <;> omega

theorem chooseStartRemoval_snd_range (s : Solution) (g : Rng) (t len pos : Int)
    (hpos0 : 0 ≤ pos) (hpos1 : pos < s.numberNodesInTour t) (hl1 : 1 ≤ len)
    (hl2 : len ≤ s.numberNodesInTour t) :
    0 ≤ (chooseStartRemoval s g t len pos).1 ∧
      (chooseStartRemoval s g t len pos).1 + len ≤ s.numberNodesInTour t := by
  unfold chooseStartRemoval
  by_cases h1 : len > 1
  · rw [if_pos h1]
    by_cases h2 : len < s.numberNodesInTour t
    · rw [if_pos h2]
      obtain ⟨w1, _, w3⟩ := windowOptions_spec (s.numberNodesInTour t) len h2 len.toNat pos 0 []
        (by simp)
      have hne := w3 hpos0 (by omega) (by omega) (by omega)
      generalize windowOptions (s.numberNodesInTour t) len len.toNat pos 0 [] = options
        at w1 hne
      have hlenpos : 1 ≤ (options.length : Int) := by
        cases options with
        | nil => exact absurd rfl hne
        | cons a l => simp
      have hr := drawIndex_range g options.length hlenpos
      exact w1 _ (readL_mem options _ hr.1 hr.2)
    · rw [if_neg h2]
      exact ⟨le_refl _, by simp; omega⟩
  · rw [if_neg h1]
    exact ⟨hpos0, by simp; omega⟩

theorem preservedLoop_range (P : Params) (bound : Int) :
    ∀ (k : Nat) (npc : Int) (g : Rng), npc ≤ bound →
      npc ≤ (preservedLoop P bound k npc g).1 ∧ (preservedLoop P bound k npc g).1 ≤ bound := by
  intro k
  induction k with
  | zero => intro npc g h; exact ⟨le_refl _, h⟩
  | succ k ih =>
    intro npc g h
    simp only [preservedLoop]
    split_ifs with h1 h2
    · obtain ⟨a, b⟩ := ih (npc + 1) (unitDraw g).2 (by omega)
      exact ⟨by omega, b⟩
    · exact ⟨le_refl _, h⟩
    · exact ⟨le_refl _, h⟩

theorem retainOptions_spec (m sr tl : Int) :
    ∀ (k : Nat) (index10 : Int) (options : List Int),
      (∀ o ∈ options, sr + 1 ≤ o ∧ o + m ≤ sr + tl - 1) →
      (sr + 1 ≤ index10 ∧ index10 + m ≤ sr + tl - 1) →
      (∀ o ∈ retainOptions m sr tl k index10 options, sr + 1 ≤ o ∧ o + m ≤ sr + tl - 1) ∧
      (options ≠ [] ∨ 1 ≤ k → retainOptions m sr tl k index10 options ≠ []) := by
  intro k
  induction k with
  | zero =>
    intro index10 options hop _
    refine ⟨hop, ?_⟩
    rintro (h | h)
    · exact h
    · omega
  | succ k ih =>
    intro index10 options hop hi
    simp only [retainOptions]
    have hop' : ∀ o ∈ options ++ [index10], sr + 1 ≤ o ∧ o + m ≤ sr + tl - 1 := by
      intro o ho
      rcases List.mem_append.1 ho with h | h
      · exact hop o h
      · simp only [List.mem_singleton] at h
        subst h
        exact hi
    have hne : options ++ [index10] ≠ [] := by simp
    split_ifs with hc
    · obtain ⟨i1, i2⟩ := ih (index10 + 1) (options ++ [index10]) hop' (by omega)
      exact ⟨i1, fun _ => i2 (Or.inl hne)⟩
    · exact ⟨hop', fun _ => hne⟩

theorem nodup_two_ranges {a b c d : Int} (hbc : b ≤ c) :
    (forRange a b ++ forRange c d).Nodup := by
  rw [List.nodup_append]
  refine ⟨nodup_forRange _ _, nodup_forRange _ _, ?_⟩
  intro x h1 h2
  rw [mem_forRange] at h1 h2
  omega

theorem ruinString_spec (I : Instance) (s : Solution) (g : Rng) (nr : Int → Bool)
    (t l cur : Int) (hl1 : 1 ≤ l) (hl2 : l ≤ s.numberNodesInTour t)
    (hna : 0 ≤ s.numberAbsentNodes) (hne : ∀ x ∈ tourList s t, x ≠ -1) :
    RemovalResult s nr t l (ruinString I s g nr t l cur) := by
  have hpos := findPosStartNode_range s t cur
  rw [max_eq_left (by omega)] at hpos
  have hch := chooseStartRemoval_snd_range s g t l _ hpos.1 hpos.2 hl1 hl2
  unfold ruinString
  dsimp only
  generalize chooseStartRemoval s g t l (findPosStartNode s t cur) = ch at hch ⊢
  obtain ⟨a, g1⟩ := ch
  simp only at hch ⊢
  have hnd : (forRange a (a + l)).Nodup := nodup_forRange _ _
  have hsub : ∀ p ∈ forRange a (a + l), 0 ≤ p ∧ p < s.numberNodesInTour t := by
    intro p hp
    rw [mem_forRange] at hp
    omega
  have hR := removeNode_fold I t (forRange a (a + l))
    { sol := s, g := g1, nodeRemoved := nr, copyNodes := copyTour s t } hnd hna
  generalize (forRange a (a + l)).foldl (removeNode I t)
    { sol := s, g := g1, nodeRemoved := nr, copyNodes := copyTour s t } = st at hR
  have hR' : Removed { sol := s, g := g1, nodeRemoved := nr, copyNodes := copyTour s t }
      { st with sol := { st.sol with totalDist := 0 } } (forRange a (a + l)) :=
    ⟨hR.copyNodes, hR.absent, hR.numAbsent, hR.tourPerNode, hR.nodeRemoved, hR.tours,
      hR.numberNodesInTour, hR.numberTours, hR.g⟩
  have hlen : l = ((forRange a (a + l)).length : Int) := by
    rw [length_forRange]; omega
  obtain ⟨k1, k2⟩ := removal_spec s t l nr (forRange a (a + l)) _ _ rfl rfl rfl hR' hnd hsub
    hlen (by omega) hne
  exact ⟨_, _, k1, k2, by rw [List.length_map]; exact hlen.symm⟩

theorem ruinSplitString_spec (P : Params) (I : Instance) (s : Solution) (g : Rng)
    (nr : Int → Bool) (t l cur : Int) (hl1 : 2 ≤ l) (hl2 : l < s.numberNodesInTour t)
    (hna : 0 ≤ s.numberAbsentNodes) (hne : ∀ x ∈ tourList s t, x ≠ -1) :
    RemovalResult s nr t l (ruinSplitString P I s g nr t l cur) := by
  have hpos := findPosStartNode_range s t cur
  rw [max_eq_left (by omega)] at hpos
  unfold ruinSplitString
  dsimp only
  have hm := preservedLoop_range P (s.numberNodesInTour t - l)
    (s.numberNodesInTour t - l).toNat 1 g (by omega)
  generalize preservedLoop P (s.numberNodesInTour t - l) (s.numberNodesInTour t - l).toNat 1 g
    = pl at hm ⊢
  obtain ⟨m, g1⟩ := pl
  simp only at hm ⊢
  have hch := chooseStartRemoval_snd_range s g1 t (l + m) _ hpos.1 hpos.2 (by omega) (by omega)
  generalize chooseStartRemoval s g1 t (l + m) (findPosStartNode s t cur) = ch at hch ⊢
  obtain ⟨a, g2⟩ := ch
  simp only at hch ⊢
  -- the start of the retained block
  have hret : ∃ b g3, (if m < l + m - 2 then
        (readL (retainOptions m a (l + m) (l + m - 2).toNat (a + 1) [])
            (drawIndex g2 (retainOptions m a (l + m) (l + m - 2).toNat (a + 1) []).length).1,
          (drawIndex g2 (retainOptions m a (l + m) (l + m - 2).toNat (a + 1) []).length).2)
      else (a + 1, g2)) = (b, g3) ∧ a + 1 ≤ b ∧ b + m ≤ a + (l + m) - 1 := by
    by_cases hc : m < l + m - 2
    · rw [if_pos hc]
      obtain ⟨w1, w2⟩ := retainOptions_spec m a (l + m) (l + m - 2).toNat (a + 1) []
        (by simp) (by omega)
      have hne' := w2 (Or.inr (by omega))
      generalize retainOptions m a (l + m) (l + m - 2).toNat (a + 1) [] = options at w1 hne'
      have hlenpos : 1 ≤ (options.length : Int) := by
        cases options with
        | nil => exact absurd rfl hne'
        | cons x xs => simp
      have hr := drawIndex_range g2 options.length hlenpos
      have := w1 _ (readL_mem options _ hr.1 hr.2)
      exact ⟨_, _, rfl, this.1, this.2⟩
    · rw [if_neg hc]
      exact ⟨_, _, rfl, le_refl _, by omega⟩
  obtain ⟨b, g3, hbeq, hb1, hb2⟩ := hret
  rw [hbeq]
  dsimp only
  have hnd : (forRange a b ++ forRange (b + m) (a + (l + m))).Nodup :=
    nodup_two_ranges (by omega)
  have hsub : ∀ p ∈ forRange a b ++ forRange (b + m) (a + (l + m)),
      0 ≤ p ∧ p < s.numberNodesInTour t := by
    intro p hp
    rw [List.mem_append, mem_forRange, mem_forRange] at hp
    omega
  have hR := removeNode_fold I t (forRange a b ++ forRange (b + m) (a + (l + m)))
    { sol := s, g := g3, nodeRemoved := nr, copyNodes := copyTour s t } hnd hna
  rw [List.foldl_append] at hR
  generalize (forRange (b + m) (a + (l + m))).foldl (removeNode I t)
    ((forRange a b).foldl (removeNode I t)
      { sol := s, g := g3, nodeRemoved := nr, copyNodes := copyTour s t }) = st at hR
  have hlen : l = ((forRange a b ++ forRange (b + m) (a + (l + m))).length : Int) := by
    rw [List.length_append, length_forRange, length_forRange]; omega
  obtain ⟨k1, k2⟩ := removal_spec s t l nr _ _ _ rfl rfl rfl hR hnd hsub hlen (by omega) hne
  exact ⟨_, _, k1, k2, by rw [List.length_map]; exact hlen.symm⟩

/-! ### The loop of `ruin` -/

theorem mem_customers {I : Instance} {x : Int} :
    x ∈ customers I ↔ 2 ≤ x ∧ x ≤ I.numberNodes := by
  unfold customers
  simp only [List.mem_map, mem_forRange]
  constructor
  · rintro ⟨y, ⟨h1, h2⟩, rfl⟩
    omega
  · rintro ⟨h1, h2⟩
    exact ⟨x - 1, ⟨by omega, by omega⟩, by omega⟩

theorem nodup_customers (I : Instance) : (customers I).Nodup := by
  unfold customers
  apply List.Nodup.map _ (nodup_forRange _ _)
  intro a b h
  simpa using h

theorem mem_tourNodes {s : Solution} {x : Int} :
    x ∈ tourNodes s ↔ ∃ t, 0 ≤ t ∧ t < s.numberTours ∧ x ∈ tourList s t := by
  unfold tourNodes tourRows
  simp only [List.mem_flatten, List.mem_map, mem_forRange]
  constructor
  · rintro ⟨l, ⟨t, ⟨h1, h2⟩, rfl⟩, hx⟩
    exact ⟨t, h1, h2, hx⟩
  · rintro ⟨t, h1, h2, hx⟩
    exact ⟨_, ⟨t, ⟨h1, h2⟩, rfl⟩, hx⟩

theorem nodup_tourList_of_nodup {s : Solution} (h : (tourNodes s).Nodup) (t : Int)
    (h0 : 0 ≤ t) (h1 : t < s.numberTours) : (tourList s t).Nodup := by
  unfold tourNodes at h
  rw [List.nodup_flatten] at h
  apply h.1
  unfold tourRows
  exact List.mem_map.2 ⟨t, mem_forRange.2 ⟨h0, h1⟩, rfl⟩

/-- Replacing the row `t` of a family of rows by `kept`, where `kept ++ removed` is a
permutation of the old row, and appending `removed`, permutes the collected entries. -/
theorem flatten_replace_perm (f f' : Int → List Int) (NT t : Int) (kept removed : List Int)
    (h0 : 0 ≤ t) (h1 : t < NT) (hrow : f' t = kept) (hoth : ∀ t', t' ≠ t → f' t' = f t')
    (hperm : (kept ++ removed).Perm (f t)) :
    (((forRange 0 NT).map f').flatten ++ removed).Perm ((forRange 0 NT).map f).flatten := by
  have hsplit : forRange 0 NT = forRange 0 t ++ (t :: forRange (t + 1) NT) := by
    rw [← forRange_cons h1, forRange_append h0 (le_of_lt h1)]
  have hA : (forRange 0 t).map f' = (forRange 0 t).map f := by
    apply List.map_congr_left
    intro x hx
    rw [mem_forRange] at hx
    exact hoth x (by omega)
  have hB : (forRange (t + 1) NT).map f' = (forRange (t + 1) NT).map f := by
    apply List.map_congr_left
    intro x hx
    rw [mem_forRange] at hx
    exact hoth x (by omega)
  rw [hsplit]
  simp only [List.map_append, List.map_cons, List.flatten_append, List.flatten_cons, hA, hB,
    hrow, List.append_assoc]
  apply List.Perm.append_left
  -- kept ++ (B ++ removed) ~ f t ++ B
  have : (kept ++ (((forRange (t + 1) NT).map f).flatten ++ removed)).Perm
      ((kept ++ removed) ++ ((forRange (t + 1) NT).map f).flatten) := by
    rw [List.append_assoc]
    exact List.Perm.append_left _ List.perm_append_comm
  exact this.trans (List.Perm.append_right _ hperm)

theorem tourNodes_removed_perm {s s' : Solution} {nr nr' : Int → Bool} {t : Int}
    {kept removed : List Int} (h : StringRemoved s s' nr nr' t kept removed)
    (h0 : 0 ≤ t) (h1 : t < s.numberTours) (hperm : (kept ++ removed).Perm (tourList s t)) :
    (tourNodes s' ++ absentList s').Perm (tourNodes s ++ absentList s) := by
  have key := flatten_replace_perm (tourList s) (tourList s') s.numberTours t kept removed
    h0 h1 h.row h.others hperm
  unfold tourNodes tourRows
  rw [h.numberTours, h.absent]
  have e : (((forRange 0 s.numberTours).map (tourList s')).flatten
        ++ (absentList s ++ removed)).Perm
      ((((forRange 0 s.numberTours).map (tourList s')).flatten ++ removed)
        ++ absentList s) := by
    rw [List.append_assoc]
    exact List.Perm.append_left _ List.perm_append_comm
  exact e.trans (List.Perm.append_right _ key)

theorem RuinInv.nodup {I : Instance} {NT : Int} {st : RuinLoop} (h : RuinInv I NT st) :
    (tourNodes st.sol ++ absentList st.sol).Nodup :=
  (h.perm.nodup_iff).2 (nodup_customers I)

theorem RuinInv.after_removal {I : Instance} {NT : Int} {st : RuinLoop}
    (h : RuinInv I NT st) (t l : Int) (h0 : 0 ≤ t) (h1 : t < NT)
    (r : Solution × Rng × (Int → Bool))
    (hr : RemovalResult st.sol st.nodeRemoved t l r) (rt : Int → Bool) (c : Int) :
    RuinInv I NT ⟨r.1, r.2.1, rt, r.2.2, c⟩ := by
  obtain ⟨kept, removed, hs, hperm, _⟩ := hr
  have hnt := h.nt
  have hnd := h.nodup
  have hrownd : (tourList st.sol t).Nodup :=
    nodup_tourList_of_nodup (List.nodup_append.1 hnd).1 t h0 (by omega)
  have hkr : (kept ++ removed).Nodup := (hperm.nodup_iff).2 hrownd
  have hkept : ∀ x ∈ kept, x ∈ tourList st.sol t ∧ x ∉ removed := by
    intro x hx
    refine ⟨hperm.subset (List.mem_append_left _ hx), ?_⟩
    intro hxr
    exact (List.nodup_append.1 hkr).2.2 hx hxr
  have hrem : ∀ x ∈ removed, x ∈ tourList st.sol t :=
    fun x hx => hperm.subset (List.mem_append_right _ hx)
  refine ⟨?_, ?_, ?_, ?_, ?_, ?_⟩
  · show r.1.numberTours = NT
    rw [hs.numberTours, hnt]
  · show 0 ≤ r.1.numberAbsentNodes
    rw [hs.numAbsent]
    have := h.na
    omega
  · exact (tourNodes_removed_perm hs h0 (by omega) hperm).trans h.perm
  · intro t' ht0 ht1 x hx
    show r.1.tourPerNode (x - 1) = t' + 1 ∧ r.2.2 (x - 1) = false
    rw [hs.tourPerNode, hs.nodeRemoved]
    have hx1 : x - 1 + 1 = x := by omega
    rw [hx1]
    by_cases htt : t' = t
    · subst htt
      have hx' : x ∈ tourList r.1 t' := hx
      rw [hs.row] at hx'
      obtain ⟨a, b⟩ := hkept x hx'
      rw [if_neg b, if_neg b]
      exact h.inTour t' ht0 ht1 x a
    · have hx' : x ∈ tourList r.1 t' := hx
      rw [hs.others t' htt] at hx'
      have hxt := h.inTour t' ht0 ht1 x hx'
      have hnr : x ∉ removed := by
        intro hxr
        have := (h.inTour t h0 h1 x (hrem x hxr)).1
        rw [hxt.1] at this
        omega
      rw [if_neg hnr, if_neg hnr]
      exact hxt
  · intro x hx
    show r.1.tourPerNode (x - 1) = -1 ∧ r.2.2 (x - 1) = true
    have hx' : x ∈ absentList r.1 := hx
    rw [hs.tourPerNode, hs.nodeRemoved]
    have hx1 : x - 1 + 1 = x := by omega
    rw [hx1]
    by_cases hxr : x ∈ removed
    · rw [if_pos hxr, if_pos hxr]
      exact ⟨rfl, rfl⟩
    · rw [if_neg hxr, if_neg hxr]
      rw [hs.absent, List.mem_append] at hx'
      rcases hx' with h' | h'
      · exact h.inAbsent x h'
      · exact absurd h' hxr
  · intro t' ht0 ht1
    show 0 ≤ r.1.numberNodesInTour t'
    by_cases htt : t' = t
    · rw [htt]; exact hs.count
    · rw [hs.counts t' htt]; exact h.counts t' ht0 ht1

theorem tourList_pos_of_mem {s : Solution} {t x : Int} (h : x ∈ tourList s t) :
    1 ≤ s.numberNodesInTour t := by
  unfold tourList at h
  obtain ⟨p, hp, _⟩ := List.mem_map.1 h
  rw [mem_forRange] at hp
  omega

theorem localCardinality_ok (n : Int) (msc : Dbl) (hn : 1 ≤ n) (h0 : 0 ≤ msc.num)
    (h1 : 0 < msc.den) :
    0 ≤ (Dbl.min (Dbl.ofInt n) msc).num ∧ 0 < (Dbl.min (Dbl.ofInt n) msc).den ∧
      (Dbl.min (Dbl.ofInt n) msc).num ≤ n * (Dbl.min (Dbl.ofInt n) msc).den := by
  unfold Dbl.min Dbl.lt Dbl.ofInt
  by_cases h : msc.num * 1 < n * msc.den
  · simp only [h, decide_True, if_true]
    exact ⟨h0, h1, by omega⟩
  · simp only [h, decide_False]
    refine ⟨by simp; omega, by simp, by simp⟩

theorem ruinStep_inv (P : Params) (I : Instance) (msc : Dbl) (nst seed NT : Int)
    (st : RuinLoop) (k : Int) (hmsc : 0 ≤ msc.num ∧ 0 < msc.den)
    (hnb : 2 ≤ I.nodeDistList seed k ∧ I.nodeDistList seed k ≤ I.numberNodes)
    (h : RuinInv I NT st) : RuinInv I NT (ruinStep P I msc nst seed st k) := by
  unfold ruinStep
  dsimp only
  by_cases hc : st.countRuinedTours < nst
  swap
  · rw [if_neg hc]; exact h
  rw [if_pos hc]
  by_cases hcond : (!st.ruinedTour (st.sol.tourPerNode (I.nodeDistList seed k - 1) - 1)
      && !st.nodeRemoved (I.nodeDistList seed k - 1)) = true
  swap
  · rw [if_neg hcond]; exact h
  rw [if_pos hcond]
  simp only [Bool.and_eq_true, Bool.not_eq_true'] at hcond
  -- the node is in a tour
  have hx : I.nodeDistList seed k ∈ tourNodes st.sol ++ absentList st.sol :=
    h.perm.symm.subset (mem_customers.2 hnb)
  have hx' : I.nodeDistList seed k ∈ tourNodes st.sol := by
    rcases List.mem_append.1 hx with h' | h'
    · exact h'
    · have := (h.inAbsent _ h').2
      rw [hcond.2] at this
      exact absurd this (by simp)
  obtain ⟨t, ht0, ht1, hxt⟩ := mem_tourNodes.1 hx'
  rw [h.nt] at ht1
  have htpn := (h.inTour t ht0 ht1 _ hxt).1
  have hti : st.sol.tourPerNode (I.nodeDistList seed k - 1) - 1 = t := by omega
  rw [hti]
  have hn1 := tourList_pos_of_mem hxt
  obtain ⟨c0, c1, c2⟩ := localCardinality_ok (st.sol.numberNodesInTour t) msc hn1 hmsc.1 hmsc.2
  have hl := drawCount_range st.g _ (st.sol.numberNodesInTour t) c0 c1 c2
  rw [max_eq_left hn1] at hl
  have hne : ∀ y ∈ tourList st.sol t, y ≠ -1 := by
    intro y hy
    have : y ∈ customers I :=
      h.perm.subset (List.mem_append_left _ (mem_tourNodes.2 ⟨t, ht0, by rw [h.nt]; exact ht1, hy⟩))
    have := mem_customers.1 this
    omega
  apply h.after_removal t _ ht0 ht1
  split_ifs with hb hs
  · exact ruinSplitString_spec P I st.sol _ _ t _ _ (by omega) (by omega) h.na hne
  · exact ruinString_spec I st.sol _ _ t _ _ hl.1 hl.2 h.na hne
  · exact ruinString_spec I st.sol _ _ t _ _ hl.1 hl.2 h.na hne

/-! ### Removal of the empty tours -/

theorem tourList_eq_nil_iff (s : Solution) (t : Int) :
    tourList s t = [] ↔ s.numberNodesInTour t ≤ 0 := by
  unfold tourList
  rw [List.map_eq_nil_iff]
  constructor
  · intro h
    by_contra hc
    have : (0 : Int) ∈ forRange 0 (s.numberNodesInTour t) := mem_forRange.2 ⟨le_refl _, by omega⟩
    rw [h] at this
    exact absurd this (List.not_mem_nil _)
  · exact fun h => forRange_eq_nil h

/-- The copy of the row `index1 + 1` of the tours into the row `index1` (innermost loop of the
removal of an empty tour). -/
theorem copyRow_spec (s : Solution) (index1 : Int) :
    let s' := (forRange 0 (s.numberNodesInTour (index1 + 1))).foldl
      (fun (s : Solution) index2 =>
        { s with tours := upd2 s.tours index1 index2 (s.tours (index1 + 1) index2) }) s
    (∀ p, 0 ≤ p → p < s.numberNodesInTour (index1 + 1) →
        s'.tours index1 p = s.tours (index1 + 1) p) ∧
      (∀ t, t ≠ index1 → s'.tours t = s.tours t) ∧
      s'.numberNodesInTour = s.numberNodesInTour ∧ s'.numberTours = s.numberTours ∧
      s'.absentNodes = s.absentNodes ∧ s'.numberAbsentNodes = s.numberAbsentNodes ∧
      s'.tourPerNode = s.tourPerNode := by
  intro s'
  by_cases hn : 0 ≤ s.numberNodesInTour (index1 + 1)
  · have key := foldl_forRange
      (fun (s : Solution) index2 =>
        { s with tours := upd2 s.tours index1 index2 (s.tours (index1 + 1) index2) })
      (fun j (a : Solution) =>
        (∀ p, 0 ≤ p → p < j → a.tours index1 p = s.tours (index1 + 1) p) ∧
        (∀ t, t ≠ index1 → a.tours t = s.tours t) ∧
        a.numberNodesInTour = s.numberNodesInTour ∧ a.numberTours = s.numberTours ∧
        a.absentNodes = s.absentNodes ∧ a.numberAbsentNodes = s.numberAbsentNodes ∧
        a.tourPerNode = s.tourPerNode)
      hn s
      ⟨fun p h1 h2 => by omega, fun _ _ => rfl, rfl, rfl, rfl, rfl, rfl⟩
      (by
        intro j a hj0 hj1 ⟨q1, q2, q3, q4, q5, q6, q7⟩
        refine ⟨?_, ?_, q3, q4, q5, q6, q7⟩
        · intro p hp0 hp1
          dsimp only [upd2]
          by_cases hpj : p = j
          · rw [if_pos ⟨rfl, hpj⟩, hpj, q2 (index1 + 1) (by omega)]
          · rw [if_neg (by simp [hpj])]
            exact q1 p hp0 (by omega)
        · intro t ht
          funext p
          dsimp only [upd2]
          rw [if_neg (by simp [ht])]
          rw [q2 t ht])
    exact key
  · have : s' = s := by
      show (forRange 0 (s.numberNodesInTour (index1 + 1))).foldl _ s = s
      rw [forRange_eq_nil (by omega)]
      rfl
    rw [this]
    exact ⟨fun p h1 h2 => by omega, fun _ _ => rfl, rfl, rfl, rfl, rfl, rfl⟩

/-- The removal of the empty tour `i`: the tours after it move down by one place. -/
theorem shiftTours_spec (s0 : Solution) (i : Int) (hi : i ≤ s0.numberTours - 1) :
    let s := (forRange i (s0.numberTours - 1)).foldl (fun (s : Solution) index1 =>
      let s := (forRange 0 (s.numberNodesInTour (index1 + 1))).foldl
        (fun (s : Solution) index2 =>
          { s with tours := upd2 s.tours index1 index2 (s.tours (index1 + 1) index2) }) s
      let count := s.numberNodesInTour (index1 + 1)
      { s with numberNodesInTour := upd s.numberNodesInTour index1 count }) s0
    (∀ t, t < i → s.numberNodesInTour t = s0.numberNodesInTour t ∧ s.tours t = s0.tours t) ∧
      (∀ t, i ≤ t → t < s0.numberTours - 1 → tourList s t = tourList s0 (t + 1)) ∧
      s.numberTours = s0.numberTours ∧
      s.absentNodes = s0.absentNodes ∧ s.numberAbsentNodes = s0.numberAbsentNodes ∧
      s.tourPerNode = s0.tourPerNode := by
  intro s
  have key := foldl_forRange
    (fun (s : Solution) index1 =>
      let s := (forRange 0 (s.numberNodesInTour (index1 + 1))).foldl
        (fun (s : Solution) index2 =>
          { s with tours := upd2 s.tours index1 index2 (s.tours (index1 + 1) index2) }) s
      let count := s.numberNodesInTour (index1 + 1)
      { s with numberNodesInTour := upd s.numberNodesInTour index1 count })
    (fun j (a : Solution) =>
      (∀ t, t < i ∨ j ≤ t →
        a.numberNodesInTour t = s0.numberNodesInTour t ∧ a.tours t = s0.tours t) ∧
      (∀ t, i ≤ t → t < j → tourList a t = tourList s0 (t + 1)) ∧
      a.numberTours = s0.numberTours ∧
      a.absentNodes = s0.absentNodes ∧ a.numberAbsentNodes = s0.numberAbsentNodes ∧
      a.tourPerNode = s0.tourPerNode)
    hi s0
    ⟨fun _ _ => ⟨rfl, rfl⟩, fun t h1 h2 => by omega, rfl, rfl, rfl, rfl⟩
    (by
      intro j a hj0 hj1 ⟨q1, q2, q3, q4, q5, q6⟩
      obtain ⟨c1, c2, c3, c4, c5, c6, c7⟩ := copyRow_spec a j
      dsimp only at c1 c2 c3 c4 c5 c6 c7 ⊢
      generalize (forRange 0 (a.numberNodesInTour (j + 1))).foldl
        (fun (s : Solution) index2 =>
          { s with tours := upd2 s.tours j index2 (s.tours (j + 1) index2) }) a = b
        at c1 c2 c3 c4 c5 c6 c7 ⊢
      have hrow := q1 (j + 1) (Or.inr (by omega))
      refine ⟨?_, ?_, by rw [← q3, ← c4], by rw [← q4, ← c5], by rw [← q5, ← c6],
        by rw [← q6, ← c7]⟩
      · intro t ht
        have htj : t ≠ j := by omega
        have := q1 t (by omega)
        constructor
        · show upd b.numberNodesInTour j (b.numberNodesInTour (j + 1)) t = _
          simp only [upd]
          rw [if_neg htj, c3]
          exact this.1
        · show b.tours t = _
          rw [c2 t htj]
          exact this.2
      · intro t ht0 ht1
        by_cases htj : t = j
        · subst htj
          apply tourList_congr
          · show upd b.numberNodesInTour t (b.numberNodesInTour (t + 1)) t = _
            simp only [upd, if_true]
            rw [c3]
            exact hrow.1
          · intro p hp0 hp1
            show b.tours t p = _
            rw [c1 p hp0 (by rw [hrow.1]; exact hp1), hrow.2]
        · have := q2 t ht0 (by omega)
          rw [← this]
          apply tourList_congr
          · show upd b.numberNodesInTour j (b.numberNodesInTour (j + 1)) t = _
            simp only [upd]
            rw [if_neg htj, c3]
          · intro p _ _
            show b.tours t p = _
            rw [c2 t htj])
  obtain ⟨k1, k2, k3, k4, k5, k6⟩ := key
  exact ⟨fun t ht => k1 t (Or.inl ht), k2, k3, k4, k5, k6⟩

theorem map_forRange_shift (f : Int → List Int) (i n : Int) :
    (forRange i (n - 1)).map (fun t => f (t + 1)) = (forRange (i + 1) n).map f := by
  unfold forRange
  have e : (n - 1 - i).toNat = (n - (i + 1)).toNat := by omega
  rw [e, List.map_map, List.map_map]
  apply List.map_congr_left
  intro k _
  simp only [Function.comp]
  congr 1
  ring

theorem emptyCount_succ (cnt : Int → Int) (i : Int) (hi : 0 ≤ i) :
    ((forRange 0 (i + 1)).filter (fun t => cnt t = 0)).length
      = ((forRange 0 i).filter (fun t => cnt t = 0)).length + (if cnt i = 0 then 1 else 0) := by
  rw [forRange_succ 0 i hi, List.filter_append, List.length_append]
  by_cases h : cnt i = 0 <;> simp [h]

theorem compactStep_inv (s0 : Solution) (hcnt : ∀ t, 0 ≤ t → t < s0.numberTours →
    0 ≤ s0.numberNodesInTour t) (i : Int) (acc : Solution × Int) (hi0 : 0 ≤ i)
    (hi1 : i < s0.numberTours) (h : CompactInv s0 (i + 1) acc) :
    CompactInv s0 i (compactStep acc i) := by
  have hci := (h.low i (by omega)).1
  have hrow : tourList acc.1 i = tourList s0 i :=
    tourList_congr hci (fun p _ _ => by rw [(h.low i (by omega)).2])
  have hemp := h.empties
  rw [emptyCount_succ _ _ hi0] at hemp
  have hsplit0 : (forRange i s0.numberTours).map (tourList s0)
      = tourList s0 i :: (forRange (i + 1) s0.numberTours).map (tourList s0) := by
    rw [forRange_cons hi1, List.map_cons]
  unfold compactStep
  by_cases hA : acc.2 > 0 ∧ acc.1.numberNodesInTour i = 0
  · -- the tour is empty and is removed
    rw [if_pos hA.1, if_pos hA.2]
    have hle := h.le
    obtain ⟨k1, k2, k3, k4, k5, k6⟩ := shiftTours_spec acc.1 i (by omega)
    dsimp only at k1 k2 k3 k4 k5 k6 ⊢
    generalize (forRange i (acc.1.numberTours - 1)).foldl (fun (s : Solution) index1 =>
      let s := (forRange 0 (s.numberNodesInTour (index1 + 1))).foldl
        (fun (s : Solution) index2 =>
          { s with tours := upd2 s.tours index1 index2 (s.tours (index1 + 1) index2) }) s
      let count := s.numberNodesInTour (index1 + 1)
      { s with numberNodesInTour := upd s.numberNodesInTour index1 count }) acc.1 = b
      at k1 k2 k3 k4 k5 k6 ⊢
    have hnil : tourList s0 i = [] := by
      rw [tourList_eq_nil_iff, ← hci, hA.2]
    refine ⟨?_, ?_, ?_, ?_, ?_, ?_, ?_⟩
    · intro t ht
      have a := k1 t ht
      have b' := h.low t (by omega)
      exact ⟨a.1.trans b'.1, a.2.trans b'.2⟩
    · show (forRange i (b.numberTours - 1)).map (tourList b) = _
      have e1 : (forRange i (b.numberTours - 1)).map (tourList b)
          = (forRange i (b.numberTours - 1)).map (fun t => tourList acc.1 (t + 1)) := by
        apply List.map_congr_left
        intro t ht
        rw [mem_forRange] at ht
        exact k2 t ht.1 (by rw [← k3]; exact ht.2)
      rw [e1, map_forRange_shift, k3, h.high, hsplit0, hnil]
      simp
    · show i ≤ b.numberTours - 1
      omega
    · show acc.2 - 1 = _
      rw [hci] at hA
      rw [if_pos hA.2] at hemp
      omega
    · exact k4.trans h.absentNodes
    · exact k5.trans h.numberAbsentNodes
    · exact k6.trans h.tourPerNode
  · -- nothing changes
    have hne : s0.numberNodesInTour i ≠ 0 := by
      intro h0
      rw [not_and_or] at hA
      rcases hA with hA | hA
      · rw [if_pos h0] at hemp
        omega
      · exact hA (hci.trans h0)
    have hres : (if acc.2 > 0 then
          if acc.1.numberNodesInTour i = 0 then
            (({ ((forRange i (acc.1.numberTours - 1)).foldl (fun (s : Solution) index1 =>
              let s := (forRange 0 (s.numberNodesInTour (index1 + 1))).foldl
                (fun (s : Solution) index2 =>
                  { s with tours := upd2 s.tours index1 index2 (s.tours (index1 + 1) index2) }) s
              let count := s.numberNodesInTour (index1 + 1)
              { s with numberNodesInTour := upd s.numberNodesInTour index1 count }) acc.1) with
                numberTours := ((forRange i (acc.1.numberTours - 1)).foldl
                  (fun (s : Solution) index1 =>
              let s := (forRange 0 (s.numberNodesInTour (index1 + 1))).foldl
                (fun (s : Solution) index2 =>
                  { s with tours := upd2 s.tours index1 index2 (s.tours (index1 + 1) index2) }) s
              let count := s.numberNodesInTour (index1 + 1)
              { s with numberNodesInTour := upd s.numberNodesInTour index1 count }) acc.1).numberTours
                    - 1 } : Solution), acc.2 - 1)
          else acc
        else acc) = acc := by
      split_ifs with a1 a2
      · exact absurd ⟨a1, a2⟩ hA
      · rfl
      · rfl
    rw [hres]
    have hnn : tourList s0 i ≠ [] := by
      rw [Ne, tourList_eq_nil_iff]
      have := hcnt i hi0 hi1
      omega
    refine ⟨fun t ht => h.low t (by omega), ?_, by have := h.le; omega, ?_, h.absentNodes,
      h.numberAbsentNodes, h.tourPerNode⟩
    · rw [forRange_cons (by have := h.le; omega), List.map_cons, h.high, hsplit0, hrow]
      simp [hnn]
    · rw [if_neg hne] at hemp
      simpa using hemp

/-- `compactTours` keeps the non-empty tours, in order, and nothing else changes but
`numberTours`, `tours` and `numberNodesInTour`. -/
theorem compactTours_spec (s0 : Solution) (hnt : 0 ≤ s0.numberTours)
    (hcnt : ∀ t, 0 ≤ t → t < s0.numberTours → 0 ≤ s0.numberNodesInTour t) :
    tourRows (compactTours s0) = (tourRows s0).filter (· ≠ []) ∧
      0 ≤ (compactTours s0).numberTours ∧
      (compactTours s0).absentNodes = s0.absentNodes ∧
      (compactTours s0).numberAbsentNodes = s0.numberAbsentNodes ∧
      (compactTours s0).tourPerNode = s0.tourPerNode := by
  unfold compactTours
  dsimp only
  have key := foldl_forRangeDown compactStep (fun i acc => CompactInv s0 i acc) hnt
    (s0, (((forRange 0 s0.numberTours).filter
      (fun index1 => s0.numberNodesInTour index1 = 0)).length : Int))
    ⟨fun _ _ => ⟨rfl, rfl⟩, by simp [forRange_eq_nil], le_refl _, rfl, rfl, rfl, rfl⟩
    (fun i acc h0 h1 hq => compactStep_inv s0 hcnt i acc h0 h1 hq)
  exact ⟨key.high, key.le, key.absentNodes, key.numberAbsentNodes, key.tourPerNode⟩

/-! ### Recomputed usage and `tourPerNode` -/

theorem demandOf_append (I : Instance) (a b : List Int) :
    demandOf I (a ++ b) = demandOf I a + demandOf I b := by
  unfold demandOf
  rw [List.map_append, List.sum_append]

theorem demandOf_singleton (I : Instance) (x : Int) : demandOf I [x] = I.nodeDemand (x - 1) := by
  simp [demandOf]

theorem demandOf_perm (I : Instance) {a b : List Int} (h : a.Perm b) :
    demandOf I a = demandOf I b := by
  unfold demandOf
  exact (h.map _).sum_eq

/-- `recomputeCapacity` stores in `capacityUsageTour` the demand of every tour and changes
nothing else. -/
theorem recomputeCapacity_spec (I : Instance) (s : Solution) (hnt : 0 ≤ s.numberTours) :
    (∀ t, 0 ≤ t → t < s.numberTours →
        (recomputeCapacity I s).capacityUsageTour t = demandOf I (tourList s t)) ∧
      (recomputeCapacity I s).tours = s.tours ∧
      (recomputeCapacity I s).numberNodesInTour = s.numberNodesInTour ∧
      (recomputeCapacity I s).numberTours = s.numberTours ∧
      (recomputeCapacity I s).absentNodes = s.absentNodes ∧
      (recomputeCapacity I s).numberAbsentNodes = s.numberAbsentNodes ∧
      (recomputeCapacity I s).tourPerNode = s.tourPerNode := by
  unfold recomputeCapacity
  have key := foldl_forRange
    (fun (s : Solution) index1 =>
      let s := { s with capacityUsageTour := upd s.capacityUsageTour index1 0 }
      (forRange 0 (s.numberNodesInTour index1)).foldl (fun (s : Solution) index2 =>
        let usage := s.capacityUsageTour index1 + I.nodeDemand (s.tours index1 index2 - 1)
        { s with capacityUsageTour := upd s.capacityUsageTour index1 usage }) s)
    (fun i (a : Solution) =>
      (∀ t, 0 ≤ t → t < i → a.capacityUsageTour t = demandOf I (tourList s t)) ∧
      a.tours = s.tours ∧ a.numberNodesInTour = s.numberNodesInTour ∧
      a.numberTours = s.numberTours ∧ a.absentNodes = s.absentNodes ∧
      a.numberAbsentNodes = s.numberAbsentNodes ∧ a.tourPerNode = s.tourPerNode)
    hnt s
    ⟨fun t h1 h2 => by omega, rfl, rfl, rfl, rfl, rfl, rfl⟩
    (by
      intro i a hi0 hi1 ⟨q1, q2, q3, q4, q5, q6, q7⟩
      dsimp only
      -- the inner loop
      have inner : ∀ (n : Int), 0 ≤ n →
          let b := (forRange 0 n).foldl (fun (s : Solution) index2 =>
            let usage := s.capacityUsageTour i + I.nodeDemand (s.tours i index2 - 1)
            { s with capacityUsageTour := upd s.capacityUsageTour i usage })
            { a with capacityUsageTour := upd a.capacityUsageTour i 0 }
          b.capacityUsageTour i = demandOf I ((forRange 0 n).map (s.tours i)) ∧
          (∀ t, t ≠ i → b.capacityUsageTour t = a.capacityUsageTour t) ∧
          b.tours = s.tours ∧ b.numberNodesInTour = s.numberNodesInTour ∧
          b.numberTours = s.numberTours ∧ b.absentNodes = s.absentNodes ∧
          b.numberAbsentNodes = s.numberAbsentNodes ∧ b.tourPerNode = s.tourPerNode := by
        intro n hn
        exact foldl_forRange
          (fun (s : Solution) index2 =>
            let usage := s.capacityUsageTour i + I.nodeDemand (s.tours i index2 - 1)
            { s with capacityUsageTour := upd s.capacityUsageTour i usage })
          (fun j (b : Solution) =>
            b.capacityUsageTour i = demandOf I ((forRange 0 j).map (s.tours i)) ∧
            (∀ t, t ≠ i → b.capacityUsageTour t = a.capacityUsageTour t) ∧
            b.tours = s.tours ∧ b.numberNodesInTour = s.numberNodesInTour ∧
            b.numberTours = s.numberTours ∧ b.absentNodes = s.absentNodes ∧
            b.numberAbsentNodes = s.numberAbsentNodes ∧ b.tourPerNode = s.tourPerNode)
          hn _
          ⟨by simp [upd, forRange_eq_nil, demandOf], fun t ht => by simp [upd, ht],
            q2, q3, q4, q5, q6, q7⟩
          (by
            intro j b hj0 hj1 ⟨p1, p2, p3, p4, p5, p6, p7, p8⟩
            refine ⟨?_, ?_, p3, p4, p5, p6, p7, p8⟩
            · dsimp only [upd]
              rw [if_pos rfl, p1, forRange_succ 0 j hj0, List.map_append, demandOf_append,
                p3]
              simp [demandOf]
            · intro t ht
              dsimp only [upd]
              rw [if_neg ht]
              exact p2 t ht)
      by_cases hn : 0 ≤ a.numberNodesInTour i
      · obtain ⟨b1, b2, b3, b4, b5, b6, b7, b8⟩ := inner (a.numberNodesInTour i) hn
        refine ⟨?_, b3, b4, b5, b6, b7, b8⟩
        intro t ht0 ht1
        by_cases hti : t = i
        · subst hti
          rw [b1]
          unfold tourList
          rw [q3]
        · rw [b2 t hti]
          exact q1 t ht0 (by omega)
      · rw [forRange_eq_nil (by omega)]
        refine ⟨?_, q2, q3, q4, q5, q6, q7⟩
        intro t ht0 ht1
        by_cases hti : t = i
        · subst hti
          have : tourList s t = [] := by
            rw [tourList_eq_nil_iff, ← q3]; omega
          rw [this]
          simp [upd, demandOf]
        · simp only [List.foldl_nil, upd]
          rw [if_neg hti]
          exact q1 t ht0 (by omega))
  exact key

theorem rows_disjoint {s : Solution} (h : (tourNodes s).Nodup) {t t' x : Int}
    (h0 : 0 ≤ t) (h1 : t < t') (h2 : t' < s.numberTours)
    (hx : x ∈ tourList s t) (hx' : x ∈ tourList s t') : False := by
  unfold tourNodes tourRows at h
  have hsplit : forRange 0 s.numberTours
      = forRange 0 t' ++ (t' :: forRange (t' + 1) s.numberTours) := by
    rw [← forRange_cons h2, forRange_append (by omega) (le_of_lt h2)]
  rw [hsplit, List.map_append, List.flatten_append, List.map_cons, List.flatten_cons] at h
  have hd := (List.nodup_append.1 h).2.2
  refine hd (a := x) ?_ (List.mem_append_left _ hx')
  rw [List.mem_flatten]
  exact ⟨_, List.mem_map.2 ⟨t, mem_forRange.2 ⟨h0, h1⟩, rfl⟩, hx⟩

theorem mem_tourList {s : Solution} {t x : Int} :
    x ∈ tourList s t ↔ ∃ p, 0 ≤ p ∧ p < s.numberNodesInTour t ∧ s.tours t p = x := by
  unfold tourList
  simp only [List.mem_map, mem_forRange]
  constructor
  · rintro ⟨p, ⟨h1, h2⟩, h3⟩
    exact ⟨p, h1, h2, h3⟩
  · rintro ⟨p, h1, h2, h3⟩
    exact ⟨p, ⟨h1, h2⟩, h3⟩

/-- `resetTourPerNode` makes `tourPerNode` the 1-based tour index of every node held by a tour
and changes nothing else. -/
theorem resetTourPerNode_spec (s : Solution) (hnt : 0 ≤ s.numberTours)
    (hnd : (tourNodes s).Nodup) :
    (∀ t, 0 ≤ t → t < s.numberTours → ∀ x ∈ tourList s t,
        (resetTourPerNode s).tourPerNode (x - 1) = t + 1) ∧
      (∀ y, y + 1 ∉ tourNodes s → (resetTourPerNode s).tourPerNode y = s.tourPerNode y) ∧
      (resetTourPerNode s).tours = s.tours ∧
      (resetTourPerNode s).numberNodesInTour = s.numberNodesInTour ∧
      (resetTourPerNode s).numberTours = s.numberTours ∧
      (resetTourPerNode s).absentNodes = s.absentNodes ∧
      (resetTourPerNode s).numberAbsentNodes = s.numberAbsentNodes ∧
      (resetTourPerNode s).capacityUsageTour = s.capacityUsageTour := by
  unfold resetTourPerNode
  have key := foldl_forRange
    (fun (s : Solution) index1 =>
      (forRange 0 (s.numberNodesInTour index1)).foldl (fun (s : Solution) index2 =>
        { s with tourPerNode := upd s.tourPerNode (s.tours index1 index2 - 1) (index1 + 1) }) s)
    (fun i (a : Solution) =>
      (∀ t, 0 ≤ t → t < i → ∀ x ∈ tourList s t, a.tourPerNode (x - 1) = t + 1) ∧
      (∀ y, (∀ t, 0 ≤ t → t < i → y + 1 ∉ tourList s t) → a.tourPerNode y = s.tourPerNode y) ∧
      a.tours = s.tours ∧ a.numberNodesInTour = s.numberNodesInTour ∧
      a.numberTours = s.numberTours ∧ a.absentNodes = s.absentNodes ∧
      a.numberAbsentNodes = s.numberAbsentNodes ∧ a.capacityUsageTour = s.capacityUsageTour)
    hnt s
    ⟨fun t h1 h2 => by omega, fun _ _ => rfl, rfl, rfl, rfl, rfl, rfl, rfl⟩
    (by
      intro i a hi0 hi1 ⟨q1, q2, q3, q4, q5, q6, q7, q8⟩
      dsimp only
      have inner : ∀ (n : Int), 0 ≤ n →
          let b := (forRange 0 n).foldl (fun (s : Solution) index2 =>
            { s with tourPerNode := upd s.tourPerNode (s.tours i index2 - 1) (i + 1) }) a
          (∀ p, 0 ≤ p → p < n → b.tourPerNode (s.tours i p - 1) = i + 1) ∧
          (∀ y, (∀ p, 0 ≤ p → p < n → s.tours i p - 1 ≠ y) →
            b.tourPerNode y = a.tourPerNode y) ∧
          b.tours = s.tours ∧ b.numberNodesInTour = s.numberNodesInTour ∧
          b.numberTours = s.numberTours ∧ b.absentNodes = s.absentNodes ∧
          b.numberAbsentNodes = s.numberAbsentNodes ∧
          b.capacityUsageTour = s.capacityUsageTour := by
        intro n hn
        exact foldl_forRange
          (fun (s : Solution) index2 =>
            { s with tourPerNode := upd s.tourPerNode (s.tours i index2 - 1) (i + 1) })
          (fun j (b : Solution) =>
            (∀ p, 0 ≤ p → p < j → b.tourPerNode (s.tours i p - 1) = i + 1) ∧
            (∀ y, (∀ p, 0 ≤ p → p < j → s.tours i p - 1 ≠ y) →
              b.tourPerNode y = a.tourPerNode y) ∧
            b.tours = s.tours ∧ b.numberNodesInTour = s.numberNodesInTour ∧
            b.numberTours = s.numberTours ∧ b.absentNodes = s.absentNodes ∧
            b.numberAbsentNodes = s.numberAbsentNodes ∧
            b.capacityUsageTour = s.capacityUsageTour)
          hn a
          ⟨fun p h1 h2 => by omega, fun _ _ => rfl, q3, q4, q5, q6, q7, q8⟩
          (by
            intro j b hj0 hj1 ⟨p1, p2, p3, p4, p5, p6, p7, p8⟩
            refine ⟨?_, ?_, p3, p4, p5, p6, p7, p8⟩
            · intro p hp0 hp1
              dsimp only [upd]
              rw [p3]
              by_cases hc : s.tours i p - 1 = s.tours i j - 1
              · rw [if_pos hc]
              · rw [if_neg hc]
                have hpj : p ≠ j := by rintro rfl; exact hc rfl
                exact p1 p hp0 (by omega)
            · intro y hy
              dsimp only [upd]
              rw [p3, if_neg (fun h => hy j hj0 (by omega) h.symm)]
              exact p2 y (fun p hp0 hp1 => hy p hp0 (by omega)))
      have hrowi : ∀ x, x ∈ tourList s i ↔
          ∃ p, 0 ≤ p ∧ p < a.numberNodesInTour i ∧ s.tours i p = x := by
        intro x
        rw [mem_tourList, q4]
      by_cases hn : 0 ≤ a.numberNodesInTour i
      · obtain ⟨b1, b2, b3, b4, b5, b6, b7, b8⟩ := inner (a.numberNodesInTour i) hn
        refine ⟨?_, ?_, b3, b4, b5, b6, b7, b8⟩
        · intro t ht0 ht1 x hx
          by_cases hti : t = i
          · subst hti
            obtain ⟨p, hp0, hp1, hp2⟩ := (hrowi x).1 hx
            rw [← hp2]
            exact b1 p hp0 hp1
          · rw [b2 (x - 1)]
            · exact q1 t ht0 (by omega) x hx
            · intro p hp0 hp1 hc
              have hxi : x ∈ tourList s i := (hrowi x).2 ⟨p, hp0, hp1, by omega⟩
              exact rows_disjoint hnd ht0 (by omega) hi1 hx hxi
        · intro y hy
          rw [b2 y]
          · exact q2 y (fun t ht0 ht1 => hy t ht0 (by omega))
          · intro p hp0 hp1 hc
            apply hy i hi0 (by omega)
            exact (hrowi _).2 ⟨p, hp0, hp1, by omega⟩
      · rw [forRange_eq_nil (by omega)]
        simp only [List.foldl_nil]
        refine ⟨?_, ?_, q3, q4, q5, q6, q7, q8⟩
        · intro t ht0 ht1 x hx
          by_cases hti : t = i
          · subst hti
            obtain ⟨p, hp0, hp1, _⟩ := (hrowi x).1 hx
            omega
          · exact q1 t ht0 (by omega) x hx
        · intro y hy
          exact q2 y (fun t ht0 ht1 => hy t ht0 (by omega)))
  obtain ⟨k1, k2, k3, k4, k5, k6, k7, k8⟩ := key
  refine ⟨k1, ?_, k3, k4, k5, k6, k7, k8⟩
  intro y hy
  apply k2 y
  intro t ht0 ht1 hc
  exact hy (mem_tourNodes.2 ⟨t, ht0, ht1, hc⟩)

/-! ### The whole of `ruin` -/

theorem foldl_mem_inv {α β : Type} (f : α → β → α) (Q : α → Prop) :
    ∀ (l : List β) (a : α), Q a → (∀ b ∈ l, ∀ a, Q a → Q (f a b)) → Q (l.foldl f a)
  | [], _, h, _ => h
  | b :: l, a, h, hstep => by
    rw [List.foldl_cons]
    exact foldl_mem_inv f Q l (f a b) (hstep b (List.mem_cons_self _ _) a h)
      (fun b' hb' => hstep b' (List.mem_cons_of_mem _ hb'))

theorem flatten_filter_ne_nil (L : List (List Int)) :
    (L.filter (· ≠ [])).flatten = L.flatten := by
  induction L with
  | nil => rfl
  | cons a L ih =>
    by_cases h : a = []
    · rw [List.filter_cons_of_neg (by simpa using h), ih, h]
      rfl
    · rw [List.filter_cons_of_pos (by simpa using h), List.flatten_cons, ih]
      rfl

theorem absentList_zero (s : Solution) (h : s.numberAbsentNodes = 0) : absentList s = [] := by
  unfold absentList
  rw [h, forRange_eq_nil (le_refl _)]
  rfl

theorem mem_tourRows {s : Solution} {t : Int} (h0 : 0 ≤ t) (h1 : t < s.numberTours) :
    tourList s t ∈ tourRows s :=
  List.mem_map.2 ⟨t, mem_forRange.2 ⟨h0, h1⟩, rfl⟩

theorem sum_nonneg_of_forall (l : List Int) (h : ∀ x ∈ l, 0 ≤ x) : 0 ≤ l.sum := by
  induction l with
  | nil => simp
  | cons a l ih =>
    rw [List.sum_cons]
    have := h a (List.mem_cons_self _ _)
    have := ih (fun x hx => h x (List.mem_cons_of_mem _ hx))
    omega

theorem div_ofInt_ok (total NT : Int) (ht : 0 ≤ total) (hNT : 1 ≤ NT) :
    0 ≤ (Dbl.div (Dbl.ofInt total) (Dbl.ofInt NT)).num ∧
      0 < (Dbl.div (Dbl.ofInt total) (Dbl.ofInt NT)).den ∧
      (Dbl.div (Dbl.ofInt total) (Dbl.ofInt NT)).toRat = (total : ℚ) / (NT : ℚ) := by
  unfold Dbl.div Dbl.ofInt Dbl.toRat
  simp only [(by omega : (0 : Int) ≤ NT), if_true]
  refine ⟨by simpa using ht, by simp; omega, by simp⟩

theorem maxStringCardinality_ok (L total NT : Int) (hL : 0 ≤ L) (ht : 0 ≤ total)
    (hNT : 1 ≤ NT) :
    0 ≤ (Dbl.min (Dbl.ofInt L) (Dbl.round53 (Dbl.div (Dbl.ofInt total) (Dbl.ofInt NT)))).num ∧
      0 < (Dbl.min (Dbl.ofInt L)
        (Dbl.round53 (Dbl.div (Dbl.ofInt total) (Dbl.ofInt NT)))).den := by
  obtain ⟨hn, hd, _⟩ := div_ofInt_ok total NT ht hNT
  have r1 := Dbl.round53_den_pos _ hd
  have r2 := Dbl.round53_num_nonneg _ hd hn
  unfold Dbl.min
  split_ifs
  · exact ⟨r2, r1⟩
  · exact ⟨hL, by simp [Dbl.ofInt]⟩

/-- The whole of `ruin`: it turns a complete solution into a ruined one. -/
theorem ruin_spec (P : Params) (I : Instance) (stack : Int → Bool) (s : Solution) (g : Rng)
    (hP : 0 ≤ P.lengthRemovedStrings) (hnb : NeighboursOK I) (hs : Tidy I s) :
    Ruined I (ruin P I stack s g).1 := by
  unfold ruin
  dsimp only
  -- abbreviations for the drawn quantities
  generalize hmsc : Dbl.min (Dbl.ofInt P.lengthRemovedStrings)
    (Dbl.round53 (Dbl.div (Dbl.ofInt ((forRange 0 s.numberTours).map s.numberNodesInTour).sum)
      (Dbl.ofInt s.numberTours))) = msc
  generalize hnst : (drawCount g (Dbl.round53 (Dbl.sub (Dbl.round53 (Dbl.div (Dbl.round53 (Dbl.mul
    (Dbl.ofInt P.numberOfStringsConstant) (Dbl.ofInt P.avRemovedCust)))
    (Dbl.round53 (Dbl.add (Dbl.ofInt 1) msc)))) (Dbl.ofInt 1)))) = dn
  have hseed := drawCount_range dn.2 (Dbl.ofInt (I.numberNodes - 1)) (I.numberNodes - 1)
  generalize hds : drawCount dn.2 (Dbl.ofInt (I.numberNodes - 1)) = ds at hseed
  -- the loop
  have hinit : RuinInv I s.numberTours
      ⟨{ s with numberAbsentNodes := 0 }, ds.2,
        fun index1 => if 0 ≤ index1 ∧ index1 < s.numberTours then false else stack index1,
        fun _ => false, 0⟩ := by
    refine ⟨rfl, le_refl _, ?_, ?_, ?_, ?_⟩
    · have : absentList { s with numberAbsentNodes := 0 } = [] := absentList_zero _ rfl
      rw [this, List.append_nil]
      exact hs.perm
    · intro t h0 h1 x hx
      exact ⟨hs.tourPerNode t h0 h1 x hx, rfl⟩
    · intro x hx
      have : absentList { s with numberAbsentNodes := 0 } = [] := absentList_zero _ rfl
      rw [this] at hx
      exact absurd hx (List.not_mem_nil _)
    · intro t h0 h1
      exact le_of_lt (hs.nonempty t h0 h1)
  have hloop : RuinInv I s.numberTours ((forRange 0 (I.numberNodes - 2)).foldl
      (ruinStep P I msc dn.1 ds.1)
      ⟨{ s with numberAbsentNodes := 0 }, ds.2,
        fun index1 => if 0 ≤ index1 ∧ index1 < s.numberTours then false else stack index1,
        fun _ => false, 0⟩) := by
    apply foldl_mem_inv _ _ _ _ hinit
    intro k hk a ha
    rw [mem_forRange] at hk
    -- there is a customer, hence a tour
    have hn3 : 3 ≤ I.numberNodes := by omega
    have hcust : (2 : Int) ∈ customers I := mem_customers.2 ⟨le_refl _, by omega⟩
    obtain ⟨t, ht0, ht1, _⟩ := mem_tourNodes.1 (hs.perm.symm.subset hcust)
    have htot : 0 ≤ ((forRange 0 s.numberTours).map s.numberNodesInTour).sum := by
      apply sum_nonneg_of_forall
      intro x hx
      obtain ⟨u, hu, rfl⟩ := List.mem_map.1 hx
      rw [mem_forRange] at hu
      exact le_of_lt (hs.nonempty u hu.1 hu.2)
    have hm := maxStringCardinality_ok P.lengthRemovedStrings _ s.numberTours hP htot
      (by omega)
    rw [hmsc] at hm
    have hsd := hseed (by simp [Dbl.ofInt]; omega) (by simp [Dbl.ofInt])
      (by simp [Dbl.ofInt])
    rw [max_eq_left (by omega)] at hsd
    exact ruinStep_inv P I msc dn.1 ds.1 s.numberTours a k hm
      (hnb ds.1 k hsd.1 (by omega) hk.1 hk.2) ha
  generalize (forRange 0 (I.numberNodes - 2)).foldl (ruinStep P I msc dn.1 ds.1)
      ⟨{ s with numberAbsentNodes := 0 }, ds.2,
        fun index1 => if 0 ≤ index1 ∧ index1 < s.numberTours then false else stack index1,
        fun _ => false, 0⟩ = st at hloop
  -- the three passes after the loop
  have hnt0 : 0 ≤ st.sol.numberTours := by rw [hloop.nt]; exact hs.nt
  obtain ⟨c1, c2, c3, c4, c5⟩ := compactTours_spec st.sol hnt0
    (fun t h0 h1 => hloop.counts t h0 (by rw [← hloop.nt]; exact h1))
  generalize compactTours st.sol = s1 at c1 c2 c3 c4 c5
  obtain ⟨d1, d2, d3, d4, d5, d6, d7⟩ := recomputeCapacity_spec I s1 c2
  generalize recomputeCapacity I s1 = s2 at d1 d2 d3 d4 d5 d6 d7
  have hrows2 : tourRows s2 = tourRows s1 := by
    unfold tourRows tourList
    rw [d2, d3, d4]
  have hnodes1 : tourNodes s1 = tourNodes st.sol := by
    unfold tourNodes
    rw [c1, flatten_filter_ne_nil]
  have hnodes2 : tourNodes s2 = tourNodes st.sol := by
    unfold tourNodes
    rw [hrows2]
    exact hnodes1
  have habs2 : absentList s2 = absentList st.sol := by
    unfold absentList
    rw [d5, d6, c3, c4]
  have hnd := hloop.nodup
  have hnd2 : (tourNodes s2).Nodup := by
    rw [hnodes2]
    exact (List.nodup_append.1 hnd).1
  obtain ⟨e1, e2, e3, e4, e5, e6, e7, e8⟩ := resetTourPerNode_spec s2 (by rw [d4]; exact c2) hnd2
  generalize resetTourPerNode s2 = s3 at e1 e2 e3 e4 e5 e6 e7 e8
  have hrows3 : tourRows s3 = tourRows s2 := by
    unfold tourRows tourList
    rw [e3, e4, e5]
  have hlist3 : ∀ t, tourList s3 t = tourList s2 t := by
    intro t
    unfold tourList
    rw [e3, e4]
  have hlist2 : ∀ t, tourList s2 t = tourList s1 t := by
    intro t
    unfold tourList
    rw [d2, d3]
  have habs3 : absentList s3 = absentList st.sol := by
    unfold absentList
    rw [e6, e7]
    exact habs2
  refine ⟨?_, ?_, ?_, ?_, ?_, ?_, ?_⟩
  · rw [e5, d4]; exact c2
  · rw [e7, d6, c4]; exact hloop.na
  · intro t h0 h1
    have hmem : tourList s1 t ∈ tourRows s1 :=
      mem_tourRows h0 (by rw [← d4, ← e5]; exact h1)
    rw [c1, List.mem_filter] at hmem
    have hne : tourList s1 t ≠ [] := by simpa using hmem.2
    rw [Ne, tourList_eq_nil_iff] at hne
    rw [e4, d3]
    omega
  · unfold tourNodes
    rw [hrows3]
    show (tourNodes s2 ++ absentList s3).Perm (customers I)
    rw [hnodes2, habs3]
    exact hloop.perm
  · intro t h0 h1 x hx
    rw [hlist3] at hx
    exact e1 t h0 (by rw [← e5]; exact h1) x hx
  · intro x hx
    rw [habs3] at hx
    have hnotin : x - 1 + 1 ∉ tourNodes s2 := by
      rw [hnodes2, (by omega : x - 1 + 1 = x)]
      intro hc
      exact (List.nodup_append.1 hnd).2.2 hc hx
    rw [e2 _ hnotin, d7, c5]
    exact (hloop.inAbsent x hx).1
  · intro t h0 h1
    rw [e8, hlist3, hlist2]
    exact d1 t h0 (by rw [← d4, ← e5]; exact h1)

/-! ### Insertion of a node -/

/-- The effect of `insertNode` ("actually reinsert node"): the node is put between the first
`tempPos` members of the tour and the others. -/
theorem insertNode_spec (I : Instance) (s : Solution) (node T p : Int) (hp0 : 0 ≤ p)
    (hp1 : p ≤ s.numberNodesInTour T) :
    let s' := insertNode I s node T p
    tourList s T = (forRange 0 p).map (s.tours T) ++
        (forRange p (s.numberNodesInTour T)).map (s.tours T) ∧
      tourList s' T = (forRange 0 p).map (s.tours T) ++
        (node + 1) :: (forRange p (s.numberNodesInTour T)).map (s.tours T) ∧
      (∀ t, t ≠ T → tourList s' t = tourList s t) ∧
      s'.numberNodesInTour = upd s.numberNodesInTour T (s.numberNodesInTour T + 1) ∧
      s'.numberTours = s.numberTours ∧
      s'.tourPerNode = upd s.tourPerNode node (T + 1) ∧
      s'.capacityUsageTour
        = upd s.capacityUsageTour T (s.capacityUsageTour T + I.nodeDemand node) ∧
      s'.absentNodes = s.absentNodes ∧ s'.numberAbsentNodes = s.numberAbsentNodes := by
  intro s'
  -- the shifting loop
  have key := foldl_forRangeDown
    (fun (a : Solution) index2 =>
      { a with tours := upd2 a.tours T index2 (a.tours T (index2 - 1)) })
    (fun i (a : Solution) =>
      (∀ q, i ≤ q → q ≤ s.numberNodesInTour T → a.tours T q = s.tours T (q - 1)) ∧
      (∀ q, q < i → a.tours T q = s.tours T q) ∧
      (∀ t, t ≠ T → a.tours t = s.tours t) ∧
      a.numberNodesInTour = s.numberNodesInTour ∧ a.numberTours = s.numberTours ∧
      a.tourPerNode = upd s.tourPerNode node (T + 1) ∧
      a.capacityUsageTour
        = upd s.capacityUsageTour T (s.capacityUsageTour T + I.nodeDemand node) ∧
      a.absentNodes = s.absentNodes ∧ a.numberAbsentNodes = s.numberAbsentNodes)
    (by omega : p + 1 ≤ s.numberNodesInTour T + 1)
    { s with
      capacityUsageTour := upd s.capacityUsageTour T (s.capacityUsageTour T + I.nodeDemand node),
      tourPerNode := upd s.tourPerNode node (T + 1) }
    ⟨fun q h1 h2 => by omega, fun _ _ => rfl, fun _ _ => rfl, rfl, rfl, rfl, rfl, rfl, rfl⟩
    (by
      intro i a hi0 hi1 ⟨q1, q2, q3, q4, q5, q6, q7, q8, q9⟩
      refine ⟨?_, ?_, ?_, q4, q5, q6, q7, q8, q9⟩
      · intro q hq0 hq1
        dsimp only [upd2]
        by_cases hqi : q = i
        · rw [if_pos ⟨rfl, hqi⟩, hqi]
          exact q2 (i - 1) (by omega)
        · rw [if_neg (by simp [hqi])]
          exact q1 q (by omega) hq1
      · intro q hq
        dsimp only [upd2]
        rw [if_neg (by intro h; omega)]
        exact q2 q (by omega)
      · intro t ht
        funext q
        dsimp only [upd2]
        rw [if_neg (by simp [ht]), q3 t ht])
  obtain ⟨k1, k2, k3, k4, k5, k6, k7, k8, k9⟩ := key
  have hs' : s' = insertNode I s node T p := rfl
  unfold insertNode at hs'
  dsimp only at hs'
  generalize (forRangeDown (p + 1) (s.numberNodesInTour T + 1)).foldl
    (fun (a : Solution) index2 =>
      { a with tours := upd2 a.tours T index2 (a.tours T (index2 - 1)) })
    { s with
      capacityUsageTour := upd s.capacityUsageTour T (s.capacityUsageTour T + I.nodeDemand node),
      tourPerNode := upd s.tourPerNode node (T + 1) } = b
    at k1 k2 k3 k4 k5 k6 k7 k8 k9 hs'
  have hcnt : s'.numberNodesInTour = upd s.numberNodesInTour T (s.numberNodesInTour T + 1) := by
    rw [hs']
    show upd b.numberNodesInTour T (b.numberNodesInTour T + 1) = _
    rw [k4]
  have htours : ∀ t q, s'.tours t q = if t = T ∧ q = p then node + 1 else b.tours t q := by
    intro t q
    rw [hs']
    rfl
  refine ⟨?_, ?_, ?_, hcnt, ?_, ?_, ?_, ?_, ?_⟩
  · unfold tourList
    rw [← List.map_append, forRange_append hp0 hp1]
  · unfold tourList
    rw [hcnt]
    simp only [upd, if_true]
    rw [← forRange_append hp0 (by omega : p ≤ s.numberNodesInTour T + 1),
      forRange_cons (by omega : p < s.numberNodesInTour T + 1), List.map_append, List.map_cons]
    congr 1
    · apply List.map_congr_left
      intro q hq
      rw [mem_forRange] at hq
      rw [htours, if_neg (by intro h; omega)]
      exact k2 q (by omega)
    · congr 1
      · rw [htours, if_pos ⟨rfl, rfl⟩]
      · have e : (forRange (p + 1) (s.numberNodesInTour T + 1)).map (s'.tours T)
            = (forRange (p + 1) (s.numberNodesInTour T + 1)).map (fun q => s.tours T (q - 1)) := by
          apply List.map_congr_left
          intro q hq
          rw [mem_forRange] at hq
          rw [htours, if_neg (by intro h; omega)]
          exact k1 q hq.1 (by omega)
        rw [e]
        unfold forRange
        have e2 : (s.numberNodesInTour T + 1 - (p + 1)).toNat = (s.numberNodesInTour T - p).toNat := by
          omega
        rw [e2, List.map_map, List.map_map]
        apply List.map_congr_left
        intro k _
        simp only [Function.comp]
        congr 1
        ring
  · intro t ht
    apply tourList_congr
    · rw [hcnt]
      simp only [upd]
      rw [if_neg ht]
    · intro q _ _
      rw [htours, if_neg (by simp [ht]), k3 t ht]
  · rw [hs']; exact k5
  · rw [hs']; exact k6
  · rw [hs']; exact k7
  · rw [hs']; exact k8
  · rw [hs']; exact k9

/-! ### The search for an insertion position -/

theorem search_fold (P : Params) (I : Instance) (s : Solution) (ti : Int → Int) (node : Int) :
    ∀ (l : List Int) (b : Search),
      l.foldl (tryTour P I s ti node) b
        = ((l.map fun index2 =>
            if s.capacityUsageTour (ti index2) + I.nodeDemand node ≤ I.vehicleCap then
              (forRange 0 (s.numberNodesInTour (ti index2) + 1)).map
                fun index3 => (ti index2, index3)
            else []).flatten).foldl
          (fun b (c : Int × Int) => tryPosition P I s node c.1 b c.2) b
  | [], _ => rfl
  | i :: l, b => by
    rw [List.foldl_cons, List.map_cons, List.flatten_cons, List.foldl_append,
      search_fold P I s ti node l]
    congr 1
    unfold tryTour
    dsimp only
    split_ifs with h
    · rw [List.foldl_map]
    · rfl

theorem tryPosition_g (P : Params) (I : Instance) (s : Solution) (node t : Int) (b : Search)
    (p : Int) : (tryPosition P I s node t b p).g = (xorshift128 b.g).2 := by
  unfold tryPosition unitDraw
  dsimp only
  split_ifs <;> rfl

theorem tryPosition_cases (P : Params) (I : Instance) (s : Solution) (node t : Int) (b : Search)
    (p : Int) (hp : 0 ≤ p) :
    let r := tryPosition P I s node t b p
    (r.tempPos = -1 ↔ b.tempPos = -1 ∧ blinked P b.g 0 = true) ∧
    ((r.tempTour = t ∧ r.tempPos = p) ∨ (r.tempTour = b.tempTour ∧ r.tempPos = b.tempPos)) := by
  intro r
  have hr : r = tryPosition P I s node t b p := rfl
  unfold tryPosition unitDraw at hr
  dsimp only at hr
  unfold blinked nthDraw
  by_cases hl : Dbl.lt ⟨((xorshift128 b.g).1 : Int), twoPow32⟩
      (Dbl.round53 (Dbl.sub (Dbl.ofInt 1) P.blinkRate)) = true
  · rw [if_pos hl] at hr
    by_cases hc : insertionCost I s node t p < b.tempCost ∨ b.tempPos = -1
    · rw [if_pos hc] at hr
      rw [hr]
      dsimp only
      refine ⟨⟨fun h => by omega, fun h => ?_⟩, Or.inl ⟨rfl, rfl⟩⟩
      rw [hl] at h
      simp at h
    · rw [if_neg hc] at hr
      rw [hr]
      dsimp only
      refine ⟨⟨fun h => absurd (Or.inr h) hc, fun h => h.1⟩, Or.inr ⟨rfl, rfl⟩⟩
  · rw [if_neg hl] at hr
    rw [hr]
    dsimp only
    refine ⟨⟨fun h => ⟨h, ?_⟩, fun h => h.1⟩, Or.inr ⟨rfl, rfl⟩⟩
    simpa using hl

/-- The search over a list of positions: it ends without a position exactly when it started
without one and every draw blinked; a position it ends with is one of the list or the one it
started with; and it consumes one draw for each position. -/
theorem positions_fold (P : Params) (I : Instance) (s : Solution) (node : Int) :
    ∀ (cand : List (Int × Int)) (b : Search), (∀ c ∈ cand, 0 ≤ c.2) →
      let r := cand.foldl (fun b (c : Int × Int) => tryPosition P I s node c.1 b c.2) b
      (r.tempPos = -1 ↔ b.tempPos = -1 ∧ ∀ j, j < cand.length → blinked P b.g j = true) ∧
      ((r.tempTour, r.tempPos) ∈ cand ∨ (r.tempTour = b.tempTour ∧ r.tempPos = b.tempPos))
  | [], b, _ => by
    intro r
    exact ⟨⟨fun h => ⟨h, fun j hj => absurd hj (by simp)⟩, fun h => h.1⟩, Or.inr ⟨rfl, rfl⟩⟩
  | c :: cand, b, hc => by
    intro r
    have h1 := tryPosition_cases P I s node c.1 b c.2 (hc c (List.mem_cons_self _ _))
    have hg := tryPosition_g P I s node c.1 b c.2
    have ih := positions_fold P I s node cand (tryPosition P I s node c.1 b c.2)
      (fun c' hc' => hc c' (List.mem_cons_of_mem _ hc'))
    dsimp only at h1 ih
    have hr : r = cand.foldl (fun b (c : Int × Int) => tryPosition P I s node c.1 b c.2)
        (tryPosition P I s node c.1 b c.2) := rfl
    rw [← hr] at ih
    have hb : ∀ j, blinked P (tryPosition P I s node c.1 b c.2).g j = blinked P b.g (j + 1) := by
      intro j
      unfold blinked
      rw [hg]
      rfl
    refine ⟨?_, ?_⟩
    · rw [ih.1, h1.1]
      constructor
      · rintro ⟨⟨h2, h3⟩, h4⟩
        refine ⟨h2, fun j hj => ?_⟩
        cases j with
        | zero => exact h3
        | succ j =>
          rw [← hb]
          exact h4 j (by simpa using hj)
      · rintro ⟨h2, h3⟩
        refine ⟨⟨h2, h3 0 (by simp)⟩, fun j hj => ?_⟩
        rw [hb]
        exact h3 (j + 1) (by simpa using hj)
    · rcases ih.2 with h | ⟨h2, h3⟩
      · exact Or.inl (List.mem_cons_of_mem _ h)
      · rcases h1.2 with ⟨h4, h5⟩ | ⟨h4, h5⟩
        · left
          rw [h2, h3, h4, h5]
          exact List.mem_cons_self _ _
        · right
          exact ⟨h2.trans h4, h3.trans h5⟩

theorem mem_candidates {I : Instance} {s : Solution} {ti : Int → Int} {node : Int}
    {c : Int × Int} :
    c ∈ candidates I s ti node ↔ ∃ k, 0 ≤ k ∧ k < s.numberTours ∧ c.1 = ti k ∧
      s.capacityUsageTour c.1 + I.nodeDemand node ≤ I.vehicleCap ∧
      0 ≤ c.2 ∧ c.2 ≤ s.numberNodesInTour c.1 := by
  unfold candidates
  simp only [List.mem_flatten, List.mem_map, mem_forRange]
  constructor
  · rintro ⟨l, ⟨k, ⟨h1, h2⟩, rfl⟩, hc⟩
    split_ifs at hc with hcap
    · simp only [List.mem_map, mem_forRange] at hc
      obtain ⟨p, ⟨hp0, hp1⟩, rfl⟩ := hc
      exact ⟨k, h1, h2, rfl, hcap, hp0, by dsimp only; omega⟩
    · simp at hc
  · rintro ⟨k, h1, h2, h3, h4, h5, h6⟩
    refine ⟨_, ⟨k, ⟨h1, h2⟩, rfl⟩, ?_⟩
    rw [← h3, if_pos h4]
    simp only [List.mem_map, mem_forRange]
    exact ⟨c.2, ⟨h5, by omega⟩, rfl⟩

/-- The search of `reinsert`, as a whole. -/
theorem search_spec (P : Params) (I : Instance) (s : Solution) (ti : Int → Int) (node : Int)
    (g : Rng) :
    let b := (forRange 0 s.numberTours).foldl (tryTour P I s ti node)
      { g := g, tempPos := -1, tempTour := -1, tempCost := VERYLARGE }
    (b.tempPos = -1 ↔ ∀ j, j < (candidates I s ti node).length → blinked P g j = true) ∧
    (b.tempPos ≠ -1 → (b.tempTour, b.tempPos) ∈ candidates I s ti node) := by
  intro b
  have hb : b = (forRange 0 s.numberTours).foldl (tryTour P I s ti node)
      { g := g, tempPos := -1, tempTour := -1, tempCost := VERYLARGE } := rfl
  rw [search_fold] at hb
  have key := positions_fold P I s node (candidates I s ti node)
    { g := g, tempPos := -1, tempTour := -1, tempCost := VERYLARGE }
    (fun c hc => (mem_candidates.1 hc).choose_spec.2.2.2.2.1)
  dsimp only at key
  unfold candidates at key
  rw [← hb] at key
  refine ⟨?_, ?_⟩
  · rw [key.1]
    unfold candidates
    simp
  · intro hne
    rcases key.2 with h | ⟨_, h⟩
    · exact h
    · exact absurd h hne

/-- What `reinsert` does with the node `x`: it puts it into a tour `T`, between the members `A`
and `B`; either `T` is an existing tour in which the node fits and which the search has
examined, or every examined position was blinked and `T` is a new tour, holding `x` alone. -/
theorem reinsert_cases (P : Params) (I : Instance) (st : Recreate) (x : Int)
    (hidx : ∀ k, 0 ≤ k → k < st.sol.numberTours →
      0 ≤ st.tourIndices k ∧ st.tourIndices k < st.sol.numberTours) :
    let st' := reinsert P I st x
    let cand := candidates I st.sol st.tourIndices (x - 1)
    ∃ T A B,
      tourList st'.sol T = A ++ x :: B ∧
      (∀ t, t ≠ T → tourList st'.sol t = tourList st.sol t) ∧
      st'.sol.tourPerNode = upd st.sol.tourPerNode (x - 1) (T + 1) ∧
      st'.sol.numberAbsentNodes = st.sol.numberAbsentNodes ∧
      ((0 ≤ T ∧ T < st.sol.numberTours ∧ (T, (A.length : Int)) ∈ cand ∧
          tourList st.sol T = A ++ B ∧
          st'.sol.numberTours = st.sol.numberTours ∧ st'.tourIndices = st.tourIndices ∧
          st'.sol.capacityUsageTour = upd st.sol.capacityUsageTour T
            (st.sol.capacityUsageTour T + I.nodeDemand (x - 1)) ∧
          ¬ ∀ j, j < cand.length → blinked P st.g j = true)
        ∨ (T = st.sol.numberTours ∧ A = [] ∧ B = [] ∧
          st'.sol.numberTours = st.sol.numberTours + 1 ∧
          st'.tourIndices = upd st.tourIndices st.sol.numberTours st.sol.numberTours ∧
          st'.sol.capacityUsageTour = upd st.sol.capacityUsageTour T (I.nodeDemand (x - 1)) ∧
          ∀ j, j < cand.length → blinked P st.g j = true)) := by
  intro st' cand
  have hst : st' = reinsert P I st x := rfl
  unfold reinsert at hst
  dsimp only at hst
  have hs := search_spec P I st.sol st.tourIndices (x - 1) st.g
  dsimp only at hs
  generalize (forRange 0 st.sol.numberTours).foldl
    (tryTour P I st.sol st.tourIndices (x - 1))
    { g := st.g, tempPos := -1, tempTour := -1, tempCost := VERYLARGE } = b at hs hst
  by_cases hb : b.tempPos = -1
  · rw [if_pos hb] at hst
    have hall := hs.1.1 hb
    have sp := insertNode_spec I
      { st.sol with
        numberTours := st.sol.numberTours + 1,
        capacityUsageTour := upd st.sol.capacityUsageTour st.sol.numberTours 0,
        numberNodesInTour := upd st.sol.numberNodesInTour st.sol.numberTours 0 }
      (x - 1) st.sol.numberTours 0 (le_refl _) (by simp [upd])
    dsimp only at sp
    obtain ⟨_, s2, s3, _, s5, s6, s7, _, s9⟩ := sp
    refine ⟨st.sol.numberTours, [], [], ?_, ?_, ?_, ?_, Or.inr ⟨rfl, rfl, rfl, ?_, ?_, ?_, hall⟩⟩
    · rw [hst]
      dsimp only
      rw [s2]
      simp [upd, forRange]
    · intro t ht
      rw [hst]
      dsimp only
      rw [s3 t ht]
      apply tourList_congr
      · simp [upd, ht]
      · intro q _ _
        rfl
    · rw [hst]
      exact s6
    · rw [hst]
      exact s9
    · rw [hst]
      exact s5
    · rw [hst]
    · rw [hst]
      dsimp only
      rw [s7]
      funext t
      simp only [upd]
      split_ifs <;> simp
  · rw [if_neg hb] at hst
    have hmem := hs.2 hb
    obtain ⟨k, hk0, hk1, hk2, hcap, hp0, hp1⟩ := mem_candidates.1 hmem
    dsimp only at hk2 hcap hp0 hp1
    have hT := hidx k hk0 hk1
    rw [← hk2] at hT
    have sp := insertNode_spec I st.sol (x - 1) b.tempTour b.tempPos hp0 hp1
    dsimp only at sp
    obtain ⟨s1, s2, s3, _, s5, s6, s7, _, s9⟩ := sp
    have hlen : (((forRange 0 b.tempPos).map (st.sol.tours b.tempTour)).length : Int)
        = b.tempPos := by
      rw [List.length_map]
      unfold forRange
      simp
      omega
    refine ⟨b.tempTour, (forRange 0 b.tempPos).map (st.sol.tours b.tempTour),
      (forRange b.tempPos (st.sol.numberNodesInTour b.tempTour)).map (st.sol.tours b.tempTour),
      ?_, ?_, ?_, ?_, Or.inl ⟨hT.1, hT.2, ?_, s1, ?_, ?_, ?_, ?_⟩⟩
    · rw [hst]
      dsimp only
      rw [s2]
      simp
    · intro t ht
      rw [hst]
      exact s3 t ht
    · rw [hst]
      exact s6
    · rw [hst]
      exact s9
    · rw [hlen]
      exact hmem
    · rw [hst]
      exact s5
    · rw [hst]
    · rw [hst]
      exact s7
    · intro hall
      exact hb (hs.1.2 hall)

/-! ### The reinsertion loop -/

theorem tourNodes_inserted {s s' : Solution} {x T : Int} {A B : List Int}
    (hrow : tourList s' T = A ++ x :: B)
    (hoth : ∀ t, t ≠ T → tourList s' t = tourList s t)
    (hcase : (0 ≤ T ∧ T < s.numberTours ∧ tourList s T = A ++ B ∧
        s'.numberTours = s.numberTours)
      ∨ (T = s.numberTours ∧ A = [] ∧ B = [] ∧ s'.numberTours = s.numberTours + 1))
    (hnt : 0 ≤ s.numberTours) :
    (tourNodes s').Perm (tourNodes s ++ [x]) := by
  rcases hcase with ⟨h0, h1, hold, hn⟩ | ⟨hT, hA, hB, hn⟩
  · have key := flatten_replace_perm (tourList s') (tourList s) s.numberTours T (A ++ B) [x]
      h0 h1 hold (fun t ht => (hoth t ht).symm)
      (by
        rw [hrow]
        simp only [List.append_assoc]
        apply (List.perm_append_left_iff A).2
        exact List.perm_append_singleton x B)
    unfold tourNodes tourRows
    rw [hn]
    exact key.symm
  · unfold tourNodes tourRows
    rw [hn, ← forRange_append hnt (by omega : s.numberTours ≤ s.numberTours + 1),
      forRange_one, List.map_append, List.flatten_append]
    have e1 : (forRange 0 s.numberTours).map (tourList s')
        = (forRange 0 s.numberTours).map (tourList s) := by
      apply List.map_congr_left
      intro t ht
      rw [mem_forRange] at ht
      exact hoth t (by omega)
    rw [e1, List.map_singleton, ← hT, hrow, hA, hB]
    simp

theorem reinsert_inv (P : Params) (I : Instance) (st : Recreate) (x : Int) (R : List Int)
    (h : RecInv I st (x :: R)) : RecInv I (reinsert P I st x) R := by
  obtain ⟨T, A, B, hrow, hoth, htpn, _, hcase⟩ := reinsert_cases P I st x h.idx
  have hnd : (tourNodes st.sol ++ x :: R).Nodup := (h.perm.nodup_iff).2 (nodup_customers I)
  have hx : x ∉ tourNodes st.sol := by
    intro hmem
    have := List.disjoint_of_nodup_append hnd hmem
    exact this (List.mem_cons_self _ _)
  have hxrow : ∀ t, 0 ≤ t → t < st.sol.numberTours → x ∉ tourList st.sol t :=
    fun t h0 h1 hm => hx (mem_tourNodes.2 ⟨t, h0, h1, hm⟩)
  have hperm : (tourNodes (reinsert P I st x).sol).Perm (tourNodes st.sol ++ [x]) := by
    apply tourNodes_inserted hrow hoth _ h.nt
    rcases hcase with ⟨h0, h1, _, hold, hn, _⟩ | ⟨hT, hA, hB, hn, _⟩
    · exact Or.inl ⟨h0, h1, hold, hn⟩
    · exact Or.inr ⟨hT, hA, hB, hn⟩
  have hTle : 0 ≤ T ∧ T ≤ st.sol.numberTours := by
    rcases hcase with ⟨h0, h1, _⟩ | ⟨hT, _⟩
    · exact ⟨h0, le_of_lt h1⟩
    · rw [hT]
      exact ⟨h.nt, le_refl _⟩
  have hnt' : st.sol.numberTours ≤ (reinsert P I st x).sol.numberTours ∧
      (reinsert P I st x).sol.numberTours ≤ st.sol.numberTours + 1 ∧
      (T = st.sol.numberTours → (reinsert P I st x).sol.numberTours = st.sol.numberTours + 1
        ∧ A = [] ∧ B = []) ∧
      (T < st.sol.numberTours → (reinsert P I st x).sol.numberTours = st.sol.numberTours
        ∧ tourList st.sol T = A ++ B) := by
    rcases hcase with ⟨h0, h1, _, hold, hn, _⟩ | ⟨hT, hA, hB, hn, _⟩
    · exact ⟨by omega, by omega, fun hc => by omega, fun _ => ⟨hn, hold⟩⟩
    · exact ⟨by omega, by omega, fun _ => ⟨hn, hA, hB⟩, fun hc => by omega⟩
  -- the members of a row after the insertion
  have hmem : ∀ t, 0 ≤ t → t < (reinsert P I st x).sol.numberTours →
      ∀ y ∈ tourList (reinsert P I st x).sol t,
        (y = x ∧ t = T) ∨ (y ≠ x ∧ t < st.sol.numberTours ∧ y ∈ tourList st.sol t) := by
    intro t h0 h1 y hy
    by_cases ht : t = T
    · subst ht
      rw [hrow] at hy
      by_cases hyx : y = x
      · exact Or.inl ⟨hyx, rfl⟩
      · right
        have hlt : t < st.sol.numberTours := by
          rcases lt_or_eq_of_le hTle.2 with hlt | heq
          · exact hlt
          · obtain ⟨_, hA, hB⟩ := hnt'.2.2.1 heq
            rw [hA, hB] at hy
            simp at hy
            exact absurd hy hyx
        refine ⟨hyx, hlt, ?_⟩
        rw [(hnt'.2.2.2 hlt).2]
        simp only [List.mem_append, List.mem_cons] at hy ⊢
        rcases hy with hy | hy | hy
        · exact Or.inl hy
        · exact absurd hy hyx
        · exact Or.inr hy
    · right
      have hlt : t < st.sol.numberTours := by
        rcases lt_or_eq_of_le hTle.2 with hlt | heq
        · rw [(hnt'.2.2.2 hlt).1] at h1
          exact h1
        · rw [(hnt'.2.2.1 heq).1] at h1
          omega
      rw [hoth t ht] at hy
      refine ⟨?_, hlt, hy⟩
      intro hyx
      rw [hyx] at hy
      exact hxrow t h0 hlt hy
  refine ⟨by omega, ?_, ?_, ?_, ?_, ?_⟩
  · intro t h0 h1
    by_contra hc
    have hnil := (tourList_eq_nil_iff (reinsert P I st x).sol t).2 (by omega)
    by_cases ht : t = T
    · rw [ht, hrow] at hnil
      simp at hnil
    · rw [hoth t ht] at hnil
      have hlt : t < st.sol.numberTours := by
        rcases lt_or_eq_of_le hTle.2 with hlt | heq
        · rw [(hnt'.2.2.2 hlt).1] at h1
          exact h1
        · rw [(hnt'.2.2.1 heq).1] at h1
          omega
      have := h.nonempty t h0 hlt
      have := (tourList_eq_nil_iff _ t).1 hnil
      omega
  · have e : (tourNodes (reinsert P I st x).sol ++ R).Perm (tourNodes st.sol ++ x :: R) := by
      have := List.Perm.append_right R hperm
      simpa using this
    exact e.trans h.perm
  · intro t h0 h1 y hy
    rw [htpn]
    rcases hmem t h0 h1 y hy with ⟨hyx, ht⟩ | ⟨hyx, hlt, hy'⟩
    · rw [hyx, ht]
      simp [upd]
    · simp only [upd]
      rw [if_neg (by omega)]
      exact h.inTour t h0 hlt y hy'
  · intro t h0 h1
    by_cases ht : t = T
    · rw [ht, hrow]
      rcases hcase with ⟨_, hlt, _, hold, _, _, hcap, _⟩ | ⟨hT, hA, hB, _, _, hcap, _⟩
      · rw [hcap, demandOf_append, ← List.singleton_append, demandOf_append, demandOf_singleton]
        simp only [upd, if_true]
        rw [h.capacity T hTle.1 hlt, hold, demandOf_append]
        ring
      · rw [hcap, hA, hB]
        simp only [upd, if_true, List.nil_append]
        rw [demandOf_singleton]
    · have hlt : t < st.sol.numberTours := by
        rcases lt_or_eq_of_le hTle.2 with hlt | heq
        · rw [(hnt'.2.2.2 hlt).1] at h1
          exact h1
        · rw [(hnt'.2.2.1 heq).1] at h1
          omega
      rw [hoth t ht, ← h.capacity t h0 hlt]
      rcases hcase with ⟨_, _, _, _, _, _, hcap, _⟩ | ⟨_, _, _, _, _, hcap, _⟩
      · rw [hcap]
        simp [upd, ht]
      · rw [hcap]
        simp [upd, ht]
  · intro k h0 h1
    rcases hcase with ⟨_, _, _, _, hn, hti, _⟩ | ⟨_, _, _, hn, hti, _⟩
    · rw [hti, hn]
      rw [hn] at h1
      exact h.idx k h0 h1
    · rw [hti, hn]
      rw [hn] at h1
      simp only [upd]
      split_ifs with hk
      · exact ⟨h.nt, by omega⟩
      · have := h.idx k h0 (by omega)
        exact ⟨this.1, by omega⟩

/-- The usage of the tours stays within the capacity of the vehicle when a node whose demand is
within it is reinserted. -/
theorem reinsert_feasible (P : Params) (I : Instance) (st : Recreate) (x : Int)
    (hidx : ∀ k, 0 ≤ k → k < st.sol.numberTours →
      0 ≤ st.tourIndices k ∧ st.tourIndices k < st.sol.numberTours)
    (hd : I.nodeDemand (x - 1) ≤ I.vehicleCap)
    (hf : ∀ t, 0 ≤ t → t < st.sol.numberTours → st.sol.capacityUsageTour t ≤ I.vehicleCap) :
    ∀ t, 0 ≤ t → t < (reinsert P I st x).sol.numberTours →
      (reinsert P I st x).sol.capacityUsageTour t ≤ I.vehicleCap := by
  obtain ⟨T, A, B, _, _, _, _, hcase⟩ := reinsert_cases P I st x hidx
  intro t h0 h1
  rcases hcase with ⟨_, _, hc, _, hn, _, hcap, _⟩ | ⟨hT, _, _, hn, _, hcap, _⟩
  · rw [hcap]
    simp only [upd]
    split_ifs with ht
    · exact (mem_candidates.1 hc).choose_spec.2.2.2.1
    · exact hf t h0 (by omega)
  · rw [hcap]
    simp only [upd]
    split_ifs with ht
    · exact hd
    · exact hf t h0 (by omega)

/-! ### The whole of `recreate` -/

theorem collect_fold (p : Int → Prop) [DecidablePred p] (na : Int) :
    ∀ (l acc : List Int), acc.length ≤ na.toNat →
      l.foldl (fun (crn : List Int) x =>
        if (crn.length : Int) < na then (if p x then crn ++ [x] else crn) else crn) acc
        = (acc ++ l.filter (fun x => decide (p x))).take na.toNat
  | [], acc, h => by
    simp only [List.foldl_nil, List.filter_nil, List.append_nil]
    exact (List.take_of_length_le h).symm
  | x :: l, acc, h => by
    rw [List.foldl_cons]
    by_cases h1 : (acc.length : Int) < na
    · rw [if_pos h1]
      by_cases h2 : p x
      · rw [if_pos h2, collect_fold p na l (acc ++ [x]) (by simp; omega),
          List.filter_cons_of_pos (by simpa using h2)]
        simp
      · rw [if_neg h2, collect_fold p na l acc h,
          List.filter_cons_of_neg (by simpa using h2)]
    · rw [if_neg h1, collect_fold p na l acc h]
      have e : acc.length = na.toNat := by omega
      rw [List.take_append_of_le_length (by omega), List.take_append_of_le_length (by omega)]

theorem collectRemoved_eq (I : Instance) (s : Solution) (order : List Int) :
    collectRemoved I s order
      = (((forRange 1 I.numberNodes).map (readL order)).filter
          (fun x => decide (s.tourPerNode (x - 1) = -1))).take s.numberAbsentNodes.toNat := by
  unfold collectRemoved
  have := collect_fold (fun x => s.tourPerNode (x - 1) = -1) s.numberAbsentNodes
    ((forRange 1 I.numberNodes).map (readL order)) [] (by simp)
  rw [List.foldl_map, List.nil_append] at this
  exact this

theorem length_absentList (s : Solution) : (absentList s).length = s.numberAbsentNodes.toNat := by
  unfold absentList
  rw [List.length_map, length_forRange]
  simp

/-- The removed nodes that `recreate` collects, in any of the four orders, are the absent nodes
of the ruined solution. -/
theorem collectRemoved_perm (I : Instance) (s : Solution) (order : List Int)
    (hs : Ruined I s) (ho : ((forRange 1 I.numberNodes).map (readL order)).Perm (customers I)) :
    (collectRemoved I s order).Perm (absentList s) := by
  rw [collectRemoved_eq]
  have h1 : (((forRange 1 I.numberNodes).map (readL order)).filter
      (fun x => decide (s.tourPerNode (x - 1) = -1))).Perm (absentList s) := by
    refine ((ho.trans hs.perm.symm).filter _).trans ?_
    rw [List.filter_append]
    have e1 : (tourNodes s).filter (fun x => decide (s.tourPerNode (x - 1) = -1)) = [] := by
      rw [List.filter_eq_nil_iff]
      intro x hx
      obtain ⟨t, h0, h1, hm⟩ := mem_tourNodes.1 hx
      have := hs.inTour t h0 h1 x hm
      simp only [decide_eq_true_eq]
      omega
    have e2 : (absentList s).filter (fun x => decide (s.tourPerNode (x - 1) = -1))
        = absentList s := by
      rw [List.filter_eq_self]
      intro x hx
      simpa using hs.inAbsent x hx
    rw [e1, e2, List.nil_append]
  have hl := h1.length_eq
  rw [length_absentList] at hl
  rw [List.take_of_length_le (by omega)]
  exact h1

theorem sortRemoved_perm (I : Instance) (O : Orders) (s : Solution) (randProb : Dbl)
    (hs : Ruined I s) (hO : OrdersOK I O) :
    (sortRemoved I O s randProb).Perm (absentList s) := by
  unfold sortRemoved
  split_ifs
  · exact collectRemoved_perm I s _ hs hO.random
  · exact collectRemoved_perm I s _ hs hO.demand
  · exact collectRemoved_perm I s _ hs hO.distLarge
  · exact collectRemoved_perm I s _ hs hO.distSmall

theorem length_drawWeights (l : List Int) (g : Rng) : (drawWeights l g).1.length = l.length := by
  unfold drawWeights
  have key : ∀ (l : List Int) (acc : List Int × Rng),
      (l.foldl (fun (acc : List Int × Rng) _ =>
        ((acc.1 ++ [((xorshift128 acc.2).1 : Int)], (xorshift128 acc.2).2) : List Int × Rng))
        acc).1.length = acc.1.length + l.length := by
    intro l
    induction l with
    | nil => intro acc; simp
    | cons x l ih =>
      intro acc
      rw [List.foldl_cons, ih]
      simp
      omega
  have := key l ([], g)
  simpa using this

theorem perm_snd_of_zip {v c v' c' : List Int} (h : (v'.zip c').Perm (v.zip c))
    (h1 : c'.length ≤ v'.length) (h2 : c.length ≤ v.length) : c'.Perm c := by
  have := h.map Prod.snd
  rwa [List.map_snd_zip _ _ h1, List.map_snd_zip _ _ h2] at this

/-- The reinsertion loop of `recreate` over the list `R` of the removed nodes. -/
theorem reinsert_loop (P : Params) (I : Instance) :
    ∀ (R : List Int) (st : Recreate), RecInv I st R →
      RecInv I (R.foldl (reinsert P I) st) [] ∧
      ((∀ i, 1 ≤ i → i < I.numberNodes → I.nodeDemand i ≤ I.vehicleCap) →
        (∀ t, 0 ≤ t → t < st.sol.numberTours → st.sol.capacityUsageTour t ≤ I.vehicleCap) →
        ∀ t, 0 ≤ t → t < (R.foldl (reinsert P I) st).sol.numberTours →
          (R.foldl (reinsert P I) st).sol.capacityUsageTour t ≤ I.vehicleCap) ∧
      (R.foldl (reinsert P I) st).sol.numberAbsentNodes = st.sol.numberAbsentNodes
  | [], st, h => ⟨h, fun _ hf => hf, rfl⟩
  | x :: R, st, h => by
    rw [List.foldl_cons]
    have h1 := reinsert_inv P I st x R h
    obtain ⟨a1, a2, a3⟩ := reinsert_loop P I R (reinsert P I st x) h1
    refine ⟨a1, fun hd hf => a2 hd ?_, ?_⟩
    · have hx : x ∈ customers I := h.perm.subset (by simp)
      rw [mem_customers] at hx
      exact reinsert_feasible P I st x h.idx (hd (x - 1) (by omega) (by omega)) hf
    · rw [a3]
      obtain ⟨_, _, _, _, _, _, hna, _⟩ := reinsert_cases P I st x h.idx
      exact hna

theorem foldl_readL (f : Recreate → Int → Recreate) (crn : List Int) (n : Int)
    (hn : crn.length = n.toNat) (st : Recreate) :
    (forRange 0 n).foldl (fun (st : Recreate) index1 => f st (readL crn index1)) st
      = crn.foldl f st := by
  have e := forRange_zero_map_getI crn n hn
  have : crn.foldl f st = ((forRange 0 n).map (getI crn)).foldl f st := by rw [e]
  rw [this, List.foldl_map]
  rfl

/-- The whole of `recreate` on a ruined solution: it returns, with every absent customer put
back; the result is a complete solution whose cached usages are the demands of the tours. -/
theorem recreate_spec (P : Params) (I : Instance) (O : Orders) (s : Solution) (g : Rng)
    (hO : OrdersOK I O) (hs : Ruined I s) :
    ∃ s' g', (∀ fuel, 2 * s.numberTours.toNat + 2 ≤ fuel →
        recreate fuel P I O s g = some (s', g')) ∧
      Tidy I s' ∧ s'.numberAbsentNodes = 0 ∧
      (∀ t, 0 ≤ t → t < s'.numberTours →
        s'.capacityUsageTour t = demandOf I (tourList s' t)) ∧
      ((∀ i, 1 ≤ i → i < I.numberNodes → I.nodeDemand i ≤ I.vehicleCap) →
        (∀ t, 0 ≤ t → t < s.numberTours → s.capacityUsageTour t ≤ I.vehicleCap) →
        ∀ t, 0 ≤ t → t < s'.numberTours → s'.capacityUsageTour t ≤ I.vehicleCap) := by
  have hlen := length_drawWeights (forRange 0 s.numberTours) (unitDraw g).2
  rw [length_forRange] at hlen
  have hnt := hs.nt
  obtain ⟨v', c', hq, hre, _⟩ := quicksortInt_spec dir_decr s.numberTours.toNat 0
    (s.numberTours - 1) (drawWeights (forRange 0 s.numberTours) (unitDraw g).2).1
    (forRange 0 s.numberTours) (le_refl _) (by rw [hlen]; omega)
    (by rw [length_forRange]; omega) (by omega)
  have hcperm : c'.Perm (forRange 0 s.numberTours) :=
    perm_snd_of_zip hre.perm (by rw [hre.lenV, hre.lenC, hlen, length_forRange])
      (by rw [hlen, length_forRange])
  have hclen : c'.length = s.numberTours.toNat := by
    rw [hre.lenC, length_forRange]
    simp
  have hR := sortRemoved_perm I O s (unitDraw g).1 hs hO
  have hRlen : (sortRemoved I O s (unitDraw g).1).length = s.numberAbsentNodes.toNat := by
    rw [hR.length_eq, length_absentList]
  have h0 : RecInv I
      { sol := s, g := (drawWeights (forRange 0 s.numberTours) (unitDraw g).2).2,
        tourIndices := readL c' }
      (sortRemoved I O s (unitDraw g).1) := by
    refine ⟨hs.nt, hs.nonempty, ?_, hs.inTour, hs.capacity, ?_⟩
    · exact ((List.perm_append_left_iff _).2 hR).trans hs.perm
    · intro k hk0 hk1
      dsimp only at hk1 ⊢
      have := hcperm.subset (readL_mem c' k hk0 (by rw [hclen]; omega))
      rw [mem_forRange] at this
      exact this
  obtain ⟨a1, a2, a3⟩ := reinsert_loop P I _ _ h0
  refine ⟨{ ((sortRemoved I O s (unitDraw g).1).foldl (reinsert P I)
      { sol := s, g := (drawWeights (forRange 0 s.numberTours) (unitDraw g).2).2,
        tourIndices := readL c' }).sol with numberAbsentNodes := 0 },
    ((sortRemoved I O s (unitDraw g).1).foldl (reinsert P I)
      { sol := s, g := (drawWeights (forRange 0 s.numberTours) (unitDraw g).2).2,
        tourIndices := readL c' }).g, ?_, ?_, rfl, a1.capacity, a2⟩
  · intro fuel hf
    unfold recreate drawTourValues quicksortDecrDouble
    simp only [hq fuel hf, Option.bind_eq_bind, Option.some_bind, Option.pure_def]
    rw [foldl_readL (reinsert P I) _ _ hRlen]
  · refine ⟨a1.nt, a1.nonempty, ?_, a1.inTour⟩
    have := a1.perm
    rw [List.append_nil] at this
    exact this

/-! ### Ruin and recreate: the claims C2 to C5 -/

theorem tidy_oneTour : Tidy oneCustomer oneTour := by
  refine ⟨by decide, ?_, ?_, ?_⟩
  · intro t h0 h1
    have ht : t = 0 := by
      have : t < 1 := h1
      omega
    subst ht
    decide
  · rw [show tourNodes oneTour = [2] from by decide,
      show customers oneCustomer = [2] from by decide]
  · intro t h0 h1 x hx
    have ht : t = 0 := by
      have : t < 1 := h1
      omega
    subst ht
    rw [show tourList oneTour 0 = [2] from by decide] at hx
    rw [List.mem_singleton] at hx
    subst hx
    decide

theorem neighboursOK_oneCustomer : NeighboursOK oneCustomer := by
  intro i k _ _ h0 h1
  have : k < 0 := h1
  omega

theorem ruined_oneAbsent : Ruined oneCustomer oneAbsent := by
  refine ⟨by decide, by decide, ?_, ?_, ?_, ?_, ?_⟩
  · intro t h0 h1
    have : t < 0 := h1
    omega
  · rw [show tourNodes oneAbsent ++ absentList oneAbsent = [2] from by decide,
      show customers oneCustomer = [2] from by decide]
  · intro t h0 h1
    have : t < 0 := h1
    omega
  · intro x hx
    rw [show absentList oneAbsent = [2] from by decide, List.mem_singleton] at hx
    subst hx
    decide
  · intro t h0 h1
    have : t < 0 := h1
    omega

theorem neighboursOK_fourCustomers : NeighboursOK fourCustomers := by
  intro i k hi0 hi1 hk0 hk1
  have hi1' : i < 5 := hi1
  have hk1' : k < 3 := hk1
  interval_cases i <;> interval_cases k <;> decide

theorem tidy_threeAndOne : Tidy fourCustomers threeAndOne := by
  refine ⟨by decide, ?_, ?_, ?_⟩
  · intro t h0 h1
    have h1' : t < 2 := h1
    interval_cases t <;> decide
  · rw [show tourNodes threeAndOne = [3, 4, 5, 2] from by decide,
      show customers fourCustomers = [2, 3, 4, 5] from by decide]
    decide
  · intro t h0 h1
    have h1' : t < 2 := h1
    interval_cases t <;> decide

theorem ordersOK_oneOrders : OrdersOK oneCustomer oneOrders := by
  have h : (forRange 1 oneCustomer.numberNodes).map (readL [0, 2]) = [2] := by decide
  have hc : customers oneCustomer = [2] := by decide
  refine ⟨?_, ?_, ?_, ?_⟩ <;>
  · show ((forRange 1 oneCustomer.numberNodes).map (readL [0, 2])).Perm (customers oneCustomer)
    rw [h, hc]

theorem count_of_perm_customers {I : Instance} {l : List Int} (h : l.Perm (customers I))
    (c : Int) (h0 : 2 ≤ c) (h1 : c ≤ I.numberNodes) : l.count c = 1 := by
  rw [h.count_eq]
  exact List.count_eq_one_of_mem (nodup_customers I) (mem_customers.2 ⟨h0, h1⟩)

/-- C2 (amended): with a non-negative `lengthRemovedStrings`, `ruin` keeps every customer in
exactly one place.  Let `s` be a solution in which every customer is in exactly one tour, no
tour is empty and `tourPerNode` holds the 1-based index of each customer's tour (`Tidy`), on an
instance whose neighbour lists hold customer ids (as `readInput` builds them).  Whatever the
generator state `g` (the random draws) and the stack contents, after `ruin` the tours and the
first `numberAbsentNodes` entries of `absentNodes` together hold exactly the customer ids, and
every customer occurs exactly once in all: in exactly one tour or exactly once in the absent
list, never both, never neither. -/
theorem ruin_keeps_each_customer_once (P : Params) (I : Instance) (stack : Int → Bool)
    (s : Solution) (g : Rng) (hL : 0 ≤ P.lengthRemovedStrings) (hN : NeighboursOK I)
    (hs : Tidy I s) :
    (tourNodes (ruin P I stack s g).1 ++ absentList (ruin P I stack s g).1).Perm (customers I) ∧
    ∀ c, 2 ≤ c → c ≤ I.numberNodes →
      (tourNodes (ruin P I stack s g).1).count c
        + (absentList (ruin P I stack s g).1).count c = 1 := by
  have h := (ruin_spec P I stack s g hL hN hs).perm
  refine ⟨h, fun c h0 h1 => ?_⟩
  rw [← List.count_append]
  exact count_of_perm_customers h c h0 h1

set_option maxRecDepth 100000 in
/-- Witness for `ruin_keeps_each_customer_once`: on the instance `fourCustomers` and its
solution `threeAndOne` (tours `[3, 4, 5]` and `[2]`), from the generator state
`(x, y, z, w) = (123456789, 362436069, 521288629, 88675123)`, `ruin` removes the string `4, 5`
from tour `0`: the tours are then `[3]` and `[2]`, the absent list is `[4, 5]`, and the removed
customer `4` and the remaining customer `3` are each in exactly one of the two places. -/
theorem ruin_keeps_each_customer_once_witness :
    (0 ≤ defaultParams.lengthRemovedStrings ∧ NeighboursOK fourCustomers ∧
      Tidy fourCustomers threeAndOne) ∧
    tourRows threeAndOne = [[3, 4, 5], [2]] ∧
    tourRows (ruin defaultParams fourCustomers (fun _ => false) threeAndOne
      ⟨88675123, 123456789, 362436069, 521288629⟩).1 = [[3], [2]] ∧
    absentList (ruin defaultParams fourCustomers (fun _ => false) threeAndOne
      ⟨88675123, 123456789, 362436069, 521288629⟩).1 = [4, 5] ∧
    (tourNodes (ruin defaultParams fourCustomers (fun _ => false) threeAndOne
        ⟨88675123, 123456789, 362436069, 521288629⟩).1).count 4
      + (absentList (ruin defaultParams fourCustomers (fun _ => false) threeAndOne
        ⟨88675123, 123456789, 362436069, 521288629⟩).1).count 4 = 1 ∧
    (tourNodes (ruin defaultParams fourCustomers (fun _ => false) threeAndOne
        ⟨88675123, 123456789, 362436069, 521288629⟩).1).count 3
      + (absentList (ruin defaultParams fourCustomers (fun _ => false) threeAndOne
        ⟨88675123, 123456789, 362436069, 521288629⟩).1).count 3 = 1 :=
  ⟨⟨by decide, neighboursOK_fourCustomers, tidy_threeAndOne⟩, by decide, by decide, by decide,
    (ruin_keeps_each_customer_once defaultParams fourCustomers (fun _ => false) threeAndOne
      ⟨88675123, 123456789, 362436069, 521288629⟩ (by decide) neighboursOK_fourCustomers
      tidy_threeAndOne).2 4 (by decide) (by decide),
    (ruin_keeps_each_customer_once defaultParams fourCustomers (fun _ => false) threeAndOne
      ⟨88675123, 123456789, 362436069, 521288629⟩ (by decide) neighboursOK_fourCustomers
      tidy_threeAndOne).2 3 (by decide) (by decide)⟩

/-- C3: `recreate` puts every absent customer back.  Let `s` be a solution as `ruin` leaves it
(`Ruined`: every customer in exactly one tour or absent, `tourPerNode` equal to `-1` exactly
for the absent ones) and let the node orders be those of the customers.  Whatever the generator
state, `recreate` returns (with fuel `2 * numberTours + 2` for its sort), and in its result
`numberAbsentNodes` is `0`, every customer occurs exactly once in the tours, and `tourPerNode`
of every member of a tour is the 1-based index of that tour. -/
theorem recreate_reinserts_all (P : Params) (I : Instance) (O : Orders) (s : Solution) (g : Rng)
    (hO : OrdersOK I O) (hs : Ruined I s) :
    ∃ s' g', (∀ fuel, 2 * s.numberTours.toNat + 2 ≤ fuel →
        recreate fuel P I O s g = some (s', g')) ∧
      s'.numberAbsentNodes = 0 ∧
      (tourNodes s').Perm (customers I) ∧
      (∀ c, 2 ≤ c → c ≤ I.numberNodes → (tourNodes s').count c = 1) ∧
      (∀ t, 0 ≤ t → t < s'.numberTours → ∀ x ∈ tourList s' t,
        s'.tourPerNode (x - 1) = t + 1) := by
  obtain ⟨s', g', h1, h2, h3, _, _⟩ := recreate_spec P I O s g hO hs
  exact ⟨s', g', h1, h3, h2.perm, fun c h0 h1 => count_of_perm_customers h2.perm c h0 h1,
    h2.tourPerNode⟩

/-- Witness for `recreate_reinserts_all`: the removed customer of `oneAbsent` is put back. -/
theorem recreate_reinserts_all_witness :
    ∃ s' g', recreate 2 defaultParams oneCustomer oneOrders oneAbsent ⟨1, 2, 3, 4⟩
        = some (s', g') ∧
      s'.numberAbsentNodes = 0 ∧ (tourNodes s').count 2 = 1 :=
  have h := recreate_reinserts_all defaultParams oneCustomer oneOrders oneAbsent ⟨1, 2, 3, 4⟩
    ordersOK_oneOrders ruined_oneAbsent
  match h with
  | ⟨s', g', h1, h2, _, h4, _⟩ =>
    ⟨s', g', h1 2 (by decide), h2, h4 2 (by decide) (by decide)⟩

theorem candidates_eq_nil (I : Instance) (st : Recreate) (x : Int)
    (hidx : ∀ k, 0 ≤ k → k < st.sol.numberTours →
      0 ≤ st.tourIndices k ∧ st.tourIndices k < st.sol.numberTours)
    (hno : ∀ t, 0 ≤ t → t < st.sol.numberTours →
      I.vehicleCap < st.sol.capacityUsageTour t + I.nodeDemand (x - 1)) :
    candidates I st.sol st.tourIndices (x - 1) = [] := by
  rw [List.eq_nil_iff_forall_not_mem]
  intro c hc
  obtain ⟨k, hk0, hk1, hk2, hcap, _⟩ := mem_candidates.1 hc
  have := hidx k hk0 hk1
  rw [← hk2] at this
  have := hno c.1 this.1 this.2
  omega

/-- C4: `recreate` keeps the cached usages right and within the capacity.  Let `s` be a
solution as `ruin` leaves it (in particular the cached `capacityUsageTour` of each tour is the
sum of the demands of its members), let every customer's demand be at most `vehicleCap` and
the usage of every tour of `s` be at most `vehicleCap`.  Then `recreate` returns, and in its
result the cached usage of every tour is still the sum of the demands of its members and is at
most `vehicleCap`.  Moreover, in any state of the reinsertion loop (with `tourIndices` holding
tour indices), a node that fits in no existing tour is placed alone in a new tour: the number
of tours grows by one, the new last tour is the node alone, and the other tours are unchanged. -/
theorem recreate_keeps_capacity (P : Params) (I : Instance) (O : Orders) (s : Solution) (g : Rng)
    (hO : OrdersOK I O) (hs : Ruined I s)
    (hd : ∀ i, 1 ≤ i → i < I.numberNodes → I.nodeDemand i ≤ I.vehicleCap)
    (hf : ∀ t, 0 ≤ t → t < s.numberTours → s.capacityUsageTour t ≤ I.vehicleCap) :
    (∃ s' g', (∀ fuel, 2 * s.numberTours.toNat + 2 ≤ fuel →
        recreate fuel P I O s g = some (s', g')) ∧
      ∀ t, 0 ≤ t → t < s'.numberTours →
        s'.capacityUsageTour t = demandOf I (tourList s' t) ∧
        s'.capacityUsageTour t ≤ I.vehicleCap) ∧
    (∀ (st : Recreate) (x : Int),
      (∀ k, 0 ≤ k → k < st.sol.numberTours →
        0 ≤ st.tourIndices k ∧ st.tourIndices k < st.sol.numberTours) →
      (∀ t, 0 ≤ t → t < st.sol.numberTours →
        I.vehicleCap < st.sol.capacityUsageTour t + I.nodeDemand (x - 1)) →
      (reinsert P I st x).sol.numberTours = st.sol.numberTours + 1 ∧
      tourList (reinsert P I st x).sol st.sol.numberTours = [x] ∧
      (reinsert P I st x).sol.capacityUsageTour st.sol.numberTours = I.nodeDemand (x - 1) ∧
      ∀ t, t ≠ st.sol.numberTours →
        tourList (reinsert P I st x).sol t = tourList st.sol t ∧
        (reinsert P I st x).sol.capacityUsageTour t = st.sol.capacityUsageTour t) := by
  constructor
  · obtain ⟨s', g', h1, _, _, h4, h5⟩ := recreate_spec P I O s g hO hs
    exact ⟨s', g', h1, fun t h0 h1 => ⟨h4 t h0 h1, h5 hd hf t h0 h1⟩⟩
  · intro st x hidx hno
    obtain ⟨T, A, B, hrow, hoth, _, _, hcase⟩ := reinsert_cases P I st x hidx
    rcases hcase with ⟨_, _, _, _, _, _, _, hnb⟩ | ⟨hT, hA, hB, hn, _, hcap, _⟩
    · exfalso
      apply hnb
      rw [candidates_eq_nil I st x hidx hno]
      intro j hj
      exact absurd hj (by simp)
    · subst hT
      rw [hA, hB] at hrow
      refine ⟨hn, hrow, ?_, fun t ht => ⟨hoth t ht, ?_⟩⟩
      · rw [hcap]
        simp [upd]
      · rw [hcap]
        simp [upd, ht]

/-- Witness for `recreate_keeps_capacity`: the removed customer of `oneAbsent`, of demand `1`,
is put back with vehicles of capacity `1`. -/
theorem recreate_keeps_capacity_witness :
    ∃ s' g', recreate 2 defaultParams oneCustomer oneOrders oneAbsent ⟨1, 2, 3, 4⟩
        = some (s', g') ∧
      ∀ t, 0 ≤ t → t < s'.numberTours →
        s'.capacityUsageTour t = demandOf oneCustomer (tourList s' t) ∧
        s'.capacityUsageTour t ≤ oneCustomer.vehicleCap :=
  have h := (recreate_keeps_capacity defaultParams oneCustomer oneOrders oneAbsent ⟨1, 2, 3, 4⟩
    ordersOK_oneOrders ruined_oneAbsent
    (fun i h0 h1 => by
      have : i < 2 := h1
      have hi : i = 1 := by omega
      subst hi
      decide)
    (fun t h0 h1 => by
      have : t < 0 := h1
      omega)).1
  match h with
  | ⟨s', g', h1, h2⟩ => ⟨s', g', h1 2 (by decide), h2⟩

/-- C5 (counterexample): with the default `blinkRate` of `0.01`, in the state `blinkState` the
only tour has residual capacity for customer `3` (usage `1`, demand `1`, capacity `10`), yet
both insertion positions are blinked (the two draws are at least `0.99 * 2^32`) and
`reinsert` opens a new tour for the customer. -/
theorem blink_opens_tour_despite_capacity :
    blinkState.sol.numberTours = 1 ∧
    blinkState.sol.capacityUsageTour 0 + twoCustomers.nodeDemand 2 ≤ twoCustomers.vehicleCap ∧
    nthDraw blinkState.g 0 = 4294959104 ∧ nthDraw blinkState.g 1 = 4294967295 ∧
    (reinsert defaultParams twoCustomers blinkState 3).sol.numberTours = 2 ∧
    tourList (reinsert defaultParams twoCustomers blinkState 3).sol 0 = [2] ∧
    tourList (reinsert defaultParams twoCustomers blinkState 3).sol 1 = [3] := by
  decide

/-- C5 (amended): in a state of the reinsertion loop (with `tourIndices` holding tour indices),
`reinsert` opens a new tour for the node exactly when every insertion position that the search
examines (the positions `0..numberNodesInTour` of each tour with enough residual capacity, one
draw each, in the order of `candidates`) is blinked.  In particular a new tour is opened when no
tour has enough residual capacity; and when no new tour is opened, the number of tours is
unchanged and the node is in an existing tour that had enough residual capacity for it. -/
theorem reinsert_opens_tour_iff (P : Params) (I : Instance) (st : Recreate) (x : Int)
    (hidx : ∀ k, 0 ≤ k → k < st.sol.numberTours →
      0 ≤ st.tourIndices k ∧ st.tourIndices k < st.sol.numberTours) :
    ((reinsert P I st x).sol.numberTours = st.sol.numberTours + 1 ↔
      ∀ j, j < (candidates I st.sol st.tourIndices (x - 1)).length →
        blinked P st.g j = true) ∧
    ((∀ t, 0 ≤ t → t < st.sol.numberTours →
        I.vehicleCap < st.sol.capacityUsageTour t + I.nodeDemand (x - 1)) →
      (reinsert P I st x).sol.numberTours = st.sol.numberTours + 1) ∧
    ((reinsert P I st x).sol.numberTours ≠ st.sol.numberTours + 1 →
      (reinsert P I st x).sol.numberTours = st.sol.numberTours ∧
      ∃ T, 0 ≤ T ∧ T < st.sol.numberTours ∧
        st.sol.capacityUsageTour T + I.nodeDemand (x - 1) ≤ I.vehicleCap ∧
        x ∈ tourList (reinsert P I st x).sol T) := by
  obtain ⟨T, A, B, hrow, _, _, _, hcase⟩ := reinsert_cases P I st x hidx
  rcases hcase with ⟨h0, h1, hc, _, hn, _, _, hnb⟩ | ⟨_, _, _, hn, _, _, hall⟩
  · refine ⟨⟨fun h => by omega, fun h => absurd h hnb⟩, ?_, fun _ => ⟨hn, T, h0, h1, ?_, ?_⟩⟩
    · intro hno
      exfalso
      apply hnb
      rw [candidates_eq_nil I st x hidx hno]
      intro j hj
      exact absurd hj (by simp)
    · exact (mem_candidates.1 hc).choose_spec.2.2.2.1
    · rw [hrow]
      simp
  · exact ⟨⟨fun _ => hall, fun _ => hn⟩, fun _ => hn, fun h => absurd hn h⟩

/-- Witness for `reinsert_opens_tour_iff`: in `blinkState` the two examined positions are
blinked and a new tour is opened. -/
theorem reinsert_opens_tour_iff_witness :
    (reinsert defaultParams twoCustomers blinkState 3).sol.numberTours
        = blinkState.sol.numberTours + 1 ↔
      ∀ j, j < (candidates twoCustomers blinkState.sol blinkState.tourIndices (3 - 1)).length →
        blinked defaultParams blinkState.g j = true :=
  (reinsert_opens_tour_iff defaultParams twoCustomers blinkState 3 (fun k h0 h1 =>
    ⟨(by decide : (0 : Int) ≤ 0), (by decide : (0 : Int) < 1)⟩)).1

/-! ### Ruin and the capacity -/

theorem demandOf_nonneg (I : Instance) (l : List Int)
    (h : ∀ x ∈ l, 0 ≤ I.nodeDemand (x - 1)) : 0 ≤ demandOf I l := by
  unfold demandOf
  apply sum_nonneg_of_forall
  intro y hy
  obtain ⟨x, hx, rfl⟩ := List.mem_map.1 hy
  exact h x hx

/-- One step of the loop of `ruin` leaves the state as it is or removes a string from a tour. -/
theorem ruinStep_cases (P : Params) (I : Instance) (msc : Dbl) (nst seed NT : Int)
    (st : RuinLoop) (k : Int) (hmsc : 0 ≤ msc.num ∧ 0 < msc.den)
    (hnb : 2 ≤ I.nodeDistList seed k ∧ I.nodeDistList seed k ≤ I.numberNodes)
    (h : RuinInv I NT st) :
    ruinStep P I msc nst seed st k = st ∨
    ∃ t l r rt c, 0 ≤ t ∧ t < NT ∧ RemovalResult st.sol st.nodeRemoved t l r ∧
      ruinStep P I msc nst seed st k = ⟨r.1, r.2.1, rt, r.2.2, c⟩ := by
  unfold ruinStep
  dsimp only
  by_cases hc : st.countRuinedTours < nst
  swap
  · rw [if_neg hc]; exact Or.inl rfl
  rw [if_pos hc]
  by_cases hcond : (!st.ruinedTour (st.sol.tourPerNode (I.nodeDistList seed k - 1) - 1)
      && !st.nodeRemoved (I.nodeDistList seed k - 1)) = true
  swap
  · rw [if_neg hcond]; exact Or.inl rfl
  rw [if_pos hcond]
  simp only [Bool.and_eq_true, Bool.not_eq_true'] at hcond
  have hx : I.nodeDistList seed k ∈ tourNodes st.sol ++ absentList st.sol :=
    h.perm.symm.subset (mem_customers.2 hnb)
  have hx' : I.nodeDistList seed k ∈ tourNodes st.sol := by
    rcases List.mem_append.1 hx with h' | h'
    · exact h'
    · have := (h.inAbsent _ h').2
      rw [hcond.2] at this
      exact absurd this (by simp)
  obtain ⟨t, ht0, ht1, hxt⟩ := mem_tourNodes.1 hx'
  rw [h.nt] at ht1
  have htpn := (h.inTour t ht0 ht1 _ hxt).1
  have hti : st.sol.tourPerNode (I.nodeDistList seed k - 1) - 1 = t := by omega
  rw [hti]
  have hn1 := tourList_pos_of_mem hxt
  obtain ⟨c0, c1, c2⟩ := localCardinality_ok (st.sol.numberNodesInTour t) msc hn1 hmsc.1 hmsc.2
  have hl := drawCount_range st.g _ (st.sol.numberNodesInTour t) c0 c1 c2
  rw [max_eq_left hn1] at hl
  have hne : ∀ y ∈ tourList st.sol t, y ≠ -1 := by
    intro y hy
    have : y ∈ customers I :=
      h.perm.subset (List.mem_append_left _ (mem_tourNodes.2 ⟨t, ht0, by rw [h.nt]; exact ht1, hy⟩))
    have := mem_customers.1 this
    omega
  right
  refine ⟨t, (drawCount st.g (Dbl.min (Dbl.ofInt (st.sol.numberNodesInTour t)) msc)).1,
    _, _, _, ht0, ht1, ?_, rfl⟩
  split_ifs with hb hs
  · exact ruinSplitString_spec P I st.sol _ _ t _ _ (by omega) (by omega) h.na hne
  · exact ruinString_spec I st.sol _ _ t _ _ hl.1 hl.2 h.na hne
  · exact ruinString_spec I st.sol _ _ t _ _ hl.1 hl.2 h.na hne

theorem ruinStep_feasible (P : Params) (I : Instance) (msc : Dbl) (nst seed NT : Int)
    (st : RuinLoop) (k : Int) (hmsc : 0 ≤ msc.num ∧ 0 < msc.den)
    (hnb : 2 ≤ I.nodeDistList seed k ∧ I.nodeDistList seed k ≤ I.numberNodes)
    (hd : ∀ i, 1 ≤ i → i < I.numberNodes → 0 ≤ I.nodeDemand i)
    (h : RuinInv I NT st) (hf : Feasible I st.sol) :
    Feasible I (ruinStep P I msc nst seed st k).sol := by
  rcases ruinStep_cases P I msc nst seed NT st k hmsc hnb h with he | ⟨t, l, r, rt, c, h0, h1, hr, he⟩
  · rw [he]; exact hf
  · rw [he]
    obtain ⟨kept, removed, hs, hperm, _⟩ := hr
    intro t' ht0 ht1
    have ht1' : t' < st.sol.numberTours := by
      have : t' < r.1.numberTours := ht1
      rw [hs.numberTours] at this
      exact this
    show demandOf I (tourList r.1 t') ≤ I.vehicleCap
    by_cases htt : t' = t
    · rw [htt, hs.row]
      have e := demandOf_perm I hperm
      rw [demandOf_append] at e
      have hrem : 0 ≤ demandOf I removed := by
        apply demandOf_nonneg
        intro x hx
        have hxrow : x ∈ tourList st.sol t := hperm.subset (List.mem_append_right _ hx)
        have : x ∈ customers I := h.perm.subset (List.mem_append_left _
          (mem_tourNodes.2 ⟨t, h0, by rw [h.nt]; exact h1, hxrow⟩))
        rw [mem_customers] at this
        exact hd (x - 1) (by omega) (by omega)
      have := hf t h0 (by rw [h.nt]; exact h1)
      omega
    · rw [hs.others t' htt]
      exact hf t' ht0 ht1'

/-- With non-negative demands `ruin` keeps the tours within the capacity: every tour it leaves
is part of a tour it found. -/
theorem ruin_feasible (P : Params) (I : Instance) (stack : Int → Bool) (s : Solution) (g : Rng)
    (hP : 0 ≤ P.lengthRemovedStrings) (hnb : NeighboursOK I) (hs : Tidy I s)
    (hd : ∀ i, 1 ≤ i → i < I.numberNodes → 0 ≤ I.nodeDemand i) (hf : Feasible I s) :
    Feasible I (ruin P I stack s g).1 := by
  unfold ruin
  dsimp only
  generalize hmsc : Dbl.min (Dbl.ofInt P.lengthRemovedStrings)
    (Dbl.round53 (Dbl.div (Dbl.ofInt ((forRange 0 s.numberTours).map s.numberNodesInTour).sum)
      (Dbl.ofInt s.numberTours))) = msc
  generalize hnst : (drawCount g (Dbl.round53 (Dbl.sub (Dbl.round53 (Dbl.div (Dbl.round53 (Dbl.mul
    (Dbl.ofInt P.numberOfStringsConstant) (Dbl.ofInt P.avRemovedCust)))
    (Dbl.round53 (Dbl.add (Dbl.ofInt 1) msc)))) (Dbl.ofInt 1)))) = dn
  have hseed := drawCount_range dn.2 (Dbl.ofInt (I.numberNodes - 1)) (I.numberNodes - 1)
  generalize hds : drawCount dn.2 (Dbl.ofInt (I.numberNodes - 1)) = ds at hseed
  have hinit : RuinInv I s.numberTours
      ⟨{ s with numberAbsentNodes := 0 }, ds.2,
        fun index1 => if 0 ≤ index1 ∧ index1 < s.numberTours then false else stack index1,
        fun _ => false, 0⟩ := by
    refine ⟨rfl, le_refl _, ?_, ?_, ?_, ?_⟩
    · have : absentList { s with numberAbsentNodes := 0 } = [] := absentList_zero _ rfl
      rw [this, List.append_nil]
      exact hs.perm
    · intro t h0 h1 x hx
      exact ⟨hs.tourPerNode t h0 h1 x hx, rfl⟩
    · intro x hx
      have : absentList { s with numberAbsentNodes := 0 } = [] := absentList_zero _ rfl
      rw [this] at hx
      exact absurd hx (List.not_mem_nil _)
    · intro t h0 h1
      exact le_of_lt (hs.nonempty t h0 h1)
  have hloop := foldl_mem_inv (ruinStep P I msc dn.1 ds.1)
    (fun a => RuinInv I s.numberTours a ∧ Feasible I a.sol)
    (forRange 0 (I.numberNodes - 2))
    ⟨{ s with numberAbsentNodes := 0 }, ds.2,
      fun index1 => if 0 ≤ index1 ∧ index1 < s.numberTours then false else stack index1,
      fun _ => false, 0⟩ ⟨hinit, hf⟩
    (by
      intro k hk a ha
      rw [mem_forRange] at hk
      have hn3 : 3 ≤ I.numberNodes := by omega
      have hcust : (2 : Int) ∈ customers I := mem_customers.2 ⟨le_refl _, by omega⟩
      obtain ⟨t, ht0, ht1, _⟩ := mem_tourNodes.1 (hs.perm.symm.subset hcust)
      have htot : 0 ≤ ((forRange 0 s.numberTours).map s.numberNodesInTour).sum := by
        apply sum_nonneg_of_forall
        intro x hx
        obtain ⟨u, hu, rfl⟩ := List.mem_map.1 hx
        rw [mem_forRange] at hu
        exact le_of_lt (hs.nonempty u hu.1 hu.2)
      have hm := maxStringCardinality_ok P.lengthRemovedStrings _ s.numberTours hP htot
        (by omega)
      rw [hmsc] at hm
      have hsd := hseed (by simp [Dbl.ofInt]; omega) (by simp [Dbl.ofInt])
        (by simp [Dbl.ofInt])
      rw [max_eq_left (by omega)] at hsd
      have hnbk := hnb ds.1 k hsd.1 (by omega) hk.1 hk.2
      exact ⟨ruinStep_inv P I msc dn.1 ds.1 s.numberTours a k hm hnbk ha.1,
        ruinStep_feasible P I msc dn.1 ds.1 s.numberTours a k hm hnbk hd ha.1 ha.2⟩)
  generalize (forRange 0 (I.numberNodes - 2)).foldl (ruinStep P I msc dn.1 ds.1)
      ⟨{ s with numberAbsentNodes := 0 }, ds.2,
        fun index1 => if 0 ≤ index1 ∧ index1 < s.numberTours then false else stack index1,
        fun _ => false, 0⟩ = st at hloop
  obtain ⟨hinv, hfeas⟩ := hloop
  have hnt0 : 0 ≤ st.sol.numberTours := by rw [hinv.nt]; exact hs.nt
  obtain ⟨c1, c2, c3, c4, c5⟩ := compactTours_spec st.sol hnt0
    (fun t h0 h1 => hinv.counts t h0 (by rw [← hinv.nt]; exact h1))
  generalize compactTours st.sol = s1 at c1 c2 c3 c4 c5
  obtain ⟨d1, d2, d3, d4, d5, d6, d7⟩ := recomputeCapacity_spec I s1 c2
  generalize recomputeCapacity I s1 = s2 at d1 d2 d3 d4 d5 d6 d7
  have hnodes1 : tourNodes s1 = tourNodes st.sol := by
    unfold tourNodes
    rw [c1, flatten_filter_ne_nil]
  have hrows2 : tourRows s2 = tourRows s1 := by
    unfold tourRows tourList
    rw [d2, d3, d4]
  have hnd2 : (tourNodes s2).Nodup := by
    unfold tourNodes
    rw [hrows2]
    show (tourNodes s1).Nodup
    rw [hnodes1]
    exact (List.nodup_append.1 hinv.nodup).1
  obtain ⟨e1, e2, e3, e4, e5, e6, e7, e8⟩ := resetTourPerNode_spec s2 (by rw [d4]; exact c2) hnd2
  generalize resetTourPerNode s2 = s3 at e1 e2 e3 e4 e5 e6 e7 e8
  intro t h0 h1
  have hl : tourList s3 t = tourList s1 t := by
    unfold tourList
    rw [e3, e4, d2, d3]
  rw [hl]
  have hmem : tourList s1 t ∈ tourRows s1 :=
    mem_tourRows h0 (by rw [← d4, ← e5]; exact h1)
  rw [c1, List.mem_filter] at hmem
  unfold tourRows at hmem
  obtain ⟨u, hu, hrow⟩ := List.mem_map.1 hmem.1
  rw [mem_forRange] at hu
  rw [← hrow]
  exact hfeas u hu.1 hu.2

/-! ### The copies between the solutions -/

/-- The loop over the tours shared by the four copy functions: it copies the number of nodes
of every tour and its first entries, and (with `withCap`) the cached usage. -/
theorem copyRows_spec (a : Solution) (f : Solution → Int → Solution)
    (hf : ∀ s index1,
      (f s index1).numberTours = s.numberTours ∧
      (f s index1).numberNodesInTour = upd s.numberNodesInTour index1 (a.numberNodesInTour index1) ∧
      (∀ q, 0 ≤ q → q < a.numberNodesInTour index1 →
        (f s index1).tours index1 q = a.tours index1 q) ∧
      (∀ t, t ≠ index1 → (f s index1).tours t = s.tours t) ∧
      (f s index1).tourPerNode = s.tourPerNode ∧
      (f s index1).numberAbsentNodes = s.numberAbsentNodes ∧
      (f s index1).totalDist = s.totalDist)
    (b : Solution) (n : Int) :
    let r := (forRange 0 n).foldl f b
    r.numberTours = b.numberTours ∧
    (∀ t, 0 ≤ t → t < n → tourList r t = tourList a t) ∧
    r.tourPerNode = b.tourPerNode ∧ r.numberAbsentNodes = b.numberAbsentNodes ∧
    r.totalDist = b.totalDist := by
  intro r
  by_cases hn : 0 ≤ n
  · have key := foldl_forRange f
      (fun i (s : Solution) => s.numberTours = b.numberTours ∧
        (∀ t, 0 ≤ t → t < i → tourList s t = tourList a t) ∧
        s.tourPerNode = b.tourPerNode ∧ s.numberAbsentNodes = b.numberAbsentNodes ∧
        s.totalDist = b.totalDist)
      hn b ⟨rfl, fun t h0 h1 => by omega, rfl, rfl, rfl⟩
      (by
        intro i s hi0 hi1 ⟨q1, q2, q3, q4, q5⟩
        obtain ⟨f1, f2, f3, f4, f5, f6, f7⟩ := hf s i
        refine ⟨f1.trans q1, ?_, f5.trans q3, f6.trans q4, f7.trans q5⟩
        intro t h0 h1
        by_cases ht : t = i
        · subst ht
          apply tourList_congr
          · rw [f2]
            simp [upd]
          · intro q hq0 hq1
            exact f3 q hq0 hq1
        · rw [← q2 t h0 (by omega)]
          apply tourList_congr
          · rw [f2]
            simp [upd, ht]
          · intro q _ _
            rw [f4 t ht])
    exact key
  · have : forRange 0 n = [] := forRange_eq_nil (by omega)
    have hr : r = b := by
      show (forRange 0 n).foldl f b = b
      rw [this]
      rfl
    rw [hr]
    exact ⟨rfl, fun t h0 h1 => by omega, rfl, rfl, rfl⟩

/-- The innermost loop of the copy functions: the first `m` entries of the row `index1`. -/
theorem copyEntries_spec (a : Solution) (index1 m : Int) (s : Solution) :
    let r := (forRange 0 m).foldl (fun (s : Solution) index2 =>
      { s with tours := upd2 s.tours index1 index2 (a.tours index1 index2) }) s
    (∀ q, 0 ≤ q → q < m → r.tours index1 q = a.tours index1 q) ∧
    (∀ t, t ≠ index1 → r.tours t = s.tours t) ∧
    r.numberTours = s.numberTours ∧ r.numberNodesInTour = s.numberNodesInTour ∧
    r.capacityUsageTour = s.capacityUsageTour ∧
    r.tourPerNode = s.tourPerNode ∧ r.numberAbsentNodes = s.numberAbsentNodes ∧
    r.absentNodes = s.absentNodes ∧ r.totalDist = s.totalDist := by
  intro r
  by_cases hm : 0 ≤ m
  · exact foldl_forRange
      (fun (s : Solution) index2 =>
        { s with tours := upd2 s.tours index1 index2 (a.tours index1 index2) })
      (fun j (r : Solution) =>
        (∀ q, 0 ≤ q → q < j → r.tours index1 q = a.tours index1 q) ∧
        (∀ t, t ≠ index1 → r.tours t = s.tours t) ∧
        r.numberTours = s.numberTours ∧ r.numberNodesInTour = s.numberNodesInTour ∧
        r.capacityUsageTour = s.capacityUsageTour ∧
        r.tourPerNode = s.tourPerNode ∧ r.numberAbsentNodes = s.numberAbsentNodes ∧
        r.absentNodes = s.absentNodes ∧ r.totalDist = s.totalDist)
      hm s ⟨fun q h0 h1 => by omega, fun _ _ => rfl, rfl, rfl, rfl, rfl, rfl, rfl, rfl⟩
      (by
        intro j r hj0 hj1 ⟨q1, q2, q3, q4, q5, q6, q7, q8, q9⟩
        refine ⟨?_, ?_, q3, q4, q5, q6, q7, q8, q9⟩
        · intro q h0 h1
          dsimp only [upd2]
          by_cases hq : q = j
          · rw [if_pos ⟨rfl, hq⟩, hq]
          · rw [if_neg (by simp [hq])]
            exact q1 q h0 (by omega)
        · intro t ht
          funext q
          dsimp only [upd2]
          rw [if_neg (by simp [ht]), q2 t ht])
  · have : forRange 0 m = [] := forRange_eq_nil (by omega)
    have hr : r = s := by
      show (forRange 0 m).foldl _ s = s
      rw [this]
      rfl
    rw [hr]
    exact ⟨fun q h0 h1 => by omega, fun _ _ => rfl, rfl, rfl, rfl, rfl, rfl, rfl, rfl⟩

theorem copySISRsToBest_spec (a b : Solution) :
    (copySISRsToBest a b).numberTours = a.numberTours ∧
    (∀ t, 0 ≤ t → t < a.numberTours → tourList (copySISRsToBest a b) t = tourList a t) ∧
    (copySISRsToBest a b).tourPerNode = b.tourPerNode ∧
    (copySISRsToBest a b).numberAbsentNodes = b.numberAbsentNodes ∧
    (copySISRsToBest a b).totalDist = a.totalDist := by
  unfold copySISRsToBest
  dsimp only
  exact copyRows_spec a _
    (by
      intro s index1
      obtain ⟨e1, e2, e3, e4, _, e6, e7, _, e9⟩ := copyEntries_spec a index1
        (upd s.numberNodesInTour index1 (a.numberNodesInTour index1) index1)
        { s with
          numberNodesInTour := upd s.numberNodesInTour index1 (a.numberNodesInTour index1),
          capacityUsageTour := upd s.capacityUsageTour index1 (a.capacityUsageTour index1) }
      refine ⟨e3, e4, ?_, e2, e6, e7, e9⟩
      intro q h0 h1
      exact e1 q h0 (by simpa [upd] using h1))
    { b with totalDist := a.totalDist, numberTours := a.numberTours } a.numberTours

theorem copyCurrentToBest_eq (a b : Solution) : copyCurrentToBest a b = copySISRsToBest a b :=
  rfl

theorem copySISRsToCurrent_spec (I : Instance) (a b : Solution) :
    (copySISRsToCurrent I a b).numberTours = a.numberTours ∧
    (∀ t, 0 ≤ t → t < a.numberTours →
      tourList (copySISRsToCurrent I a b) t = tourList a t) ∧
    (∀ i, 1 ≤ i → i < I.numberNodes →
      (copySISRsToCurrent I a b).tourPerNode i = a.tourPerNode i) ∧
    (copySISRsToCurrent I a b).numberAbsentNodes = b.numberAbsentNodes ∧
    (copySISRsToCurrent I a b).totalDist = a.totalDist := by
  unfold copySISRsToCurrent
  dsimp only
  have h1 := copyRows_spec a
    (fun (s : Solution) index1 =>
      (forRange 0 (upd s.numberNodesInTour index1 (a.numberNodesInTour index1) index1)).foldl
        (fun (s : Solution) index2 =>
          { s with tours := upd2 s.tours index1 index2 (a.tours index1 index2) })
        { s with
          numberNodesInTour := upd s.numberNodesInTour index1 (a.numberNodesInTour index1) })
    (by
      intro s index1
      obtain ⟨e1, e2, e3, e4, _, e6, e7, _, e9⟩ := copyEntries_spec a index1
        (upd s.numberNodesInTour index1 (a.numberNodesInTour index1) index1)
        { s with
          numberNodesInTour := upd s.numberNodesInTour index1 (a.numberNodesInTour index1) }
      refine ⟨e3, e4, ?_, e2, e6, e7, e9⟩
      intro q h0 h1
      exact e1 q h0 (by simpa [upd] using h1))
    { b with totalDist := a.totalDist, numberTours := a.numberTours } a.numberTours
  dsimp only at h1
  generalize (forRange 0 a.numberTours).foldl
    (fun (s : Solution) index1 =>
      (forRange 0 (upd s.numberNodesInTour index1 (a.numberNodesInTour index1) index1)).foldl
        (fun (s : Solution) index2 =>
          { s with tours := upd2 s.tours index1 index2 (a.tours index1 index2) })
        { s with
          numberNodesInTour := upd s.numberNodesInTour index1 (a.numberNodesInTour index1) })
    { b with totalDist := a.totalDist, numberTours := a.numberTours } = s1 at h1
  obtain ⟨c1, c2, _, c4, c5⟩ := h1
  have key : ∀ (l : List Int) (s : Solution),
      let r := l.foldl (fun (s : Solution) index1 =>
        { s with tourPerNode := upd s.tourPerNode index1 (a.tourPerNode index1) }) s
      r.numberTours = s.numberTours ∧ r.tours = s.tours ∧
      r.numberNodesInTour = s.numberNodesInTour ∧
      r.numberAbsentNodes = s.numberAbsentNodes ∧ r.totalDist = s.totalDist ∧
      (∀ i, i ∈ l → r.tourPerNode i = a.tourPerNode i) ∧
      (∀ i, i ∉ l → r.tourPerNode i = s.tourPerNode i) := by
    intro l
    induction l with
    | nil =>
      intro s
      exact ⟨rfl, rfl, rfl, rfl, rfl, fun i hi => absurd hi (List.not_mem_nil _), fun _ _ => rfl⟩
    | cons x l ih =>
      intro s
      obtain ⟨i1, i2, i3, i4, i5, i6, i7⟩ := ih
        { s with tourPerNode := upd s.tourPerNode x (a.tourPerNode x) }
      rw [List.foldl_cons]
      refine ⟨i1, i2, i3, i4, i5, ?_, ?_⟩
      · intro i hi
        by_cases hil : i ∈ l
        · exact i6 i hil
        · rw [i7 i hil]
          have : i = x := by
            rcases List.mem_cons.1 hi with h | h
            · exact h
            · exact absurd h hil
          simp [upd, this]
      · intro i hi
        rw [i7 i (fun h => hi (List.mem_cons_of_mem _ h))]
        have : i ≠ x := fun h => hi (by rw [h]; exact List.mem_cons_self _ _)
        simp [upd, this]
  obtain ⟨k1, k2, k3, k4, k5, k6, _⟩ := key (forRange 1 I.numberNodes) s1
  refine ⟨k1.trans c1, ?_, ?_, k4.trans c4, k5.trans c5⟩
  · intro t h0 h1
    rw [← c2 t h0 h1]
    apply tourList_congr
    · rw [k3]
    · intro q _ _
      rw [k2]
  · intro i h0 h1
    exact k6 i (mem_forRange.2 ⟨h0, h1⟩)

theorem copyCurrentToSISRs_eq (I : Instance) (a b : Solution) :
    copyCurrentToSISRs I a b = copySISRsToCurrent I a b :=
  rfl

theorem SameTours.tourNodes {a r : Solution} (h : SameTours a r) : tourNodes r = tourNodes a := by
  unfold VRP.tourNodes tourRows
  rw [h.1]
  congr 1
  apply List.map_congr_left
  intro t ht
  rw [mem_forRange] at ht
  exact h.2 t ht.1 ht.2

theorem SameTours.feasible {I : Instance} {a r : Solution} (h : SameTours a r)
    (hf : Feasible I a) : Feasible I r := by
  intro t h0 h1
  rw [h.1] at h1
  rw [h.2 t h0 h1]
  exact hf t h0 h1

theorem SameTours.tidy {I : Instance} {a r : Solution} (h : SameTours a r) (ha : Tidy I a)
    (htpn : ∀ i, 1 ≤ i → i < I.numberNodes → r.tourPerNode i = a.tourPerNode i) :
    Tidy I r := by
  refine ⟨by rw [h.1]; exact ha.nt, ?_, by rw [h.tourNodes]; exact ha.perm, ?_⟩
  · intro t h0 h1
    rw [h.1] at h1
    by_contra hc
    have hnil := (tourList_eq_nil_iff r t).2 (by omega)
    rw [h.2 t h0 h1, tourList_eq_nil_iff] at hnil
    have := ha.nonempty t h0 h1
    omega
  · intro t h0 h1 x hx
    rw [h.1] at h1
    rw [h.2 t h0 h1] at hx
    have hc : x ∈ customers I := ha.perm.subset (mem_tourNodes.2 ⟨t, h0, h1, hx⟩)
    rw [mem_customers] at hc
    rw [htpn (x - 1) (by omega) (by omega)]
    exact ha.tourPerNode t h0 h1 x hx

/-! ### The invariant of the search -/

theorem length_le_length_flatten {α : Type} :
    ∀ (L : List (List α)), (∀ l ∈ L, l ≠ []) → L.length ≤ L.flatten.length
  | [], _ => by simp
  | l :: L, h => by
    have h1 := length_le_length_flatten L (fun l' hl' => h l' (List.mem_cons_of_mem _ hl'))
    have h2 : 0 < l.length := List.length_pos.2 (h l (List.mem_cons_self _ _))
    simp only [List.length_cons, List.flatten_cons, List.length_append]
    omega

theorem length_customers (I : Instance) : (customers I).length = (I.numberNodes - 1).toNat := by
  unfold customers
  rw [List.length_map, length_forRange]

theorem numberTours_le (s : Solution)
    (hne : ∀ t, 0 ≤ t → t < s.numberTours → 0 < s.numberNodesInTour t) :
    s.numberTours.toNat ≤ (tourNodes s).length := by
  have := length_le_length_flatten (tourRows s) (by
    intro l hl
    unfold tourRows at hl
    obtain ⟨t, ht, rfl⟩ := List.mem_map.1 hl
    rw [mem_forRange] at ht
    rw [Ne, tourList_eq_nil_iff]
    have := hne t ht.1 ht.2
    omega)
  unfold tourRows at this
  rw [List.length_map, length_forRange] at this
  have e : (s.numberTours - 0).toNat = s.numberTours.toNat := by simp
  rw [e] at this
  exact this

/-- One call of `SISRs` from a complete, feasible `currentSol`: it returns, with a complete and
feasible candidate without absent nodes. -/
theorem SISRs_spec (P : Params) (I : Instance) (O : Orders) (stack : Int → Bool)
    (currentSol SISRsSol : Solution) (g : Rng) (hP : 0 ≤ P.lengthRemovedStrings)
    (hI : ValidInstance I) (hO : OrdersOK I O) (hc : Tidy I currentSol)
    (hf : Feasible I currentSol) :
    ∃ s' g', (∀ fuel, 2 * I.numberNodes.toNat ≤ fuel →
        SISRs fuel P I O stack currentSol SISRsSol g = some (s', g')) ∧
      Tidy I s' ∧ Feasible I s' ∧ s'.numberAbsentNodes = 0 := by
  obtain ⟨a1, a2, a3, _, _⟩ := copySISRsToCurrent_spec I currentSol SISRsSol
  have hsame : SameTours currentSol (copyCurrentToSISRs I currentSol SISRsSol) := ⟨a1, a2⟩
  have ht := hsame.tidy hc a3
  have hfe := hsame.feasible hf
  have hr := ruin_spec P I stack _ g hP hI.neighbours ht
  have hrf := ruin_feasible P I stack _ g hP hI.neighbours ht
    (fun i h0 h1 => (hI.demand i h0 h1).1) hfe
  obtain ⟨s2, g2, b1, b2, b3, b4, b5⟩ := recreate_spec P I O _ (ruin P I stack
    (copyCurrentToSISRs I currentSol SISRsSol) g).2 hO hr
  have hcap := b5 (fun i h0 h1 => (hI.demand i h0 h1).2)
    (fun t h0 h1 => by rw [hr.capacity t h0 h1]; exact hrf t h0 h1)
  have hbound : 2 * (ruin P I stack (copyCurrentToSISRs I currentSol SISRsSol) g).1.numberTours.toNat
      + 2 ≤ 2 * I.numberNodes.toNat := by
    have h1 := numberTours_le _ hr.nonempty
    have h2 := hr.perm.length_eq
    rw [List.length_append, length_customers] at h2
    have := hI.customers
    omega
  refine ⟨{ s2 with totalDist := computeTotalDist I s2 }, g2, ?_, ?_, ?_, b3⟩
  · intro fuel hfuel
    unfold SISRs
    simp only [b1 fuel (by omega), Option.bind_eq_bind, Option.some_bind, Option.pure_def]
  · exact ⟨b2.nt, b2.nonempty, b2.perm, b2.tourPerNode⟩
  · intro t h0 h1
    show demandOf I (tourList s2 t) ≤ I.vehicleCap
    rw [← b4 t h0 h1]
    exact hcap t h0 h1

/-- One iteration of `localSearchMH` keeps the invariant, and returns. -/
theorem lsStep_inv (P : Params) (I : Instance) (O : Orders)
    (accept : Int → Nat → Int → Int → Bool) (stack : Int → Int → Bool) (st : Search3)
    (index1 : Int) (hP : 0 ≤ P.lengthRemovedStrings) (hI : ValidInstance I)
    (hO : OrdersOK I O) (h : SearchInv I st) :
    ∃ st', (∀ fuel, 2 * I.numberNodes.toNat ≤ fuel →
        lsStep fuel P I O accept stack st index1 = some st') ∧ SearchInv I st' := by
  obtain ⟨s', g', a1, a2, a3, a4⟩ := SISRs_spec P I O (stack index1) st.currentSol st.SISRsSol
    st.g hP hI hO h.current h.currentFeasible
  refine ⟨⟨if accept index1 (xorshift128 g').1 s'.totalDist st.currentSol.totalDist then
        copySISRsToCurrent I s' st.currentSol else st.currentSol,
      if s'.totalDist < st.bestSol.totalDist then copySISRsToBest s' st.bestSol
        else st.bestSol,
      s', (xorshift128 g').2⟩, ?_, ?_⟩
  · intro fuel hfuel
    unfold lsStep
    simp only [a1 fuel hfuel, Option.bind_eq_bind, Option.some_bind, Option.pure_def]
  · obtain ⟨c1, c2, c3, c4, _⟩ := copySISRsToCurrent_spec I s' st.currentSol
    obtain ⟨d1, d2, _, d4, _⟩ := copySISRsToBest_spec s' st.bestSol
    have hsc : SameTours s' (copySISRsToCurrent I s' st.currentSol) := ⟨c1, c2⟩
    have hsb : SameTours s' (copySISRsToBest s' st.bestSol) := ⟨d1, d2⟩
    refine ⟨?_, ?_, ?_, ?_⟩
    · dsimp only
      split_ifs
      · exact hsc.tidy a2 c3
      · exact h.current
    · dsimp only
      split_ifs
      · exact hsc.feasible a3
      · exact h.currentFeasible
    · dsimp only
      split_ifs
      · rw [c4]; exact h.currentAbsent
      · exact h.currentAbsent
    · dsimp only
      split_ifs
      · refine ⟨by rw [d1]; exact a2.nt, by rw [hsb.tourNodes]; exact a2.perm, ?_,
          hsb.feasible a3⟩
        rw [d4]
        exact h.best.noAbsent
      · exact h.best

/-- The state of `localSearchMH` after any number of iterations: the search returns and the
invariant holds. -/
theorem localSearchIter_inv (P : Params) (I : Instance) (O : Orders)
    (accept : Int → Nat → Int → Int → Bool) (stack : Int → Int → Bool) (st : Search3)
    (hP : 0 ≤ P.lengthRemovedStrings) (hI : ValidInstance I) (hO : OrdersOK I O)
    (hc : Tidy I st.currentSol) (hf : Feasible I st.currentSol)
    (ha : st.currentSol.numberAbsentNodes = 0) (hb : st.bestSol.numberAbsentNodes = 0) :
    ∀ (k : Nat), ∃ st', (∀ fuel, 2 * I.numberNodes.toNat ≤ fuel →
        localSearchIter fuel P I O accept stack st (k : Int) = some st') ∧ SearchInv I st'
  | 0 => by
    obtain ⟨d1, d2, _, d4, _⟩ := copySISRsToBest_spec st.currentSol st.bestSol
    have hsb : SameTours st.currentSol (copyCurrentToBest st.currentSol st.bestSol) := ⟨d1, d2⟩
    refine ⟨{ st with bestSol := copyCurrentToBest st.currentSol st.bestSol }, ?_, hc, hf, ha,
      ?_⟩
    · intro fuel _
      unfold localSearchIter
      rw [Nat.cast_zero, forRange_eq_nil (le_refl _)]
      rfl
    · refine ⟨?_, ?_, ?_, hsb.feasible hf⟩
      · show 0 ≤ (copyCurrentToBest st.currentSol st.bestSol).numberTours
        rw [hsb.1]
        exact hc.nt
      · show (tourNodes (copyCurrentToBest st.currentSol st.bestSol)).Perm (customers I)
        rw [hsb.tourNodes]
        exact hc.perm
      · show (copyCurrentToBest st.currentSol st.bestSol).numberAbsentNodes = 0
        rw [copyCurrentToBest_eq, d4]
        exact hb
  | k + 1 => by
    obtain ⟨a, h1, h2⟩ := localSearchIter_inv P I O accept stack st hP hI hO hc hf ha hb k
    obtain ⟨b, h3, h4⟩ := lsStep_inv P I O accept stack a (k : Int) hP hI hO h2
    refine ⟨b, ?_, h4⟩
    intro fuel hfuel
    have e : ((k + 1 : Nat) : Int) = (k : Int) + 1 := by push_cast; ring
    rw [e, localSearchIter_succ _ _ _ _ _ _ _ _ (by omega), h1 fuel hfuel, Option.some_bind]
    exact h3 fuel hfuel

/-! ### The initial solution -/

theorem startSolTours_spec (I : Instance) (currentSol : Solution) (hn : 1 ≤ I.numberNodes) :
    (startSolTours I currentSol).numberTours = I.numberNodes - 1 ∧
    (∀ t, 0 ≤ t → t < I.numberNodes - 1 →
      (startSolTours I currentSol).numberNodesInTour t = 1 ∧
      (startSolTours I currentSol).tours t 0 = t + 2 ∧
      (startSolTours I currentSol).capacityUsageTour t = I.nodeDemand (t + 1)) ∧
    (startSolTours I currentSol).numberAbsentNodes = 0 ∧
    (∀ i, 1 ≤ i → i < I.numberNodes → (startSolTours I currentSol).tourPerNode i = i) := by
  unfold startSolTours
  dsimp only
  have h1 := foldl_forRange
    (fun (s : Solution) index1 =>
      { s with
        numberNodesInTour := upd s.numberNodesInTour index1 1,
        tours := upd2 s.tours index1 0 (index1 + 2),
        capacityUsageTour := upd s.capacityUsageTour index1 (I.nodeDemand (index1 + 1)),
        totalDist := s.totalDist + I.distance 0 (index1 + 1) * 2 })
    (fun i (s : Solution) => s.numberTours = I.numberNodes - 1 ∧
      ∀ t, 0 ≤ t → t < i → s.numberNodesInTour t = 1 ∧ s.tours t 0 = t + 2 ∧
        s.capacityUsageTour t = I.nodeDemand (t + 1))
    (by omega : (0 : Int) ≤ I.numberNodes - 1)
    { currentSol with numberTours := I.numberNodes - 1, totalDist := 0 }
    ⟨rfl, fun t h0 h1 => by omega⟩
    (by
      intro i s hi0 hi1 ⟨q1, q2⟩
      refine ⟨q1, ?_⟩
      intro t h0 h1
      by_cases ht : t = i
      · subst ht
        simp [upd, upd2]
      · have := q2 t h0 (by omega)
        simp [upd, upd2, ht, this])
  generalize (forRange 0 (I.numberNodes - 1)).foldl
    (fun (s : Solution) index1 =>
      { s with
        numberNodesInTour := upd s.numberNodesInTour index1 1,
        tours := upd2 s.tours index1 0 (index1 + 2),
        capacityUsageTour := upd s.capacityUsageTour index1 (I.nodeDemand (index1 + 1)),
        totalDist := s.totalDist + I.distance 0 (index1 + 1) * 2 })
    { currentSol with numberTours := I.numberNodes - 1, totalDist := 0 } = s1 at h1
  have h2 := foldl_forRange
    (fun (s : Solution) index1 => { s with tourPerNode := upd s.tourPerNode index1 index1 })
    (fun i (s : Solution) => s.numberTours = s1.numberTours ∧ s.tours = s1.tours ∧
      s.numberNodesInTour = s1.numberNodesInTour ∧ s.capacityUsageTour = s1.capacityUsageTour ∧
      s.numberAbsentNodes = 0 ∧ ∀ j, 1 ≤ j → j < i → s.tourPerNode j = j)
    hn
    { s1 with numberAbsentNodes := 0, tourPerNode := upd s1.tourPerNode 0 (-1) }
    ⟨rfl, rfl, rfl, rfl, rfl, fun j h0 h1 => by omega⟩
    (by
      intro i s hi0 hi1 ⟨q1, q2, q3, q4, q5, q6⟩
      refine ⟨q1, q2, q3, q4, q5, ?_⟩
      intro j h0 h1
      by_cases hj : j = i
      · subst hj
        simp [upd]
      · have := q6 j h0 (by omega)
        simp [upd, hj, this])
  obtain ⟨e1, e2, e3, e4, e5, e6⟩ := h2
  refine ⟨e1.trans h1.1, ?_, e5, e6⟩
  intro t h0 ht
  rw [e2, e3, e4]
  exact h1.2 t h0 ht

theorem flatten_map_singleton {α β : Type} (f : α → β) :
    ∀ l : List α, (l.map fun a => [f a]).flatten = l.map f
  | [] => rfl
  | a :: l => by
    rw [List.map_cons, List.flatten_cons, flatten_map_singleton f l]
    rfl

/-- The tours that `startSol` builds: one customer per tour, a complete and feasible solution
when every customer demand is at most `vehicleCap`. -/
theorem startSolTours_tidy (I : Instance) (currentSol : Solution) (hn : 1 ≤ I.numberNodes)
    (hd : ∀ i, 1 ≤ i → i < I.numberNodes → I.nodeDemand i ≤ I.vehicleCap) :
    Tidy I (startSolTours I currentSol) ∧ Feasible I (startSolTours I currentSol) ∧
      (startSolTours I currentSol).numberAbsentNodes = 0 := by
  obtain ⟨a1, a2, a3, a4⟩ := startSolTours_spec I currentSol hn
  have hrow : ∀ t, 0 ≤ t → t < I.numberNodes - 1 →
      tourList (startSolTours I currentSol) t = [t + 2] := by
    intro t h0 h1
    obtain ⟨b1, b2, _⟩ := a2 t h0 h1
    unfold tourList
    rw [b1, show forRange 0 1 = [0] from forRange_one 0, List.map_singleton, b2]
  refine ⟨⟨by omega, ?_, ?_, ?_⟩, ?_, a3⟩
  · intro t h0 h1
    rw [a1] at h1
    rw [(a2 t h0 h1).1]
    exact Int.one_pos
  · unfold tourNodes tourRows customers
    rw [a1]
    have e : (forRange 0 (I.numberNodes - 1)).map (tourList (startSolTours I currentSol))
        = (forRange 0 (I.numberNodes - 1)).map (fun t => [t + 2]) := by
      apply List.map_congr_left
      intro t ht
      rw [mem_forRange] at ht
      exact hrow t ht.1 ht.2
    rw [e, flatten_map_singleton]
    unfold forRange
    have e2 : (I.numberNodes - 1 - 0).toNat = (I.numberNodes - 1).toNat := by simp
    rw [e2, List.map_map, List.map_map]
    apply List.Perm.of_eq
    apply List.map_congr_left
    intro k _
    simp only [Function.comp]
    ring
  · intro t h0 h1 x hx
    rw [a1] at h1
    rw [hrow t h0 h1, List.mem_singleton] at hx
    subst hx
    rw [(by ring : t + 2 - 1 = t + 1)]
    exact a4 (t + 1) (by omega) (by omega)
  · intro t h0 h1
    rw [a1] at h1
    rw [hrow t h0 h1, demandOf_singleton, (by ring : t + 2 - 1 = t + 1)]
    exact hd (t + 1) (by omega) (by omega)

theorem map_readL_cons (x : Int) (T : List Int) (m : Int) (hm : m = (T.length : Int) + 1) :
    (forRange 1 m).map (readL (x :: T)) = T := by
  apply List.ext_getElem
  · simp [forRange]
    omega
  · intro k h1 h2
    simp only [forRange, List.map_map, List.getElem_map, List.getElem_range, Function.comp,
      readL]
    have : (1 + (k : Int)).toNat = k + 1 := by omega
    rw [this]
    simp [List.getD_eq_getElem?_getD, List.getElem?_eq_getElem h2]

/-- A sort of `startSol` leaves an order of the customers: the entries `1..numberNodes-1` of the
sorted id array are the customer ids. -/
theorem order_perm (I : Instance) {w v' c' : List Int} (hn : 1 ≤ I.numberNodes)
    (hw : w.length = (customers I).length + 1)
    (h : Rearranged 1 (I.numberNodes - 1) w (0 :: customers I) v' c') :
    ((forRange 1 I.numberNodes).map (readL c')).Perm (customers I) := by
  have hperm : c'.Perm (0 :: customers I) :=
    perm_snd_of_zip h.perm (by rw [h.lenV, h.lenC, hw]; simp) (by rw [hw]; simp)
  have h0 := (h.outside 0 (Or.inl (by norm_num))).2
  have hlen := h.lenC
  cases hc : c' with
  | nil =>
    rw [hc] at hlen
    simp at hlen
  | cons x T =>
    rw [hc] at h0 hperm hlen
    simp only [List.getElem?_cons_zero, Option.some.injEq] at h0
    subst h0
    have hT : T.Perm (customers I) := hperm.cons_inv
    rw [map_readL_cons]
    · exact hT
    · have := hT.length_eq
      rw [length_customers] at this
      rw [this]
      omega

/-- The whole of `startSol`: it returns (with fuel `2 * numberNodes` for its sorts) a complete,
feasible solution and four orders of the customers. -/
theorem startSol_spec (P : Params) (I : Instance) (currentSol : Solution) (g : Rng)
    (hn : 1 ≤ I.numberNodes)
    (hd : ∀ i, 1 ≤ i → i < I.numberNodes → I.nodeDemand i ≤ I.vehicleCap) :
    ∃ s O g1, (∀ fuel, 2 * I.numberNodes.toNat ≤ fuel →
        startSol fuel P I currentSol g = some (s, O, g1)) ∧
      Tidy I s ∧ Feasible I s ∧ s.numberAbsentNodes = 0 ∧ OrdersOK I O := by
  have hlc := length_customers I
  have hlr : (forRange 1 I.numberNodes).length = (I.numberNodes - 1).toNat := length_forRange _ _
  have hlw := length_drawWeights (forRange 1 I.numberNodes) g
  rw [hlr] at hlw
  have hids : (0 :: customers I).length = (I.numberNodes - 1).toNat + 1 := by
    rw [List.length_cons, hlc]
  -- the four sorts
  have sort : ∀ (key : Int → Int) (lt : Int → Int → Bool), Dir key lt → ∀ (w : List Int),
      w.length = (I.numberNodes - 1).toNat →
      ∃ v' c', (∀ fuel, 2 * I.numberNodes.toNat ≤ fuel →
          quicksortInt lt fuel 1 (I.numberNodes - 1) (0 :: w) (0 :: customers I)
            = some (v', c')) ∧
        ((forRange 1 I.numberNodes).map (readL c')).Perm (customers I) := by
    intro key lt hdir w hw
    obtain ⟨v', c', r1, r2, _⟩ := quicksortInt_spec hdir (I.numberNodes - 1).toNat 1
      (I.numberNodes - 1) (0 :: w) (0 :: customers I) (by norm_num)
      (by rw [List.length_cons, hw]; omega) (by rw [hids]; omega) (by omega)
    refine ⟨v', c', fun fuel hf => r1 fuel (by omega), ?_⟩
    exact order_perm I hn (by rw [List.length_cons, hw, hlc]) r2
  obtain ⟨v1, c1, s1, p1⟩ := sort _ _ dir_incr (drawWeights (forRange 1 I.numberNodes) g).1 hlw
  obtain ⟨v2, c2, s2, p2⟩ := sort _ _ dir_decr ((forRange 1 I.numberNodes).map I.nodeDemand)
    (by rw [List.length_map, hlr])
  obtain ⟨v3, c3, s3, p3⟩ := sort _ _ dir_decr
    ((forRange 1 I.numberNodes).map (fun index1 => I.distance index1 0))
    (by rw [List.length_map, hlr])
  obtain ⟨v4, c4, s4, p4⟩ := sort _ _ dir_incr
    ((forRange 1 I.numberNodes).map (fun index1 => I.distance index1 0))
    (by rw [List.length_map, hlr])
  obtain ⟨t1, t2, t3⟩ := startSolTours_tidy I currentSol hn hd
  refine ⟨startSolTours I currentSol,
    ⟨c1, c2, c3, c4,
      startSolProbRandom P, startSolProbDemandLarge P, startSolProbDistLarge P⟩,
    (drawWeights (forRange 1 I.numberNodes) g).2, ?_, t1, t2, t3, ⟨p1, p2, p3, p4⟩⟩
  intro fuel hf
  have e1 := s1 fuel hf
  have e2 := s2 fuel hf
  have e3 := s3 fuel hf
  have e4 := s4 fuel hf
  unfold customers at e1 e2 e3 e4
  unfold startSol quicksortIncrDouble quicksortDecrInt quicksortIncrInt
  simp only [e1, e2, e3, e4, Option.bind_eq_bind, Option.some_bind, Option.pure_def]
  rfl

/-! ### Valid instances -/

/-- The neighbour lists that `readInput` builds hold customer ids. -/
theorem neighboursOK_of_readInput (I : Instance) (fuel : Nat)
    (hfuel : 2 * I.numberNodes.toNat ≤ fuel)
    (h : readInputNeighbours fuel I.numberNodes I.distance = some I.nodeDistList) :
    NeighboursOK I := by
  obtain ⟨t, rowOf, h1, h2⟩ := readInputNeighbours_rows I.numberNodes I.distance
  have ht : I.nodeDistList = t := by
    have := h1 fuel hfuel
    rw [h] at this
    exact Option.some.inj this
  intro i k hi0 hi1 hk0 hk1
  rw [ht]
  obtain ⟨hspec, hti⟩ := h2 i hi0 hi1
  rw [hti k hk0 hk1]
  have hmem : getI (rowOf i) k ∈ rowOf i :=
    readL_mem (rowOf i) k hk0 (by rw [hspec.len]; omega)
  have hm := hspec.perm.subset hmem
  simp only [List.mem_map, List.mem_filter, mem_forRange] at hm
  obtain ⟨y, ⟨⟨hy1, hy2⟩, _⟩, hy⟩ := hm
  omega

/-! ### The best distance is a running minimum (C6) -/

/-- Whatever the solution, `recreate` returns once its sort has fuel `2 * numberTours + 2`. -/
theorem recreate_returns (P : Params) (I : Instance) (O : Orders) (s : Solution) (g : Rng) :
    ∃ r, ∀ fuel, 2 * s.numberTours.toNat + 2 ≤ fuel → recreate fuel P I O s g = some r := by
  have hlen := length_drawWeights (forRange 0 s.numberTours) (unitDraw g).2
  rw [length_forRange] at hlen
  obtain ⟨v', c', hq, _, _⟩ := quicksortInt_spec dir_decr s.numberTours.toNat 0
    (s.numberTours - 1) (drawWeights (forRange 0 s.numberTours) (unitDraw g).2).1
    (forRange 0 s.numberTours) (le_refl _) (by rw [hlen]; omega)
    (by rw [length_forRange]; omega) (by omega)
  refine ⟨({ ((forRange 0 s.numberAbsentNodes).foldl (fun (st : Recreate) index1 =>
      reinsert P I st (readL (sortRemoved I O s (unitDraw g).1) index1))
      { sol := s, g := (drawWeights (forRange 0 s.numberTours) (unitDraw g).2).2,
        tourIndices := readL c' }).sol with numberAbsentNodes := 0 },
    ((forRange 0 s.numberAbsentNodes).foldl (fun (st : Recreate) index1 =>
      reinsert P I st (readL (sortRemoved I O s (unitDraw g).1) index1))
      { sol := s, g := (drawWeights (forRange 0 s.numberTours) (unitDraw g).2).2,
        tourIndices := readL c' }).g), ?_⟩
  intro fuel hf
  unfold recreate drawTourValues quicksortDecrDouble
  simp only [hq fuel hf, Option.bind_eq_bind, Option.some_bind, Option.pure_def]

/-- Whatever the state, one iteration of `localSearchMH` returns, given enough fuel. -/
theorem lsStep_returns (P : Params) (I : Instance) (O : Orders)
    (accept : Int → Nat → Int → Int → Bool) (stack : Int → Int → Bool) (st : Search3)
    (index1 : Int) :
    ∃ st' N, ∀ fuel, N ≤ fuel → lsStep fuel P I O accept stack st index1 = some st' := by
  obtain ⟨r, hr⟩ := recreate_returns P I O
    (ruin P I (stack index1) (copyCurrentToSISRs I st.currentSol st.SISRsSol) st.g).1
    (ruin P I (stack index1) (copyCurrentToSISRs I st.currentSol st.SISRsSol) st.g).2
  refine ⟨⟨if accept index1 (xorshift128 r.2).1 (computeTotalDist I r.1)
        st.currentSol.totalDist then
        copySISRsToCurrent I { r.1 with totalDist := computeTotalDist I r.1 } st.currentSol
      else st.currentSol,
    if computeTotalDist I r.1 < st.bestSol.totalDist then
        copySISRsToBest { r.1 with totalDist := computeTotalDist I r.1 } st.bestSol
      else st.bestSol,
    { r.1 with totalDist := computeTotalDist I r.1 }, (xorshift128 r.2).2⟩,
    2 * (ruin P I (stack index1) (copyCurrentToSISRs I st.currentSol st.SISRsSol)
      st.g).1.numberTours.toNat + 2, ?_⟩
  intro fuel hf
  unfold lsStep SISRs
  simp only [hr fuel hf, Option.bind_eq_bind, Option.some_bind, Option.pure_def]

/-- Whatever the state, the first `k` iterations of `localSearchMH` return, given enough fuel. -/
theorem localSearchIter_returns (P : Params) (I : Instance) (O : Orders)
    (accept : Int → Nat → Int → Int → Bool) (stack : Int → Int → Bool) (st : Search3) :
    ∀ k : Nat, ∃ a N, ∀ fuel, N ≤ fuel →
      localSearchIter fuel P I O accept stack st (k : Int) = some a
  | 0 => by
    refine ⟨{ st with bestSol := copyCurrentToBest st.currentSol st.bestSol }, 0, ?_⟩
    intro fuel _
    unfold localSearchIter
    rw [Nat.cast_zero, forRange_eq_nil (le_refl _)]
    rfl
  | k + 1 => by
    obtain ⟨a, N1, h1⟩ := localSearchIter_returns P I O accept stack st k
    obtain ⟨b, N2, h2⟩ := lsStep_returns P I O accept stack a (k : Int)
    refine ⟨b, max N1 N2, ?_⟩
    intro fuel hf
    have e : ((k + 1 : Nat) : Int) = (k : Int) + 1 := by push_cast; ring
    rw [e, localSearchIter_succ _ _ _ _ _ _ _ _ (by omega),
      h1 fuel (le_trans (le_max_left _ _) hf), Option.some_bind]
    exact h2 fuel (le_trans (le_max_right _ _) hf)

/-- C6: in every iteration of `localSearchMH`, whatever the acceptance decision (the function
`accept` is arbitrary) and whatever the state `st` before it, the iteration returns (given
enough fuel for the sort of `recreate`) and `bestSol.totalDist` after it is the minimum of
`bestSol.totalDist` before it and the `totalDist` of the candidate `SISRsSol`; hence, over the
whole run, `bestSol.totalDist` after `j` iterations is at most its value after `i ≤ j`
iterations. -/
theorem best_distance_is_running_minimum (P : Params) (I : Instance) (O : Orders)
    (accept : Int → Nat → Int → Int → Bool) (stack : Int → Int → Bool) (st : Search3) :
    (∀ index1, ∃ st' N,
      (∀ fuel, N ≤ fuel → lsStep fuel P I O accept stack st index1 = some st') ∧
      st'.bestSol.totalDist = min st.bestSol.totalDist st'.SISRsSol.totalDist) ∧
    (∀ i j : Nat, i ≤ j → ∃ a b N,
      (∀ fuel, N ≤ fuel →
        localSearchIter fuel P I O accept stack st (i : Int) = some a ∧
        localSearchIter fuel P I O accept stack st (j : Int) = some b) ∧
      b.bestSol.totalDist ≤ a.bestSol.totalDist) := by
  constructor
  · intro index1
    obtain ⟨st', N, h⟩ := lsStep_returns P I O accept stack st index1
    exact ⟨st', N, h, lsStep_best (h N (le_refl _))⟩
  · intro i j hij
    obtain ⟨a, N1, h1⟩ := localSearchIter_returns P I O accept stack st i
    obtain ⟨b, N2, h2⟩ := localSearchIter_returns P I O accept stack st j
    refine ⟨a, b, max N1 N2, fun fuel hf =>
      ⟨h1 fuel (le_trans (le_max_left _ _) hf), h2 fuel (le_trans (le_max_right _ _) hf)⟩, ?_⟩
    have ha := h1 (max N1 N2) (le_max_left _ _)
    have hb := h2 (max N1 N2) (le_max_right _ _)
    have e : (j : Int) = (i : Int) + ((j - i : Nat) : Int) := by omega
    rw [e] at hb
    exact localSearchIter_best_mono _ P I O accept stack st (i : Int) (by omega) a ha (j - i) b hb

/-- Witness for `best_distance_is_running_minimum`: the first iteration on `oneCustomer`. -/
theorem best_distance_is_running_minimum_witness :
    ∃ st' N,
      (∀ fuel, N ≤ fuel → lsStep fuel defaultParams oneCustomer oneOrders (fun _ _ _ _ => true)
        (fun _ _ => false) ⟨oneTour, oneTour, oneTour, ⟨1, 2, 3, 4⟩⟩ 0 = some st') ∧
      st'.bestSol.totalDist = min oneTour.totalDist st'.SISRsSol.totalDist :=
  (best_distance_is_running_minimum defaultParams oneCustomer oneOrders (fun _ _ _ _ => true)
    (fun _ _ => false) ⟨oneTour, oneTour, oneTour, ⟨1, 2, 3, 4⟩⟩).1 0

/-! ### Feasibility of the current and best solutions (C1) -/

theorem validInstance_oneCustomer : ValidInstance oneCustomer := by
  refine ⟨by decide, ?_, neighboursOK_oneCustomer⟩
  intro i h0 h1
  have : i < 2 := h1
  have hi : i = 1 := by omega
  subst hi
  decide

theorem validInstance_tightDemand : ValidInstance tightDemand := by
  refine ⟨by decide, ?_, ?_⟩
  · intro i h0 h1
    have h1' : i < 5 := h1
    interval_cases i <;> decide
  · intro i k hi0 hi1 hk0 hk1
    have hi1' : i < 5 := hi1
    have hk1' : k < 3 := hk1
    interval_cases i <;> interval_cases k <;> decide

set_option maxRecDepth 100000 in
/-- The run on `tightDemand` from the generator state
`(x, y, z, w) = (123456789, 362436069, 521288629, 88675123)`, with every candidate that is not
longer accepted: the tours of `currentSol` after `startSol`, and the tours of `currentSol` and
`bestSol` after one and after three iterations. -/
theorem tightDemand_run :
    (startSol 10 defaultParams tightDemand Solution.zero
        ⟨88675123, 123456789, 362436069, 521288629⟩).map (fun r => tourRows r.1)
      = some [[2], [3], [4], [5]] ∧
    ((startSol 10 defaultParams tightDemand Solution.zero
        ⟨88675123, 123456789, 362436069, 521288629⟩).bind fun r =>
      (localSearchIter 10 defaultParams tightDemand r.2.1 (fun _ _ c cur => decide (c ≤ cur))
        (fun _ _ => false) ⟨r.1, Solution.zero, Solution.zero, r.2.2⟩ 1).map fun st =>
        (tourRows st.currentSol, tourRows st.bestSol))
      = some ([[5, 4], [3], [2]], [[5, 4], [3], [2]]) ∧
    ((startSol 10 defaultParams tightDemand Solution.zero
        ⟨88675123, 123456789, 362436069, 521288629⟩).bind fun r =>
      (localSearchIter 10 defaultParams tightDemand r.2.1 (fun _ _ c cur => decide (c ≤ cur))
        (fun _ _ => false) ⟨r.1, Solution.zero, Solution.zero, r.2.2⟩ 3).map fun st =>
        (tourRows st.currentSol, tourRows st.bestSol))
      = some ([[5, 4], [2], [3]], [[5, 4], [3], [2]]) := by
  decide

theorem FeasibleSolution.count {I : Instance} {s : Solution} (h : FeasibleSolution I s)
    (c : Int) (h0 : 2 ≤ c) (h1 : c ≤ I.numberNodes) : (tourNodes s).count c = 1 :=
  count_of_perm_customers h.perm c h0 h1

set_option maxRecDepth 100000 in

/-- C1 (counterexample): on the instance `negativeDemand` (four customers, every demand at most
`vehicleCap = 10`, one of them negative, neighbour lists as `readInput` builds them), with the
default parameters and the generator state `negativeDemandState` on entry to `startSol`:
`startSol` gives the tours `[2], [3], [4], [5]` of length `30`; the first iteration gives the
candidate `[3, 4, 5], [2]` of length `26`, the second one the candidate `[3, 4], [5, 2]` of
length `24`.  Both candidates are shorter than the current solution, so both iterations accept
them and copy them to `bestSol`.  After the second iteration the tour `[3, 4]` of `currentSol`
and of `bestSol` has demand `8 + 4 = 12`, more than `vehicleCap`. -/
theorem negative_demand_breaks_feasibility :
    2 ≤ negativeDemand.numberNodes ∧
    (∀ i ∈ forRange 1 negativeDemand.numberNodes,
      negativeDemand.nodeDemand i ≤ negativeDemand.vehicleCap) ∧
    (readInputNeighbours 10 negativeDemand.numberNodes negativeDemand.distance).map
        (fun t => (forRange 1 5).map fun i => (forRange 0 3).map (t i))
      = some ((forRange 1 5).map fun i => (forRange 0 3).map (negativeDemand.nodeDistList i)) ∧
    (startSol 10 defaultParams negativeDemand Solution.zero negativeDemandState).map
        (fun r => (tourRows r.1, r.1.totalDist))
      = some ([[2], [3], [4], [5]], 30) ∧
    ((startSol 10 defaultParams negativeDemand Solution.zero negativeDemandState).bind fun r =>
      (localSearchIter 10 defaultParams negativeDemand r.2.1 (fun _ _ c cur => decide (c < cur))
        (fun _ _ => false) ⟨r.1, Solution.zero, Solution.zero, r.2.2⟩ 1).map fun st =>
        (tourRows st.SISRsSol, st.SISRsSol.totalDist, tourRows st.currentSol))
      = some ([[3, 4, 5], [2]], 26, [[3, 4, 5], [2]]) ∧
    ((startSol 10 defaultParams negativeDemand Solution.zero negativeDemandState).bind fun r =>
      (localSearchIter 10 defaultParams negativeDemand r.2.1 (fun _ _ c cur => decide (c < cur))
        (fun _ _ => false) ⟨r.1, Solution.zero, Solution.zero, r.2.2⟩ 2).map fun st =>
        (tourRows st.SISRsSol, st.SISRsSol.totalDist, tourRows st.currentSol,
          tourRows st.bestSol))
      = some ([[3, 4], [5, 2]], 24, [[3, 4], [5, 2]], [[3, 4], [5, 2]]) ∧
    demandOf negativeDemand [3, 4] = 12 ∧ negativeDemand.vehicleCap = 10 := by
  decide

/-- C1 (amended): let the instance be valid (at least one customer, every customer demand
between `0` and `vehicleCap`, neighbour lists holding customer ids as `readInput` builds them)
and `lengthRemovedStrings` be non-negative.  Whatever the generator state `g` (the random
draws), the acceptance decisions and the stack contents: `startSol` returns, and its
`currentSol` contains every customer in exactly one tour, has no absent node, and the demands
of the members of each of its tours sum to at most `vehicleCap`; and for every `k`, the first
`k` iterations of `localSearchMH` (which starts by copying `currentSol` to `bestSol`) return,
and after them both `currentSol` and `bestSol` have these three properties. -/
theorem search_keeps_feasible (P : Params) (I : Instance)
    (accept : Int → Nat → Int → Int → Bool) (stack : Int → Int → Bool) (g : Rng)
    (hP : 0 ≤ P.lengthRemovedStrings) (hI : ValidInstance I) :
    ∃ cur O g1,
      (∀ fuel, 2 * I.numberNodes.toNat ≤ fuel →
        startSol fuel P I Solution.zero g = some (cur, O, g1)) ∧
      FeasibleSolution I cur ∧
      (∀ c, 2 ≤ c → c ≤ I.numberNodes → (tourNodes cur).count c = 1) ∧
      ∀ k : Nat, ∃ st,
        (∀ fuel, 2 * I.numberNodes.toNat ≤ fuel →
          localSearchIter fuel P I O accept stack ⟨cur, Solution.zero, Solution.zero, g1⟩
            (k : Int) = some st) ∧
        FeasibleSolution I st.currentSol ∧ FeasibleSolution I st.bestSol ∧
        ∀ c, 2 ≤ c → c ≤ I.numberNodes →
          (tourNodes st.currentSol).count c = 1 ∧ (tourNodes st.bestSol).count c = 1 := by
  obtain ⟨cur, O, g1, h1, h2, h3, h4, h5⟩ := startSol_spec P I Solution.zero g
    (by have := hI.customers; omega) (fun i h0 h1 => (hI.demand i h0 h1).2)
  have hcur : FeasibleSolution I cur := ⟨h2.nt, h2.perm, h4, h3⟩
  refine ⟨cur, O, g1, h1, hcur, hcur.count, ?_⟩
  intro k
  obtain ⟨st, a1, a2⟩ := localSearchIter_inv P I O accept stack
    ⟨cur, Solution.zero, Solution.zero, g1⟩ hP hI h5 h2 h3 h4 rfl k
  have hc : FeasibleSolution I st.currentSol :=
    ⟨a2.current.nt, a2.current.perm, a2.currentAbsent, a2.currentFeasible⟩
  exact ⟨st, a1, hc, a2.best, fun c h0 h1 => ⟨hc.count c h0 h1, a2.best.count c h0 h1⟩⟩

/-- Witness for `search_keeps_feasible` on the instance `tightDemand`, where the capacity `10`
lets only two pairs of customers share a tour: from the generator state
`(x, y, z, w) = (123456789, 362436069, 521288629, 88675123)`, `startSol` gives the tours `[2]`,
`[3]`, `[4]`, `[5]`; the first iteration removes customers and puts them back as `[5, 4]`,
`[3]`, `[2]`; after three iterations `currentSol` has the tours `[5, 4]`, `[2]`, `[3]`, and
`currentSol` and `bestSol` are feasible. -/
theorem search_keeps_feasible_witness :
    (0 ≤ defaultParams.lengthRemovedStrings ∧ ValidInstance tightDemand) ∧
    ∃ cur O g1,
      startSol 10 defaultParams tightDemand Solution.zero
        ⟨88675123, 123456789, 362436069, 521288629⟩ = some (cur, O, g1) ∧
      tourRows cur = [[2], [3], [4], [5]] ∧
      FeasibleSolution tightDemand cur ∧
      ∃ st1 st3,
        localSearchIter 10 defaultParams tightDemand O (fun _ _ c cur => decide (c ≤ cur))
          (fun _ _ => false) ⟨cur, Solution.zero, Solution.zero, g1⟩ 1 = some st1 ∧
        tourRows st1.currentSol = [[5, 4], [3], [2]] ∧
        FeasibleSolution tightDemand st1.currentSol ∧ FeasibleSolution tightDemand st1.bestSol ∧
        localSearchIter 10 defaultParams tightDemand O (fun _ _ c cur => decide (c ≤ cur))
          (fun _ _ => false) ⟨cur, Solution.zero, Solution.zero, g1⟩ 3 = some st3 ∧
        tourRows st3.currentSol = [[5, 4], [2], [3]] ∧
        tourRows st3.bestSol = [[5, 4], [3], [2]] ∧
        FeasibleSolution tightDemand st3.currentSol ∧
        FeasibleSolution tightDemand st3.bestSol := by
  obtain ⟨cur, O, g1, h1, h2, _, h4⟩ := search_keeps_feasible defaultParams tightDemand
    (fun _ _ c cur => decide (c ≤ cur)) (fun _ _ => false)
    ⟨88675123, 123456789, 362436069, 521288629⟩ (by decide) validInstance_tightDemand
  obtain ⟨st1, a1, a2, a3, _⟩ := h4 1
  obtain ⟨st3, b1, b2, b3, _⟩ := h4 3
  obtain ⟨d0, d1, d3⟩ := tightDemand_run
  have e0 := h1 10 (by decide)
  have e1 := a1 10 (by decide)
  have e3 := b1 10 (by decide)
  rw [e0] at d0 d1 d3
  simp only [Option.map_some', Option.some_bind, Option.some.injEq] at d0 d1 d3
  have e1' : localSearchIter 10 defaultParams tightDemand O (fun _ _ c cur => decide (c ≤ cur))
      (fun _ _ => false) ⟨cur, Solution.zero, Solution.zero, g1⟩ 1 = some st1 := e1
  have e3' : localSearchIter 10 defaultParams tightDemand O (fun _ _ c cur => decide (c ≤ cur))
      (fun _ _ => false) ⟨cur, Solution.zero, Solution.zero, g1⟩ 3 = some st3 := e3
  rw [e1'] at d1
  rw [e3'] at d3
  simp only [Option.map_some', Option.some.injEq, Prod.mk.injEq] at d1 d3
  exact ⟨⟨by decide, validInstance_tightDemand⟩, cur, O, g1, e0, d0, h2, st1, st3, e1', d1.1,
    a2, a3, e3', d3.1, d3.2, b2, b3⟩

/-! ### Negative string lengths (C2) -/

set_option maxRecDepth 100000 in

/-- C2 (counterexample): with `lengthRemovedStrings = -3`, on the solution `staleTour` (each of
the two customers alone in a tour, `tourPerNode` right) and the generator state
`(0, 0, 0, 140000000)`, whose first two draws are `0`: `ruin` removes one string of length `-1`
from tour `1`, that is, it removes nothing and makes the tour one entry longer.  Afterwards the
tours are `[2]` and `[3, 2]` and no node is absent: customer `2` is in two tours. -/
theorem negative_length_duplicates_customer :
    tourRows staleTour = [[2], [3]] ∧
    staleTour.tourPerNode (2 - 1) = 1 ∧ staleTour.tourPerNode (3 - 1) = 2 ∧
    (readInputNeighbours 6 twoCustomers.numberNodes twoCustomers.distance).map
        (fun t => [t 1 0, t 2 0])
      = some [twoCustomers.nodeDistList 1 0, twoCustomers.nodeDistList 2 0] ∧
    nthDraw ⟨0, 0, 0, 140000000⟩ 0 = 0 ∧ nthDraw ⟨0, 0, 0, 140000000⟩ 1 = 0 ∧
    tourRows (ruin negativeLength twoCustomers (fun _ => false) staleTour
      ⟨0, 0, 0, 140000000⟩).1 = [[2], [3, 2]] ∧
    absentList (ruin negativeLength twoCustomers (fun _ => false) staleTour
      ⟨0, 0, 0, 140000000⟩).1 = [] ∧
    (tourNodes (ruin negativeLength twoCustomers (fun _ => false) staleTour
      ⟨0, 0, 0, 140000000⟩).1).count 2 = 2 := by
  decide

/-! ### The whole program -/

/-- The whole program on a valid instance: `main` returns, and the solutions it ends with are
feasible. -/
theorem main_returns_feasible (P : Params) (I : Instance)
    (accept : Int → Nat → Int → Int → Bool) (stack : Int → Int → Bool) (seed : Nat)
    (e : Entropy) (hP : 0 ≤ P.lengthRemovedStrings) (hI : ValidInstance I) :
    ∃ st, (∀ fuel, 2 * I.numberNodes.toNat ≤ fuel →
        main fuel P I accept stack seed e = some st) ∧
      FeasibleSolution I st.currentSol ∧ FeasibleSolution I st.bestSol := by
  obtain ⟨cur, O, g1, h1, h2, h3, h4, h5⟩ := startSol_spec P I Solution.zero
    (seedGenerator seed e) (by have := hI.customers; omega)
    (fun i h0 h1 => (hI.demand i h0 h1).2)
  obtain ⟨st, a1, a2⟩ := localSearchIter_inv P I O accept stack
    ⟨cur, Solution.zero, Solution.zero, g1⟩ hP hI h5 h2 h3 h4 rfl
    (P.numberItLSConstant * (I.numberNodes - 1)).toNat
  refine ⟨st, ?_, ⟨a2.current.nt, a2.current.perm, a2.currentAbsent, a2.currentFeasible⟩,
    a2.best⟩
  intro fuel hf
  have e1 : forRange 0 (((P.numberItLSConstant * (I.numberNodes - 1)).toNat : Nat) : Int)
      = forRange 0 (P.numberItLSConstant * (I.numberNodes - 1)) := by
    by_cases hk : 0 ≤ P.numberItLSConstant * (I.numberNodes - 1)
    · rw [Int.toNat_of_nonneg hk]
    · rw [forRange_eq_nil (by omega), forRange_eq_nil (by omega)]
  have a1' := a1 fuel hf
  unfold localSearchIter at a1'
  rw [e1] at a1'
  unfold main localSearchMH localSearchIter
  simp only [h1 fuel hf, Option.bind_eq_bind, Option.some_bind]
  exact a1'

/-! ### The stack contents read by `ruin` -/

/-- The loop of `ruin` reads `ruinedTour` outside the tours only for nodes that are already
removed, where the value read does not matter: two states that differ only in `ruinedTour`, and
there only outside the tour indices, make the same step. -/
theorem ruinStep_stack (P : Params) (I : Instance) (msc : Dbl) (nst seed NT : Int)
    (st : RuinLoop) (k : Int) (rt' : Int → Bool)
    (hnb : 2 ≤ I.nodeDistList seed k ∧ I.nodeDistList seed k ≤ I.numberNodes)
    (h : RuinInv I NT st) (hag : ∀ t, 0 ≤ t → t < NT → rt' t = st.ruinedTour t) :
    ∃ R, ruinStep P I msc nst seed { st with ruinedTour := rt' } k
        = { ruinStep P I msc nst seed st k with ruinedTour := R } ∧
      ∀ t, 0 ≤ t → t < NT → R t = (ruinStep P I msc nst seed st k).ruinedTour t := by
  unfold ruinStep
  dsimp only
  by_cases hc : st.countRuinedTours < nst
  swap
  · rw [if_neg hc, if_neg hc]
    exact ⟨rt', rfl, hag⟩
  rw [if_pos hc, if_pos hc]
  have hx : I.nodeDistList seed k ∈ tourNodes st.sol ++ absentList st.sol :=
    h.perm.symm.subset (mem_customers.2 hnb)
  rcases List.mem_append.1 hx with h' | h'
  · obtain ⟨t, ht0, ht1, hxt⟩ := mem_tourNodes.1 h'
    rw [h.nt] at ht1
    have htpn := (h.inTour t ht0 ht1 _ hxt).1
    have hti : st.sol.tourPerNode (I.nodeDistList seed k - 1) - 1 = t := by omega
    rw [hti, hag t ht0 ht1]
    by_cases hcond : (!st.ruinedTour t && !st.nodeRemoved (I.nodeDistList seed k - 1)) = true
    · rw [if_pos hcond, if_pos hcond]
      refine ⟨upd rt' t true, rfl, ?_⟩
      intro u hu0 hu1
      dsimp only [upd]
      split_ifs
      · rfl
      · exact hag u hu0 hu1
    · rw [if_neg hcond, if_neg hcond]
      exact ⟨rt', rfl, hag⟩
  · have hrem := (h.inAbsent _ h').2
    have e1 : (!st.ruinedTour (st.sol.tourPerNode (I.nodeDistList seed k - 1) - 1)
        && !st.nodeRemoved (I.nodeDistList seed k - 1)) = false := by
      rw [hrem]
      simp
    have e2 : (!rt' (st.sol.tourPerNode (I.nodeDistList seed k - 1) - 1)
        && !st.nodeRemoved (I.nodeDistList seed k - 1)) = false := by
      rw [hrem]
      simp
    rw [e1, e2]
    exact ⟨rt', rfl, hag⟩

theorem ruinLoop_stack (P : Params) (I : Instance) (msc : Dbl) (nst seed NT : Int)
    (hmsc : 0 ≤ msc.num ∧ 0 < msc.den) :
    ∀ (l : List Int) (st : RuinLoop) (rt' : Int → Bool),
      (∀ k ∈ l, 2 ≤ I.nodeDistList seed k ∧ I.nodeDistList seed k ≤ I.numberNodes) →
      RuinInv I NT st → (∀ t, 0 ≤ t → t < NT → rt' t = st.ruinedTour t) →
      (l.foldl (ruinStep P I msc nst seed) { st with ruinedTour := rt' }).sol
          = (l.foldl (ruinStep P I msc nst seed) st).sol ∧
        (l.foldl (ruinStep P I msc nst seed) { st with ruinedTour := rt' }).g
          = (l.foldl (ruinStep P I msc nst seed) st).g
  | [], _, _, _, _, _ => ⟨rfl, rfl⟩
  | k :: l, st, rt', hnb, h, hag => by
    rw [List.foldl_cons, List.foldl_cons]
    have hk := hnb k (List.mem_cons_self _ _)
    obtain ⟨R, e, hR⟩ := ruinStep_stack P I msc nst seed NT st k rt' hk h hag
    rw [e]
    exact ruinLoop_stack P I msc nst seed NT hmsc l (ruinStep P I msc nst seed st k) R
      (fun k' hk' => hnb k' (List.mem_cons_of_mem _ hk'))
      (ruinStep_inv P I msc nst seed NT st k hmsc hk h) hR

/-- On a complete solution, what `ruin` returns does not depend on the stack contents that it
reads below `ruinedTour`. -/
theorem ruin_stack (P : Params) (I : Instance) (stack stack' : Int → Bool) (s : Solution)
    (g : Rng) (hP : 0 ≤ P.lengthRemovedStrings) (hnb : NeighboursOK I) (hs : Tidy I s) :
    ruin P I stack' s g = ruin P I stack s g := by
  unfold ruin
  dsimp only
  generalize hmsc : Dbl.min (Dbl.ofInt P.lengthRemovedStrings)
    (Dbl.round53 (Dbl.div (Dbl.ofInt ((forRange 0 s.numberTours).map s.numberNodesInTour).sum)
      (Dbl.ofInt s.numberTours))) = msc
  generalize hnst : (drawCount g (Dbl.round53 (Dbl.sub (Dbl.round53 (Dbl.div (Dbl.round53 (Dbl.mul
    (Dbl.ofInt P.numberOfStringsConstant) (Dbl.ofInt P.avRemovedCust)))
    (Dbl.round53 (Dbl.add (Dbl.ofInt 1) msc)))) (Dbl.ofInt 1)))) = dn
  have hseed := drawCount_range dn.2 (Dbl.ofInt (I.numberNodes - 1)) (I.numberNodes - 1)
  generalize hds : drawCount dn.2 (Dbl.ofInt (I.numberNodes - 1)) = ds at hseed
  by_cases hn3 : 3 ≤ I.numberNodes
  swap
  · rw [forRange_eq_nil (by omega : I.numberNodes - 2 ≤ 0)]
    rfl
  have hinit : RuinInv I s.numberTours
      ⟨{ s with numberAbsentNodes := 0 }, ds.2,
        fun index1 => if 0 ≤ index1 ∧ index1 < s.numberTours then false else stack index1,
        fun _ => false, 0⟩ := by
    refine ⟨rfl, le_refl _, ?_, ?_, ?_, ?_⟩
    · have : absentList { s with numberAbsentNodes := 0 } = [] := absentList_zero _ rfl
      rw [this, List.append_nil]
      exact hs.perm
    · intro t h0 h1 x hx
      exact ⟨hs.tourPerNode t h0 h1 x hx, rfl⟩
    · intro x hx
      have : absentList { s with numberAbsentNodes := 0 } = [] := absentList_zero _ rfl
      rw [this] at hx
      exact absurd hx (List.not_mem_nil _)
    · intro t h0 h1
      exact le_of_lt (hs.nonempty t h0 h1)
  have hcust : (2 : Int) ∈ customers I := mem_customers.2 ⟨le_refl _, by omega⟩
  obtain ⟨t, ht0, ht1, _⟩ := mem_tourNodes.1 (hs.perm.symm.subset hcust)
  have htot : 0 ≤ ((forRange 0 s.numberTours).map s.numberNodesInTour).sum := by
    apply sum_nonneg_of_forall
    intro x hx
    obtain ⟨u, hu, rfl⟩ := List.mem_map.1 hx
    rw [mem_forRange] at hu
    exact le_of_lt (hs.nonempty u hu.1 hu.2)
  have hm := maxStringCardinality_ok P.lengthRemovedStrings _ s.numberTours hP htot (by omega)
  rw [hmsc] at hm
  have hsd := hseed (by simp [Dbl.ofInt]; omega) (by simp [Dbl.ofInt]) (by simp [Dbl.ofInt])
  rw [max_eq_left (by omega)] at hsd
  have key := ruinLoop_stack P I msc dn.1 ds.1 s.numberTours hm (forRange 0 (I.numberNodes - 2))
    ⟨{ s with numberAbsentNodes := 0 }, ds.2,
      fun index1 => if 0 ≤ index1 ∧ index1 < s.numberTours then false else stack index1,
      fun _ => false, 0⟩
    (fun index1 => if 0 ≤ index1 ∧ index1 < s.numberTours then false else stack' index1)
    (fun k hk => hnb ds.1 k hsd.1 (by omega) (mem_forRange.1 hk).1 (mem_forRange.1 hk).2)
    hinit
    (fun u hu0 hu1 => by
      dsimp only
      rw [if_pos ⟨hu0, hu1⟩, if_pos ⟨hu0, hu1⟩])
  dsimp only at key
  rw [key.1, key.2]

/-! ### The stack contents and the whole run -/

theorem lsStep_stack (fuel : Nat) (P : Params) (I : Instance) (O : Orders)
    (accept : Int → Nat → Int → Int → Bool) (stack stack' : Int → Int → Bool) (st : Search3)
    (index1 : Int) (hP : 0 ≤ P.lengthRemovedStrings) (hI : ValidInstance I)
    (h : SearchInv I st) :
    lsStep fuel P I O accept stack' st index1 = lsStep fuel P I O accept stack st index1 := by
  obtain ⟨a1, a2, a3, _, _⟩ := copySISRsToCurrent_spec I st.currentSol st.SISRsSol
  have hsame : SameTours st.currentSol (copyCurrentToSISRs I st.currentSol st.SISRsSol) :=
    ⟨a1, a2⟩
  have ht := hsame.tidy h.current a3
  have e := ruin_stack P I (stack index1) (stack' index1) _ st.g hP hI.neighbours ht
  unfold lsStep SISRs
  dsimp only
  rw [e]

/-- The first `k` iterations of `localSearchMH` on a valid instance, with two contents of the
stack: the same state results. -/
theorem localSearchIter_stack (P : Params) (I : Instance) (O : Orders)
    (accept : Int → Nat → Int → Int → Bool) (stack stack' : Int → Int → Bool) (st : Search3)
    (hP : 0 ≤ P.lengthRemovedStrings) (hI : ValidInstance I) (hO : OrdersOK I O)
    (hc : Tidy I st.currentSol) (hf : Feasible I st.currentSol)
    (ha : st.currentSol.numberAbsentNodes = 0) (hb : st.bestSol.numberAbsentNodes = 0) :
    ∀ (k : Nat), ∃ a, (∀ fuel, 2 * I.numberNodes.toNat ≤ fuel →
        localSearchIter fuel P I O accept stack st (k : Int) = some a ∧
        localSearchIter fuel P I O accept stack' st (k : Int) = some a) ∧ SearchInv I a
  | 0 => by
    obtain ⟨a, h1, h2⟩ := localSearchIter_inv P I O accept stack st hP hI hO hc hf ha hb 0
    have hX : ∀ (stk : Int → Int → Bool) (fuel : Nat),
        localSearchIter fuel P I O accept stk st ((0 : Nat) : Int)
          = some { st with bestSol := copyCurrentToBest st.currentSol st.bestSol } := by
      intro stk fuel
      unfold localSearchIter
      rw [Nat.cast_zero, forRange_eq_nil (le_refl _)]
      rfl
    have ea : a = { st with bestSol := copyCurrentToBest st.currentSol st.bestSol } := by
      have := h1 _ (le_refl _)
      rw [hX] at this
      exact (Option.some.inj this).symm
    refine ⟨a, fun fuel _ => ?_, h2⟩
    rw [ea]
    exact ⟨hX stack fuel, hX stack' fuel⟩
  | k + 1 => by
    obtain ⟨a, h1, h2⟩ := localSearchIter_stack P I O accept stack stack' st hP hI hO hc hf ha hb k
    obtain ⟨b, h3, h4⟩ := lsStep_inv P I O accept stack a (k : Int) hP hI hO h2
    refine ⟨b, ?_, h4⟩
    intro fuel hfuel
    have e : ((k + 1 : Nat) : Int) = (k : Int) + 1 := by push_cast; ring
    rw [e, localSearchIter_succ _ _ _ _ _ _ _ _ (by omega),
      localSearchIter_succ _ _ _ _ _ _ _ _ (by omega), (h1 fuel hfuel).1, (h1 fuel hfuel).2,
      Option.some_bind, Option.some_bind, lsStep_stack fuel P I O accept stack stack' a _ hP hI h2]
    exact ⟨h3 fuel hfuel, h3 fuel hfuel⟩

/-- The whole program on a valid instance, with two contents of the stack: the same final
state. -/
theorem main_stack (P : Params) (I : Instance) (accept : Int → Nat → Int → Int → Bool)
    (stack stack' : Int → Int → Bool) (seed : Nat) (e : Entropy)
    (hP : 0 ≤ P.lengthRemovedStrings) (hI : ValidInstance I) :
    ∃ st, ∀ fuel, 2 * I.numberNodes.toNat ≤ fuel →
      main fuel P I accept stack seed e = some st ∧
      main fuel P I accept stack' seed e = some st := by
  obtain ⟨cur, O, g1, h1, h2, h3, h4, h5⟩ := startSol_spec P I Solution.zero
    (seedGenerator seed e) (by have := hI.customers; omega)
    (fun i h0 h1 => (hI.demand i h0 h1).2)
  obtain ⟨st, a1, _⟩ := localSearchIter_stack P I O accept stack stack'
    ⟨cur, Solution.zero, Solution.zero, g1⟩ hP hI h5 h2 h3 h4 rfl
    (P.numberItLSConstant * (I.numberNodes - 1)).toNat
  refine ⟨st, ?_⟩
  intro fuel hf
  have e1 : forRange 0 (((P.numberItLSConstant * (I.numberNodes - 1)).toNat : Nat) : Int)
      = forRange 0 (P.numberItLSConstant * (I.numberNodes - 1)) := by
    by_cases hk : 0 ≤ P.numberItLSConstant * (I.numberNodes - 1)
    · rw [Int.toNat_of_nonneg hk]
    · rw [forRange_eq_nil (by omega), forRange_eq_nil (by omega)]
  have a1' := a1 fuel hf
  unfold localSearchIter at a1'
  rw [e1] at a1'
  unfold main localSearchMH localSearchIter
  simp only [h1 fuel hf, Option.bind_eq_bind, Option.some_bind]
  exact a1'

/-! ### The xorshift128 transform and the unit draw (C14, C15) -/

theorem shiftRight_lt {a k : Nat} (h : a < 2 ^ 32) : a >>> k < 2 ^ 32 := by
  rw [Nat.shiftRight_eq_div_pow]
  exact lt_of_le_of_lt (Nat.div_le_self _ _) h

theorem xor_shiftLeft_mod {x : Nat} (h : x < 2 ^ 32) :
    (x ^^^ (x <<< 11)) % 2 ^ 32 = x ^^^ ((x <<< 11) % 2 ^ 32) := by
  apply Nat.eq_of_testBit_eq
  intro i
  simp only [Nat.testBit_mod_two_pow, Nat.testBit_xor]
  by_cases hi : i < 32
  · simp [hi]
  · have hx : x.testBit i = false := by
      apply Nat.testBit_lt_two_pow
      exact lt_of_lt_of_le h (Nat.pow_le_pow_right (by norm_num) (by omega))
    simp [hi, hx]

/-- C14: for every state `(x, y, z, w)` of four 32-bit words, `xorshift128()` returns the word
`w' = w xor (w >> 19) xor t xor (t >> 8)` with `t = x xor ((x << 11) mod 2^32)` and leaves the
state `(y, z, w, w')`. -/
theorem xorshift128_transform (x y z w : Nat) (hx : x < 2 ^ 32) (hw : w < 2 ^ 32) :
    xorshift128 { w := w, x := x, y := y, z := z } =
      (xorshiftWord x w, { x := y, y := z, z := w, w := xorshiftWord x w }) := by
  have ht1 : (x ^^^ (x <<< 11)) % 2 ^ 32 = x ^^^ ((x <<< 11) % 2 ^ 32) := xor_shiftLeft_mod hx
  have ht1lt : x ^^^ ((x <<< 11) % 2 ^ 32) < 2 ^ 32 :=
    Nat.xor_lt_two_pow hx (Nat.mod_lt _ (by norm_num))
  have ht2lt : (x ^^^ ((x <<< 11) % 2 ^ 32)) ^^^ ((x ^^^ ((x <<< 11) % 2 ^ 32)) >>> 8) < 2 ^ 32 :=
    Nat.xor_lt_two_pow ht1lt (shiftRight_lt ht1lt)
  have hw1lt : w ^^^ (w >>> 19) < 2 ^ 32 := Nat.xor_lt_two_pow hw (shiftRight_lt hw)
  have hw2lt : (w ^^^ (w >>> 19)) ^^^
      ((x ^^^ ((x <<< 11) % 2 ^ 32)) ^^^ ((x ^^^ ((x <<< 11) % 2 ^ 32)) >>> 8)) < 2 ^ 32 :=
    Nat.xor_lt_two_pow hw1lt ht2lt
  have e : ((w ^^^ (w >>> 19)) % 2 ^ 32 ^^^
      (((x ^^^ (x <<< 11)) % 2 ^ 32) ^^^ (((x ^^^ (x <<< 11)) % 2 ^ 32) >>> 8)) % 2 ^ 32) % 2 ^ 32
      = xorshiftWord x w := by
    rw [ht1, Nat.mod_eq_of_lt ht2lt, Nat.mod_eq_of_lt hw1lt, Nat.mod_eq_of_lt hw2lt]
    unfold xorshiftWord
    dsimp only
    rw [Nat.xor_assoc (w ^^^ (w >>> 19))]
  unfold xorshift128
  dsimp only
  rw [e]

theorem xorshift128_transform_witness :
    (123456789 : Nat) < 2 ^ 32 ∧ (88675123 : Nat) < 2 ^ 32 ∧
    xorshift128 { w := 88675123, x := 123456789, y := 362436069, z := 521288629 } =
      (3701687786, { x := 362436069, y := 521288629, z := 88675123, w := 3701687786 }) :=
  ⟨by decide, by decide,
    xorshift128_transform 123456789 362436069 521288629 88675123 (by decide) (by decide)⟩

theorem startSolTwoPow32_eq : startSolTwoPow32 = twoPow32 := by decide

/-- C15: for every generator state the unit draw `xorshift128() / twoPow32`, with `twoPow32`
the value `2 ^ 32` that the loop of `startSol` computes, is a value `u` with `0 ≤ u < 1`: a
fraction with denominator `2 ^ 32` and a numerator in `0 .. 2 ^ 32 - 1`, which compares below
`1` and not below `0`. -/
theorem unitDraw_in_unit_interval (g : Rng) :
    startSolTwoPow32 = 2 ^ 32 ∧
    (unitDraw g).1.den = startSolTwoPow32 ∧
    0 ≤ (unitDraw g).1.num ∧ (unitDraw g).1.num < (unitDraw g).1.den ∧
    Dbl.lt (unitDraw g).1 (Dbl.ofInt 0) = false ∧
    Dbl.lt (unitDraw g).1 (Dbl.ofInt 1) = true := by
  have hu : ((xorshift128 g).1 : Int) < 2 ^ 32 := by exact_mod_cast xorshift128_lt g
  have hu0 : (0 : Int) ≤ ((xorshift128 g).1 : Int) := Int.natCast_nonneg _
  have e1 : (unitDraw g).1.num = ((xorshift128 g).1 : Int) := rfl
  have e2 : (unitDraw g).1.den = 2 ^ 32 := rfl
  refine ⟨by rw [startSolTwoPow32_eq]; rfl, by rw [startSolTwoPow32_eq]; rfl, ?_, ?_, ?_, ?_⟩
  · rw [e1]; exact hu0
  · rw [e1, e2]; exact hu
  · unfold Dbl.lt Dbl.ofInt
    rw [e1, e2]
    simp only [decide_eq_false_iff_not, not_lt]
    omega
  · unfold Dbl.lt Dbl.ofInt
    rw [e1, e2]
    simp only [decide_eq_true_eq]
    omega

theorem unitDraw_in_unit_interval_witness :
    (unitDraw ⟨88675123, 123456789, 362436069, 521288629⟩).1.num = 3701687786 ∧
    (unitDraw ⟨88675123, 123456789, 362436069, 521288629⟩).1.num <
      (unitDraw ⟨88675123, 123456789, 362436069, 521288629⟩).1.den :=
  ⟨by decide, (unitDraw_in_unit_interval ⟨88675123, 123456789, 362436069, 521288629⟩).2.2.2.1⟩

/-! ### The number of strings to remove (C16) -/

/-- The function `ruin` in terms of its parts. -/
theorem ruin_eq (P : Params) (I : Instance) (stack : Int → Bool) (s : Solution) (g : Rng) :
    ruin P I stack s g =
      (resetTourPerNode (recomputeCapacity I (compactTours (ruinLoop P I stack s g).sol)),
        (ruinLoop P I stack s g).g) := rfl

theorem tdiv_le_of_le_mul {a b k : Int} (hb : 0 < b) (hk : a ≤ k * b) (h0 : 0 ≤ k) :
    Int.tdiv a b ≤ k := by
  by_cases ha : 0 ≤ a
  · rw [Int.tdiv_eq_ediv ha (le_of_lt hb)]
    exact Int.ediv_le_of_le_mul hb hk
  · have e : a = -(-a) := by omega
    rw [e, Int.neg_tdiv]
    have := Int.tdiv_nonneg (by omega : 0 ≤ -a) (le_of_lt hb)
    omega

theorem tdiv_lt_of_lt_mul {a b k : Int} (hb : 0 < b) (hk : a < k * b) (h0 : 0 < k) :
    Int.tdiv a b < k := by
  by_cases ha : 0 ≤ a
  · rw [Int.tdiv_eq_ediv ha (le_of_lt hb)]
    exact Int.ediv_lt_of_lt_mul hb hk
  · have e : a = -(-a) := by omega
    rw [e, Int.neg_tdiv]
    have := Int.tdiv_nonneg (by omega : 0 ≤ -a) (le_of_lt hb)
    omega

theorem Dbl.toRat_le_iff (a : Dbl) (k : Int) (hd : 0 < a.den) :
    a.toRat ≤ (k : ℚ) ↔ a.num ≤ k * a.den := by
  unfold Dbl.toRat
  have : (0 : ℚ) < (a.den : ℚ) := by exact_mod_cast hd
  rw [div_le_iff₀ this]
  exact_mod_cast Iff.rfl

theorem Dbl.le_toRat_iff (a : Dbl) (k : Int) (hd : 0 < a.den) :
    (k : ℚ) ≤ a.toRat ↔ k * a.den ≤ a.num := by
  unfold Dbl.toRat
  have : (0 : ℚ) < (a.den : ℚ) := by exact_mod_cast hd
  rw [le_div_iff₀ this]
  exact_mod_cast Iff.rfl

/-- The value `(int)(c * u + 1.0)` for a negative `c` is at most `1`. -/
theorem drawCount_le_one (g : Rng) (c : Dbl) (h0 : c.num ≤ 0) (h1 : 0 < c.den) :
    (drawCount g c).1 ≤ 1 := by
  obtain ⟨u0, u1, u2, u3⟩ := Dbl.unitDraw_le g
  have xd : 0 < (Dbl.mul c (unitDraw g).1).den := by
    show 0 < c.den * (unitDraw g).1.den
    positivity
  have xn : (Dbl.mul c (unitDraw g).1).num ≤ 0 := by
    show c.num * (unitDraw g).1.num ≤ 0
    exact mul_nonpos_of_nonpos_of_nonneg h0 u3
  have yd := Dbl.round_den_pos 64 _ (by norm_num) xd
  have yn := (Dbl.round_num_sign 64 _ (by norm_num) xd).2.2.2.2 xn
  have zd : 0 < (Dbl.add (Dbl.round 64 (Dbl.mul c (unitDraw g).1)) (Dbl.ofInt 1)).den := by
    show 0 < (Dbl.round 64 (Dbl.mul c (unitDraw g).1)).den * 1
    omega
  have zle : (Dbl.add (Dbl.round 64 (Dbl.mul c (unitDraw g).1)) (Dbl.ofInt 1)).toRat
      ≤ ((1 : Int) : ℚ) := by
    rw [Dbl.toRat_le_iff _ _ zd]
    show (Dbl.round 64 (Dbl.mul c (unitDraw g).1)).num * 1
      + 1 * (Dbl.round 64 (Dbl.mul c (unitDraw g).1)).den
      ≤ 1 * ((Dbl.round 64 (Dbl.mul c (unitDraw g).1)).den * 1)
    omega
  have rd := Dbl.round_den_pos 64 _ (by norm_num) zd
  have r1 := Dbl.round_le 64 _ _ (by norm_num) zd (representable_int 64 1 (by norm_num)) zle
  rw [Dbl.toRat_le_iff _ _ rd] at r1
  exact tdiv_le_of_le_mul rd r1 (by norm_num)

set_option maxRecDepth 100000 in
/-- Counterexample for C16: with `avRemovedCust = 1` and `numberOfStringsConstant = 1` on two
tours of one customer each, `maxStrings` is `1 / (1 + 1) - 1 = -1/2` and the source takes
`int(maxStrings * r + 1.0)` without a clamp: with the draw `r = 3701687786 / 2^32` the number of
strings is `0`.  And with `avRemovedCust = 100000` and `numberOfStringsConstant = 100000` on the
same solution `maxStrings` is `4999999999`, and with the same draw the value that the source
converts to `int` has the whole part `4309331749`, which is above `2^31 - 1`, the largest
`int`. -/
theorem no_clamp_on_string_count :
    (ruinMaxStrings fewStrings twoTours).num * 2 = -(ruinMaxStrings fewStrings twoTours).den ∧
    0 < (ruinMaxStrings fewStrings twoTours).den ∧
    (xorshift128 ⟨88675123, 123456789, 362436069, 521288629⟩).1 = 3701687786 ∧
    numberStringsToRemove fewStrings twoTours ⟨88675123, 123456789, 362436069, 521288629⟩ = 0 ∧
    (ruinMaxStrings manyStrings twoTours).num
      = 4999999999 * (ruinMaxStrings manyStrings twoTours).den ∧
    0 < (ruinMaxStrings manyStrings twoTours).den ∧
    numberStringsToRemove manyStrings twoTours ⟨88675123, 123456789, 362436069, 521288629⟩
      = 4309331749 ∧
    (2 : Int) ^ 31 - 1 < 4309331749 := by
  decide

/-- C16, amended: whenever the computed `maxStrings` is a finite value that is not negative and
at most `2^31 - 2`, the number of strings sampled by `ruin` is at least `1`, for every solution
and every draw; it is then at most `maxStrings + 1` and lies in the range of `int`, so that the
conversion of the source is defined.  When `maxStrings` is negative the count is at most `1`:
nothing raises it to `1`. -/
theorem numberStringsToRemove_ge_one (P : Params) (s : Solution) (g : Rng)
    (hden : 0 < (ruinMaxStrings P s).den) :
    (0 ≤ (ruinMaxStrings P s).num →
      (ruinMaxStrings P s).num ≤ (2 ^ 31 - 2) * (ruinMaxStrings P s).den →
      1 ≤ numberStringsToRemove P s g ∧ numberStringsToRemove P s g ≤ 2 ^ 31 - 1 ∧
      (numberStringsToRemove P s g - 1) * (ruinMaxStrings P s).den ≤ (ruinMaxStrings P s).num) ∧
    ((ruinMaxStrings P s).num < 0 → numberStringsToRemove P s g ≤ 1) := by
  unfold numberStringsToRemove
  generalize ruinMaxStrings P s = c at hden ⊢
  refine ⟨fun h0 hmax => ?_, fun h0 => drawCount_le_one g c (le_of_lt h0) hden⟩
  obtain ⟨b1, b2⟩ := drawCount_bound g c h0 hden
  have hc0 := Dbl.toRat_nonneg c h0 hden
  have hcm : c.toRat ≤ (((2 ^ 31 - 2 : Int)) : ℚ) := (Dbl.toRat_le_iff c _ hden).2 hmax
  refine ⟨b1, ?_, ?_⟩
  · have := b2 (((2 ^ 31 - 2 : Int)) : ℚ) (by norm_num) hcm
    have : (drawCount g c).1 < (2 ^ 31 - 2 : Int) + 1 := by exact_mod_cast this
    omega
  · by_cases h1 : 1 ≤ c.toRat
    · have := b2 c.toRat h1 (le_refl _)
      have h2 : (((drawCount g c).1 - 1 : Int) : ℚ) ≤ c.toRat := by
        push_cast
        linarith
      exact (Dbl.le_toRat_iff c _ hden).1 h2
    · have := b2 1 (le_refl _) (by linarith)
      have h2 : (drawCount g c).1 < 2 := by exact_mod_cast this
      have h3 : (drawCount g c).1 = 1 := by omega
      rw [h3]
      simpa using h0

set_option maxRecDepth 100000 in
/-- Witness for `numberStringsToRemove_ge_one`: the default parameters on two tours of one
customer each, where `maxStrings` is `4 * 10 / (1 + 1) - 1 = 19`. -/
theorem numberStringsToRemove_ge_one_witness :
    0 < (ruinMaxStrings defaultParams twoTours).den ∧
    (ruinMaxStrings defaultParams twoTours).num
      = 19 * (ruinMaxStrings defaultParams twoTours).den ∧
    1 ≤ numberStringsToRemove defaultParams twoTours ⟨88675123, 123456789, 362436069, 521288629⟩ ∧
    numberStringsToRemove defaultParams twoTours ⟨88675123, 123456789, 362436069, 521288629⟩
      ≤ 2 ^ 31 - 1 :=
  ⟨by decide, by decide,
    ((numberStringsToRemove_ge_one defaultParams twoTours
      ⟨88675123, 123456789, 362436069, 521288629⟩ (by decide)).1 (by decide) (by decide)).1,
    ((numberStringsToRemove_ge_one defaultParams twoTours
      ⟨88675123, 123456789, 362436069, 521288629⟩ (by decide)).1 (by decide) (by decide)).2.1⟩

/-! ### The solution built by `startSol` (C11) -/

theorem foldl_add_sum {α : Type} (h : α → Int) :
    ∀ (l : List α) (acc : Int), l.foldl (fun a k => a + h k) acc = acc + (l.map h).sum
  | [], acc => by simp
  | k :: l, acc => by
    rw [List.foldl_cons, foldl_add_sum h l, List.map_cons, List.sum_cons]
    omega

theorem map_forRange_shift_int (f : Int → Int) (i n : Int) :
    (forRange i (n - 1)).map (fun t => f (t + 1)) = (forRange (i + 1) n).map f := by
  unfold forRange
  have e : (n - 1 - i).toNat = (n - (i + 1)).toNat := by omega
  rw [e, List.map_map, List.map_map]
  apply List.map_congr_left
  intro k _
  simp only [Function.comp]
  congr 1
  omega

theorem map_forRange_customers (f : Int → Int) (n : Int) :
    (forRange 0 (n - 1)).map (fun t => f (t + 1)) = (forRange 1 n).map f :=
  map_forRange_shift_int f 0 n

/-- The counters and the cached distance that the first part of `startSol` leaves, for any
number of nodes. -/
theorem startSolTours_totals (I : Instance) (currentSol : Solution) :
    (startSolTours I currentSol).numberTours = I.numberNodes - 1 ∧
    (startSolTours I currentSol).numberAbsentNodes = 0 ∧
    (startSolTours I currentSol).totalDist =
      ((forRange 1 I.numberNodes).map (fun c => 2 * I.distance 0 c)).sum := by
  unfold startSolTours
  dsimp only
  have k1 : ∀ (l : List Int) (s : Solution),
      (l.foldl (fun (s : Solution) index1 =>
        { s with tourPerNode := upd s.tourPerNode index1 index1 }) s).numberTours = s.numberTours ∧
      (l.foldl (fun (s : Solution) index1 =>
        { s with tourPerNode := upd s.tourPerNode index1 index1 }) s).numberAbsentNodes
          = s.numberAbsentNodes ∧
      (l.foldl (fun (s : Solution) index1 =>
        { s with tourPerNode := upd s.tourPerNode index1 index1 }) s).totalDist = s.totalDist := by
    intro l s
    have h := foldl_keeps (fun s : Solution => (s.numberTours, s.numberAbsentNodes, s.totalDist))
      (fun (s : Solution) index1 => { s with tourPerNode := upd s.tourPerNode index1 index1 })
      (fun _ _ => rfl) l s
    simp only [Prod.mk.injEq] at h
    exact h
  have k2 : ∀ (l : List Int) (s : Solution),
      (l.foldl (fun (s : Solution) index1 =>
        { s with
          numberNodesInTour := upd s.numberNodesInTour index1 1,
          tours := upd2 s.tours index1 0 (index1 + 2),
          capacityUsageTour := upd s.capacityUsageTour index1 (I.nodeDemand (index1 + 1)),
          totalDist := s.totalDist + I.distance 0 (index1 + 1) * 2 }) s).numberTours
        = s.numberTours ∧
      (l.foldl (fun (s : Solution) index1 =>
        { s with
          numberNodesInTour := upd s.numberNodesInTour index1 1,
          tours := upd2 s.tours index1 0 (index1 + 2),
          capacityUsageTour := upd s.capacityUsageTour index1 (I.nodeDemand (index1 + 1)),
          totalDist := s.totalDist + I.distance 0 (index1 + 1) * 2 }) s).totalDist
        = s.totalDist + (l.map (fun index1 => I.distance 0 (index1 + 1) * 2)).sum := by
    intro l
    induction l with
    | nil => intro s; simp
    | cons a l ih =>
      intro s
      rw [List.foldl_cons]
      obtain ⟨i1, i2⟩ := ih { s with
          numberNodesInTour := upd s.numberNodesInTour a 1,
          tours := upd2 s.tours a 0 (a + 2),
          capacityUsageTour := upd s.capacityUsageTour a (I.nodeDemand (a + 1)),
          totalDist := s.totalDist + I.distance 0 (a + 1) * 2 }
      refine ⟨i1, ?_⟩
      rw [i2, List.map_cons, List.sum_cons]
      dsimp only
      omega
  obtain ⟨a1, a2, a3⟩ := k1 (forRange 1 I.numberNodes)
    { (forRange 0 (I.numberNodes - 1)).foldl (fun (s : Solution) index1 =>
        { s with
          numberNodesInTour := upd s.numberNodesInTour index1 1,
          tours := upd2 s.tours index1 0 (index1 + 2),
          capacityUsageTour := upd s.capacityUsageTour index1 (I.nodeDemand (index1 + 1)),
          totalDist := s.totalDist + I.distance 0 (index1 + 1) * 2 })
        { currentSol with numberTours := I.numberNodes - 1, totalDist := 0 } with
      numberAbsentNodes := 0
      tourPerNode := upd ((forRange 0 (I.numberNodes - 1)).foldl (fun (s : Solution) index1 =>
        { s with
          numberNodesInTour := upd s.numberNodesInTour index1 1,
          tours := upd2 s.tours index1 0 (index1 + 2),
          capacityUsageTour := upd s.capacityUsageTour index1 (I.nodeDemand (index1 + 1)),
          totalDist := s.totalDist + I.distance 0 (index1 + 1) * 2 })
        { currentSol with numberTours := I.numberNodes - 1, totalDist := 0 }).tourPerNode 0 (-1) }
  obtain ⟨b1, b2⟩ := k2 (forRange 0 (I.numberNodes - 1))
    { currentSol with numberTours := I.numberNodes - 1, totalDist := 0 }
  refine ⟨a1.trans b1, a2, ?_⟩
  rw [a3]
  dsimp only
  rw [b2]
  dsimp only
  rw [zero_add, ← map_forRange_customers (fun c => 2 * I.distance 0 c) I.numberNodes]
  congr 1
  apply List.map_congr_left
  intro k _
  ring

/-- The function `startSol` returns, with fuel `2 * numberNodes + 2` for its sorts, and the
solution it returns is the one built by its first part. -/
theorem startSol_returns (P : Params) (I : Instance) (currentSol : Solution) (g : Rng) :
    ∃ O g1, ∀ fuel, 2 * I.numberNodes.toNat + 2 ≤ fuel →
      startSol fuel P I currentSol g = some (startSolTours I currentSol, O, g1) := by
  have hlc := length_customers I
  have hlr : (forRange 1 I.numberNodes).length = (I.numberNodes - 1).toNat := length_forRange _ _
  have hlw := length_drawWeights (forRange 1 I.numberNodes) g
  rw [hlr] at hlw
  have hids : (0 :: customers I).length = (I.numberNodes - 1).toNat + 1 := by
    rw [List.length_cons, hlc]
  have sort : ∀ (key : Int → Int) (lt : Int → Int → Bool), Dir key lt → ∀ (w : List Int),
      w.length = (I.numberNodes - 1).toNat →
      ∃ v' c', ∀ fuel, 2 * I.numberNodes.toNat + 2 ≤ fuel →
          quicksortInt lt fuel 1 (I.numberNodes - 1) (0 :: w) (0 :: customers I)
            = some (v', c') := by
    intro key lt hdir w hw
    obtain ⟨v', c', r1, _, _⟩ := quicksortInt_spec hdir (I.numberNodes - 1).toNat 1
      (I.numberNodes - 1) (0 :: w) (0 :: customers I) (by norm_num)
      (by rw [List.length_cons, hw]; omega) (by rw [hids]; omega) (by omega)
    exact ⟨v', c', fun fuel hf => r1 fuel (by omega)⟩
  obtain ⟨v1, c1, s1⟩ := sort _ _ dir_incr (drawWeights (forRange 1 I.numberNodes) g).1 hlw
  obtain ⟨v2, c2, s2⟩ := sort _ _ dir_decr ((forRange 1 I.numberNodes).map I.nodeDemand)
    (by rw [List.length_map, hlr])
  obtain ⟨v3, c3, s3⟩ := sort _ _ dir_decr
    ((forRange 1 I.numberNodes).map (fun index1 => I.distance index1 0))
    (by rw [List.length_map, hlr])
  obtain ⟨v4, c4, s4⟩ := sort _ _ dir_incr
    ((forRange 1 I.numberNodes).map (fun index1 => I.distance index1 0))
    (by rw [List.length_map, hlr])
  refine ⟨⟨c1, c2, c3, c4,
      startSolProbRandom P, startSolProbDemandLarge P, startSolProbDistLarge P⟩,
    (drawWeights (forRange 1 I.numberNodes) g).2, ?_⟩
  intro fuel hf
  have e1 := s1 fuel hf
  have e2 := s2 fuel hf
  have e3 := s3 fuel hf
  have e4 := s4 fuel hf
  unfold customers at e1 e2 e3 e4
  unfold startSol quicksortIncrDouble quicksortDecrInt quicksortIncrInt
  simp only [e1, e2, e3, e4, Option.bind_eq_bind, Option.some_bind, Option.pure_def]
  rfl

/-- C11: `startSol()` returns, and after it `currentSol` has `numberNodes - 1` tours; tour `k`
(0-based) holds exactly the customer with index `k + 1` (the node id `k + 2`), its
`capacityUsageTour` is that customer's demand, `tourPerNode` of that customer is `k + 1`,
`numberAbsentNodes` is `0`, and `totalDist` is the sum over all customers of
`2 * distance[0][customer]`. -/
theorem startSol_one_tour_per_customer (P : Params) (I : Instance) (currentSol : Solution)
    (g : Rng) :
    ∃ s O g1, (∀ fuel, 2 * I.numberNodes.toNat + 2 ≤ fuel →
        startSol fuel P I currentSol g = some (s, O, g1)) ∧
      s.numberTours = I.numberNodes - 1 ∧
      (∀ k, 0 ≤ k → k < I.numberNodes - 1 →
        tourList s k = [k + 2] ∧
        s.capacityUsageTour k = I.nodeDemand (k + 1) ∧
        s.tourPerNode (k + 1) = k + 1) ∧
      s.numberAbsentNodes = 0 ∧
      s.totalDist = ((forRange 1 I.numberNodes).map (fun c => 2 * I.distance 0 c)).sum := by
  obtain ⟨O, g1, hret⟩ := startSol_returns P I currentSol g
  obtain ⟨t1, t2, t3⟩ := startSolTours_totals I currentSol
  refine ⟨startSolTours I currentSol, O, g1, hret, t1, ?_, t2, t3⟩
  intro k h0 h1
  obtain ⟨_, q, _, r⟩ := startSolTours_spec I currentSol (by omega)
  obtain ⟨q1, q2, q3⟩ := q k h0 h1
  refine ⟨?_, q3, r (k + 1) (by omega) (by omega)⟩
  unfold tourList
  rw [q1, show forRange 0 1 = [0] from forRange_one 0, List.map_cons, List.map_nil, q2]

theorem startSol_one_tour_per_customer_witness :
    ∃ s O g1, (∀ fuel, 2 * twoCustomers.numberNodes.toNat + 2 ≤ fuel →
        startSol fuel defaultParams twoCustomers twoTours ⟨88675123, 123456789, 362436069, 521288629⟩
          = some (s, O, g1)) ∧
      s.numberTours = 2 ∧
      (∀ k, 0 ≤ k → k < twoCustomers.numberNodes - 1 →
        tourList s k = [k + 2] ∧
        s.capacityUsageTour k = twoCustomers.nodeDemand (k + 1) ∧
        s.tourPerNode (k + 1) = k + 1) ∧
      s.numberAbsentNodes = 0 ∧
      s.totalDist = 4 :=
  startSol_one_tour_per_customer defaultParams twoCustomers twoTours
    ⟨88675123, 123456789, 362436069, 521288629⟩

/-! ### The cached distance (C12) -/

theorem legsToDepot_map (I : Instance) (f : Int → Int) :
    ∀ (m : Nat) (lo : Int),
      legsToDepot I ((forRange lo (lo + (m : Int) + 1)).map f) =
        ((forRange lo (lo + (m : Int))).map
          (fun k => I.distance (f k - 1) (f (k + 1) - 1))).sum
        + I.distance (f (lo + (m : Int)) - 1) 0
  | 0, lo => by
    rw [Nat.cast_zero, add_zero, forRange_one, forRange_eq_nil (le_refl _)]
    simp [legsToDepot]
  | m + 1, lo => by
    have ih := legsToDepot_map I f m (lo + 1)
    have e1 : lo + ((m + 1 : Nat) : Int) + 1 = lo + 1 + (m : Int) + 1 := by push_cast; ring
    have e2 : lo + ((m + 1 : Nat) : Int) = lo + 1 + (m : Int) := by push_cast; ring
    rw [e1, e2, forRange_cons (by omega : lo < lo + 1 + (m : Int) + 1),
      forRange_cons (by omega : lo < lo + 1 + (m : Int))]
    rw [forRange_cons (by omega : lo + 1 < lo + 1 + (m : Int) + 1)] at ih ⊢
    simp only [List.map_cons, List.sum_cons, legsToDepot] at ih ⊢
    rw [ih]
    ring

theorem tourLength_tourList (I : Instance) (s : Solution) (t : Int) :
    tourLength I (tourList s t) =
      if s.numberNodesInTour t > 0 then
        (forRange 0 (s.numberNodesInTour t - 1)).foldl
          (fun (totalDist : Int) index2 =>
            totalDist + I.distance (s.tours t index2 - 1) (s.tours t (index2 + 1) - 1)) 0
        + (I.distance 0 (s.tours t 0 - 1)
          + I.distance (s.tours t (s.numberNodesInTour t - 1) - 1) 0)
      else 0 := by
  by_cases h : s.numberNodesInTour t > 0
  · rw [if_pos h, foldl_add_sum, zero_add]
    have e : s.numberNodesInTour t = 0 + ((s.numberNodesInTour t - 1).toNat : Int) + 1 := by omega
    have hl := legsToDepot_map I (s.tours t) (s.numberNodesInTour t - 1).toNat 0
    rw [← e] at hl
    have e2 : 0 + ((s.numberNodesInTour t - 1).toNat : Int) = s.numberNodesInTour t - 1 := by omega
    rw [e2] at hl
    unfold tourList
    have hc : forRange 0 (s.numberNodesInTour t) = 0 :: forRange (0 + 1) (s.numberNodesInTour t) :=
      forRange_cons h
    have : tourLength I ((forRange 0 (s.numberNodesInTour t)).map (s.tours t)) =
        I.distance 0 (s.tours t 0 - 1)
          + legsToDepot I ((forRange 0 (s.numberNodesInTour t)).map (s.tours t)) := by
      rw [hc, List.map_cons]
      rfl
    rw [this, hl]
    ring
  · rw [if_neg h, (tourList_eq_nil_iff s t).2 (by omega)]
    rfl

/-- The loop "calculate totalDist" of `SISRs` computes the distance of the tour contents. -/
theorem computeTotalDist_eq (I : Instance) (s : Solution) :
    computeTotalDist I s = routeLength I s := by
  unfold computeTotalDist routeLength tourRows
  rw [List.map_map]
  have e : (fun (totalDist : Int) index1 =>
      if s.numberNodesInTour index1 > 0 then
        let totalDist := (forRange 0 (s.numberNodesInTour index1 - 1)).foldl
          (fun (totalDist : Int) index2 =>
            totalDist + I.distance (s.tours index1 index2 - 1) (s.tours index1 (index2 + 1) - 1))
          totalDist
        totalDist + (I.distance 0 (s.tours index1 0 - 1)
          + I.distance (s.tours index1 (s.numberNodesInTour index1 - 1) - 1) 0)
      else totalDist)
      = fun (a : Int) k => a + (tourLength I ∘ tourList s) k := by
    funext a k
    simp only [Function.comp]
    rw [tourLength_tourList]
    by_cases h : s.numberNodesInTour k > 0
    · simp only [if_pos h]
      rw [foldl_add_sum, foldl_add_sum]
      ring
    · simp only [if_neg h]
      ring
  rw [e, foldl_add_sum, zero_add]

theorem routeLength_congr (I : Instance) {a r : Solution} (h : SameTours a r) :
    routeLength I r = routeLength I a := by
  unfold routeLength tourRows
  rw [h.1]
  congr 1
  rw [List.map_map, List.map_map]
  apply List.map_congr_left
  intro t ht
  rw [mem_forRange] at ht
  simp only [Function.comp]
  rw [h.2 t ht.1 ht.2]

/-- With a symmetric distance matrix, the `totalDist` that `startSol` accumulates is the
distance of its tours. -/
theorem startSolTours_routeLength (I : Instance) (currentSol : Solution)
    (hsym : ∀ i j, I.distance i j = I.distance j i) :
    (startSolTours I currentSol).totalDist = routeLength I (startSolTours I currentSol) := by
  obtain ⟨t1, _, t3⟩ := startSolTours_totals I currentSol
  rw [t3]
  unfold routeLength tourRows
  rw [t1, List.map_map, ← map_forRange_customers (fun c => 2 * I.distance 0 c) I.numberNodes]
  congr 1
  apply List.map_congr_left
  intro k hk
  rw [mem_forRange] at hk
  obtain ⟨_, q, _, _⟩ := startSolTours_spec I currentSol (by omega)
  obtain ⟨q1, q2, _⟩ := q k hk.1 hk.2
  have hrow : tourList (startSolTours I currentSol) k = [k + 2] := by
    unfold tourList
    rw [q1, show forRange 0 1 = [0] from forRange_one 0, List.map_cons, List.map_nil, q2]
  simp only [Function.comp]
  rw [hrow]
  simp only [tourLength, legsToDepot]
  rw [hsym (k + 2 - 1) 0, show k + 2 - 1 = k + 1 by ring]
  ring

theorem lsStep_cached {fuel : Nat} {P : Params} {I : Instance} {O : Orders}
    {accept : Int → Nat → Int → Int → Bool} {stack : Int → Int → Bool} {st st' : Search3}
    {index1 : Int} (h : lsStep fuel P I O accept stack st index1 = some st')
    (hc : DistancesCached I st) : DistancesCached I st' := by
  unfold lsStep at h
  cases hS : SISRs fuel P I O (stack index1) st.currentSol st.SISRsSol st.g with
  | none => simp [hS] at h
  | some r =>
    obtain ⟨cand, g1⟩ := r
    simp only [hS, Option.bind_eq_bind, Option.some_bind, Option.pure_def, Option.some.injEq] at h
    subst h
    -- the candidate carries the distance of its tours
    have hcand : cand.totalDist = routeLength I cand := by
      unfold SISRs at hS
      cases hR : recreate fuel P I O
          (ruin P I (stack index1) (copyCurrentToSISRs I st.currentSol st.SISRsSol) st.g).1
          (ruin P I (stack index1) (copyCurrentToSISRs I st.currentSol st.SISRsSol) st.g).2 with
      | none => simp [hR] at hS
      | some r2 =>
        simp only [hR, Option.bind_eq_bind, Option.some_bind, Option.pure_def,
          Option.some.injEq, Prod.mk.injEq] at hS
        rw [← hS.1]
        show computeTotalDist I r2.1 = routeLength I { r2.1 with totalDist := computeTotalDist I r2.1 }
        rw [computeTotalDist_eq]
        rfl
    obtain ⟨c1, c2, _, _, c5⟩ := copySISRsToCurrent_spec I cand st.currentSol
    obtain ⟨d1, d2, _, _, d5⟩ := copySISRsToBest_spec cand st.bestSol
    constructor
    · dsimp only
      split_ifs
      · rw [c5, routeLength_congr I ⟨c1, c2⟩]
        exact hcand
      · exact hc.1
    · dsimp only
      split_ifs
      · rw [d5, routeLength_congr I ⟨d1, d2⟩]
        exact hcand
      · exact hc.2

theorem localSearchIter_cached (fuel : Nat) (P : Params) (I : Instance) (O : Orders)
    (accept : Int → Nat → Int → Int → Bool) (stack : Int → Int → Bool) (st : Search3)
    (hc : st.currentSol.totalDist = routeLength I st.currentSol) :
    ∀ (k : Nat) (a : Search3),
      localSearchIter fuel P I O accept stack st (k : Int) = some a → DistancesCached I a
  | 0, a, ha => by
    unfold localSearchIter at ha
    rw [Nat.cast_zero, forRange_eq_nil (le_refl _)] at ha
    simp only [List.foldlM_nil, Option.pure_def, Option.some.injEq] at ha
    subst ha
    obtain ⟨d1, d2, _, _, d5⟩ := copySISRsToBest_spec st.currentSol st.bestSol
    refine ⟨hc, ?_⟩
    show (copyCurrentToBest st.currentSol st.bestSol).totalDist =
      routeLength I (copyCurrentToBest st.currentSol st.bestSol)
    rw [copyCurrentToBest_eq, d5, routeLength_congr I ⟨d1, d2⟩]
    exact hc
  | k + 1, a, ha => by
    have e : ((k + 1 : Nat) : Int) = (k : Int) + 1 := by push_cast; ring
    rw [e, localSearchIter_succ _ _ _ _ _ _ _ _ (by omega)] at ha
    cases hb : localSearchIter fuel P I O accept stack st (k : Int) with
    | none => simp [hb] at ha
    | some b =>
      rw [hb, Option.some_bind] at ha
      exact lsStep_cached ha (localSearchIter_cached fuel P I O accept stack st hc k b hb)

/-- C12: for a symmetric distance matrix, `startSol` returns a `currentSol` whose cached
`totalDist` equals the distance recomputed from its tour contents (the sum over tours of the
depot-to-first, consecutive-member and last-to-depot distances), as does the zero-initialised
`bestSol`; and after every number `k` of iterations of `localSearchMH` (which return, given
enough fuel) the cached `totalDist` of `currentSol` and of `bestSol` equal the distances
recomputed from their tour contents. -/
theorem cached_distance_is_recomputed (P : Params) (I : Instance)
    (accept : Int → Nat → Int → Int → Bool) (stack : Int → Int → Bool)
    (currentSol SISRsSol : Solution) (g : Rng)
    (hsym : ∀ i j, I.distance i j = I.distance j i) :
    ∃ s O g1, (∀ fuel, 2 * I.numberNodes.toNat + 2 ≤ fuel →
        startSol fuel P I currentSol g = some (s, O, g1)) ∧
      s.totalDist = routeLength I s ∧
      Solution.zero.totalDist = routeLength I Solution.zero ∧
      ∀ k : Nat, ∃ a N,
        (∀ fuel, N ≤ fuel → localSearchIter fuel P I O accept stack
          ⟨s, Solution.zero, SISRsSol, g1⟩ (k : Int) = some a) ∧
        a.currentSol.totalDist = routeLength I a.currentSol ∧
        a.bestSol.totalDist = routeLength I a.bestSol := by
  obtain ⟨O, g1, hret⟩ := startSol_returns P I currentSol g
  have hs := startSolTours_routeLength I currentSol hsym
  refine ⟨startSolTours I currentSol, O, g1, hret, hs, rfl, ?_⟩
  intro k
  obtain ⟨a, N, ha⟩ := localSearchIter_returns P I O accept stack
    ⟨startSolTours I currentSol, Solution.zero, SISRsSol, g1⟩ k
  obtain ⟨r1, r2⟩ := localSearchIter_cached N P I O accept stack
    ⟨startSolTours I currentSol, Solution.zero, SISRsSol, g1⟩ hs k a (ha N (le_refl _))
  exact ⟨a, N, ha, r1, r2⟩

theorem cached_distance_is_recomputed_witness :
    (∀ i j, twoCustomers.distance i j = twoCustomers.distance j i) ∧
    ∃ s O g1, (∀ fuel, 2 * twoCustomers.numberNodes.toNat + 2 ≤ fuel →
        startSol fuel defaultParams twoCustomers Solution.zero ⟨1, 2, 3, 4⟩ = some (s, O, g1)) ∧
      s.totalDist = routeLength twoCustomers s ∧
      Solution.zero.totalDist = routeLength twoCustomers Solution.zero ∧
      ∀ k : Nat, ∃ a N,
        (∀ fuel, N ≤ fuel → localSearchIter fuel defaultParams twoCustomers O
          (fun _ _ _ _ => true) (fun _ _ => false)
          ⟨s, Solution.zero, Solution.zero, g1⟩ (k : Int) = some a) ∧
        a.currentSol.totalDist = routeLength twoCustomers a.currentSol ∧
        a.bestSol.totalDist = routeLength twoCustomers a.bestSol :=
  ⟨fun i j => by
      unfold twoCustomers
      simp only [eq_comm],
    cached_distance_is_recomputed defaultParams twoCustomers (fun _ _ _ _ => true)
      (fun _ _ => false) Solution.zero Solution.zero ⟨1, 2, 3, 4⟩ (fun i j => by
        unfold twoCustomers
        simp only [eq_comm])⟩

/-! ### The cached usage of the current solution (C13) -/

set_option maxRecDepth 100000 in

/-- C13 (failing run): `copySISRsToCurrent` leaves `currentSol.capacityUsageTour` as it was,
for all solutions; and on the instance `twoCustomers` (two customers of demand `1`, default
parameters, generator state `(x, y, z, w) = (123456789, 362436069, 521288629, 88675123)` on
entry to `startSol`) the first iteration of `localSearchMH` builds the candidate `[2, 3]` of
length `3` with cached usage `2`, accepts it (the current length is `4`) and copies it to
`bestSol` with the usage `2`, while tour `0` of `currentSol` holds `[2, 3]` with the cached
usage `1` that `startSol` wrote for the tour `[2]`: the sum of the demands is `2`. -/
theorem accepted_candidate_keeps_stale_capacity :
    (∀ (I : Instance) (a b : Solution),
      (copySISRsToCurrent I a b).capacityUsageTour = b.capacityUsageTour) ∧
    ((startSol 10 defaultParams twoCustomers Solution.zero
        ⟨88675123, 123456789, 362436069, 521288629⟩).bind fun r =>
      (localSearchIter 10 defaultParams twoCustomers r.2.1 (fun _ _ c cur => decide (c < cur))
        (fun _ _ => false) ⟨r.1, Solution.zero, Solution.zero, r.2.2⟩ 0).map fun st =>
        (tourRows st.currentSol, st.currentSol.totalDist,
          (forRange 0 2).map st.currentSol.capacityUsageTour))
      = some ([[2], [3]], 4, [1, 1]) ∧
    ((startSol 10 defaultParams twoCustomers Solution.zero
        ⟨88675123, 123456789, 362436069, 521288629⟩).bind fun r =>
      (localSearchIter 10 defaultParams twoCustomers r.2.1 (fun _ _ c cur => decide (c < cur))
        (fun _ _ => false) ⟨r.1, Solution.zero, Solution.zero, r.2.2⟩ 1).map fun st =>
        (tourRows st.SISRsSol, st.SISRsSol.totalDist, st.SISRsSol.capacityUsageTour 0))
      = some ([[2, 3]], 3, 2) ∧
    ((startSol 10 defaultParams twoCustomers Solution.zero
        ⟨88675123, 123456789, 362436069, 521288629⟩).bind fun r =>
      (localSearchIter 10 defaultParams twoCustomers r.2.1 (fun _ _ c cur => decide (c < cur))
        (fun _ _ => false) ⟨r.1, Solution.zero, Solution.zero, r.2.2⟩ 1).map fun st =>
        (tourRows st.currentSol, st.currentSol.totalDist, st.currentSol.capacityUsageTour 0))
      = some ([[2, 3]], 3, 1) ∧
    ((startSol 10 defaultParams twoCustomers Solution.zero
        ⟨88675123, 123456789, 362436069, 521288629⟩).bind fun r =>
      (localSearchIter 10 defaultParams twoCustomers r.2.1 (fun _ _ c cur => decide (c < cur))
        (fun _ _ => false) ⟨r.1, Solution.zero, Solution.zero, r.2.2⟩ 1).map fun st =>
        (tourRows st.bestSol, st.bestSol.totalDist, st.bestSol.capacityUsageTour 0))
      = some ([[2, 3]], 3, 2) ∧
    demandOf twoCustomers [2, 3] = 2 := by
  refine ⟨?_, by decide, by decide, by decide, by decide, by decide⟩
  intro I a b
  unfold copySISRsToCurrent
  dsimp only
  rw [foldl_keeps Solution.capacityUsageTour, foldl_keeps Solution.capacityUsageTour]
  · intro s index1
    rw [foldl_keeps Solution.capacityUsageTour]
    intro s index2
    rfl
  · intro s index1
    rfl

/-! ### The reads of `ruinedTour` (C17) -/

set_option maxRecDepth 100000 in

/-- C17 (failing run): on the instance `fourCustomers` (neighbour lists as `readInput` builds
them, every demand between `0` and `vehicleCap`) and its solution `threeAndOne` (tours
`[3, 4, 5]` and `[2]`, `tourPerNode` the 1-based tour of each customer), with the default
parameters and the generator state `(x, y, z, w) = (123456789, 362436069, 521288629,
88675123)`: `ruin` draws `numberStringsToRemove = 11` and the seed node index `1`, whose
neighbours are `5, 4, 3`.  The visit of node `5` removes the string `4, 5` from tour `0`; the
visit of node `4`, removed by then with `tourPerNode = -1`, reads `ruinedTour[-2]`, outside
the array `ruinedTour[0 .. numberTours - 1]`. -/
theorem ruin_reads_ruinedTour_out_of_range :
    (readInputNeighbours 10 fourCustomers.numberNodes fourCustomers.distance).map
        (fun t => (forRange 1 5).map fun i => (forRange 0 3).map (t i))
      = some ((forRange 1 5).map fun i => (forRange 0 3).map (fourCustomers.nodeDistList i)) ∧
    (∀ i ∈ forRange 1 fourCustomers.numberNodes,
      0 ≤ fourCustomers.nodeDemand i ∧ fourCustomers.nodeDemand i ≤ fourCustomers.vehicleCap) ∧
    tourRows threeAndOne = [[3, 4, 5], [2]] ∧
    (forRange 1 5).map threeAndOne.tourPerNode = [2, 1, 1, 1] ∧
    (forRange 0 2).map threeAndOne.capacityUsageTour
      = (tourRows threeAndOne).map (demandOf fourCustomers) ∧
    numberStringsToRemove defaultParams threeAndOne ⟨88675123, 123456789, 362436069, 521288629⟩
      = 11 ∧
    randomSeedNodeIndex fourCustomers ⟨88675123, 123456789, 362436069, 521288629⟩ = 1 ∧
    (forRange 0 3).map (fourCustomers.nodeDistList 1) = [5, 4, 3] ∧
    ruinedTourReads defaultParams fourCustomers (fun _ => false) threeAndOne
        ⟨88675123, 123456789, 362436069, 521288629⟩ = [0, -2, 0] ∧
    tourRows (ruin defaultParams fourCustomers (fun _ => false) threeAndOne
        ⟨88675123, 123456789, 362436069, 521288629⟩).1 = [[3], [2]] ∧
    absentList (ruin defaultParams fourCustomers (fun _ => false) threeAndOne
        ⟨88675123, 123456789, 362436069, 521288629⟩).1 = [4, 5] := by
  decide

/-- The loop of `ruin` starts in a state that satisfies its invariant. -/
theorem ruinLoopStart_inv (I : Instance) (stack : Int → Bool) (s : Solution) (g : Rng)
    (hs : Tidy I s) : RuinInv I s.numberTours (ruinLoopStart I stack s g) := by
  refine ⟨rfl, le_refl _, ?_, ?_, ?_, ?_⟩
  · have : absentList { s with numberAbsentNodes := 0 } = [] := absentList_zero _ rfl
    show (tourNodes { s with numberAbsentNodes := 0 }
      ++ absentList { s with numberAbsentNodes := 0 }).Perm (customers I)
    rw [this, List.append_nil]
    exact hs.perm
  · intro t h0 h1 x hx
    exact ⟨hs.tourPerNode t h0 h1 x hx, rfl⟩
  · intro x hx
    have : absentList { s with numberAbsentNodes := 0 } = [] := absentList_zero _ rfl
    have hx' : x ∈ absentList { s with numberAbsentNodes := 0 } := hx
    rw [this] at hx'
    exact absurd hx' (List.not_mem_nil _)
  · intro t h0 h1
    exact le_of_lt (hs.nonempty t h0 h1)

/-- For a complete solution and neighbour lists holding customer ids, every index at which the
loop of `ruin` reads `ruinedTour` is the index of a tour, or `-2` for a node removed earlier in
the same call; the seed node index is in `1 .. numberNodes - 1`. -/
theorem ruinedTourReads_range (P : Params) (I : Instance) (stack : Int → Bool) (s : Solution)
    (g : Rng) (hP : 0 ≤ P.lengthRemovedStrings) (hnb : NeighboursOK I) (hs : Tidy I s)
    (hn : 2 ≤ I.numberNodes) :
    (1 ≤ randomSeedNodeIndex I g ∧ randomSeedNodeIndex I g ≤ I.numberNodes - 1) ∧
    ∀ i ∈ ruinedTourReads P I stack s g, (0 ≤ i ∧ i < s.numberTours) ∨ i = -2 := by
  have hseed := drawCount_range (xorshift128 g).2 (Dbl.ofInt (I.numberNodes - 1))
    (I.numberNodes - 1) (by simp [Dbl.ofInt]; omega) (by simp [Dbl.ofInt])
    (by simp [Dbl.ofInt])
  rw [max_eq_left (by omega)] at hseed
  refine ⟨hseed, ?_⟩
  unfold ruinedTourReads
  have hinit := ruinLoopStart_inv I stack s g hs
  have key := foldl_mem_inv
    (fun (acc : RuinLoop × List Int) neighborIndex =>
      if acc.1.countRuinedTours < numberStringsToRemove P s g then
        let currentNodeIndex := I.nodeDistList (randomSeedNodeIndex I g) neighborIndex - 1
        (ruinStep P I (ruinMaxStringCardinality P s) (numberStringsToRemove P s g)
            (randomSeedNodeIndex I g) acc.1 neighborIndex,
          acc.2 ++ [acc.1.sol.tourPerNode currentNodeIndex - 1])
      else acc)
    (fun acc => RuinInv I s.numberTours acc.1 ∧
      ∀ i ∈ acc.2, (0 ≤ i ∧ i < s.numberTours) ∨ i = -2)
    (forRange 0 (I.numberNodes - 2)) (ruinLoopStart I stack s g, [])
    ⟨hinit, fun i hi => absurd hi (List.not_mem_nil _)⟩
    (by
      intro k hk acc ⟨ha, hr⟩
      rw [mem_forRange] at hk
      dsimp only
      split_ifs with hc
      swap
      · exact ⟨ha, hr⟩
      have htot : 0 ≤ ((forRange 0 s.numberTours).map s.numberNodesInTour).sum := by
        apply sum_nonneg_of_forall
        intro x hx
        obtain ⟨u, hu, rfl⟩ := List.mem_map.1 hx
        rw [mem_forRange] at hu
        exact le_of_lt (hs.nonempty u hu.1 hu.2)
      have hcust : (2 : Int) ∈ customers I := mem_customers.2 ⟨le_refl _, by omega⟩
      obtain ⟨t0, ht0, ht1, _⟩ := mem_tourNodes.1 (hs.perm.symm.subset hcust)
      have hm := maxStringCardinality_ok P.lengthRemovedStrings _ s.numberTours hP htot
        (by omega)
      have hnbk := hnb (randomSeedNodeIndex I g) k hseed.1 (by
        have := hseed.2
        unfold randomSeedNodeIndex
        omega) hk.1 hk.2
      refine ⟨ruinStep_inv P I _ _ _ s.numberTours acc.1 k hm hnbk ha, ?_⟩
      intro i hi
      rcases List.mem_append.1 hi with h | h
      · exact hr i h
      · rw [List.mem_singleton] at h
        subst h
        have hx : I.nodeDistList (randomSeedNodeIndex I g) k
            ∈ tourNodes acc.1.sol ++ absentList acc.1.sol :=
          ha.perm.symm.subset (mem_customers.2 hnbk)
        rcases List.mem_append.1 hx with h' | h'
        · obtain ⟨t, e0, e1, hxt⟩ := mem_tourNodes.1 h'
          rw [ha.nt] at e1
          have := (ha.inTour t e0 e1 _ hxt).1
          left
          omega
        · have := (ha.inAbsent _ h').1
          right
          omega)
  exact key.2

/-! ### The window of a string removal (C18, C19) -/

theorem map_forRange_segment (f : Int → Int) {a b n : Int} (h0 : 0 ≤ a) (h1 : a ≤ b)
    (h2 : b ≤ n) : (forRange a b).map f = segment ((forRange 0 n).map f) a b := by
  unfold segment
  rw [← forRange_append h0 (le_trans h1 h2), ← forRange_append h1 h2, List.map_append,
    List.map_append]
  have e1 : a.toNat = ((forRange 0 a).map f).length := by
    rw [List.length_map, length_forRange]; simp
  have e2 : (b - a).toNat = ((forRange a b).map f).length := by
    rw [List.length_map, length_forRange]
  rw [e1, List.drop_left, e2, List.take_left]

theorem length_segment (row : List Int) {a b : Int} (h0 : 0 ≤ a) (h1 : a ≤ b)
    (h2 : b ≤ row.length) : ((segment row a b).length : Int) = b - a := by
  unfold segment
  rw [List.length_take, List.length_drop]
  omega

theorem filter_forRange_all (p : Int → Bool) (lo hi : Int)
    (h : ∀ q, lo ≤ q → q < hi → p q = true) : (forRange lo hi).filter p = forRange lo hi := by
  rw [List.filter_eq_self]
  intro q hq
  rw [mem_forRange] at hq
  exact h q hq.1 hq.2

theorem filter_forRange_none (p : Int → Bool) (lo hi : Int)
    (h : ∀ q, lo ≤ q → q < hi → p q = false) : (forRange lo hi).filter p = [] := by
  rw [List.filter_eq_nil_iff]
  intro q hq
  rw [mem_forRange] at hq
  rw [h q hq.1 hq.2]
  simp

/-- The positions kept when the window `a .. a + l - 1` is removed. -/
theorem keptPositions_window {n a l : Int} (h0 : 0 ≤ a) (hl : 0 ≤ l) (h1 : a + l ≤ n) :
    keptPositions n (forRange a (a + l)) = forRange 0 a ++ forRange (a + l) n := by
  unfold keptPositions
  rw [← forRange_append (by omega : (0 : Int) ≤ a + l) h1,
    ← forRange_append h0 (by omega : a ≤ a + l), List.filter_append, List.filter_append,
    filter_forRange_all _ 0 a, filter_forRange_none _ a (a + l),
    filter_forRange_all _ (a + l) n, List.append_nil]
  · intro q h2 h3
    simp only [decide_eq_true_eq, mem_forRange]
    omega
  · intro q h2 h3
    simp only [decide_eq_false_iff_not, not_not, mem_forRange]
    omega
  · intro q h2 h3
    simp only [decide_eq_true_eq, mem_forRange]
    omega

/-- The positions kept when the window `a .. c - 1` is removed except for its block
`b .. b + m - 1`. -/
theorem keptPositions_split {n a b m c : Int} (h0 : 0 ≤ a) (h1 : a ≤ b) (hm : 0 ≤ m)
    (h2 : b + m ≤ c) (h3 : c ≤ n) :
    keptPositions n (forRange a b ++ forRange (b + m) c)
      = forRange 0 a ++ forRange b (b + m) ++ forRange c n := by
  unfold keptPositions
  have e : forRange 0 n = forRange 0 a ++ forRange a b ++ forRange b (b + m)
      ++ forRange (b + m) c ++ forRange c n := by
    rw [forRange_append h0 h1, forRange_append (by omega) (by omega),
      forRange_append (by omega) h2, forRange_append (by omega) h3]
  rw [e, List.filter_append, List.filter_append, List.filter_append, List.filter_append,
    filter_forRange_all _ 0 a, filter_forRange_none _ a b,
    filter_forRange_all _ b (b + m), filter_forRange_none _ (b + m) c,
    filter_forRange_all _ c n, List.append_nil, List.append_nil]
  · intro q h4 h5
    simp only [decide_eq_true_eq, List.mem_append, mem_forRange]
    omega
  · intro q h4 h5
    simp only [decide_eq_false_iff_not, not_not, List.mem_append, mem_forRange]
    omega
  · intro q h4 h5
    simp only [decide_eq_true_eq, List.mem_append, mem_forRange]
    omega
  · intro q h4 h5
    simp only [decide_eq_false_iff_not, not_not, List.mem_append, mem_forRange]
    omega
  · intro q h4 h5
    simp only [decide_eq_true_eq, List.mem_append, mem_forRange]
    omega

/-- The search for the start node finds a position that holds it, when the tour contains
it. -/
theorem findPosStartNode_spec (s : Solution) (t cur : Int) (hmem : cur + 1 ∈ tourList s t) :
    0 ≤ findPosStartNode s t cur ∧ findPosStartNode s t cur < s.numberNodesInTour t ∧
      s.tours t (findPosStartNode s t cur) = cur + 1 := by
  have hn := tourList_pos_of_mem hmem
  unfold tourList at hmem
  obtain ⟨j, hj, hje⟩ := List.mem_map.1 hmem
  rw [mem_forRange] at hj
  unfold findPosStartNode
  have key := foldl_forRange
    (fun (acc : Int × Bool) index10 =>
      if !acc.2 && s.tours t index10 == cur + 1 then (index10, true) else acc)
    (fun i acc => (acc.2 = true → 0 ≤ acc.1 ∧ acc.1 < i ∧ s.tours t acc.1 = cur + 1) ∧
      (acc.2 = false → ∀ q, 0 ≤ q → q < i → s.tours t q ≠ cur + 1))
    (by omega : (0 : Int) ≤ s.numberNodesInTour t) (0, false)
    ⟨fun h => by simp at h, fun _ q h1 h2 => by omega⟩
    (by
      intro i acc h0 h1 ⟨q1, q2⟩
      dsimp only
      by_cases hc : (!acc.2 && s.tours t i == cur + 1) = true
      · rw [if_pos hc]
        simp only [Bool.and_eq_true, Bool.not_eq_true', beq_iff_eq] at hc
        exact ⟨fun _ => ⟨h0, by omega, hc.2⟩, fun h => by simp at h⟩
      · rw [if_neg hc]
        simp only [Bool.and_eq_true, Bool.not_eq_true', beq_iff_eq, not_and] at hc
        refine ⟨fun h => ?_, fun h => ?_⟩
        · obtain ⟨a1, a2, a3⟩ := q1 h
          exact ⟨a1, by omega, a3⟩
        · intro q hq0 hq1
          by_cases hqi : q = i
          · rw [hqi]; exact hc h
          · exact q2 h q hq0 (by omega))
  generalize (forRange 0 (s.numberNodesInTour t)).foldl
    (fun (acc : Int × Bool) index10 =>
      if !acc.2 && s.tours t index10 == cur + 1 then (index10, true) else acc)
    (0, false) = r at key
  obtain ⟨k1, k2⟩ := key
  cases hb : r.2 with
  | true =>
    obtain ⟨a1, a2, a3⟩ := k1 hb
    exact ⟨a1, a2, a3⟩
  | false => exact absurd hje (k2 hb j hj.1 hj.2)

/-- Every window start offered by the first loop of a removal keeps the position of the start
node inside the window. -/
theorem windowOptions_contains (n len pos : Int) :
    ∀ (k : Nat) (index10 count : Int) (options : List Int),
      (∀ o ∈ options, o ≤ pos ∧ pos < o + len) → index10 = pos - count → 0 ≤ count →
      count + (k : Int) ≤ len →
      ∀ o ∈ windowOptions n len k index10 count options, o ≤ pos ∧ pos < o + len := by
  intro k
  induction k with
  | zero =>
    intro index10 count options hop _ _ _
    exact hop
  | succ k ih =>
    intro index10 count options hop hi hc hk
    simp only [windowOptions]
    have hop' : ∀ o ∈ options ++ [index10], o ≤ pos ∧ pos < o + len := by
      intro o ho
      rcases List.mem_append.1 ho with h | h
      · exact hop o h
      · simp only [List.mem_singleton] at h
        subst h
        push_cast at hk
        omega
    have hk' : count + 1 + (k : Int) ≤ len := by push_cast at hk; omega
    by_cases hq : index10 + len - 1 < n ∧ index10 ≥ 0
    · rw [if_pos hq]
      split_ifs
      · exact ih (index10 - 1) (count + 1) _ hop' (by omega) (by omega) hk'
      · exact hop'
    · rw [if_neg hq]
      split_ifs
      · exact ih (index10 - 1) (count + 1) _ hop (by omega) (by omega) hk'
      · exact hop

/-- The window that a removal chooses lies inside the tour and contains the position of the
start node. -/
theorem chooseStartRemoval_window (s : Solution) (g : Rng) (t len pos : Int)
    (hpos0 : 0 ≤ pos) (hpos1 : pos < s.numberNodesInTour t) (hl1 : 1 ≤ len)
    (hl2 : len ≤ s.numberNodesInTour t) :
    0 ≤ (chooseStartRemoval s g t len pos).1 ∧
      (chooseStartRemoval s g t len pos).1 + len ≤ s.numberNodesInTour t ∧
      (chooseStartRemoval s g t len pos).1 ≤ pos ∧
      pos < (chooseStartRemoval s g t len pos).1 + len := by
  obtain ⟨r1, r2⟩ := chooseStartRemoval_snd_range s g t len pos hpos0 hpos1 hl1 hl2
  refine ⟨r1, r2, ?_⟩
  unfold chooseStartRemoval
  by_cases h1 : len > 1
  · rw [if_pos h1]
    by_cases h2 : len < s.numberNodesInTour t
    · rw [if_pos h2]
      obtain ⟨_, _, w3⟩ := windowOptions_spec (s.numberNodesInTour t) len h2 len.toNat pos 0 []
        (by simp)
      have hne := w3 hpos0 (by omega) (by omega) (by omega)
      have hin := windowOptions_contains (s.numberNodesInTour t) len pos len.toNat pos 0 []
        (by simp) (by omega) (le_refl _) (by omega)
      generalize windowOptions (s.numberNodesInTour t) len len.toNat pos 0 [] = options
        at hin hne
      have hlenpos : 1 ≤ (options.length : Int) := by
        cases options with
        | nil => exact absurd rfl hne
        | cons a l => simp
      have hr := drawIndex_range g options.length hlenpos
      exact hin _ (readL_mem options _ hr.1 hr.2)
    · rw [if_neg h2]
      exact ⟨hpos0, by simp; omega⟩
  · rw [if_neg h1]
    exact ⟨le_refl _, by simp; omega⟩

theorem length_tourList (s : Solution) (t : Int) :
    (tourList s t).length = (s.numberNodesInTour t).toNat := by
  unfold tourList
  rw [List.length_map, length_forRange]
  simp

/-- The string removal `ruinString` in terms of its window: the positions `a .. a + l - 1`,
inside the tour and around the position found for the start node, are removed. -/
theorem ruinString_window (I : Instance) (s : Solution) (g : Rng) (nr : Int → Bool)
    (t l cur : Int) (hl1 : 1 ≤ l) (hl2 : l ≤ s.numberNodesInTour t)
    (hna : 0 ≤ s.numberAbsentNodes) (hne : ∀ x ∈ tourList s t, x ≠ -1) :
    ∃ a, 0 ≤ a ∧ a + l ≤ s.numberNodesInTour t ∧ a ≤ findPosStartNode s t cur ∧
      findPosStartNode s t cur < a + l ∧
      StringRemoved s (ruinString I s g nr t l cur).1 nr (ruinString I s g nr t l cur).2.2 t
        ((forRange 0 a ++ forRange (a + l) (s.numberNodesInTour t)).map (s.tours t))
        ((forRange a (a + l)).map (s.tours t)) := by
  have hpos := findPosStartNode_range s t cur
  rw [max_eq_left (by omega)] at hpos
  have hch := chooseStartRemoval_window s g t l _ hpos.1 hpos.2 hl1 hl2
  unfold ruinString
  dsimp only
  generalize chooseStartRemoval s g t l (findPosStartNode s t cur) = ch at hch ⊢
  obtain ⟨a, g1⟩ := ch
  simp only at hch ⊢
  have hnd : (forRange a (a + l)).Nodup := nodup_forRange _ _
  have hsub : ∀ p ∈ forRange a (a + l), 0 ≤ p ∧ p < s.numberNodesInTour t := by
    intro p hp
    rw [mem_forRange] at hp
    omega
  have hR := removeNode_fold I t (forRange a (a + l))
    { sol := s, g := g1, nodeRemoved := nr, copyNodes := copyTour s t } hnd hna
  generalize (forRange a (a + l)).foldl (removeNode I t)
    { sol := s, g := g1, nodeRemoved := nr, copyNodes := copyTour s t } = st at hR
  have hR' : Removed { sol := s, g := g1, nodeRemoved := nr, copyNodes := copyTour s t }
      { st with sol := { st.sol with totalDist := 0 } } (forRange a (a + l)) :=
    ⟨hR.copyNodes, hR.absent, hR.numAbsent, hR.tourPerNode, hR.nodeRemoved, hR.tours,
      hR.numberNodesInTour, hR.numberTours, hR.g⟩
  have hlen : l = ((forRange a (a + l)).length : Int) := by
    rw [length_forRange]; omega
  obtain ⟨k1, _⟩ := removal_spec s t l nr (forRange a (a + l)) _ _ rfl rfl rfl hR' hnd hsub
    hlen (by omega) hne
  rw [keptPositions_window hch.1 (by omega) hch.2.1] at k1
  exact ⟨a, hch.1, hch.2.1, hch.2.2.1, hch.2.2.2, k1⟩

/-- The string removal `ruinSplitString` in terms of its window: of the positions
`a .. a + l + m - 1`, inside the tour and around the position found for the start node, the
block `b .. b + m - 1` is kept and the others are removed. -/
theorem ruinSplitString_window (P : Params) (I : Instance) (s : Solution) (g : Rng)
    (nr : Int → Bool) (t l cur : Int) (hl1 : 2 ≤ l) (hl2 : l < s.numberNodesInTour t)
    (hna : 0 ≤ s.numberAbsentNodes) (hne : ∀ x ∈ tourList s t, x ≠ -1) :
    ∃ m a b, 1 ≤ m ∧ m ≤ s.numberNodesInTour t - l ∧
      0 ≤ a ∧ a + (l + m) ≤ s.numberNodesInTour t ∧ a ≤ findPosStartNode s t cur ∧
      findPosStartNode s t cur < a + (l + m) ∧ a + 1 ≤ b ∧ b + m ≤ a + (l + m) - 1 ∧
      StringRemoved s (ruinSplitString P I s g nr t l cur).1 nr
        (ruinSplitString P I s g nr t l cur).2.2 t
        ((forRange 0 a ++ forRange b (b + m)
          ++ forRange (a + (l + m)) (s.numberNodesInTour t)).map (s.tours t))
        ((forRange a b ++ forRange (b + m) (a + (l + m))).map (s.tours t)) := by
  have hpos := findPosStartNode_range s t cur
  rw [max_eq_left (by omega)] at hpos
  unfold ruinSplitString
  dsimp only
  have hm := preservedLoop_range P (s.numberNodesInTour t - l)
    (s.numberNodesInTour t - l).toNat 1 g (by omega)
  generalize preservedLoop P (s.numberNodesInTour t - l) (s.numberNodesInTour t - l).toNat 1 g
    = pl at hm ⊢
  obtain ⟨m, g1⟩ := pl
  simp only at hm ⊢
  have hch := chooseStartRemoval_window s g1 t (l + m) _ hpos.1 hpos.2 (by omega) (by omega)
  generalize chooseStartRemoval s g1 t (l + m) (findPosStartNode s t cur) = ch at hch ⊢
  obtain ⟨a, g2⟩ := ch
  simp only at hch ⊢
  -- the start of the retained block
  have hret : ∃ b g3, (if m < l + m - 2 then
        (readL (retainOptions m a (l + m) (l + m - 2).toNat (a + 1) [])
            (drawIndex g2 (retainOptions m a (l + m) (l + m - 2).toNat (a + 1) []).length).1,
          (drawIndex g2 (retainOptions m a (l + m) (l + m - 2).toNat (a + 1) []).length).2)
      else (a + 1, g2)) = (b, g3) ∧ a + 1 ≤ b ∧ b + m ≤ a + (l + m) - 1 := by
    by_cases hc : m < l + m - 2
    · rw [if_pos hc]
      obtain ⟨w1, w2⟩ := retainOptions_spec m a (l + m) (l + m - 2).toNat (a + 1) []
        (by simp) (by omega)
      have hne' := w2 (Or.inr (by omega))
      generalize retainOptions m a (l + m) (l + m - 2).toNat (a + 1) [] = options at w1 hne'
      have hlenpos : 1 ≤ (options.length : Int) := by
        cases options with
        | nil => exact absurd rfl hne'
        | cons x xs => simp
      have hr := drawIndex_range g2 options.length hlenpos
      have := w1 _ (readL_mem options _ hr.1 hr.2)
      exact ⟨_, _, rfl, this.1, this.2⟩
    · rw [if_neg hc]
      exact ⟨_, _, rfl, le_refl _, by omega⟩
  obtain ⟨b, g3, hbeq, hb1, hb2⟩ := hret
  rw [hbeq]
  dsimp only
  have hnd : (forRange a b ++ forRange (b + m) (a + (l + m))).Nodup :=
    nodup_two_ranges (by omega)
  have hsub : ∀ p ∈ forRange a b ++ forRange (b + m) (a + (l + m)),
      0 ≤ p ∧ p < s.numberNodesInTour t := by
    intro p hp
    rw [List.mem_append, mem_forRange, mem_forRange] at hp
    omega
  have hR := removeNode_fold I t (forRange a b ++ forRange (b + m) (a + (l + m)))
    { sol := s, g := g3, nodeRemoved := nr, copyNodes := copyTour s t } hnd hna
  rw [List.foldl_append] at hR
  generalize (forRange (b + m) (a + (l + m))).foldl (removeNode I t)
    ((forRange a b).foldl (removeNode I t)
      { sol := s, g := g3, nodeRemoved := nr, copyNodes := copyTour s t }) = st at hR
  have hlen : l = ((forRange a b ++ forRange (b + m) (a + (l + m))).length : Int) := by
    rw [List.length_append, length_forRange, length_forRange]; omega
  obtain ⟨k1, _⟩ := removal_spec s t l nr _ _ _ rfl rfl rfl hR hnd hsub hlen (by omega) hne
  rw [keptPositions_split hch.1 (by omega) (by omega) (by omega) hch.2.1] at k1
  exact ⟨m, a, b, hm.1, hm.2, hch.1, hch.2.1, hch.2.2.1, hch.2.2.2, hb1, hb2, k1⟩

theorem tourList_eq_map (s : Solution) (t : Int) :
    tourList s t = (forRange 0 (s.numberNodesInTour t)).map (s.tours t) := rfl

theorem readL_tourList (s : Solution) (t p : Int) (h0 : 0 ≤ p) (h1 : p < s.numberNodesInTour t) :
    readL (tourList s t) p = s.tours t p :=
  readL_map_forRange _ _ _ h0 h1

/-- C18: for every tour `t` of size `n` (holding node ids, so no entry is `-1`), every start
node `cur + 1` contained in it and every length `L` with `1 ≤ L ≤ n`, `ruinString` removes
exactly `L` nodes, those at the `L` consecutive positions `p .. p + L - 1` of the original
tour, where a position `q` with `p ≤ q ≤ p + L - 1` holds the start node; the removed nodes are
appended to `absentNodes` (in tour order), the tour size becomes `n - L`, and the tour keeps
the nodes before and after the window in their original order. -/
theorem ruinString_removes_window (I : Instance) (s : Solution) (g : Rng) (nr : Int → Bool)
    (t L cur : Int) (hL1 : 1 ≤ L) (hL2 : L ≤ s.numberNodesInTour t)
    (hmem : cur + 1 ∈ tourList s t) (hna : 0 ≤ s.numberAbsentNodes)
    (hids : ∀ x ∈ tourList s t, 1 ≤ x) :
    ∃ p q, 0 ≤ p ∧ p + L ≤ s.numberNodesInTour t ∧ p ≤ q ∧ q ≤ p + L - 1 ∧
      readL (tourList s t) q = cur + 1 ∧
      ((segment (tourList s t) p (p + L)).length : Int) = L ∧
      absentList (ruinString I s g nr t L cur).1
        = absentList s ++ segment (tourList s t) p (p + L) ∧
      tourList (ruinString I s g nr t L cur).1 t
        = segment (tourList s t) 0 p
          ++ segment (tourList s t) (p + L) (s.numberNodesInTour t) ∧
      (ruinString I s g nr t L cur).1.numberNodesInTour t = s.numberNodesInTour t - L := by
  have hne : ∀ x ∈ tourList s t, x ≠ -1 := fun x hx => by
    have := hids x hx
    omega
  obtain ⟨a, a0, a1, a2, a3, hS⟩ := ruinString_window I s g nr t L cur hL1 hL2 hna hne
  obtain ⟨f0, f1, f2⟩ := findPosStartNode_spec s t cur hmem
  have hlenrow : ((tourList s t).length : Int) = s.numberNodesInTour t := by
    rw [length_tourList]; omega
  have e1 : (forRange a (a + L)).map (s.tours t) = segment (tourList s t) a (a + L) :=
    map_forRange_segment _ a0 (by omega) a1
  have e2 : (forRange 0 a).map (s.tours t) = segment (tourList s t) 0 a :=
    map_forRange_segment _ (le_refl _) a0 (by omega)
  have e3 : (forRange (a + L) (s.numberNodesInTour t)).map (s.tours t)
      = segment (tourList s t) (a + L) (s.numberNodesInTour t) :=
    map_forRange_segment _ (by omega) a1 (le_refl _)
  have hrow := hS.row
  rw [List.map_append, e2, e3] at hrow
  have habs := hS.absent
  rw [e1] at habs
  have hl1 := length_segment (tourList s t) a0 (by omega : a ≤ a + L) (by omega)
  refine ⟨a, findPosStartNode s t cur, a0, a1, a2, by omega, ?_, by omega, habs, hrow, ?_⟩
  · rw [readL_tourList s t _ f0 f1, f2]
  · have hcount := hS.count
    have hl := congrArg List.length hrow
    rw [length_tourList, List.length_append] at hl
    have h2 := length_segment (tourList s t) (le_refl 0) a0 (by omega)
    have h3 := length_segment (tourList s t) (by omega : 0 ≤ a + L) a1 (by omega)
    omega

theorem ruinString_removes_window_witness :
    ∃ p q, 0 ≤ p ∧ p + 2 ≤ threeAndOne.numberNodesInTour 0 ∧ p ≤ q ∧ q ≤ p + 2 - 1 ∧
      readL (tourList threeAndOne 0) q = 3 + 1 ∧
      ((segment (tourList threeAndOne 0) p (p + 2)).length : Int) = 2 ∧
      absentList (ruinString fourCustomers threeAndOne ⟨1, 2, 3, 4⟩ (fun _ => false) 0 2 3).1
        = absentList threeAndOne ++ segment (tourList threeAndOne 0) p (p + 2) ∧
      tourList (ruinString fourCustomers threeAndOne ⟨1, 2, 3, 4⟩ (fun _ => false) 0 2 3).1 0
        = segment (tourList threeAndOne 0) 0 p
          ++ segment (tourList threeAndOne 0) (p + 2) (threeAndOne.numberNodesInTour 0) ∧
      (ruinString fourCustomers threeAndOne ⟨1, 2, 3, 4⟩ (fun _ => false) 0 2 3).1.numberNodesInTour
        0 = threeAndOne.numberNodesInTour 0 - 2 :=
  ruinString_removes_window fourCustomers threeAndOne ⟨1, 2, 3, 4⟩ (fun _ => false) 0 2 3
    (by decide) (by decide) (by decide) (by decide) (by decide)

/-- C19: for every tour `t` of size `n` (holding node ids), every start node `cur + 1`
contained in it and every length `L` with `2 ≤ L < n`, `ruinSplitString` removes exactly `L`
nodes: there are a preserved count `m` with `1 ≤ m ≤ n - L` and a window of the `L + m`
consecutive positions `a .. a + L + m - 1`, inside the tour and containing a position `q` of the
start node, such that the removed nodes are those of the window outside the block
`b .. b + m - 1`, which lies strictly inside the window (so the first and the last position
of the window are removed); the tour size becomes `n - L` and the tour keeps the nodes before
the window, the block and the nodes after the window, in their original order. -/
theorem ruinSplitString_removes_window (P : Params) (I : Instance) (s : Solution) (g : Rng)
    (nr : Int → Bool) (t L cur : Int) (hL1 : 2 ≤ L) (hL2 : L < s.numberNodesInTour t)
    (hmem : cur + 1 ∈ tourList s t) (hna : 0 ≤ s.numberAbsentNodes)
    (hids : ∀ x ∈ tourList s t, 1 ≤ x) :
    ∃ m a b q, 1 ≤ m ∧ m ≤ s.numberNodesInTour t - L ∧
      0 ≤ a ∧ a + (L + m) ≤ s.numberNodesInTour t ∧
      a ≤ q ∧ q ≤ a + (L + m) - 1 ∧ readL (tourList s t) q = cur + 1 ∧
      a + 1 ≤ b ∧ b + m ≤ a + (L + m) - 1 ∧
      ((segment (tourList s t) a b ++ segment (tourList s t) (b + m) (a + (L + m))).length : Int)
        = L ∧
      absentList (ruinSplitString P I s g nr t L cur).1
        = absentList s ++ (segment (tourList s t) a b
          ++ segment (tourList s t) (b + m) (a + (L + m))) ∧
      tourList (ruinSplitString P I s g nr t L cur).1 t
        = segment (tourList s t) 0 a ++ segment (tourList s t) b (b + m)
          ++ segment (tourList s t) (a + (L + m)) (s.numberNodesInTour t) ∧
      (ruinSplitString P I s g nr t L cur).1.numberNodesInTour t
        = s.numberNodesInTour t - L := by
  have hne : ∀ x ∈ tourList s t, x ≠ -1 := fun x hx => by
    have := hids x hx
    omega
  obtain ⟨m, a, b, m1, m2, a0, a1, a2, a3, b1, b2, hS⟩ :=
    ruinSplitString_window P I s g nr t L cur hL1 hL2 hna hne
  obtain ⟨f0, f1, f2⟩ := findPosStartNode_spec s t cur hmem
  have hlenrow : ((tourList s t).length : Int) = s.numberNodesInTour t := by
    rw [length_tourList]; omega
  have e1 : (forRange a b).map (s.tours t) = segment (tourList s t) a b :=
    map_forRange_segment _ a0 (by omega) (by omega)
  have e2 : (forRange (b + m) (a + (L + m))).map (s.tours t)
      = segment (tourList s t) (b + m) (a + (L + m)) :=
    map_forRange_segment _ (by omega) (by omega) a1
  have e3 : (forRange 0 a).map (s.tours t) = segment (tourList s t) 0 a :=
    map_forRange_segment _ (le_refl _) a0 (by omega)
  have e4 : (forRange b (b + m)).map (s.tours t) = segment (tourList s t) b (b + m) :=
    map_forRange_segment _ (by omega) (by omega) (by omega)
  have e5 : (forRange (a + (L + m)) (s.numberNodesInTour t)).map (s.tours t)
      = segment (tourList s t) (a + (L + m)) (s.numberNodesInTour t) :=
    map_forRange_segment _ (by omega) a1 (le_refl _)
  have hrow := hS.row
  rw [List.map_append, List.map_append, e3, e4, e5] at hrow
  have habs := hS.absent
  rw [List.map_append, e1, e2] at habs
  have l1 := length_segment (tourList s t) a0 (by omega : a ≤ b) (by omega)
  have l2 := length_segment (tourList s t) (by omega : 0 ≤ b + m)
    (by omega : b + m ≤ a + (L + m)) (by omega)
  have l3 := length_segment (tourList s t) (le_refl 0) a0 (by omega)
  have l4 := length_segment (tourList s t) (by omega : 0 ≤ b) (by omega : b ≤ b + m) (by omega)
  have l5 := length_segment (tourList s t) (by omega : 0 ≤ a + (L + m)) a1 (by omega)
  refine ⟨m, a, b, findPosStartNode s t cur, m1, m2, a0, a1, a2, by omega, ?_, b1, b2, ?_,
    habs, hrow, ?_⟩
  · rw [readL_tourList s t _ f0 f1, f2]
  · rw [List.length_append]
    push_cast
    omega
  · have hcount := hS.count
    have hl := congrArg List.length hrow
    rw [length_tourList, List.length_append, List.length_append] at hl
    omega

theorem ruinSplitString_removes_window_witness :
    ∃ m a b q, 1 ≤ m ∧ m ≤ threeAndOne.numberNodesInTour 0 - 2 ∧
      0 ≤ a ∧ a + (2 + m) ≤ threeAndOne.numberNodesInTour 0 ∧
      a ≤ q ∧ q ≤ a + (2 + m) - 1 ∧ readL (tourList threeAndOne 0) q = 3 + 1 ∧
      a + 1 ≤ b ∧ b + m ≤ a + (2 + m) - 1 ∧
      ((segment (tourList threeAndOne 0) a b
        ++ segment (tourList threeAndOne 0) (b + m) (a + (2 + m))).length : Int) = 2 ∧
      absentList (ruinSplitString defaultParams fourCustomers threeAndOne ⟨1, 2, 3, 4⟩
          (fun _ => false) 0 2 3).1
        = absentList threeAndOne ++ (segment (tourList threeAndOne 0) a b
          ++ segment (tourList threeAndOne 0) (b + m) (a + (2 + m))) ∧
      tourList (ruinSplitString defaultParams fourCustomers threeAndOne ⟨1, 2, 3, 4⟩
          (fun _ => false) 0 2 3).1 0
        = segment (tourList threeAndOne 0) 0 a ++ segment (tourList threeAndOne 0) b (b + m)
          ++ segment (tourList threeAndOne 0) (a + (2 + m)) (threeAndOne.numberNodesInTour 0) ∧
      (ruinSplitString defaultParams fourCustomers threeAndOne ⟨1, 2, 3, 4⟩
          (fun _ => false) 0 2 3).1.numberNodesInTour 0
        = threeAndOne.numberNodesInTour 0 - 2 :=
  ruinSplitString_removes_window defaultParams fourCustomers threeAndOne ⟨1, 2, 3, 4⟩
    (fun _ => false) 0 2 3 (by decide) (by decide) (by decide) (by decide) (by decide)

/-! ### The tours after `ruin` (C20) -/

theorem sublist_of_window (f : Int → Int) {n a l : Int} (h0 : 0 ≤ a) (hl : 0 ≤ l)
    (h1 : a + l ≤ n) :
    ((forRange 0 a ++ forRange (a + l) n).map f).Sublist ((forRange 0 n).map f) := by
  rw [← keptPositions_window h0 hl h1]
  exact (List.filter_sublist _).map f

theorem sublist_of_split (f : Int → Int) {n a b m c : Int} (h0 : 0 ≤ a) (h1 : a ≤ b)
    (hm : 0 ≤ m) (h2 : b + m ≤ c) (h3 : c ≤ n) :
    ((forRange 0 a ++ forRange b (b + m) ++ forRange c n).map f).Sublist
      ((forRange 0 n).map f) := by
  rw [← keptPositions_split h0 h1 hm h2 h3]
  exact (List.filter_sublist _).map f

/-- One step of the loop of `ruin` leaves the state as it is or removes a string from one tour,
whose remaining members keep their order; the other tours are untouched. -/
theorem ruinStep_ordered (P : Params) (I : Instance) (msc : Dbl) (nst seed NT : Int)
    (st : RuinLoop) (k : Int) (hmsc : 0 ≤ msc.num ∧ 0 < msc.den)
    (hnb : 2 ≤ I.nodeDistList seed k ∧ I.nodeDistList seed k ≤ I.numberNodes)
    (h : RuinInv I NT st) :
    ∀ t', (tourList (ruinStep P I msc nst seed st k).sol t').Sublist (tourList st.sol t') := by
  unfold ruinStep
  dsimp only
  by_cases hc : st.countRuinedTours < nst
  swap
  · rw [if_neg hc]; exact fun _ => List.Sublist.refl _
  rw [if_pos hc]
  by_cases hcond : (!st.ruinedTour (st.sol.tourPerNode (I.nodeDistList seed k - 1) - 1)
      && !st.nodeRemoved (I.nodeDistList seed k - 1)) = true
  swap
  · rw [if_neg hcond]; exact fun _ => List.Sublist.refl _
  rw [if_pos hcond]
  simp only [Bool.and_eq_true, Bool.not_eq_true'] at hcond
  have hx : I.nodeDistList seed k ∈ tourNodes st.sol ++ absentList st.sol :=
    h.perm.symm.subset (mem_customers.2 hnb)
  have hx' : I.nodeDistList seed k ∈ tourNodes st.sol := by
    rcases List.mem_append.1 hx with h' | h'
    · exact h'
    · have := (h.inAbsent _ h').2
      rw [hcond.2] at this
      exact absurd this (by simp)
  obtain ⟨t, ht0, ht1, hxt⟩ := mem_tourNodes.1 hx'
  rw [h.nt] at ht1
  have htpn := (h.inTour t ht0 ht1 _ hxt).1
  have hti : st.sol.tourPerNode (I.nodeDistList seed k - 1) - 1 = t := by omega
  rw [hti]
  have hn1 := tourList_pos_of_mem hxt
  obtain ⟨c0, c1, c2⟩ := localCardinality_ok (st.sol.numberNodesInTour t) msc hn1 hmsc.1 hmsc.2
  have hl := drawCount_range st.g _ (st.sol.numberNodesInTour t) c0 c1 c2
  rw [max_eq_left hn1] at hl
  have hne : ∀ y ∈ tourList st.sol t, y ≠ -1 := by
    intro y hy
    have : y ∈ customers I :=
      h.perm.subset (List.mem_append_left _ (mem_tourNodes.2 ⟨t, ht0, by rw [h.nt]; exact ht1, hy⟩))
    have := mem_customers.1 this
    omega
  have hstring : ∀ g, ∀ t', (tourList (ruinString I st.sol g st.nodeRemoved t
      (drawCount st.g (Dbl.min (Dbl.ofInt (st.sol.numberNodesInTour t)) msc)).1
      (I.nodeDistList seed k - 1)).1 t').Sublist (tourList st.sol t') := by
    intro g t'
    obtain ⟨a, a0, a1, _, _, hS⟩ := ruinString_window I st.sol g st.nodeRemoved t _
      (I.nodeDistList seed k - 1) hl.1 hl.2 h.na hne
    by_cases htt : t' = t
    · rw [htt, hS.row]
      exact sublist_of_window _ a0 (by omega) a1
    · rw [hS.others t' htt]
  intro t'
  split_ifs with hb hs
  · obtain ⟨m, a, b, m1, m2, a0, a1, _, _, b1, b2, hS⟩ := ruinSplitString_window P I st.sol
      (unitDraw (drawCount st.g (Dbl.min (Dbl.ofInt (st.sol.numberNodesInTour t)) msc)).2).2
      st.nodeRemoved t
      (drawCount st.g (Dbl.min (Dbl.ofInt (st.sol.numberNodesInTour t)) msc)).1
      (I.nodeDistList seed k - 1) (by omega) (by omega) h.na hne
    by_cases htt : t' = t
    · rw [htt]
      show (tourList (ruinSplitString P I st.sol _ st.nodeRemoved t _ _).1 t).Sublist _
      rw [hS.row]
      exact sublist_of_split _ a0 (by omega) (by omega) (by omega) a1
    · show (tourList (ruinSplitString P I st.sol _ st.nodeRemoved t _ _).1 t').Sublist _
      rw [hS.others t' htt]
  · exact hstring _ t'
  · exact hstring _ t'

theorem forall₂_map_same {α β γ : Type} (R : β → γ → Prop) (f : α → β) (g : α → γ) :
    ∀ l : List α, (∀ x ∈ l, R (f x) (g x)) → List.Forall₂ R (l.map f) (l.map g)
  | [], _ => List.Forall₂.nil
  | x :: l, h => List.Forall₂.cons (h x (List.mem_cons_self _ _))
      (forall₂_map_same R f g l (fun y hy => h y (List.mem_cons_of_mem _ hy)))

theorem length_filter_nonempty (rows : List (List Int)) :
    (rows.filter (· ≠ [])).length + (rows.filter (· = [])).length = rows.length := by
  induction rows with
  | nil => rfl
  | cons a l ih =>
    by_cases h : a = []
    · rw [List.filter_cons_of_neg (by simpa using h), List.filter_cons_of_pos (by simpa using h),
        List.length_cons, List.length_cons]
      omega
    · rw [List.filter_cons_of_pos (by simpa using h), List.filter_cons_of_neg (by simpa using h),
        List.length_cons, List.length_cons]
      omega

/-- The loop of `ruin` keeps its invariant, and every tour after it is a sub-sequence of the
tour before it. -/
theorem ruinLoop_ordered (P : Params) (I : Instance) (stack : Int → Bool) (s : Solution)
    (g : Rng) (hP : 0 ≤ P.lengthRemovedStrings) (hnb : NeighboursOK I) (hs : Tidy I s) :
    RuinInv I s.numberTours (ruinLoop P I stack s g) ∧
      ∀ t, (tourList (ruinLoop P I stack s g).sol t).Sublist (tourList s t) := by
  unfold ruinLoop
  have hseed := drawCount_range (xorshift128 g).2 (Dbl.ofInt (I.numberNodes - 1))
    (I.numberNodes - 1)
  have hinit := ruinLoopStart_inv I stack s g hs
  apply foldl_mem_inv _
    (fun st => RuinInv I s.numberTours st ∧ ∀ t, (tourList st.sol t).Sublist (tourList s t))
    _ _ ⟨hinit, fun t => List.Sublist.refl _⟩
  intro k hk a ha
  rw [mem_forRange] at hk
  have hn3 : 3 ≤ I.numberNodes := by omega
  have hcust : (2 : Int) ∈ customers I := mem_customers.2 ⟨le_refl _, by omega⟩
  obtain ⟨t, ht0, ht1, _⟩ := mem_tourNodes.1 (hs.perm.symm.subset hcust)
  have htot : 0 ≤ ((forRange 0 s.numberTours).map s.numberNodesInTour).sum := by
    apply sum_nonneg_of_forall
    intro x hx
    obtain ⟨u, hu, rfl⟩ := List.mem_map.1 hx
    rw [mem_forRange] at hu
    exact le_of_lt (hs.nonempty u hu.1 hu.2)
  have hm := maxStringCardinality_ok P.lengthRemovedStrings _ s.numberTours hP htot
    (by omega)
  have hsd := hseed (by simp [Dbl.ofInt]; omega) (by simp [Dbl.ofInt])
    (by simp [Dbl.ofInt])
  rw [max_eq_left (by omega)] at hsd
  have hnbk := hnb (randomSeedNodeIndex I g) k hsd.1 (by
    have := hsd.2
    unfold randomSeedNodeIndex
    omega) hk.1 hk.2
  refine ⟨ruinStep_inv P I _ _ _ s.numberTours a k hm hnbk ha.1, ?_⟩
  intro t'
  exact (ruinStep_ordered P I _ _ _ s.numberTours a k hm hnbk ha.1 t').trans (ha.2 t')

theorem length_tourRows (s : Solution) : (tourRows s).length = s.numberTours.toNat := by
  unfold tourRows
  rw [List.length_map, length_forRange]
  simp

/-- After the loop of `ruin`, the three closing passes keep the non-empty tours, in order. -/
theorem ruin_tourRows (P : Params) (I : Instance) (stack : Int → Bool) (s : Solution) (g : Rng)
    (hnt : 0 ≤ s.numberTours) (hinv : RuinInv I s.numberTours (ruinLoop P I stack s g)) :
    tourRows (ruin P I stack s g).1
      = (tourRows (ruinLoop P I stack s g).sol).filter (· ≠ []) := by
  rw [ruin_eq]
  dsimp only
  generalize ruinLoop P I stack s g = st at hinv
  have hnt0 : 0 ≤ st.sol.numberTours := by rw [hinv.nt]; exact hnt
  obtain ⟨c1, c2, _, _, _⟩ := compactTours_spec st.sol hnt0
    (fun t h0 h1 => hinv.counts t h0 (by rw [← hinv.nt]; exact h1))
  generalize compactTours st.sol = s1 at c1 c2
  obtain ⟨_, d2, d3, d4, _, _, _⟩ := recomputeCapacity_spec I s1 c2
  generalize recomputeCapacity I s1 = s2 at d2 d3 d4
  have hrows2 : tourRows s2 = tourRows s1 := by
    unfold tourRows tourList
    rw [d2, d3, d4]
  have hnd2 : (tourNodes s2).Nodup := by
    unfold tourNodes
    rw [hrows2, c1, flatten_filter_ne_nil]
    exact (List.nodup_append.1 hinv.nodup).1
  obtain ⟨_, _, e3, e4, e5, _, _, _⟩ := resetTourPerNode_spec s2 (by rw [d4]; exact c2) hnd2
  unfold tourRows tourList
  rw [e3, e4, e5]
  exact hrows2.trans c1

set_option maxRecDepth 100000 in

/-- C20 (counterexample): with `lengthRemovedStrings = -3`, on the instance `fourCustomers` and
its solution `threeAndOne` (tours `[3, 4, 5]` and `[2]`, the array entry after the end of tour
`0` still `0`) and the generator state `(0, 0, 0, 140000000)`: `ruin` removes no node
(`absentNodes` stays empty) and makes tour `0` one entry longer.  Afterwards the tours are
`[3, 4, 5, 0]` and `[2]`: tour `0` is not a sub-sequence of the original tour, and its member
`0` is no customer. -/
theorem negative_length_grows_tour :
    negativeLength.lengthRemovedStrings = -3 ∧
    tourRows threeAndOne = [[3, 4, 5], [2]] ∧
    (forRange 1 5).map threeAndOne.tourPerNode = [2, 1, 1, 1] ∧
    customers fourCustomers = [2, 3, 4, 5] ∧
    tourRows (ruin negativeLength fourCustomers (fun _ => false) threeAndOne
      ⟨0, 0, 0, 140000000⟩).1 = [[3, 4, 5, 0], [2]] ∧
    absentList (ruin negativeLength fourCustomers (fun _ => false) threeAndOne
      ⟨0, 0, 0, 140000000⟩).1 = [] ∧
    ¬ List.Sublist ([3, 4, 5, 0] : List Int) [3, 4, 5] := by
  decide

/-- C20, amended: for a non-negative `lengthRemovedStrings`, neighbour lists holding customer
ids and a complete solution `s` (each customer in exactly one tour, no tour empty, `tourPerNode`
the 1-based tour of each customer): after `ruin()` the tours are those left by the removals
(`rows`, tour by tour a sub-sequence of the original tour, members in their original order)
with the empty ones dropped and the others in their original relative order; none of the first
`numberTours` tours is empty; `numberTours` is the previous count minus the number of emptied
tours; `capacityUsageTour` of each tour is the sum of its members' demands; `tourPerNode` is the
1-based index of the containing tour for every remaining member and `-1` for every removed
node; and every customer is a remaining member or a removed node. -/
theorem ruin_postcondition (P : Params) (I : Instance) (stack : Int → Bool) (s : Solution)
    (g : Rng) (hP : 0 ≤ P.lengthRemovedStrings) (hnb : NeighboursOK I) (hs : Tidy I s) :
    ∃ rows : List (List Int),
      List.Forall₂ List.Sublist rows (tourRows s) ∧
      tourRows (ruin P I stack s g).1 = rows.filter (· ≠ []) ∧
      (ruin P I stack s g).1.numberTours
        = s.numberTours - ((rows.filter (· = [])).length : Int) ∧
      (∀ t, 0 ≤ t → t < (ruin P I stack s g).1.numberTours →
        tourList (ruin P I stack s g).1 t ≠ [] ∧
        (ruin P I stack s g).1.capacityUsageTour t
          = demandOf I (tourList (ruin P I stack s g).1 t) ∧
        ∀ x ∈ tourList (ruin P I stack s g).1 t,
          (ruin P I stack s g).1.tourPerNode (x - 1) = t + 1) ∧
      (∀ x ∈ absentList (ruin P I stack s g).1,
        (ruin P I stack s g).1.tourPerNode (x - 1) = -1) ∧
      (tourNodes (ruin P I stack s g).1 ++ absentList (ruin P I stack s g).1).Perm
        (customers I) := by
  obtain ⟨hinv, hsub⟩ := ruinLoop_ordered P I stack s g hP hnb hs
  have hR := ruin_spec P I stack s g hP hnb hs
  have hrows := ruin_tourRows P I stack s g hs.nt hinv
  refine ⟨tourRows (ruinLoop P I stack s g).sol, ?_, hrows, ?_, ?_, hR.inAbsent, hR.perm⟩
  · unfold tourRows
    rw [hinv.nt]
    exact forall₂_map_same _ _ _ _ (fun t _ => hsub t)
  · have hlen := congrArg List.length hrows
    have h1 := length_filter_nonempty (tourRows (ruinLoop P I stack s g).sol)
    rw [length_tourRows] at hlen
    rw [length_tourRows, hinv.nt] at h1
    have := hR.nt
    have := hs.nt
    omega
  · intro t h0 h1
    refine ⟨?_, hR.capacity t h0 h1, hR.inTour t h0 h1⟩
    rw [Ne, tourList_eq_nil_iff]
    have := hR.nonempty t h0 h1
    omega

/-- Witness for `ruin_postcondition`: the run of `ruin` on `fourCustomers` and `threeAndOne`
that removes the string `4, 5` from the tour `[3, 4, 5]`. -/
theorem ruin_postcondition_witness :
    ∃ rows : List (List Int),
      List.Forall₂ List.Sublist rows (tourRows threeAndOne) ∧
      tourRows (ruin defaultParams fourCustomers (fun _ => false) threeAndOne
        ⟨88675123, 123456789, 362436069, 521288629⟩).1 = rows.filter (· ≠ []) ∧
      (ruin defaultParams fourCustomers (fun _ => false) threeAndOne
          ⟨88675123, 123456789, 362436069, 521288629⟩).1.numberTours
        = threeAndOne.numberTours - ((rows.filter (· = [])).length : Int) :=
  let ⟨rows, h1, h2, h3, _⟩ := ruin_postcondition defaultParams fourCustomers (fun _ => false)
    threeAndOne ⟨88675123, 123456789, 362436069, 521288629⟩ (by decide)
    neighboursOK_fourCustomers tidy_threeAndOne
  ⟨rows, h1, h2, h3⟩

/-! ### The marginal insertion cost (C24) -/

theorem take_map_forRange (f : Int → Int) {p n : Int} (h0 : 0 ≤ p) (h1 : p ≤ n) :
    ((forRange 0 n).map f).take p.toNat = (forRange 0 p).map f := by
  rw [← forRange_append h0 h1, List.map_append]
  have e : p.toNat = ((forRange 0 p).map f).length := by
    rw [List.length_map, length_forRange]; simp
  rw [e, List.take_left]

theorem drop_map_forRange (f : Int → Int) {p n : Int} (h0 : 0 ≤ p) (h1 : p ≤ n) :
    ((forRange 0 n).map f).drop p.toNat = (forRange p n).map f := by
  rw [← forRange_append h0 h1, List.map_append]
  have e : p.toNat = ((forRange 0 p).map f).length := by
    rw [List.length_map, length_forRange]; simp
  rw [e, List.drop_left]

/-- A node put between two consecutive members of a tour adds the two new legs and takes away
the leg between the two members. -/
theorem legsToDepot_insert (I : Instance) (u x v : Int) (B : List Int) :
    ∀ A : List Int, legsToDepot I (A ++ u :: x :: v :: B)
      = legsToDepot I (A ++ u :: v :: B)
        + (I.distance (u - 1) (x - 1) + I.distance (x - 1) (v - 1)
          - I.distance (u - 1) (v - 1))
  | [] => by
    simp only [List.nil_append, legsToDepot]
    ring
  | [a] => by
    have ih := legsToDepot_insert I u x v B []
    simp only [List.nil_append] at ih
    simp only [List.cons_append, List.nil_append, legsToDepot] at ih ⊢
    omega
  | a :: a' :: A => by
    have ih := legsToDepot_insert I u x v B (a' :: A)
    have e : ∀ r, legsToDepot I (a :: a' :: r)
        = I.distance (a - 1) (a' - 1) + legsToDepot I (a' :: r) := fun _ => rfl
    rw [List.cons_append, List.cons_append] at ih ⊢
    rw [List.cons_append, List.cons_append, e, e, ih]
    ring

/-- A node put after the last member of a tour adds the leg to it and its leg to the depot and
takes away the leg of the last member to the depot. -/
theorem legsToDepot_append (I : Instance) (u x : Int) :
    ∀ A : List Int, legsToDepot I (A ++ [u, x])
      = legsToDepot I (A ++ [u])
        + (I.distance (u - 1) (x - 1) + I.distance (x - 1) 0 - I.distance (u - 1) 0)
  | [] => by
    simp only [List.nil_append, legsToDepot]
    ring
  | [a] => by
    have ih := legsToDepot_append I u x []
    simp only [List.nil_append] at ih
    simp only [List.cons_append, List.nil_append, legsToDepot] at ih ⊢
    omega
  | a :: a' :: A => by
    have ih := legsToDepot_append I u x (a' :: A)
    have e : ∀ r, legsToDepot I (a :: a' :: r)
        = I.distance (a - 1) (a' - 1) + legsToDepot I (a' :: r) := fun _ => rfl
    rw [List.cons_append, List.cons_append] at ih ⊢
    rw [List.cons_append, List.cons_append, e, e, ih]
    ring

theorem tourLength_sub (I : Instance) (u : Int) (B B' : List Int) (A : List Int) :
    tourLength I (A ++ u :: B) - tourLength I (A ++ u :: B')
      = legsToDepot I (A ++ u :: B) - legsToDepot I (A ++ u :: B') := by
  cases A with
  | nil =>
    simp only [List.nil_append, tourLength]
    ring
  | cons a A =>
    simp only [List.cons_append, tourLength]
    ring

/-- C24: for every non-empty tour `t` (of size `n >= 1`), every node (index `c`, id `c + 1`)
and every insertion position `p` with `0 <= p <= n`, the marginal cost `currentCost` that
`recreate` computes for the position equals the route length (depot to first, consecutive
pairs, last to depot) of the tour with the node inserted at `p` minus the route length of the
original tour. -/
theorem insertionCost_is_marginal (I : Instance) (s : Solution) (c t p : Int)
    (hn : 1 ≤ s.numberNodesInTour t) (hp0 : 0 ≤ p) (hp1 : p ≤ s.numberNodesInTour t) :
    insertionCost I s c t p
      = tourLength I ((tourList s t).take p.toNat ++ (c + 1) :: (tourList s t).drop p.toNat)
        - tourLength I (tourList s t) := by
  have hrow : tourList s t = (tourList s t).take p.toNat ++ (tourList s t).drop p.toNat :=
    (List.take_append_drop _ _).symm
  have htake : (tourList s t).take p.toNat = (forRange 0 p).map (s.tours t) :=
    take_map_forRange _ hp0 hp1
  have hdrop : (tourList s t).drop p.toNat = (forRange p (s.numberNodesInTour t)).map (s.tours t) :=
    drop_map_forRange _ hp0 hp1
  have hc : c + 1 - 1 = c := by ring
  unfold insertionCost
  by_cases h0 : p = 0
  · subst h0
    rw [if_pos rfl]
    have hd : (tourList s t).drop (0 : Int).toNat
        = s.tours t 0 :: (forRange (0 + 1) (s.numberNodesInTour t)).map (s.tours t) := by
      rw [hdrop, forRange_cons (by omega), List.map_cons]
    have ht : (tourList s t).take (0 : Int).toNat = [] := rfl
    nth_rewrite 3 [hrow]
    rw [ht, hd]
    simp only [List.nil_append, tourLength, legsToDepot, hc]
    ring
  · rw [if_neg h0]
    have hA : (forRange 0 p).map (s.tours t)
        = (forRange 0 (p - 1)).map (s.tours t) ++ [s.tours t (p - 1)] := by
      have e : p = p - 1 + 1 := by ring
      nth_rewrite 1 [e]
      rw [forRange_succ 0 (p - 1) (by omega), List.map_append]
      rfl
    by_cases h1 : p = s.numberNodesInTour t
    · rw [if_pos h1]
      have hd : (tourList s t).drop p.toNat = [] := by
        rw [hdrop, h1, forRange_eq_nil (le_refl _)]
        rfl
      nth_rewrite 3 [hrow]
      rw [hd, htake, hA, List.append_nil, List.append_assoc, List.singleton_append,
        tourLength_sub, legsToDepot_append, hc]
      ring
    · rw [if_neg h1]
      have hd : (tourList s t).drop p.toNat
          = s.tours t p :: (forRange (p + 1) (s.numberNodesInTour t)).map (s.tours t) := by
        rw [hdrop, forRange_cons (by omega), List.map_cons]
      nth_rewrite 3 [hrow]
      rw [hd, htake, hA, List.append_assoc, List.append_assoc, List.singleton_append,
        List.singleton_append, tourLength_sub, legsToDepot_insert, hc]
      ring

theorem insertionCost_is_marginal_witness :
    1 ≤ threeAndOne.numberNodesInTour 0 ∧
    insertionCost fourCustomers threeAndOne 1 0 1
      = tourLength fourCustomers ((tourList threeAndOne 0).take (1 : Int).toNat
          ++ (1 + 1) :: (tourList threeAndOne 0).drop (1 : Int).toNat)
        - tourLength fourCustomers (tourList threeAndOne 0) :=
  ⟨by decide, insertionCost_is_marginal fourCustomers threeAndOne 1 0 1 (by decide) (by decide)
    (by decide)⟩

/-! ### The position of least cost (C25) -/

theorem nthDraw_lt (g : Rng) : ∀ j, nthDraw g j < 2 ^ 32
  | 0 => xorshift128_lt g
  | j + 1 => nthDraw_lt (xorshift128 g).2 j

/-- With a blink rate of zero no position is skipped. -/
theorem not_blinked_of_rate_zero (P : Params) (h0 : P.blinkRate.num = 0)
    (h1 : 0 < P.blinkRate.den) (g : Rng) (j : Nat) : blinked P g j = false := by
  have hu : ((nthDraw g j : Nat) : Int) < 2 ^ 32 := by exact_mod_cast nthDraw_lt g j
  have hsd : 0 < (Dbl.sub (Dbl.ofInt 1) P.blinkRate).den := by
    show 0 < 1 * P.blinkRate.den
    omega
  have hsv : (Dbl.sub (Dbl.ofInt 1) P.blinkRate).toRat = ((1 : Int) : ℚ) := by
    rw [Dbl.toRat_sub _ _ (by simp [Dbl.ofInt]) (by omega), Dbl.toRat_ofInt]
    unfold Dbl.toRat
    rw [h0]
    simp
  have hrd := Dbl.round53_den_pos _ hsd
  have hrv := Dbl.round_of_representable 53 _ (by norm_num) hsd
    (by rw [hsv]; exact representable_int 53 1 (by norm_num))
  rw [hsv] at hrv
  have hnum : (Dbl.round53 (Dbl.sub (Dbl.ofInt 1) P.blinkRate)).num
      = (Dbl.round53 (Dbl.sub (Dbl.ofInt 1) P.blinkRate)).den := by
    have h1 := (Dbl.toRat_le_iff _ 1 hrd).1 (le_of_eq hrv)
    have h2 := (Dbl.le_toRat_iff _ 1 hrd).1 (le_of_eq hrv.symm)
    omega
  unfold blinked Dbl.lt twoPow32
  simp only [hnum, Bool.not_eq_false', decide_eq_true_eq]
  nlinarith

/-- One position of the search: a skipped position leaves the best position as it is; an
evaluated one leaves a position whose cost is at most its own cost and at most the cost of the
position found before. -/
theorem tryPosition_eval (P : Params) (I : Instance) (s : Solution) (node t : Int) (b : Search)
    (p : Int) (hp : 0 ≤ p) :
    let r := tryPosition P I s node t b p
    (blinked P b.g 0 = true →
      r.tempTour = b.tempTour ∧ r.tempPos = b.tempPos ∧ r.tempCost = b.tempCost) ∧
    (blinked P b.g 0 = false →
      r.tempPos ≠ -1 ∧ r.tempCost ≤ insertionCost I s node t p ∧
      ((r.tempTour = t ∧ r.tempPos = p ∧ r.tempCost = insertionCost I s node t p) ∨
        (b.tempPos ≠ -1 ∧ r.tempTour = b.tempTour ∧ r.tempPos = b.tempPos ∧
          r.tempCost = b.tempCost))) ∧
    (b.tempPos ≠ -1 → r.tempPos ≠ -1 ∧ r.tempCost ≤ b.tempCost) := by
  intro r
  have hr : r = tryPosition P I s node t b p := rfl
  unfold tryPosition unitDraw at hr
  dsimp only at hr
  unfold blinked nthDraw
  by_cases hl : Dbl.lt ⟨((xorshift128 b.g).1 : Int), twoPow32⟩
      (Dbl.round53 (Dbl.sub (Dbl.ofInt 1) P.blinkRate)) = true
  · rw [if_pos hl] at hr
    by_cases hc : insertionCost I s node t p < b.tempCost ∨ b.tempPos = -1
    · rw [if_pos hc] at hr
      rw [hr]
      dsimp only
      refine ⟨fun h => ?_, fun _ => ⟨by omega, le_refl _, Or.inl ⟨rfl, rfl, rfl⟩⟩,
        fun h => ⟨by omega, ?_⟩⟩
      · rw [hl] at h
        simp at h
      · rcases hc with hc | hc
        · omega
        · exact absurd hc h
    · rw [if_neg hc] at hr
      rw [hr]
      dsimp only
      have h1 : b.tempPos ≠ -1 := fun h => hc (Or.inr h)
      have h2 : b.tempCost ≤ insertionCost I s node t p := by
        by_contra h
        exact hc (Or.inl (by omega))
      refine ⟨fun _ => ⟨rfl, rfl, rfl⟩, fun _ => ⟨h1, h2, Or.inr ⟨h1, rfl, rfl, rfl⟩⟩,
        fun h => ⟨h, le_refl _⟩⟩
  · rw [if_neg hl] at hr
    rw [hr]
    dsimp only
    refine ⟨fun _ => ⟨rfl, rfl, rfl⟩, fun h => ?_, fun h => ⟨h, le_refl _⟩⟩
    rw [Bool.not_eq_true] at hl
    rw [hl] at h
    simp at h

/-- The search over a list of positions keeps a position of least cost among the evaluated
ones: its cost is at most that of every evaluated position and, when the search started with a
position, at most the cost of that one; and the position it ends with is the one it started
with or an evaluated position of the list, with its cost. -/
theorem positions_min (P : Params) (I : Instance) (s : Solution) (node : Int) :
    ∀ (cand : List (Int × Int)) (b : Search), (∀ c ∈ cand, 0 ≤ c.2) →
      let r := cand.foldl (fun b (c : Int × Int) => tryPosition P I s node c.1 b c.2) b
      (∀ j c, cand[j]? = some c → blinked P b.g j = false →
        r.tempPos ≠ -1 ∧ r.tempCost ≤ insertionCost I s node c.1 c.2) ∧
      (b.tempPos ≠ -1 → r.tempPos ≠ -1 ∧ r.tempCost ≤ b.tempCost) ∧
      ((r.tempTour = b.tempTour ∧ r.tempPos = b.tempPos ∧ r.tempCost = b.tempCost) ∨
        ∃ j c, cand[j]? = some c ∧ blinked P b.g j = false ∧ c = (r.tempTour, r.tempPos) ∧
          r.tempCost = insertionCost I s node c.1 c.2)
  | [], b, _ => by
    intro r
    exact ⟨fun j c h => by simp at h, fun h => ⟨h, le_refl _⟩, Or.inl ⟨rfl, rfl, rfl⟩⟩
  | c :: cand, b, hc => by
    intro r
    obtain ⟨e1, e2, e3⟩ := tryPosition_eval P I s node c.1 b c.2 (hc c (List.mem_cons_self _ _))
    have hg := tryPosition_g P I s node c.1 b c.2
    obtain ⟨i1, i2, i3⟩ := positions_min P I s node cand (tryPosition P I s node c.1 b c.2)
      (fun c' hc' => hc c' (List.mem_cons_of_mem _ hc'))
    have hr : r = cand.foldl (fun b (c : Int × Int) => tryPosition P I s node c.1 b c.2)
        (tryPosition P I s node c.1 b c.2) := rfl
    rw [← hr] at i1 i2 i3
    have hb : ∀ j, blinked P (tryPosition P I s node c.1 b c.2).g j = blinked P b.g (j + 1) := by
      intro j
      unfold blinked
      rw [hg]
      rfl
    refine ⟨?_, ?_, ?_⟩
    · intro j c' hj hbl
      cases j with
      | zero =>
        simp only [List.getElem?_cons_zero, Option.some.injEq] at hj
        subst hj
        obtain ⟨a1, a2, _⟩ := e2 hbl
        obtain ⟨a3, a4⟩ := i2 a1
        exact ⟨a3, le_trans a4 a2⟩
      | succ j =>
        rw [List.getElem?_cons_succ] at hj
        exact i1 j c' hj (by rw [hb]; exact hbl)
    · intro h
      obtain ⟨a1, a2⟩ := e3 h
      obtain ⟨a3, a4⟩ := i2 a1
      exact ⟨a3, le_trans a4 a2⟩
    · rcases i3 with ⟨h1, h2, h3⟩ | ⟨j, c', h1, h2, h3, h4⟩
      · cases hbl : blinked P b.g 0 with
        | true =>
          obtain ⟨a1, a2, a3⟩ := e1 hbl
          exact Or.inl ⟨h1.trans a1, h2.trans a2, h3.trans a3⟩
        | false =>
          obtain ⟨_, _, a3⟩ := e2 hbl
          rcases a3 with ⟨a4, a5, a6⟩ | ⟨_, a4, a5, a6⟩
          · right
            refine ⟨0, c, List.getElem?_cons_zero, hbl, ?_, ?_⟩
            · rw [h1, h2, a4, a5]
            · rw [h3, a6]
          · exact Or.inl ⟨h1.trans a4, h2.trans a5, h3.trans a6⟩
      · right
        exact ⟨j + 1, c', by rw [List.getElem?_cons_succ]; exact h1, by rw [← hb]; exact h2,
          h3, h4⟩

/-- The search of `reinsert`: when a position is evaluated, the search ends with an evaluated
position whose cost is at most that of every evaluated position. -/
theorem search_min (P : Params) (I : Instance) (s : Solution) (ti : Int → Int) (node : Int)
    (g : Rng) :
    let b := (forRange 0 s.numberTours).foldl (tryTour P I s ti node)
      { g := g, tempPos := -1, tempTour := -1, tempCost := VERYLARGE }
    (∀ j c, (candidates I s ti node)[j]? = some c → blinked P g j = false →
      b.tempPos ≠ -1 ∧ b.tempCost ≤ insertionCost I s node c.1 c.2) ∧
    (b.tempPos ≠ -1 → ∃ j c, (candidates I s ti node)[j]? = some c ∧ blinked P g j = false ∧
      c = (b.tempTour, b.tempPos) ∧ b.tempCost = insertionCost I s node c.1 c.2) := by
  intro b
  have hb : b = (forRange 0 s.numberTours).foldl (tryTour P I s ti node)
      { g := g, tempPos := -1, tempTour := -1, tempCost := VERYLARGE } := rfl
  rw [search_fold] at hb
  obtain ⟨k1, _, k3⟩ := positions_min P I s node (candidates I s ti node)
    { g := g, tempPos := -1, tempTour := -1, tempCost := VERYLARGE }
    (fun c hc => (mem_candidates.1 hc).choose_spec.2.2.2.2.1)
  dsimp only at k1 k3
  unfold candidates at k1 k3
  rw [← hb] at k1 k3
  refine ⟨k1, fun hne => ?_⟩
  rcases k3 with ⟨_, h, _⟩ | h
  · exact absurd h hne
  · exact h

/-- The solution after `insertNode` at a position `p` of a tour `T`: the tour `T` is the old
one with the node between its first `p` members and the others, the other tours are as before
and `tourPerNode` of the node is the 1-based index of `T`. -/
theorem insertNode_at (I : Instance) (s : Solution) (node T p : Int) (hp0 : 0 ≤ p)
    (hp1 : p ≤ s.numberNodesInTour T) :
    tourList (insertNode I s (node - 1) T p) T
        = (tourList s T).take p.toNat ++ node :: (tourList s T).drop p.toNat ∧
      (∀ t, t ≠ T → tourList (insertNode I s (node - 1) T p) t = tourList s t) ∧
      (insertNode I s (node - 1) T p).tourPerNode (node - 1) = T + 1 := by
  obtain ⟨h1, h2, h3, _, _, h6, _⟩ := insertNode_spec I s (node - 1) T p hp0 hp1
  have hlen : ((forRange 0 p).map (s.tours T)).length = p.toNat := by
    rw [List.length_map, length_forRange]
    congr 1
    omega
  have htake : (tourList s T).take p.toNat = (forRange 0 p).map (s.tours T) := by
    rw [h1, ← hlen, List.take_left']
    rfl
  have hdrop : (tourList s T).drop p.toNat
      = (forRange p (s.numberNodesInTour T)).map (s.tours T) := by
    rw [h1, ← hlen, List.drop_left']
    rfl
  refine ⟨?_, h3, ?_⟩
  · rw [htake, hdrop, h2]
    congr 2
    omega
  · rw [h6]
    unfold upd
    rw [if_pos rfl]

/-- C25: for every node that `recreate` reinserts (the loop body `reinsert`, from any state of
the loop), if at least one position was evaluated (a position of a tour with enough residual
capacity, not skipped by blinking), the node is inserted at an evaluated tour `t` and position
`p` whose marginal cost is at most that of every evaluated position: afterwards the tour `t`
is the old tour with the node between its first `p` members and the others, every other tour
is as before and `tourPerNode` of the node is `t + 1`; in particular with `blinkRate = 0`, when
some tour has enough residual capacity, it is inserted in this way at a position of least cost
among all the positions `0 .. numberNodesInTour[t]` of all the tours `t` with
`capacityUsageTour[t] + nodeDemand <= vehicleCap`. -/
theorem reinsert_at_min_cost (P : Params) (I : Instance) (st : Recreate) (node : Int)
    (hcov : CoversTours st) :
    ((∃ j, j < (candidates I st.sol st.tourIndices (node - 1)).length ∧
        blinked P st.g j = false) →
      ∃ j t p, (candidates I st.sol st.tourIndices (node - 1))[j]? = some (t, p) ∧
        blinked P st.g j = false ∧
        (reinsert P I st node).sol = insertNode I st.sol (node - 1) t p ∧
        tourList (reinsert P I st node).sol t
          = (tourList st.sol t).take p.toNat ++ node :: (tourList st.sol t).drop p.toNat ∧
        (∀ t', t' ≠ t → tourList (reinsert P I st node).sol t' = tourList st.sol t') ∧
        (reinsert P I st node).sol.tourPerNode (node - 1) = t + 1 ∧
        ∀ j' c, (candidates I st.sol st.tourIndices (node - 1))[j']? = some c →
          blinked P st.g j' = false →
          insertionCost I st.sol (node - 1) t p ≤ insertionCost I st.sol (node - 1) c.1 c.2) ∧
    (P.blinkRate.num = 0 → 0 < P.blinkRate.den →
      (∃ t, 0 ≤ t ∧ t < st.sol.numberTours ∧ 0 ≤ st.sol.numberNodesInTour t ∧
        st.sol.capacityUsageTour t + I.nodeDemand (node - 1) ≤ I.vehicleCap) →
      ∃ t p, 0 ≤ t ∧ t < st.sol.numberTours ∧ 0 ≤ p ∧ p ≤ st.sol.numberNodesInTour t ∧
        st.sol.capacityUsageTour t + I.nodeDemand (node - 1) ≤ I.vehicleCap ∧
        (reinsert P I st node).sol = insertNode I st.sol (node - 1) t p ∧
        tourList (reinsert P I st node).sol t
          = (tourList st.sol t).take p.toNat ++ node :: (tourList st.sol t).drop p.toNat ∧
        (∀ t', t' ≠ t → tourList (reinsert P I st node).sol t' = tourList st.sol t') ∧
        (reinsert P I st node).sol.tourPerNode (node - 1) = t + 1 ∧
        ∀ t' p', 0 ≤ t' → t' < st.sol.numberTours → 0 ≤ p' →
          p' ≤ st.sol.numberNodesInTour t' →
          st.sol.capacityUsageTour t' + I.nodeDemand (node - 1) ≤ I.vehicleCap →
          insertionCost I st.sol (node - 1) t p ≤ insertionCost I st.sol (node - 1) t' p') := by
  obtain ⟨k1, k2⟩ := search_min P I st.sol st.tourIndices (node - 1) st.g
  have hre : ∀ b : Search, b = (forRange 0 st.sol.numberTours).foldl
      (tryTour P I st.sol st.tourIndices (node - 1))
      { g := st.g, tempPos := -1, tempTour := -1, tempCost := VERYLARGE } →
      b.tempPos ≠ -1 →
      (reinsert P I st node).sol = insertNode I st.sol (node - 1) b.tempTour b.tempPos := by
    intro b hb hne
    unfold reinsert
    dsimp only
    rw [← hb, if_neg hne]
  generalize hbdef : (forRange 0 st.sol.numberTours).foldl
      (tryTour P I st.sol st.tourIndices (node - 1))
      { g := st.g, tempPos := -1, tempTour := -1, tempCost := VERYLARGE } = b at k1 k2
  have first : (∃ j, j < (candidates I st.sol st.tourIndices (node - 1)).length ∧
        blinked P st.g j = false) →
      ∃ j t p, (candidates I st.sol st.tourIndices (node - 1))[j]? = some (t, p) ∧
        blinked P st.g j = false ∧
        (reinsert P I st node).sol = insertNode I st.sol (node - 1) t p ∧
        tourList (reinsert P I st node).sol t
          = (tourList st.sol t).take p.toNat ++ node :: (tourList st.sol t).drop p.toNat ∧
        (∀ t', t' ≠ t → tourList (reinsert P I st node).sol t' = tourList st.sol t') ∧
        (reinsert P I st node).sol.tourPerNode (node - 1) = t + 1 ∧
        ∀ j' c, (candidates I st.sol st.tourIndices (node - 1))[j']? = some c →
          blinked P st.g j' = false →
          insertionCost I st.sol (node - 1) t p
            ≤ insertionCost I st.sol (node - 1) c.1 c.2 := by
    rintro ⟨j, hj, hbl⟩
    have hne := (k1 j _ (List.getElem?_eq_getElem hj) hbl).1
    obtain ⟨j0, c0, h1, h2, h3, h4⟩ := k2 hne
    have hc0 : (candidates I st.sol st.tourIndices (node - 1))[j0]?
        = some (b.tempTour, b.tempPos) := by rw [← h3]; exact h1
    obtain ⟨_, _, _, _, _, a5, a6⟩ := mem_candidates.1 (List.getElem?_mem hc0)
    dsimp only at a5 a6
    have heq := hre b hbdef.symm hne
    obtain ⟨i1, i2, i3⟩ := insertNode_at I st.sol node b.tempTour b.tempPos a5 a6
    refine ⟨j0, b.tempTour, b.tempPos, hc0, h2, heq, by rw [heq]; exact i1,
      by rw [heq]; exact i2, by rw [heq]; exact i3, ?_⟩
    intro j' c hc hb'
    have := (k1 j' c hc hb').2
    rw [h4, h3] at this
    exact this
  refine ⟨first, ?_⟩
  intro hz hd ⟨t0, ht0, ht1, htn, hcap⟩
  have hnb := not_blinked_of_rate_zero P hz hd st.g
  obtain ⟨k0, hk0, hk1, hk2⟩ := hcov.2 t0 ht0 ht1
  have hmem0 : (t0, (0 : Int)) ∈ candidates I st.sol st.tourIndices (node - 1) :=
    mem_candidates.2 ⟨k0, hk0, hk1, hk2.symm, hcap, le_refl _, htn⟩
  obtain ⟨j0, hj0, _⟩ := List.getElem_of_mem hmem0
  obtain ⟨j, t, p, h1, _, h3, i1, i2, i3, h4⟩ := first ⟨j0, hj0, hnb j0⟩
  have hmem : (t, p) ∈ candidates I st.sol st.tourIndices (node - 1) :=
    List.getElem?_mem h1
  obtain ⟨k, a1, a2, a3, a4, a5, a6⟩ := mem_candidates.1 hmem
  dsimp only at a3 a4 a5 a6
  have hidx : 0 ≤ t ∧ t < st.sol.numberTours := by
    rw [a3]
    exact hcov.1 k a1 a2
  refine ⟨t, p, hidx.1, hidx.2, a5, a6, a4, h3, i1, i2, i3, ?_⟩
  intro t' p' b1 b2 b3 b4 b5
  obtain ⟨k', c1, c2, c3⟩ := hcov.2 t' b1 b2
  have hmem' : (t', p') ∈ candidates I st.sol st.tourIndices (node - 1) :=
    mem_candidates.2 ⟨k', c1, c2, c3.symm, b5, b3, b4⟩
  obtain ⟨j', hj', hje⟩ := List.getElem_of_mem hmem'
  have := h4 j' (t', p') (by rw [List.getElem?_eq_getElem hj', hje]) (hnb j')
  exact this

/-- The body of the reinsertion loop keeps `tourIndices` a list of all the tours. -/
theorem reinsert_covers (P : Params) (I : Instance) (st : Recreate) (x : Int)
    (h : CoversTours st) : CoversTours (reinsert P I st x) := by
  obtain ⟨T, A, B, _, _, _, _, hc⟩ := reinsert_cases P I st x h.1
  rcases hc with ⟨_, _, _, _, h1, h2, _⟩ | ⟨_, _, _, h1, h2, _⟩
  · unfold CoversTours
    rw [h1, h2]
    exact h
  · unfold CoversTours
    rw [h1, h2]
    constructor
    · intro k hk0 hk1
      by_cases hk : k = st.sol.numberTours
      · simp only [upd, hk, if_true]
        omega
      · simp only [upd, hk, if_false]
        have := h.1 k hk0 (by omega)
        omega
    · intro t ht0 ht1
      by_cases ht : t = st.sol.numberTours
      · exact ⟨st.sol.numberTours, by omega, by omega, by simp [upd, ht]⟩
      · obtain ⟨k, a1, a2, a3⟩ := h.2 t ht0 (by omega)
        refine ⟨k, a1, by omega, ?_⟩
        have : k ≠ st.sol.numberTours := by omega
        simp only [upd, this, if_false]
        exact a3

theorem reinsert_loop_covers (P : Params) (I : Instance) :
    ∀ (R : List Int) (st : Recreate), CoversTours st → CoversTours (R.foldl (reinsert P I) st)
  | [], _, h => h
  | x :: R, st, h => reinsert_loop_covers P I R (reinsert P I st x) (reinsert_covers P I st x h)

/-- The sort of `recreate` returns an order of all the tours: the reinsertion loop starts with
`tourIndices` a list of all the tours. -/
theorem recreate_start_covers (s : Solution) (g : Rng) (hnt : 0 ≤ s.numberTours) :
    ∃ v' c', (∀ fuel, 2 * s.numberTours.toNat + 2 ≤ fuel →
        quicksortDecrDouble fuel 0 (s.numberTours - 1) (drawTourValues s g).1
          (forRange 0 s.numberTours) = some (v', c')) ∧
      ∀ g', CoversTours { sol := s, g := g', tourIndices := readL c' } := by
  have hlen := length_drawWeights (forRange 0 s.numberTours) g
  rw [length_forRange] at hlen
  obtain ⟨v', c', hq, hre, _⟩ := quicksortInt_spec dir_decr s.numberTours.toNat 0
    (s.numberTours - 1) (drawWeights (forRange 0 s.numberTours) g).1
    (forRange 0 s.numberTours) (le_refl _) (by rw [hlen]; omega)
    (by rw [length_forRange]; omega) (by omega)
  have hcperm : c'.Perm (forRange 0 s.numberTours) :=
    perm_snd_of_zip hre.perm (by rw [hre.lenV, hre.lenC, hlen, length_forRange])
      (by rw [hlen, length_forRange])
  have hclen : c'.length = s.numberTours.toNat := by
    rw [hre.lenC, length_forRange]
    simp
  refine ⟨v', c', hq, fun g' => ⟨?_, ?_⟩⟩
  · intro k hk0 hk1
    dsimp only at hk1 ⊢
    have := hcperm.subset (readL_mem c' k hk0 (by rw [hclen]; omega))
    rw [mem_forRange] at this
    exact this
  · intro t ht0 ht1
    dsimp only at ht1 ⊢
    have hm : t ∈ c' := hcperm.symm.subset (mem_forRange.2 ⟨ht0, ht1⟩)
    obtain ⟨i, hi, hie⟩ := List.getElem_of_mem hm
    refine ⟨(i : Int), by omega, by omega, ?_⟩
    unfold readL
    simp [List.getD_eq_getElem?_getD, List.getElem?_eq_getElem hi, hie]

theorem coversTours_blinkState : CoversTours blinkState := by
  constructor
  · intro k _ _
    exact ⟨le_refl _, (by decide : (0 : Int) < 1)⟩
  · intro t h0 h1
    have h1' : t < 1 := h1
    exact ⟨0, le_refl _, by decide, by
      show (0 : Int) = t
      omega⟩

/-- The array `tourIndices` of `midState` lists its one tour. -/
theorem coversTours_midState : CoversTours midState := by
  constructor
  · intro k _ _
    exact ⟨le_refl _, (by decide : (0 : Int) < 1)⟩
  · intro t h0 h1
    have h1' : t < 1 := h1
    exact ⟨0, le_refl _, by decide, by
      show (0 : Int) = t
      omega⟩

/-- The positions that the search examines in `midState` for customer `4`, their costs and the
draws that blink. -/
theorem midState_search :
    candidates rectangle midState.sol midState.tourIndices (4 - 1) = [(0, 0), (0, 1), (0, 2)] ∧
      (insertionCost rectangle midState.sol (4 - 1) 0 0 = 6 ∧
        insertionCost rectangle midState.sol (4 - 1) 0 1 = 2 ∧
        insertionCost rectangle midState.sol (4 - 1) 0 2 = 4) ∧
      (blinked defaultParams midState.g 0 = false ∧ blinked defaultParams midState.g 1 = true ∧
        blinked defaultParams midState.g 2 = false) ∧
      tourList midState.sol 0 = [2, 3] := by
  refine ⟨by decide, by decide, ?_, by decide⟩
  decide

set_option maxRecDepth 100000 in
/-- Witness for `reinsert_at_min_cost` on `midState`, where the three positions of the tour
`[2, 3]` cost `6`, `2` and `4` for customer `4`: without blinking the theorem leaves only the
position `1`, so that the tour becomes `[2, 4, 3]`; with the default `blinkRate` and the draws
of `midState` the position `1` is skipped, the theorem leaves only the position `2` and the
tour becomes `[2, 3, 4]`. -/
theorem reinsert_at_min_cost_witness :
    CoversTours midState ∧
      tourList (reinsert noBlink rectangle midState 4).sol 0 = [2, 4, 3] ∧
      (reinsert noBlink rectangle midState 4).sol.tourPerNode (4 - 1) = 1 ∧
      tourList (reinsert defaultParams rectangle midState 4).sol 0 = [2, 3, 4] ∧
      (reinsert defaultParams rectangle midState 4).sol.tourPerNode (4 - 1) = 1 := by
  obtain ⟨hc, ⟨c0, c1, c2⟩, ⟨b0, b1, b2⟩, hl⟩ := midState_search
  have A := (reinsert_at_min_cost noBlink rectangle midState 4 coversTours_midState).2
    (by decide) (by decide) ⟨0, by decide, by decide, by decide, by decide⟩
  have B := (reinsert_at_min_cost defaultParams rectangle midState 4 coversTours_midState).1
    ⟨0, by rw [hc]; decide, b0⟩
  refine ⟨coversTours_midState, ?_, ?_, ?_, ?_⟩
  · obtain ⟨t, p, t0, t1, p0, p1, _, _, h, _, _, hmin⟩ := A
    have ht : t = 0 := by
      have : t < 1 := t1
      omega
    subst ht
    have hp : p ≤ 2 := p1
    have h01 := hmin 0 1 (by decide) (by decide) (by decide) (by decide) (by decide)
    rw [c1] at h01
    have hp1 : p = 1 := by
      rcases (by omega : p = 0 ∨ p = 1 ∨ p = 2) with e | e | e
      · rw [e, c0] at h01
        omega
      · exact e
      · rw [e, c2] at h01
        omega
    rw [h, hp1, hl]
    rfl
  · obtain ⟨t, p, t0, t1, _, _, _, _, _, _, h, _⟩ := A
    have : t < 1 := t1
    rw [h]
    omega
  · obtain ⟨j, t, p, h1, h2, _, h, _, _, hmin⟩ := B
    rw [hc] at h1 hmin
    have h02 := hmin 2 (0, 2) rfl b2
    rw [c2] at h02
    have hj : j < 3 := by
      obtain ⟨hj, _⟩ := List.getElem?_eq_some_iff.1 h1
      exact hj
    have htp : t = 0 ∧ p = 2 := by
      rcases (by omega : j = 0 ∨ j = 1 ∨ j = 2) with e | e | e
      · subst e
        have e2 : ((0 : Int), (0 : Int)) = (t, p) := Option.some.inj h1
        rw [← (Prod.mk.inj e2).1, ← (Prod.mk.inj e2).2, c0] at h02
        omega
      · subst e
        rw [b1] at h2
        exact absurd h2 (by decide)
      · subst e
        have e2 : ((0 : Int), (2 : Int)) = (t, p) := Option.some.inj h1
        exact ⟨(Prod.mk.inj e2).1.symm, (Prod.mk.inj e2).2.symm⟩
    obtain ⟨e1, e2⟩ := htp
    subst e1 e2
    rw [h, hl]
    rfl
  · obtain ⟨j, t, p, h1, _, _, _, _, h, _⟩ := B
    rw [hc] at h1
    have hj : j < 3 := by
      obtain ⟨hj, _⟩ := List.getElem?_eq_some_iff.1 h1
      exact hj
    have ht : t = 0 := by
      rcases (by omega : j = 0 ∨ j = 1 ∨ j = 2) with e | e | e <;> subst e
      · exact ((Prod.mk.inj (Option.some.inj h1 : ((0 : Int), (0 : Int)) = (t, p))).1).symm
      · exact ((Prod.mk.inj (Option.some.inj h1 : ((0 : Int), (1 : Int)) = (t, p))).1).symm
      · exact ((Prod.mk.inj (Option.some.inj h1 : ((0 : Int), (2 : Int)) = (t, p))).1).symm
    rw [h, ht]
    rfl

/-! ### The sorted node orders (C22) -/

theorem getI_cons_customers (I : Instance) (j : Int) (h1 : 1 ≤ j) (h2 : j < I.numberNodes) :
    getI (0 :: customers I) j = j + 1 := by
  have e := map_readL_cons 0 (customers I) I.numberNodes
    (by rw [length_customers]; omega)
  have hm : j ∈ forRange 1 I.numberNodes := mem_forRange.2 ⟨h1, h2⟩
  have := (List.map_inj_left.1 (show (forRange 1 I.numberNodes).map (readL (0 :: customers I))
    = (forRange 1 I.numberNodes).map (· + 1) from e)) j hm
  exact this

theorem getI_cons_map (f : Int → Int) (n j : Int) (h1 : 1 ≤ j) (h2 : j < n) :
    getI (0 :: (forRange 1 n).map f) j = f j := by
  have e := map_readL_cons 0 ((forRange 1 n).map f) n
    (by rw [List.length_map, length_forRange]; omega)
  have hm : j ∈ forRange 1 n := mem_forRange.2 ⟨h1, h2⟩
  exact (List.map_inj_left.1 e) j hm

/-- One sort of `startSol`, of the ids `2..numberNodes` by the weights `w[j] = wf j`: it
returns, the sorted ids are the customer ids, and their weights are in the order of the
sort. -/
theorem sort_order (I : Instance) {key : Int → Int} {lt : Int → Int → Bool} (hd : Dir key lt)
    (wf : Int → Int) (w : List Int) (hw : w.length = (I.numberNodes - 1).toNat)
    (hwf : ∀ j, 1 ≤ j → j < I.numberNodes → getI (0 :: w) j = wf j) :
    ∃ v' c', (∀ fuel, 2 * I.numberNodes.toNat + 2 ≤ fuel →
        quicksortInt lt fuel 1 (I.numberNodes - 1) (0 :: w) (0 :: customers I)
          = some (v', c')) ∧
      ((forRange 1 I.numberNodes).map (readL c')).Perm (customers I) ∧
      ∀ i j, 1 ≤ i → i ≤ j → j ≤ I.numberNodes - 1 →
        key (wf (readL c' i - 1)) ≤ key (wf (readL c' j - 1)) := by
  have hlc := length_customers I
  have hids : (0 :: customers I).length = (I.numberNodes - 1).toNat + 1 := by
    rw [List.length_cons, hlc]
  have hwl : (0 :: w).length = (I.numberNodes - 1).toNat + 1 := by
    rw [List.length_cons, hw]
  obtain ⟨v', c', r1, r2, r3⟩ := quicksortInt_spec hd (I.numberNodes - 1).toNat 1
    (I.numberNodes - 1) (0 :: w) (0 :: customers I) (by norm_num)
    (by rw [hwl]; omega) (by rw [hids]; omega) (by omega)
  refine ⟨v', c', fun fuel hf => r1 fuel (by omega), ?_, ?_⟩
  · by_cases hn : 1 ≤ I.numberNodes
    · exact order_perm I hn (by rw [hwl, hlc]) r2
    · unfold customers
      rw [forRange_eq_nil (by omega)]
      exact List.Perm.refl _
  · intro i j h1 h2 h3
    have key_at : ∀ i, 1 ≤ i → i ≤ I.numberNodes - 1 → getI v' i = wf (readL c' i - 1) := by
      intro i h1 h3
      obtain ⟨k, k1, k2, k3, k4⟩ := r2.exists_index (by norm_num) (by rw [hwl]; omega)
        (by rw [hids]; omega) i h1 h3
      rw [getI_cons_customers I k k1 (by omega)] at k4
      rw [hwf k k1 (by omega)] at k3
      have : readL c' i = k + 1 := k4
      rw [k3, this]
      congr 1
      ring
    rw [← key_at i h1 (by omega), ← key_at j (by omega) h3]
    exact r3 i j h1 h2 h3

/-- The function `startSol` returns, and its three sorted orders are permutations of the
customer ids in the order of their weights. -/
theorem startSol_orders (P : Params) (I : Instance) (currentSol : Solution) (g : Rng) :
    ∃ O g1, (∀ fuel, 2 * I.numberNodes.toNat + 2 ≤ fuel →
        startSol fuel P I currentSol g = some (startSolTours I currentSol, O, g1)) ∧
      (((forRange 1 I.numberNodes).map (readL O.copyRemovedNodeDemand)).Perm (customers I) ∧
        ∀ i j, 1 ≤ i → i ≤ j → j ≤ I.numberNodes - 1 →
          I.nodeDemand (readL O.copyRemovedNodeDemand j - 1)
            ≤ I.nodeDemand (readL O.copyRemovedNodeDemand i - 1)) ∧
      (((forRange 1 I.numberNodes).map (readL O.copyRemovedNodeDistLarge)).Perm (customers I) ∧
        ∀ i j, 1 ≤ i → i ≤ j → j ≤ I.numberNodes - 1 →
          I.distance (readL O.copyRemovedNodeDistLarge j - 1) 0
            ≤ I.distance (readL O.copyRemovedNodeDistLarge i - 1) 0) ∧
      (((forRange 1 I.numberNodes).map (readL O.copyRemovedNodeDistSmall)).Perm (customers I) ∧
        ∀ i j, 1 ≤ i → i ≤ j → j ≤ I.numberNodes - 1 →
          I.distance (readL O.copyRemovedNodeDistSmall i - 1) 0
            ≤ I.distance (readL O.copyRemovedNodeDistSmall j - 1) 0) ∧
      O.probRandom = startSolProbRandom P ∧
      O.probDemandLarge = startSolProbDemandLarge P ∧
      O.probDistLarge = startSolProbDistLarge P := by
  have hlr : (forRange 1 I.numberNodes).length = (I.numberNodes - 1).toNat := length_forRange _ _
  have hlw := length_drawWeights (forRange 1 I.numberNodes) g
  rw [hlr] at hlw
  obtain ⟨v1, c1, s1, _, _⟩ := sort_order I dir_incr
    (fun j => getI (0 :: (drawWeights (forRange 1 I.numberNodes) g).1) j)
    (drawWeights (forRange 1 I.numberNodes) g).1 hlw (fun _ _ _ => rfl)
  obtain ⟨v2, c2, s2, p2, o2⟩ := sort_order I dir_decr I.nodeDemand
    ((forRange 1 I.numberNodes).map I.nodeDemand) (by rw [List.length_map, hlr])
    (fun j h1 h2 => getI_cons_map _ _ j h1 h2)
  obtain ⟨v3, c3, s3, p3, o3⟩ := sort_order I dir_decr (fun index1 => I.distance index1 0)
    ((forRange 1 I.numberNodes).map (fun index1 => I.distance index1 0))
    (by rw [List.length_map, hlr]) (fun j h1 h2 => getI_cons_map _ _ j h1 h2)
  obtain ⟨v4, c4, s4, p4, o4⟩ := sort_order I dir_incr (fun index1 => I.distance index1 0)
    ((forRange 1 I.numberNodes).map (fun index1 => I.distance index1 0))
    (by rw [List.length_map, hlr]) (fun j h1 h2 => getI_cons_map _ _ j h1 h2)
  refine ⟨⟨c1, c2, c3, c4,
      startSolProbRandom P, startSolProbDemandLarge P, startSolProbDistLarge P⟩,
    (drawWeights (forRange 1 I.numberNodes) g).2, ?_, ⟨p2, ?_⟩, ⟨p3, ?_⟩, ⟨p4, ?_⟩, rfl, rfl, rfl⟩
  · intro fuel hf
    have e1 := s1 fuel hf
    have e2 := s2 fuel hf
    have e3 := s3 fuel hf
    have e4 := s4 fuel hf
    unfold customers at e1 e2 e3 e4
    unfold startSol quicksortIncrDouble quicksortDecrInt quicksortIncrInt
    simp only [e1, e2, e3, e4, Option.bind_eq_bind, Option.some_bind, Option.pure_def]
    rfl
  · intro i j h1 h2 h3
    have := o2 i j h1 h2 h3
    dsimp only at this ⊢
    omega
  · intro i j h1 h2 h3
    have := o3 i j h1 h2 h3
    dsimp only at this ⊢
    omega
  · intro i j h1 h2 h3
    exact o4 i j h1 h2 h3

/-- C22: `startSol()` returns, and after it the entries `1..numberNodes-1` of each of
`copyRemovedNodeDemand`, `copyRemovedNodeDistLarge` and `copyRemovedNodeDistSmall` are a
permutation of the customer ids `2..numberNodes`, ordered respectively by non-increasing demand,
by non-increasing distance to the depot and by non-decreasing distance to the depot (the
distance `distance[c][0]` of the customer with index `c`). -/
theorem startSol_sorted_orders (P : Params) (I : Instance) (currentSol : Solution) (g : Rng) :
    ∃ s O g1, (∀ fuel, 2 * I.numberNodes.toNat + 2 ≤ fuel →
        startSol fuel P I currentSol g = some (s, O, g1)) ∧
      ((forRange 1 I.numberNodes).map (readL O.copyRemovedNodeDemand)).Perm (customers I) ∧
      ((forRange 1 I.numberNodes).map (readL O.copyRemovedNodeDistLarge)).Perm (customers I) ∧
      ((forRange 1 I.numberNodes).map (readL O.copyRemovedNodeDistSmall)).Perm (customers I) ∧
      ∀ i j, 1 ≤ i → i ≤ j → j ≤ I.numberNodes - 1 →
        I.nodeDemand (readL O.copyRemovedNodeDemand j - 1)
          ≤ I.nodeDemand (readL O.copyRemovedNodeDemand i - 1) ∧
        I.distance (readL O.copyRemovedNodeDistLarge j - 1) 0
          ≤ I.distance (readL O.copyRemovedNodeDistLarge i - 1) 0 ∧
        I.distance (readL O.copyRemovedNodeDistSmall i - 1) 0
          ≤ I.distance (readL O.copyRemovedNodeDistSmall j - 1) 0 := by
  obtain ⟨O, g1, hret, ⟨p2, o2⟩, ⟨p3, o3⟩, ⟨p4, o4⟩, _⟩ := startSol_orders P I currentSol g
  exact ⟨startSolTours I currentSol, O, g1, hret, p2, p3, p4,
    fun i j h1 h2 h3 => ⟨o2 i j h1 h2 h3, o3 i j h1 h2 h3, o4 i j h1 h2 h3⟩⟩

/-- Witness for `startSol_sorted_orders`: the instance `fourCustomers`. -/
theorem startSol_sorted_orders_witness :
    ∃ s O g1, (∀ fuel, 2 * fourCustomers.numberNodes.toNat + 2 ≤ fuel →
        startSol fuel defaultParams fourCustomers Solution.zero
          ⟨88675123, 123456789, 362436069, 521288629⟩ = some (s, O, g1)) ∧
      ((forRange 1 5).map (readL O.copyRemovedNodeDemand)).Perm (customers fourCustomers) ∧
      ((forRange 1 5).map (readL O.copyRemovedNodeDistLarge)).Perm (customers fourCustomers) ∧
      ((forRange 1 5).map (readL O.copyRemovedNodeDistSmall)).Perm (customers fourCustomers) ∧
      ∀ i j, 1 ≤ i → i ≤ j → j ≤ fourCustomers.numberNodes - 1 →
        fourCustomers.nodeDemand (readL O.copyRemovedNodeDemand j - 1)
          ≤ fourCustomers.nodeDemand (readL O.copyRemovedNodeDemand i - 1) ∧
        fourCustomers.distance (readL O.copyRemovedNodeDistLarge j - 1) 0
          ≤ fourCustomers.distance (readL O.copyRemovedNodeDistLarge i - 1) 0 ∧
        fourCustomers.distance (readL O.copyRemovedNodeDistSmall i - 1) 0
          ≤ fourCustomers.distance (readL O.copyRemovedNodeDistSmall j - 1) 0 :=
  startSol_sorted_orders defaultParams fourCustomers Solution.zero
    ⟨88675123, 123456789, 362436069, 521288629⟩

/-! ### The probability bands (C23) -/

theorem Dbl.lt_iff (a b : Dbl) (ha : 0 < a.den) (hb : 0 < b.den) :
    Dbl.lt a b = true ↔ a.toRat < b.toRat := by
  unfold Dbl.lt Dbl.toRat
  have ha' : (0 : ℚ) < (a.den : ℚ) := by exact_mod_cast ha
  have hb' : (0 : ℚ) < (b.den : ℚ) := by exact_mod_cast hb
  rw [decide_eq_true_eq, div_lt_div_iff₀ ha' hb']
  constructor
  · intro h
    exact_mod_cast h
  · intro h
    exact_mod_cast h

theorem sortRemoved_selected (I : Instance) (O : Orders) (s : Solution) (randProb : Dbl) :
    sortRemoved I O s randProb = collectRemoved I s (selectedOrder O randProb) := by
  unfold sortRemoved selectedOrder
  split_ifs <;> rfl

theorem selectedOrder_perm (I : Instance) (O : Orders) (randProb : Dbl) (hO : OrdersOK I O) :
    ((forRange 1 I.numberNodes).map (readL (selectedOrder O randProb))).Perm (customers I) := by
  unfold selectedOrder
  split_ifs
  · exact hO.random
  · exact hO.demand
  · exact hO.distLarge
  · exact hO.distSmall

/-- C28: for every ruined working solution `s` (every customer in exactly one tour or exactly
once among the absent nodes, `tourPerNode = -1` exactly for the absent ones) and node orders
that list the customers, the reinsertion sequence `copyRemovedNode[0..numberAbsentNodes-1]`
that `recreate()` builds has `numberAbsentNodes` entries, contains every absent node exactly
once and no other node (it is a permutation of the absent nodes, without repetition), and
lists them in the order in which they occur in the entries `1..numberNodes-1` of the priority
ordering selected for the call: it is that ordering with the nodes that are not absent left
out. -/
theorem copyRemovedNode_follows_order (I : Instance) (O : Orders) (s : Solution) (g : Rng)
    (hO : OrdersOK I O) (hs : Ruined I s) :
    ((copyRemovedNode I O s g).length : Int) = s.numberAbsentNodes ∧
    (copyRemovedNode I O s g).Perm (absentList s) ∧
    (copyRemovedNode I O s g).Nodup ∧
    (∀ x, x ∈ copyRemovedNode I O s g ↔ x ∈ absentList s) ∧
    (copyRemovedNode I O s g).Sublist
      ((forRange 1 I.numberNodes).map (readL (selectedOrder O (unitDraw g).1))) ∧
    copyRemovedNode I O s g
      = ((forRange 1 I.numberNodes).map (readL (selectedOrder O (unitDraw g).1))).filter
          (fun x => decide (x ∈ absentList s)) := by
  have hperm : (copyRemovedNode I O s g).Perm (absentList s) :=
    sortRemoved_perm I O s (unitDraw g).1 hs hO
  have hndall : (tourNodes s ++ absentList s).Nodup := (hs.perm.nodup_iff).2 (nodup_customers I)
  have hnd : (absentList s).Nodup := (List.nodup_append.1 hndall).2.1
  have hord := selectedOrder_perm I O (unitDraw g).1 hO
  -- the collected nodes are the order with the nodes in tours left out
  have hfilter : copyRemovedNode I O s g
      = ((forRange 1 I.numberNodes).map (readL (selectedOrder O (unitDraw g).1))).filter
          (fun x => decide (s.tourPerNode (x - 1) = -1)) := by
    have e : copyRemovedNode I O s g
        = (((forRange 1 I.numberNodes).map (readL (selectedOrder O (unitDraw g).1))).filter
          (fun x => decide (s.tourPerNode (x - 1) = -1))).take s.numberAbsentNodes.toNat := by
      unfold copyRemovedNode
      rw [sortRemoved_selected, collectRemoved_eq]
    have hl : (((forRange 1 I.numberNodes).map (readL (selectedOrder O (unitDraw g).1))).filter
        (fun x => decide (s.tourPerNode (x - 1) = -1))).length ≤ s.numberAbsentNodes.toNat := by
      have h1 : (((forRange 1 I.numberNodes).map
          (readL (selectedOrder O (unitDraw g).1))).filter
          (fun x => decide (s.tourPerNode (x - 1) = -1))).Perm (absentList s) := by
        refine ((hord.trans hs.perm.symm).filter _).trans ?_
        rw [List.filter_append]
        have e1 : (tourNodes s).filter (fun x => decide (s.tourPerNode (x - 1) = -1)) = [] := by
          rw [List.filter_eq_nil_iff]
          intro x hx
          obtain ⟨t, h0, h1, hm⟩ := mem_tourNodes.1 hx
          have := hs.inTour t h0 h1 x hm
          simp only [decide_eq_true_eq]
          omega
        have e2 : (absentList s).filter (fun x => decide (s.tourPerNode (x - 1) = -1))
            = absentList s := by
          rw [List.filter_eq_self]
          intro x hx
          simpa using hs.inAbsent x hx
        rw [e1, e2, List.nil_append]
      rw [h1.length_eq, length_absentList]
    rw [e, List.take_of_length_le hl]
  have hlen : ((copyRemovedNode I O s g).length : Int) = s.numberAbsentNodes := by
    rw [hperm.length_eq, length_absentList]
    have := hs.na
    omega
  refine ⟨hlen, hperm, (hperm.nodup_iff).2 hnd, fun x => hperm.mem_iff, ?_, ?_⟩
  · rw [hfilter]
    exact List.filter_sublist _
  · rw [hfilter]
    apply List.filter_congr
    intro x hx
    have hxc : x ∈ customers I := hord.subset hx
    have hxs : x ∈ tourNodes s ++ absentList s := hs.perm.symm.subset hxc
    by_cases ha : x ∈ absentList s
    · simp [ha, hs.inAbsent x ha]
    · have ht : x ∈ tourNodes s := by
        rcases List.mem_append.1 hxs with h | h
        · exact h
        · exact absurd h ha
      obtain ⟨t, h0, h1, hm⟩ := mem_tourNodes.1 ht
      have := hs.inTour t h0 h1 x hm
      have hne : s.tourPerNode (x - 1) ≠ -1 := by omega
      simp [ha, hne]

theorem ordersOK_fourOrders : OrdersOK fourCustomers fourOrders := by
  have hc : customers fourCustomers = [2, 3, 4, 5] := by decide
  refine ⟨?_, ?_, ?_, ?_⟩
  · rw [hc, show (forRange 1 fourCustomers.numberNodes).map
      (readL fourOrders.copyRemovedNodeRandom) = [3, 4, 5, 2] from by decide]
    decide
  · rw [hc, show (forRange 1 fourCustomers.numberNodes).map
      (readL fourOrders.copyRemovedNodeDemand) = [3, 2, 4, 5] from by decide]
    decide
  · rw [hc, show (forRange 1 fourCustomers.numberNodes).map
      (readL fourOrders.copyRemovedNodeDistLarge) = [3, 5, 2, 4] from by decide]
    decide
  · rw [hc, show (forRange 1 fourCustomers.numberNodes).map
      (readL fourOrders.copyRemovedNodeDistSmall) = [4, 2, 5, 3] from by decide]
    decide

/-- Witness for `copyRemovedNode_follows_order`: the solution that `ruin` leaves of
`threeAndOne`, with the customers `4` and `5` absent. -/
theorem copyRemovedNode_follows_order_witness :
    ((copyRemovedNode fourCustomers fourOrders
        (ruin defaultParams fourCustomers (fun _ => false) threeAndOne
          ⟨88675123, 123456789, 362436069, 521288629⟩).1 ⟨1, 2, 3, 4⟩).length : Int)
      = (ruin defaultParams fourCustomers (fun _ => false) threeAndOne
          ⟨88675123, 123456789, 362436069, 521288629⟩).1.numberAbsentNodes ∧
    (copyRemovedNode fourCustomers fourOrders
        (ruin defaultParams fourCustomers (fun _ => false) threeAndOne
          ⟨88675123, 123456789, 362436069, 521288629⟩).1 ⟨1, 2, 3, 4⟩).Perm
      (absentList (ruin defaultParams fourCustomers (fun _ => false) threeAndOne
          ⟨88675123, 123456789, 362436069, 521288629⟩).1) :=
  let ⟨h1, h2, _⟩ := copyRemovedNode_follows_order fourCustomers fourOrders
    (ruin defaultParams fourCustomers (fun _ => false) threeAndOne
      ⟨88675123, 123456789, 362436069, 521288629⟩).1 ⟨1, 2, 3, 4⟩
    ordersOK_fourOrders
    (ruin_spec defaultParams fourCustomers (fun _ => false) threeAndOne
      ⟨88675123, 123456789, 362436069, 521288629⟩ (by decide) neighboursOK_fourCustomers
      tidy_threeAndOne)
  ⟨h1, h2⟩

/-! ### The acceptance test (C26, C29, C30) -/

/-- One iteration of `localSearchMH` in terms of the candidate that `SISRs` returns: the
candidate replaces the current solution when the test accepts it and the best solution when it
is shorter. -/
theorem lsStep_result (P : Params) (I : Instance) (O : Orders)
    (accept : Int → Nat → Int → Int → Bool) (stack : Int → Int → Bool) (st : Search3)
    (index1 : Int) :
    ∃ cand g1 N,
      (∀ fuel, N ≤ fuel →
        SISRs fuel P I O (stack index1) st.currentSol st.SISRsSol st.g = some (cand, g1)) ∧
      ∀ fuel, N ≤ fuel → lsStep fuel P I O accept stack st index1 = some
        ⟨if accept index1 (xorshift128 g1).1 cand.totalDist st.currentSol.totalDist then
            copySISRsToCurrent I cand st.currentSol
          else st.currentSol,
          if cand.totalDist < st.bestSol.totalDist then copySISRsToBest cand st.bestSol
          else st.bestSol,
          cand, (xorshift128 g1).2⟩ := by
  obtain ⟨r, hr⟩ := recreate_returns P I O
    (ruin P I (stack index1) (copyCurrentToSISRs I st.currentSol st.SISRsSol) st.g).1
    (ruin P I (stack index1) (copyCurrentToSISRs I st.currentSol st.SISRsSol) st.g).2
  refine ⟨{ r.1 with totalDist := computeTotalDist I r.1 }, r.2,
    2 * (ruin P I (stack index1) (copyCurrentToSISRs I st.currentSol st.SISRsSol)
      st.g).1.numberTours.toNat + 2, ?_, ?_⟩
  · intro fuel hf
    unfold SISRs
    simp only [hr fuel hf, Option.bind_eq_bind, Option.some_bind, Option.pure_def]
  · intro fuel hf
    unfold lsStep SISRs
    simp only [hr fuel hf, Option.bind_eq_bind, Option.some_bind, Option.pure_def]

theorem Dbl.toRat_nonpos (a : Dbl) (h0 : a.num ≤ 0) (h1 : 0 < a.den) : a.toRat ≤ 0 := by
  unfold Dbl.toRat
  have : (a.num : ℚ) ≤ 0 := by exact_mod_cast h0
  have : (0 : ℚ) < (a.den : ℚ) := by exact_mod_cast h1
  exact div_nonpos_of_nonpos_of_nonneg (by assumption) (le_of_lt this)

/-- The stand-in `logBound` has the sign of the logarithm on the draws in `(0, 1)`. -/
theorem logBound_sign (x : Dbl) (h0 : 0 < x.num) (h1 : x.num < x.den) :
    (logBound x).num ≤ 0 ∧ 0 < (logBound x).den := by
  have hd : 0 < (Dbl.sub x (Dbl.ofInt 1)).den := by
    show 0 < x.den * 1
    omega
  have hn : (Dbl.sub x (Dbl.ofInt 1)).num ≤ 0 := by
    show x.num * 1 - 1 * x.den ≤ 0
    omega
  exact ⟨(Dbl.round_num_sign 53 _ (by norm_num) hd).2.2.2.2 hn, Dbl.round53_den_pos _ hd⟩

/-- The temperature of every iteration is a finite value that is not negative when
`startTemp` and `tempConst` are. -/
theorem currentTempAt_nonneg (startTemp tempConst : Dbl) (index1 : Int)
    (hs : 0 ≤ startTemp.num ∧ 0 < startTemp.den) (hc : 0 ≤ tempConst.num ∧ 0 < tempConst.den) :
    0 ≤ (currentTempAt startTemp tempConst index1).num ∧
      0 < (currentTempAt startTemp tempConst index1).den := by
  unfold currentTempAt
  generalize forRange 0 index1 = l
  induction l generalizing startTemp with
  | nil => exact hs
  | cons a l ih =>
    rw [List.foldl_cons]
    apply ih
    have md : 0 < (Dbl.mul startTemp tempConst).den := by
      show 0 < startTemp.den * tempConst.den
      exact mul_pos hs.2 hc.2
    have mn : 0 ≤ (Dbl.mul startTemp tempConst).num := by
      show 0 ≤ startTemp.num * tempConst.num
      exact mul_nonneg hs.1 hc.1
    exact ⟨Dbl.round53_num_nonneg _ md mn, Dbl.round53_den_pos _ md⟩

/-- The threshold of the acceptance test is at least the current distance, and the test accepts
every strictly shorter candidate, for a temperature that is not negative and a draw in
`(0, 1)`. -/
theorem acceptanceTest_improving (lg : Dbl → Dbl)
    (hlg : ∀ x : Dbl, 0 < x.num → x.num < x.den → (lg x).num ≤ 0 ∧ 0 < (lg x).den)
    (currentTemp U : Dbl) (cand cur : Int) (hT0 : 0 ≤ currentTemp.num)
    (hTd : 0 < currentTemp.den) (hU0 : 0 < U.num) (hU1 : U.num < U.den)
    (hcur : |cur| < 2 ^ 53) :
    0 < (acceptanceThreshold lg currentTemp U cur).den ∧
    (cur : ℚ) ≤ (acceptanceThreshold lg currentTemp U cur).toRat ∧
    (cand < cur → acceptanceTest lg currentTemp U cand cur = true) := by
  obtain ⟨l0, ld⟩ := hlg U hU0 hU1
  have md : 0 < (Dbl.mul currentTemp (lg U)).den := by
    show 0 < currentTemp.den * (lg U).den
    exact mul_pos hTd ld
  have mn : (Dbl.mul currentTemp (lg U)).num ≤ 0 := by
    show currentTemp.num * (lg U).num ≤ 0
    exact mul_nonpos_of_nonneg_of_nonpos hT0 l0
  have pd := Dbl.round53_den_pos _ md
  have pn := (Dbl.round_num_sign 53 _ (by norm_num) md).2.2.2.2 mn
  have pv := Dbl.toRat_nonpos _ pn pd
  have sd : 0 < (Dbl.sub (Dbl.ofInt cur)
      (Dbl.round53 (Dbl.mul currentTemp (lg U)))).den := by
    show 0 < 1 * (Dbl.round53 (Dbl.mul currentTemp (lg U))).den
    omega
  have sv := Dbl.toRat_sub (Dbl.ofInt cur) (Dbl.round53 (Dbl.mul currentTemp (lg U)))
    (by simp [Dbl.ofInt]) (by omega)
  rw [Dbl.toRat_ofInt] at sv
  have td := Dbl.round53_den_pos _ sd
  have tv := Dbl.le_round 53 _ _ (by norm_num) sd (representable_int 53 cur hcur)
    (by
      rw [sv]
      have : (Dbl.round53 (Dbl.mul currentTemp (lg U))).toRat ≤ 0 := pv
      linarith)
  refine ⟨td, tv, fun hlt => ?_⟩
  unfold acceptanceTest
  rw [if_neg (by omega)]
  have : (cand : ℚ) < (cur : ℚ) := by exact_mod_cast hlt
  exact (Dbl.lt_iff (Dbl.ofInt cand) (acceptanceThreshold lg currentTemp U cur)
    (by simp [Dbl.ofInt]) td).2 (by rw [Dbl.toRat_ofInt]; exact lt_of_lt_of_le this tv)

/-- C26: for every temperature `currentTemp >= 0` and every draw `U` with `0 < U < 1` the
threshold `currentSol.totalDist - currentTemp*log(U)`, computed in `double` arithmetic with a
library `log` that is not positive on `(0, 1)`, is at least `currentSol.totalDist` (an `int`,
below `2^53` in absolute value), so the test accepts every candidate that is strictly shorter
than the current solution; and in every iteration of `localSearchMH` (it returns, given enough
fuel) with a `startTemp` and a `tempConst` that are not negative and a drawn word other than
`0`, a candidate with a `totalDist` strictly smaller than the current one becomes the current
solution: `copySISRsToCurrent` copies its distance and its tours to `currentSol`. -/
theorem improving_candidate_is_accepted (P : Params) (I : Instance) (O : Orders)
    (stack : Int → Int → Bool) (st : Search3) (index1 : Int) (lg : Dbl → Dbl)
    (startTemp tempConst : Dbl)
    (hlg : ∀ x : Dbl, 0 < x.num → x.num < x.den → (lg x).num ≤ 0 ∧ 0 < (lg x).den)
    (hs : 0 ≤ startTemp.num ∧ 0 < startTemp.den) (hc : 0 ≤ tempConst.num ∧ 0 < tempConst.den)
    (hcur : |st.currentSol.totalDist| < 2 ^ 53) :
    (∀ (currentTemp U : Dbl) (cand cur : Int), 0 ≤ currentTemp.num → 0 < currentTemp.den →
      0 < U.num → U.num < U.den → |cur| < 2 ^ 53 →
      (cur : ℚ) ≤ (acceptanceThreshold lg currentTemp U cur).toRat ∧
      (cand < cur → acceptanceTest lg currentTemp U cand cur = true)) ∧
    (∃ N, ∀ fuel, N ≤ fuel → ∃ cand g1,
      SISRs fuel P I O (stack index1) st.currentSol st.SISRsSol st.g = some (cand, g1)) ∧
    ∀ fuel cand g1,
      SISRs fuel P I O (stack index1) st.currentSol st.SISRsSol st.g = some (cand, g1) →
      (xorshift128 g1).1 ≠ 0 → cand.totalDist < st.currentSol.totalDist →
      ∃ st', lsStep fuel P I O (sourceAccept lg startTemp tempConst) stack st index1
          = some st' ∧
        st'.currentSol = copySISRsToCurrent I cand st.currentSol ∧
        st'.currentSol.totalDist = cand.totalDist ∧ SameTours cand st'.currentSol := by
  refine ⟨fun T U cand cur h1 h2 h3 h4 h5 =>
      (acceptanceTest_improving lg hlg T U cand cur h1 h2 h3 h4 h5).2, ?_, ?_⟩
  · obtain ⟨cand, g1, N, h1, _⟩ := lsStep_result P I O (sourceAccept lg startTemp tempConst)
      stack st index1
    exact ⟨N, fun fuel hf => ⟨cand, g1, h1 fuel hf⟩⟩
  · intro fuel cand g1 hS hu hlt
    obtain ⟨t0, td⟩ := currentTempAt_nonneg startTemp tempConst index1 hs hc
    have hw0 : (0 : Int) < ((xorshift128 g1).1 : Int) := by
      have : ((xorshift128 g1).1 : Int) ≠ 0 := by exact_mod_cast hu
      have := Int.natCast_nonneg (xorshift128 g1).1
      omega
    have hw1 : ((xorshift128 g1).1 : Int) < twoPow32 := by
      have := xorshift128_lt g1
      unfold twoPow32
      exact_mod_cast this
    have hyes : sourceAccept lg startTemp tempConst index1 (xorshift128 g1).1 cand.totalDist
        st.currentSol.totalDist = true :=
      (acceptanceTest_improving lg hlg (currentTempAt startTemp tempConst index1)
        ⟨((xorshift128 g1).1 : Int), twoPow32⟩ cand.totalDist st.currentSol.totalDist t0 td
        hw0 hw1 hcur).2.2 hlt
    obtain ⟨c1, c2, _, _, c5⟩ := copySISRsToCurrent_spec I cand st.currentSol
    refine ⟨⟨copySISRsToCurrent I cand st.currentSol,
      if cand.totalDist < st.bestSol.totalDist then copySISRsToBest cand st.bestSol
      else st.bestSol, cand, (xorshift128 g1).2⟩, ?_, rfl, c5, c1, c2⟩
    unfold lsStep
    simp only [hS, Option.bind_eq_bind, Option.some_bind, Option.pure_def]
    rw [if_pos hyes]

set_option maxRecDepth 100000 in
/-- Witness for `improving_candidate_is_accepted`: the second iteration (`index1 = 1`, so the
temperature is the rounded product `100 * tempConst`) from the solution `threeAndOne` of length
`26`, with the stand-in `logBound` for the library's `log`: `SISRs` builds the candidate
`[3], [4, 5, 2]` of length `20`, the word drawn for the test is `448488982`, and the candidate
becomes the current solution. -/
theorem improving_candidate_is_accepted_witness :
    (SISRs 20 defaultParams fourCustomers fourOrders (fun _ => false) threeAndOne threeAndOne
        ⟨88675123, 123456789, 362436069, 521288629⟩).map
      (fun r => (tourRows r.1, r.1.totalDist, (xorshift128 r.2).1))
      = some ([[3], [4, 5, 2]], 20, 448488982) ∧
    threeAndOne.totalDist = 26 ∧
    ∃ st', lsStep 20 defaultParams fourCustomers fourOrders
        (sourceAccept logBound ⟨100, 1⟩ fourTempConst) (fun _ _ => false)
        ⟨threeAndOne, threeAndOne, threeAndOne, ⟨88675123, 123456789, 362436069, 521288629⟩⟩ 1
          = some st' ∧
      st'.currentSol.totalDist = 20 := by
  have hmap : (SISRs 20 defaultParams fourCustomers fourOrders (fun _ => false) threeAndOne
      threeAndOne ⟨88675123, 123456789, 362436069, 521288629⟩).map
      (fun r => (r.1.totalDist, (xorshift128 r.2).1)) = some (20, 448488982) := by decide
  obtain ⟨r, hr, hf⟩ := Option.map_eq_some'.1 hmap
  have e1 : r.1.totalDist = 20 := congrArg Prod.fst hf
  have e2 : (xorshift128 r.2).1 = 448488982 := congrArg Prod.snd hf
  obtain ⟨st', h1, _, h3, _⟩ :=
    (improving_candidate_is_accepted defaultParams fourCustomers fourOrders (fun _ _ => false)
      ⟨threeAndOne, threeAndOne, threeAndOne, ⟨88675123, 123456789, 362436069, 521288629⟩⟩ 1
      logBound ⟨100, 1⟩ fourTempConst logBound_sign (by decide) (by decide) (by decide)).2.2
      20 r.1 r.2 hr (by rw [e2]; decide) (by rw [e1]; decide)
  exact ⟨by decide, rfl, st', h1, h3.trans e1⟩

/-- C29: in every iteration of `localSearchMH` (it returns, given enough fuel) the candidate
and the new generator state are those that `SISRs` computes from `currentSol`, the working
solution and the generator; when the acceptance test fails, `currentSol` after the iteration is
`currentSol` before it, in every field; when the candidate's `totalDist` is not smaller than
`bestSol.totalDist`, `bestSol` after the iteration is `bestSol` before it, in every field. -/
theorem rejected_candidate_changes_nothing (P : Params) (I : Instance) (O : Orders)
    (accept : Int → Nat → Int → Int → Bool) (stack : Int → Int → Bool) (st : Search3)
    (index1 : Int) :
    ∃ cand g1 N st',
      (∀ fuel, N ≤ fuel →
        SISRs fuel P I O (stack index1) st.currentSol st.SISRsSol st.g = some (cand, g1)) ∧
      (∀ fuel, N ≤ fuel → lsStep fuel P I O accept stack st index1 = some st') ∧
      st'.SISRsSol = cand ∧ st'.g = (xorshift128 g1).2 ∧
      (accept index1 (xorshift128 g1).1 cand.totalDist st.currentSol.totalDist = false →
        st'.currentSol = st.currentSol) ∧
      (¬ cand.totalDist < st.bestSol.totalDist → st'.bestSol = st.bestSol) ∧
      (accept index1 (xorshift128 g1).1 cand.totalDist st.currentSol.totalDist = false →
        ¬ cand.totalDist < st.bestSol.totalDist →
        st'.currentSol = st.currentSol ∧ st'.bestSol = st.bestSol) := by
  obtain ⟨cand, g1, N, h1, h2⟩ := lsStep_result P I O accept stack st index1
  refine ⟨cand, g1, N, _, h1, h2, rfl, rfl, ?_, ?_, ?_⟩
  · intro h
    dsimp only
    rw [h]
    rfl
  · intro h
    dsimp only
    rw [if_neg h]
  · intro ha hb
    dsimp only
    rw [ha, if_neg hb]
    exact ⟨rfl, rfl⟩

/-- Witness for `rejected_candidate_changes_nothing`: with a test that always fails, the
iteration on `threeAndOne` leaves `currentSol` as it was, and `bestSol` unless the candidate is
shorter. -/
theorem rejected_candidate_changes_nothing_witness :
    ∃ cand g1 N st',
      (∀ fuel, N ≤ fuel → lsStep fuel defaultParams fourCustomers fourOrders
        (fun _ _ _ _ => false) (fun _ _ => false)
        ⟨threeAndOne, threeAndOne, threeAndOne, ⟨88675123, 123456789, 362436069, 521288629⟩⟩ 0
          = some st') ∧
      st'.SISRsSol = cand ∧ st'.g = (xorshift128 g1).2 ∧
      st'.currentSol = threeAndOne ∧
      (¬ cand.totalDist < threeAndOne.totalDist → st'.bestSol = threeAndOne) :=
  let ⟨cand, g1, N, st', _, h2, h3, h4, h5, h6, _⟩ :=
    rejected_candidate_changes_nothing defaultParams fourCustomers fourOrders
      (fun _ _ _ _ => false) (fun _ _ => false)
      ⟨threeAndOne, threeAndOne, threeAndOne, ⟨88675123, 123456789, 362436069, 521288629⟩⟩ 0
  ⟨cand, g1, N, st', h2, h3, h4, h5 rfl, h6⟩

set_option maxRecDepth 100000 in

/-- C30 (counterexample): the generator returns the word `0` in the state `(x, y, z, w) =
(123456789, 362436069, 521288629, 3656011085)`; and in the iteration of `localSearchMH` that
starts from the solution `threeAndOne` with the generator state `(4030413734, 2946821002,
1929107224, 1583252770)`, `SISRs` builds the candidate `[3, 5, 2, 4]` of length `20` with `16`
draws and the next word, the one drawn for the acceptance test, is `0`: the draw is
`U = 0 / 2^32 = 0`. -/
theorem acceptance_draw_can_be_zero :
    (xorshift128 ⟨3656011085, 123456789, 362436069, 521288629⟩).1 = 0 ∧
    (SISRs 20 defaultParams fourCustomers fourOrders (fun _ => false) threeAndOne threeAndOne
        ⟨1583252770, 4030413734, 2946821002, 1929107224⟩).map
        (fun r => (tourRows r.1, r.1.totalDist, (xorshift128 r.2).1, (unitDraw r.2).1.num))
      = some ([[3, 5, 2, 4]], 20, 0, 0) ∧
    nthDraw ⟨1583252770, 4030413734, 2946821002, 1929107224⟩ 16 = 0 := by
  decide

/-- C30, amended: for every generator state the draw `U = xorshift128() / 2^32` of the
acceptance test satisfies `0 <= U < 1`; it is `0` exactly when the drawn word is `0`; and for
every state whose next word is not `0` it satisfies `0 < U < 1`, so that `ln(U)` is negative. -/
theorem acceptance_draw_range (g : Rng) :
    0 ≤ ((xorshift128 g).1 : ℝ) / 2 ^ 32 ∧ ((xorshift128 g).1 : ℝ) / 2 ^ 32 < 1 ∧
    (((xorshift128 g).1 : ℝ) / 2 ^ 32 = 0 ↔ (xorshift128 g).1 = 0) ∧
    ((xorshift128 g).1 ≠ 0 →
      0 < ((xorshift128 g).1 : ℝ) / 2 ^ 32 ∧ Real.log (((xorshift128 g).1 : ℝ) / 2 ^ 32) < 0) := by
  have hu1 : ((xorshift128 g).1 : ℝ) / 2 ^ 32 < 1 := by
    rw [div_lt_one (by norm_num)]
    exact_mod_cast xorshift128_lt g
  have hpos : (xorshift128 g).1 ≠ 0 → 0 < ((xorshift128 g).1 : ℝ) / 2 ^ 32 := by
    intro h
    apply div_pos
    · exact_mod_cast Nat.pos_of_ne_zero h
    · norm_num
  refine ⟨by positivity, hu1, ⟨fun h => ?_, fun h => ?_⟩, fun h => ⟨hpos h, ?_⟩⟩
  · by_contra hne
    exact absurd h (ne_of_gt (hpos hne))
  · rw [h]
    simp
  · exact Real.log_neg (hpos h) hu1

/-- Witness for `acceptance_draw_range`: the first word of the standard state is not `0`. -/
theorem acceptance_draw_range_witness :
    (xorshift128 ⟨88675123, 123456789, 362436069, 521288629⟩).1 ≠ 0 ∧
    0 < ((xorshift128 ⟨88675123, 123456789, 362436069, 521288629⟩).1 : ℝ) / 2 ^ 32 ∧
    Real.log (((xorshift128 ⟨88675123, 123456789, 362436069, 521288629⟩).1 : ℝ) / 2 ^ 32) < 0 :=
  ⟨by decide, (acceptance_draw_range ⟨88675123, 123456789, 362436069, 521288629⟩).2.2.2
    (by decide)⟩

/-! ### The sampled string length (C27) -/

set_option maxRecDepth 100000 in

/-- C27 (counterexample): on the instance `fourCustomers` and its solution `twoOneOne` (tours
`[3, 4]`, `[5]`, `[2]`, so the mean tour cardinality is `4/3`), with the default parameters
(`lengthRemovedStrings = 10`) and the generator state `(x, y, z, w) = (123456789, 362436069,
521288629, 88675123)`: the capped maximum string length is the `double` nearest to `4/3`,
`6004799503160661 / 2^52`, which lies between `1` and `2`, and `ruin` touches tour `1` (size
`1`) with the string length `1` and then tour `0` (size `2`, third draw `3633119408 / 2^32`)
with the string length `2`, which is more than the capped maximum; both nodes of tour `0` are
removed. -/
theorem string_length_exceeds_fractional_cap :
    tourRows twoOneOne = [[3, 4], [5], [2]] ∧
    (forRange 1 5).map twoOneOne.tourPerNode = [3, 1, 1, 2] ∧
    defaultParams.lengthRemovedStrings = 10 ∧
    ((forRange 0 twoOneOne.numberTours).map twoOneOne.numberNodesInTour).sum = 4 ∧
    twoOneOne.numberTours = 3 ∧
    (ruinMaxStringCardinality defaultParams twoOneOne).num * 2 ^ 52
      = 6004799503160661 * (ruinMaxStringCardinality defaultParams twoOneOne).den ∧
    0 < (ruinMaxStringCardinality defaultParams twoOneOne).den ∧
    (ruinMaxStringCardinality defaultParams twoOneOne).num
      < 2 * (ruinMaxStringCardinality defaultParams twoOneOne).den ∧
    nthDraw ⟨88675123, 123456789, 362436069, 521288629⟩ 3 = 3633119408 ∧
    ruinStringLengths defaultParams fourCustomers (fun _ => false) twoOneOne
      ⟨88675123, 123456789, 362436069, 521288629⟩ = [(1, 1, 1), (0, 2, 2)] ∧
    tourRows (ruin defaultParams fourCustomers (fun _ => false) twoOneOne
      ⟨88675123, 123456789, 362436069, 521288629⟩).1 = [[2]] ∧
    absentList (ruin defaultParams fourCustomers (fun _ => false) twoOneOne
      ⟨88675123, 123456789, 362436069, 521288629⟩).1 = [5, 3, 4] := by
  decide

/-- The value `(int)(c * r + 1.0)` of a draw `r` in `[0, 1)` exceeds `c` by at most `1`, and by
less than `1` when `c` is positive. -/
theorem drawCount_le (g : Rng) (c : Dbl) (h0 : 0 ≤ c.num) (h1 : 0 < c.den) :
    ((drawCount g c).1 - 1) * c.den ≤ c.num ∧
      (0 < c.num → ((drawCount g c).1 - 1) * c.den < c.num) := by
  obtain ⟨b1, b2⟩ := drawCount_bound g c h0 h1
  have hd : (0 : ℚ) < (c.den : ℚ) := by exact_mod_cast h1
  by_cases hc1 : 1 ≤ c.toRat
  · have h := b2 c.toRat hc1 (le_refl _)
    have h2 : (((drawCount g c).1 - 1 : Int) : ℚ) < c.toRat := by
      push_cast
      linarith
    unfold Dbl.toRat at h2
    rw [lt_div_iff₀ hd] at h2
    have h3 : ((drawCount g c).1 - 1) * c.den < c.num := by exact_mod_cast h2
    exact ⟨le_of_lt h3, fun _ => h3⟩
  · have h := b2 1 (le_refl _) (by linarith)
    have h2 : (drawCount g c).1 < 2 := by exact_mod_cast h
    have h3 : (drawCount g c).1 = 1 := by omega
    rw [h3]
    exact ⟨by simpa using h0, fun hpos => by simpa using hpos⟩

theorem maxStringCardinality_pos (L total NT : Int) (hL : 1 ≤ L) (ht : 1 ≤ total)
    (hNT : 1 ≤ NT) :
    0 < (Dbl.min (Dbl.ofInt L)
      (Dbl.round53 (Dbl.div (Dbl.ofInt total) (Dbl.ofInt NT)))).num := by
  obtain ⟨_, hd, _⟩ := div_ofInt_ok total NT (by omega) hNT
  have hn : 0 < (Dbl.div (Dbl.ofInt total) (Dbl.ofInt NT)).num := by
    unfold Dbl.div Dbl.ofInt
    simp only [(by omega : (0 : Int) ≤ NT), if_true]
    simpa using ht
  have r := Dbl.round53_num_pos _ hd hn
  unfold Dbl.min
  split_ifs
  · exact r
  · show 0 < L
    omega

theorem localCardinality_pos (n : Int) (msc : Dbl) (hn : 1 ≤ n) (h0 : 0 < msc.num) :
    0 < (Dbl.min (Dbl.ofInt n) msc).num := by
  unfold Dbl.min
  split_ifs
  · exact h0
  · show 0 < n
    omega

theorem sum_pos_of_forall (l : List Int) (hne : l ≠ []) (h : ∀ x ∈ l, 1 ≤ x) : 1 ≤ l.sum := by
  cases l with
  | nil => exact absurd rfl hne
  | cons a l =>
    rw [List.sum_cons]
    have := h a (List.mem_cons_self _ _)
    have := sum_nonneg_of_forall l (fun x hx => by
      have := h x (List.mem_cons_of_mem _ hx)
      omega)
    omega

/-- The tours that `ruin` touches and the lengths it samples for them. -/
theorem ruinStringLengths_bounds (P : Params) (I : Instance) (stack : Int → Bool) (s : Solution)
    (g : Rng) (hP : 0 ≤ P.lengthRemovedStrings) (hnb : NeighboursOK I) (hs : Tidy I s) :
    ∀ e ∈ ruinStringLengths P I stack s g,
      0 ≤ e.1 ∧ e.1 < s.numberTours ∧ 1 ≤ e.2.1 ∧ 1 ≤ e.2.2 ∧ e.2.2 ≤ e.2.1 ∧
      0 < (Dbl.min (Dbl.ofInt e.2.1) (ruinMaxStringCardinality P s)).den ∧
      (e.2.2 - 1) * (Dbl.min (Dbl.ofInt e.2.1) (ruinMaxStringCardinality P s)).den
        ≤ (Dbl.min (Dbl.ofInt e.2.1) (ruinMaxStringCardinality P s)).num ∧
      (1 ≤ P.lengthRemovedStrings →
        (e.2.2 - 1) * (Dbl.min (Dbl.ofInt e.2.1) (ruinMaxStringCardinality P s)).den
          < (Dbl.min (Dbl.ofInt e.2.1) (ruinMaxStringCardinality P s)).num ∧
        ∀ k : Int, (Dbl.min (Dbl.ofInt e.2.1) (ruinMaxStringCardinality P s)).num
            = k * (Dbl.min (Dbl.ofInt e.2.1) (ruinMaxStringCardinality P s)).den →
          e.2.2 ≤ k) := by
  unfold ruinStringLengths
  by_cases hn : 3 ≤ I.numberNodes
  swap
  · rw [forRange_eq_nil (by omega)]
    intro e he
    exact absurd he (List.not_mem_nil _)
  have hseed := drawCount_range (xorshift128 g).2 (Dbl.ofInt (I.numberNodes - 1))
    (I.numberNodes - 1) (by simp [Dbl.ofInt]; omega) (by simp [Dbl.ofInt])
    (by simp [Dbl.ofInt])
  rw [max_eq_left (by omega)] at hseed
  have hcust : (2 : Int) ∈ customers I := mem_customers.2 ⟨le_refl _, by omega⟩
  obtain ⟨t0, ht0, ht1, _⟩ := mem_tourNodes.1 (hs.perm.symm.subset hcust)
  have hrows : (forRange 0 s.numberTours).map s.numberNodesInTour ≠ [] := by
    rw [Ne, List.map_eq_nil_iff]
    intro h
    have : t0 ∈ forRange 0 s.numberTours := mem_forRange.2 ⟨ht0, ht1⟩
    rw [h] at this
    exact absurd this (List.not_mem_nil _)
  have htot : 1 ≤ ((forRange 0 s.numberTours).map s.numberNodesInTour).sum := by
    apply sum_pos_of_forall _ hrows
    intro x hx
    obtain ⟨u, hu, rfl⟩ := List.mem_map.1 hx
    rw [mem_forRange] at hu
    exact hs.nonempty u hu.1 hu.2
  have hm : 0 ≤ (ruinMaxStringCardinality P s).num ∧ 0 < (ruinMaxStringCardinality P s).den :=
    maxStringCardinality_ok P.lengthRemovedStrings _ s.numberTours hP (by omega) (by omega)
  have hmpos : 1 ≤ P.lengthRemovedStrings → 0 < (ruinMaxStringCardinality P s).num :=
    fun h => maxStringCardinality_pos P.lengthRemovedStrings _ s.numberTours h htot (by omega)
  have key := foldl_mem_inv
    (fun (acc : RuinLoop × List (Int × Int × Int)) neighborIndex =>
      if acc.1.countRuinedTours < numberStringsToRemove P s g then
        let currentNodeIndex := I.nodeDistList (randomSeedNodeIndex I g) neighborIndex - 1
        let tourIndex := acc.1.sol.tourPerNode currentNodeIndex - 1
        if !acc.1.ruinedTour tourIndex && !acc.1.nodeRemoved currentNodeIndex then
          (ruinStep P I (ruinMaxStringCardinality P s) (numberStringsToRemove P s g)
              (randomSeedNodeIndex I g) acc.1 neighborIndex,
            acc.2 ++ [(tourIndex, acc.1.sol.numberNodesInTour tourIndex,
              lengthStringToRemove (ruinMaxStringCardinality P s)
                (acc.1.sol.numberNodesInTour tourIndex) acc.1.g)])
        else acc
      else acc)
    (fun acc => RuinInv I s.numberTours acc.1 ∧
      ∀ e ∈ acc.2,
        0 ≤ e.1 ∧ e.1 < s.numberTours ∧ 1 ≤ e.2.1 ∧ 1 ≤ e.2.2 ∧ e.2.2 ≤ e.2.1 ∧
        0 < (Dbl.min (Dbl.ofInt e.2.1) (ruinMaxStringCardinality P s)).den ∧
        (e.2.2 - 1) * (Dbl.min (Dbl.ofInt e.2.1) (ruinMaxStringCardinality P s)).den
          ≤ (Dbl.min (Dbl.ofInt e.2.1) (ruinMaxStringCardinality P s)).num ∧
        (1 ≤ P.lengthRemovedStrings →
          (e.2.2 - 1) * (Dbl.min (Dbl.ofInt e.2.1) (ruinMaxStringCardinality P s)).den
            < (Dbl.min (Dbl.ofInt e.2.1) (ruinMaxStringCardinality P s)).num ∧
          ∀ k : Int, (Dbl.min (Dbl.ofInt e.2.1) (ruinMaxStringCardinality P s)).num
              = k * (Dbl.min (Dbl.ofInt e.2.1) (ruinMaxStringCardinality P s)).den →
            e.2.2 ≤ k))
    (forRange 0 (I.numberNodes - 2)) (ruinLoopStart I stack s g, [])
    ⟨ruinLoopStart_inv I stack s g hs, fun e he => absurd he (List.not_mem_nil _)⟩
    (by
      intro k hk acc ⟨ha, hr⟩
      rw [mem_forRange] at hk
      dsimp only
      split_ifs with hc hcond
      · have hnbk := hnb (randomSeedNodeIndex I g) k hseed.1 (by
          have := hseed.2
          unfold randomSeedNodeIndex
          omega) hk.1 hk.2
        refine ⟨ruinStep_inv P I _ _ _ s.numberTours acc.1 k hm hnbk ha, ?_⟩
        intro e he
        rcases List.mem_append.1 he with h | h
        · exact hr e h
        rw [List.mem_singleton] at h
        subst h
        dsimp only
        simp only [Bool.and_eq_true, Bool.not_eq_true'] at hcond
        have hx : I.nodeDistList (randomSeedNodeIndex I g) k
            ∈ tourNodes acc.1.sol ++ absentList acc.1.sol :=
          ha.perm.symm.subset (mem_customers.2 hnbk)
        have hx' : I.nodeDistList (randomSeedNodeIndex I g) k ∈ tourNodes acc.1.sol := by
          rcases List.mem_append.1 hx with h' | h'
          · exact h'
          · have := (ha.inAbsent _ h').2
            rw [hcond.2] at this
            exact absurd this (by simp)
        obtain ⟨t, e0, e1, hxt⟩ := mem_tourNodes.1 hx'
        rw [ha.nt] at e1
        have htpn := (ha.inTour t e0 e1 _ hxt).1
        have hti : acc.1.sol.tourPerNode
            (I.nodeDistList (randomSeedNodeIndex I g) k - 1) - 1 = t := by omega
        rw [hti]
        have hn1 := tourList_pos_of_mem hxt
        obtain ⟨c0, c1, c2⟩ := localCardinality_ok (acc.1.sol.numberNodesInTour t)
          (ruinMaxStringCardinality P s) hn1 hm.1 hm.2
        have hl := drawCount_range acc.1.g _ (acc.1.sol.numberNodesInTour t) c0 c1 c2
        rw [max_eq_left hn1] at hl
        obtain ⟨b1, b2⟩ := drawCount_le acc.1.g _ c0 c1
        refine ⟨e0, e1, hn1, hl.1, hl.2, c1, b1, fun hL => ?_⟩
        have hpos := localCardinality_pos (acc.1.sol.numberNodesInTour t)
          (ruinMaxStringCardinality P s) hn1 (hmpos hL)
        refine ⟨b2 hpos, fun kk hk' => ?_⟩
        have h3 := b2 hpos
        unfold lengthStringToRemove
        rw [hk'] at h3
        have h4 : (drawCount acc.1.g
            (Dbl.min (Dbl.ofInt (acc.1.sol.numberNodesInTour t))
              (ruinMaxStringCardinality P s))).1 - 1 < kk :=
          lt_of_mul_lt_mul_right h3 (le_of_lt c1)
        omega
      · exact ⟨ha, hr⟩
      · exact ⟨ha, hr⟩)
  exact key.2

/-- The local `tourCardinality` of `ruin` is the `double` nearest to the mean number of nodes
in a tour: it differs from the mean by at most the mean times `2^-53`, and it is the mean when
that is a whole number below `2^53`. -/
theorem ruinTourCardinality_spec (s : Solution) (hNT : 1 ≤ s.numberTours)
    (htot : 0 ≤ ((forRange 0 s.numberTours).map s.numberNodesInTour).sum) :
    |(ruinTourCardinality s).toRat
        - (((forRange 0 s.numberTours).map s.numberNodesInTour).sum : ℚ) / (s.numberTours : ℚ)|
      ≤ (((forRange 0 s.numberTours).map s.numberNodesInTour).sum : ℚ) / (s.numberTours : ℚ)
        / 2 ^ 53 ∧
    ∀ k : Int, |k| < 2 ^ 53 →
      ((forRange 0 s.numberTours).map s.numberNodesInTour).sum = k * s.numberTours →
      (ruinTourCardinality s).toRat = (k : ℚ) := by
  unfold ruinTourCardinality
  obtain ⟨hn, hd, hv⟩ := div_ofInt_ok _ s.numberTours htot hNT
  have he := Dbl.round_error 53 _ (by norm_num) hd
  rw [hv] at he
  have hq : (0 : ℚ) ≤ (((forRange 0 s.numberTours).map s.numberNodesInTour).sum : ℚ)
      / (s.numberTours : ℚ) := by
    rw [← hv]
    exact Dbl.toRat_nonneg _ hn hd
  rw [abs_of_nonneg hq] at he
  refine ⟨he, fun k hk hkt => ?_⟩
  have hNTq : (s.numberTours : ℚ) ≠ 0 := by
    have : s.numberTours ≠ 0 := by omega
    exact_mod_cast this
  have hvk : (Dbl.div (Dbl.ofInt ((forRange 0 s.numberTours).map s.numberNodesInTour).sum)
      (Dbl.ofInt s.numberTours)).toRat = (k : ℚ) := by
    rw [hv, hkt]
    push_cast
    field_simp
  have := Dbl.round_of_representable 53 _ (by norm_num) hd
    (by rw [hvk]; exact representable_int 53 k hk)
  rw [hvk] at this
  exact this

/-- C27, amended: the capped maximum string length of `ruin()` is `min(lengthRemovedStrings,
tourCardinality)`, where `tourCardinality` is the `double` nearest to the mean tour cardinality
(within the mean times `2^-53` of it, and equal to it when it is whole).  For a non-negative
`lengthRemovedStrings`, neighbour lists holding customer ids and a complete solution, every
tour that `ruin()` touches is a tour of the solution with at least one node, and the sampled
string length `l` satisfies `1 <= l <= tour size` and `l - 1 <= c`, where `c = min(tour size,
capped maximum string length)`; for `lengthRemovedStrings >= 1` the bound is strict,
`l - 1 < c`, so that `l <= c` whenever `c` is a whole number (the statement is about the
fraction `c = num/den`: `(l - 1) * den <= num`). -/
theorem string_length_bounds (P : Params) (I : Instance) (stack : Int → Bool) (s : Solution)
    (g : Rng) (hP : 0 ≤ P.lengthRemovedStrings) (hnb : NeighboursOK I) (hs : Tidy I s) :
    ruinMaxStringCardinality P s
      = Dbl.min (Dbl.ofInt P.lengthRemovedStrings) (ruinTourCardinality s) ∧
    (1 ≤ s.numberTours →
      |(ruinTourCardinality s).toRat
          - (((forRange 0 s.numberTours).map s.numberNodesInTour).sum : ℚ)
            / (s.numberTours : ℚ)|
        ≤ (((forRange 0 s.numberTours).map s.numberNodesInTour).sum : ℚ) / (s.numberTours : ℚ)
          / 2 ^ 53 ∧
      ∀ k : Int, |k| < 2 ^ 53 →
        ((forRange 0 s.numberTours).map s.numberNodesInTour).sum = k * s.numberTours →
        (ruinTourCardinality s).toRat = (k : ℚ)) ∧
    ∀ e ∈ ruinStringLengths P I stack s g,
      0 ≤ e.1 ∧ e.1 < s.numberTours ∧ 1 ≤ e.2.1 ∧ 1 ≤ e.2.2 ∧ e.2.2 ≤ e.2.1 ∧
      0 < (Dbl.min (Dbl.ofInt e.2.1) (ruinMaxStringCardinality P s)).den ∧
      (e.2.2 - 1) * (Dbl.min (Dbl.ofInt e.2.1) (ruinMaxStringCardinality P s)).den
        ≤ (Dbl.min (Dbl.ofInt e.2.1) (ruinMaxStringCardinality P s)).num ∧
      (1 ≤ P.lengthRemovedStrings →
        (e.2.2 - 1) * (Dbl.min (Dbl.ofInt e.2.1) (ruinMaxStringCardinality P s)).den
          < (Dbl.min (Dbl.ofInt e.2.1) (ruinMaxStringCardinality P s)).num ∧
        ∀ k : Int, (Dbl.min (Dbl.ofInt e.2.1) (ruinMaxStringCardinality P s)).num
            = k * (Dbl.min (Dbl.ofInt e.2.1) (ruinMaxStringCardinality P s)).den →
          e.2.2 ≤ k) :=
  ⟨rfl, fun hNT => ruinTourCardinality_spec s hNT
      (sum_nonneg_of_forall _ (fun x hx => by
        obtain ⟨t, ht, rfl⟩ := List.mem_map.1 hx
        have := mem_forRange.1 ht
        exact le_of_lt (hs.nonempty t this.1 this.2))),
    ruinStringLengths_bounds P I stack s g hP hnb hs⟩

set_option maxRecDepth 100000 in
/-- Witness for `string_length_bounds`: the run on `threeAndOne`, whose mean tour cardinality
is `4/2 = 2`, touches the tour `0` of size `3` and samples the length `2`; the computed
`tourCardinality` is `2`. -/
theorem string_length_bounds_witness :
    (0, 3, 2) ∈ ruinStringLengths defaultParams fourCustomers (fun _ => false) threeAndOne
        ⟨88675123, 123456789, 362436069, 521288629⟩ ∧
    (ruinTourCardinality threeAndOne).toRat = ((2 : Int) : ℚ) ∧
    (1 : Int) ≤ 2 ∧ (2 : Int) ≤ 3 ∧
    ((2 : Int) - 1)
        * (Dbl.min (Dbl.ofInt 3) (ruinMaxStringCardinality defaultParams threeAndOne)).den
      < (Dbl.min (Dbl.ofInt 3) (ruinMaxStringCardinality defaultParams threeAndOne)).num ∧
    (2 : Int) ≤ 2 :=
  have hm : ((0, 3, 2) : Int × Int × Int) ∈ ruinStringLengths defaultParams fourCustomers
      (fun _ => false) threeAndOne ⟨88675123, 123456789, 362436069, 521288629⟩ := by decide
  have h0 := string_length_bounds defaultParams fourCustomers (fun _ => false) threeAndOne
    ⟨88675123, 123456789, 362436069, 521288629⟩ (by decide) neighboursOK_fourCustomers
    tidy_threeAndOne
  have h := h0.2.2 (0, 3, 2) hm
  ⟨hm, (h0.2.1 (by decide)).2 2 (by decide) (by decide), h.2.2.2.1, h.2.2.2.2.1,
    (h.2.2.2.2.2.2.2 (by decide)).1, (h.2.2.2.2.2.2.2 (by decide)).2 2 (by decide)⟩

/-! ### Removal of a single-customer tour (C21) -/

/-- Once `countRuinedTours` has reached `numberStringsToRemove`, the remaining values of
`neighborIndex` change nothing. -/
theorem foldl_ruinStep_done (P : Params) (I : Instance) (msc : Dbl) (nst seed : Int) :
    ∀ (l : List Int) (st : RuinLoop), ¬ st.countRuinedTours < nst →
      l.foldl (ruinStep P I msc nst seed) st = st
  | [], _, _ => rfl
  | k :: l, st, h => by
    rw [List.foldl_cons]
    have e : ruinStep P I msc nst seed st k = st := by
      unfold ruinStep
      rw [if_neg h]
    rw [e]
    exact foldl_ruinStep_done P I msc nst seed l st h

/-- The body of the loop of `ruin` at a node whose tour has one member: the drawn length is `1`
and `ruinString` removes the node. -/
theorem ruinStep_single (P : Params) (I : Instance) (msc : Dbl) (nst seed : Int)
    (st : RuinLoop) (k : Int) (hmsc : 1 * msc.den ≤ msc.num ∧ 0 < msc.den)
    (hc : st.countRuinedTours < nst)
    (hrt : st.ruinedTour (st.sol.tourPerNode (I.nodeDistList seed k - 1) - 1) = false)
    (hnr : st.nodeRemoved (I.nodeDistList seed k - 1) = false)
    (hsize : st.sol.numberNodesInTour (st.sol.tourPerNode (I.nodeDistList seed k - 1) - 1) = 1) :
    (drawCount st.g (Dbl.min (Dbl.ofInt 1) msc)).1 = 1 ∧
    ruinStep P I msc nst seed st k =
      { sol := (ruinString I st.sol (drawCount st.g (Dbl.min (Dbl.ofInt 1) msc)).2
          st.nodeRemoved (st.sol.tourPerNode (I.nodeDistList seed k - 1) - 1) 1
          (I.nodeDistList seed k - 1)).1
        g := (ruinString I st.sol (drawCount st.g (Dbl.min (Dbl.ofInt 1) msc)).2
          st.nodeRemoved (st.sol.tourPerNode (I.nodeDistList seed k - 1) - 1) 1
          (I.nodeDistList seed k - 1)).2.1
        ruinedTour := upd st.ruinedTour (st.sol.tourPerNode (I.nodeDistList seed k - 1) - 1) true
        nodeRemoved := (ruinString I st.sol (drawCount st.g (Dbl.min (Dbl.ofInt 1) msc)).2
          st.nodeRemoved (st.sol.tourPerNode (I.nodeDistList seed k - 1) - 1) 1
          (I.nodeDistList seed k - 1)).2.2
        countRuinedTours := st.countRuinedTours + 1 } := by
  obtain ⟨c0, c1, c2⟩ := localCardinality_ok 1 msc (le_refl _) (by omega) hmsc.2
  have hl := drawCount_range st.g _ 1 c0 c1 c2
  rw [max_self] at hl
  have hl1 : (drawCount st.g (Dbl.min (Dbl.ofInt 1) msc)).1 = 1 := by omega
  refine ⟨hl1, ?_⟩
  unfold ruinStep
  dsimp only
  rw [if_pos hc, hrt, hnr, hsize]
  simp only [Bool.not_false, Bool.and_self, if_true, hl1]
  rw [if_neg (by omega)]

theorem length_le_sum (l : List Int) (h : ∀ x ∈ l, 1 ≤ x) : (l.length : Int) ≤ l.sum := by
  induction l with
  | nil => simp
  | cons a l ih =>
    rw [List.sum_cons, List.length_cons]
    have := h a (List.mem_cons_self _ _)
    have := ih (fun x hx => h x (List.mem_cons_of_mem _ hx))
    push_cast
    omega

theorem maxStringCardinality_ge_one (L total NT : Int) (hL : 1 ≤ L) (ht : NT ≤ total)
    (hNT : 1 ≤ NT) :
    1 * (Dbl.min (Dbl.ofInt L) (Dbl.round53 (Dbl.div (Dbl.ofInt total) (Dbl.ofInt NT)))).den
      ≤ (Dbl.min (Dbl.ofInt L)
        (Dbl.round53 (Dbl.div (Dbl.ofInt total) (Dbl.ofInt NT)))).num := by
  obtain ⟨hn, hd, hv⟩ := div_ofInt_ok total NT (by omega) hNT
  have hrd := Dbl.round53_den_pos _ hd
  have h1 : ((1 : Int) : ℚ) ≤ (Dbl.div (Dbl.ofInt total) (Dbl.ofInt NT)).toRat := by
    rw [hv]
    have hNTq : (0 : ℚ) < (NT : ℚ) := by exact_mod_cast (by omega : 0 < NT)
    rw [le_div_iff₀ hNTq]
    exact_mod_cast (by omega : 1 * NT ≤ total)
  have h2 := Dbl.le_round 53 _ _ (by norm_num) hd (representable_int 53 1 (by norm_num)) h1
  have h3 := (Dbl.le_toRat_iff _ 1 hrd).1 h2
  unfold Dbl.min
  split_ifs
  · exact h3
  · show 1 * 1 ≤ L
    omega

theorem filter_ne_forRange (t NT : Int) (h0 : 0 ≤ t) (h1 : t < NT) :
    (forRange 0 NT).filter (fun u => decide (u ≠ t)) = forRange 0 t ++ forRange (t + 1) NT := by
  rw [← forRange_append h0 (le_of_lt h1), forRange_cons h1, List.filter_append,
    List.filter_cons_of_neg (by simp),
    filter_forRange_all _ 0 t (fun q _ h => by simp; omega),
    filter_forRange_all _ (t + 1) NT (fun q h _ => by simp; omega)]

/-- C21: in a ruin pass on a complete solution (at least two customers, neighbour lists holding
customer ids, `lengthRemovedStrings >= 1`) in which `numberStringsToRemove` is `1` and the
first neighbour `x` of the seed node is the only member of its tour `t`, the sampled string
length is `1`, that tour is the only one touched, the loop ends in the state that the non-split
removal `ruinString` with length `1` returns, and after `ruin()` the tours are those before
without the tour `t`, the tour count is one less, `numberAbsentNodes` is `1` and the absent
node is `x`. -/
theorem single_customer_tour_removed (P : Params) (I : Instance) (stack : Int → Bool)
    (s : Solution) (g : Rng) (x t : Int)
    (hn : 3 ≤ I.numberNodes) (hP : 1 ≤ P.lengthRemovedStrings) (hnb : NeighboursOK I)
    (hs : Tidy I s) (hone : numberStringsToRemove P s g = 1)
    (hx : x = I.nodeDistList (randomSeedNodeIndex I g) 0)
    (ht : t = s.tourPerNode (x - 1) - 1)
    (hsingle : s.numberNodesInTour t = 1) :
    0 ≤ t ∧ t < s.numberTours ∧ tourList s t = [x] ∧
    lengthStringToRemove (ruinMaxStringCardinality P s) (s.numberNodesInTour t)
      (ruinLoopStart I stack s g).g = 1 ∧
    ruinStringLengths P I stack s g = [(t, 1, 1)] ∧
    (ruinLoop P I stack s g).sol
      = (ruinString I (ruinLoopStart I stack s g).sol
          (drawCount (ruinLoopStart I stack s g).g
            (Dbl.min (Dbl.ofInt 1) (ruinMaxStringCardinality P s))).2
          (ruinLoopStart I stack s g).nodeRemoved t 1 (x - 1)).1 ∧
    (ruinLoop P I stack s g).countRuinedTours = 1 ∧
    tourRows (ruin P I stack s g).1
      = (forRange 0 t ++ forRange (t + 1) s.numberTours).map (tourList s) ∧
    (ruin P I stack s g).1.numberTours = s.numberTours - 1 ∧
    (ruin P I stack s g).1.numberAbsentNodes = 1 ∧
    absentList (ruin P I stack s g).1 = [x] := by
  -- the seed node and its first neighbour
  have hseed := drawCount_range (xorshift128 g).2 (Dbl.ofInt (I.numberNodes - 1))
    (I.numberNodes - 1) (by simp [Dbl.ofInt]; omega) (by simp [Dbl.ofInt])
    (by simp [Dbl.ofInt])
  rw [max_eq_left (by omega)] at hseed
  have hnbk := hnb (randomSeedNodeIndex I g) 0 hseed.1 (by
    have := hseed.2
    unfold randomSeedNodeIndex
    omega) (le_refl _) (by omega)
  rw [← hx] at hnbk
  obtain ⟨t', ht0, ht1, hxt⟩ := mem_tourNodes.1 (hs.perm.symm.subset (mem_customers.2 hnbk))
  have htt : t' = t := by
    have := hs.tourPerNode t' ht0 ht1 x hxt
    omega
  subst htt
  have hrow : tourList s t' = [x] := by
    have e : tourList s t' = [s.tours t' 0] := by
      unfold tourList
      have e1 : forRange 0 1 = [0] := forRange_one 0
      rw [hsingle, e1]
      rfl
    rw [e] at hxt ⊢
    rw [List.mem_singleton] at hxt
    rw [hxt]
  -- the capped maximum string length is at least 1
  have hlen : (((forRange 0 s.numberTours).map s.numberNodesInTour).length : Int)
      = s.numberTours := by
    rw [List.length_map, length_forRange]
    omega
  have htot : s.numberTours ≤ ((forRange 0 s.numberTours).map s.numberNodesInTour).sum := by
    have hle := length_le_sum ((forRange 0 s.numberTours).map s.numberNodesInTour) ?_
    · omega
    intro y hy
    obtain ⟨u, hu, rfl⟩ := List.mem_map.1 hy
    rw [mem_forRange] at hu
    exact hs.nonempty u hu.1 hu.2
  have hm1 : 1 * (ruinMaxStringCardinality P s).den ≤ (ruinMaxStringCardinality P s).num :=
    maxStringCardinality_ge_one P.lengthRemovedStrings _ s.numberTours hP htot (by omega)
  have hm : 0 ≤ (ruinMaxStringCardinality P s).num ∧ 0 < (ruinMaxStringCardinality P s).den :=
    maxStringCardinality_ok P.lengthRemovedStrings _ s.numberTours (by omega) (by omega)
      (by omega)
  -- the first execution of the loop body
  have hstart : (ruinLoopStart I stack s g).sol = { s with numberAbsentNodes := 0 } := rfl
  have htpn : (ruinLoopStart I stack s g).sol.tourPerNode
      (I.nodeDistList (randomSeedNodeIndex I g) 0 - 1) - 1 = t' := by
    rw [← hx]
    exact ht.symm
  obtain ⟨hl1, hstep⟩ := ruinStep_single P I (ruinMaxStringCardinality P s)
    (numberStringsToRemove P s g) (randomSeedNodeIndex I g) (ruinLoopStart I stack s g) 0
    ⟨hm1, hm.2⟩ (by rw [hone]; exact Int.zero_lt_one)
    (by
      rw [htpn]
      show (if 0 ≤ t' ∧ t' < s.numberTours then false else stack t') = false
      rw [if_pos ⟨ht0, ht1⟩])
    rfl
    (by rw [htpn]; exact hsingle)
  rw [htpn, ← hx] at hstep
  have hloop : ruinLoop P I stack s g
      = ruinStep P I (ruinMaxStringCardinality P s) (numberStringsToRemove P s g)
          (randomSeedNodeIndex I g) (ruinLoopStart I stack s g) 0 := by
    unfold ruinLoop
    rw [forRange_cons (by omega : (0 : Int) < I.numberNodes - 2), List.foldl_cons]
    apply foldl_ruinStep_done
    rw [hstep, hone]
    show ¬ ((0 : Int) + 1 < 1)
    omega
  have hlens : ruinStringLengths P I stack s g = [(t', 1, 1)] := by
    unfold ruinStringLengths
    rw [forRange_cons (by omega : (0 : Int) < I.numberNodes - 2), List.foldl_cons]
    have hfirst : (ruinLoopStart I stack s g).countRuinedTours < numberStringsToRemove P s g := by
      rw [hone]; exact Int.zero_lt_one
    have hcond : (!(ruinLoopStart I stack s g).ruinedTour
          ((ruinLoopStart I stack s g).sol.tourPerNode
            (I.nodeDistList (randomSeedNodeIndex I g) 0 - 1) - 1)
        && !(ruinLoopStart I stack s g).nodeRemoved
          (I.nodeDistList (randomSeedNodeIndex I g) 0 - 1)) = true := by
      rw [htpn]
      show (!(if 0 ≤ t' ∧ t' < s.numberTours then false else stack t') && !false) = true
      rw [if_pos ⟨ht0, ht1⟩]
      rfl
    dsimp only
    rw [if_pos hfirst, if_pos hcond, htpn]
    have hsz : (ruinLoopStart I stack s g).sol.numberNodesInTour t' = 1 := hsingle
    rw [hsz]
    have hl1' : lengthStringToRemove (ruinMaxStringCardinality P s) 1
        (ruinLoopStart I stack s g).g = 1 := hl1
    rw [hl1', List.nil_append]
    have key := foldl_mem_inv
      (fun (acc : RuinLoop × List (Int × Int × Int)) neighborIndex =>
        if acc.1.countRuinedTours < numberStringsToRemove P s g then
          let currentNodeIndex := I.nodeDistList (randomSeedNodeIndex I g) neighborIndex - 1
          let tourIndex := acc.1.sol.tourPerNode currentNodeIndex - 1
          if !acc.1.ruinedTour tourIndex && !acc.1.nodeRemoved currentNodeIndex then
            (ruinStep P I (ruinMaxStringCardinality P s) (numberStringsToRemove P s g)
                (randomSeedNodeIndex I g) acc.1 neighborIndex,
              acc.2 ++ [(tourIndex, acc.1.sol.numberNodesInTour tourIndex,
                lengthStringToRemove (ruinMaxStringCardinality P s)
                  (acc.1.sol.numberNodesInTour tourIndex) acc.1.g)])
          else acc
        else acc)
      (fun acc => acc.1.countRuinedTours = 1 ∧ acc.2 = [(t', 1, 1)])
      (forRange (0 + 1) (I.numberNodes - 2))
      (ruinStep P I (ruinMaxStringCardinality P s) (numberStringsToRemove P s g)
        (randomSeedNodeIndex I g) (ruinLoopStart I stack s g) 0, [(t', 1, 1)])
      ⟨by rw [hstep]; rfl, rfl⟩
      (by
        intro k _ acc ha
        dsimp only
        rw [if_neg (by rw [ha.1, hone]; omega)]
        exact ha)
    exact key.2
  -- the removal
  have hna0 : (0 : Int) ≤ (ruinLoopStart I stack s g).sol.numberAbsentNodes := le_refl _
  have hne : ∀ y ∈ tourList (ruinLoopStart I stack s g).sol t', y ≠ -1 := by
    intro y hy
    have hy' : y ∈ tourList s t' := hy
    rw [hrow, List.mem_singleton] at hy'
    omega
  obtain ⟨a, ha0, ha1, _, _, hrem⟩ := ruinString_window I (ruinLoopStart I stack s g).sol
    (drawCount (ruinLoopStart I stack s g).g
      (Dbl.min (Dbl.ofInt 1) (ruinMaxStringCardinality P s))).2
    (ruinLoopStart I stack s g).nodeRemoved t' 1 (x - 1) (le_refl _)
    (by show (1 : Int) ≤ s.numberNodesInTour t'; omega) hna0 hne
  have hsz : (ruinLoopStart I stack s g).sol.numberNodesInTour t' = 1 := hsingle
  rw [hsz] at ha1 hrem
  have ha : a = 0 := by omega
  subst ha
  have hsol : (ruinLoop P I stack s g).sol
      = (ruinString I (ruinLoopStart I stack s g).sol
          (drawCount (ruinLoopStart I stack s g).g
            (Dbl.min (Dbl.ofInt 1) (ruinMaxStringCardinality P s))).2
          (ruinLoopStart I stack s g).nodeRemoved t' 1 (x - 1)).1 := by
    rw [hloop, hstep]
  have hcount : (ruinLoop P I stack s g).countRuinedTours = 1 := by
    rw [hloop, hstep]
    rfl
  rw [← hsol] at hrem
  have hkept : (forRange 0 0 ++ forRange (0 + 1) 1).map
      ((ruinLoopStart I stack s g).sol.tours t') = [] := by
    rw [forRange_eq_nil (le_refl _), forRange_eq_nil (by omega)]
    rfl
  have hremoved : (forRange 0 (0 + 1)).map ((ruinLoopStart I stack s g).sol.tours t') = [x] := by
    have e : (forRange 0 (0 + 1)).map ((ruinLoopStart I stack s g).sol.tours t')
        = tourList s t' := by
      unfold tourList
      rw [hsingle]
      rfl
    rw [e, hrow]
  rw [hkept, hremoved] at hrem
  -- the closing passes
  obtain ⟨hinv, _⟩ := ruinLoop_ordered P I stack s g (by omega) hnb hs
  have hrows := ruin_tourRows P I stack s g hs.nt hinv
  have hR := ruin_spec P I stack s g (by omega) hnb hs
  have hntL : (ruinLoop P I stack s g).sol.numberTours = s.numberTours := hinv.nt
  have hrowsL : (tourRows (ruinLoop P I stack s g).sol).filter (· ≠ [])
      = (forRange 0 t' ++ forRange (t' + 1) s.numberTours).map (tourList s) := by
    unfold tourRows
    rw [hntL, List.filter_map, ← filter_ne_forRange t' s.numberTours ht0 ht1]
    have e1 : (forRange 0 s.numberTours).filter
          ((fun r : List Int => decide (r ≠ [])) ∘ tourList (ruinLoop P I stack s g).sol)
        = (forRange 0 s.numberTours).filter (fun u => decide (u ≠ t')) := by
      apply List.filter_congr
      intro u hu
      rw [mem_forRange] at hu
      simp only [Function.comp]
      by_cases hut : u = t'
      · rw [hut, hrem.row]
        simp
      · rw [hrem.others u hut]
        have hne' : tourList s u ≠ [] := by
          rw [Ne, tourList_eq_nil_iff]
          have := hs.nonempty u hu.1 hu.2
          omega
        have hne'' : tourList (ruinLoopStart I stack s g).sol u ≠ [] := hne'
        simp [hut, hne'']
    rw [e1]
    apply List.map_congr_left
    intro u hu
    rw [List.mem_filter] at hu
    have hut : u ≠ t' := by simpa using hu.2
    rw [hrem.others u hut]
    rfl
  have hrowsF := hrows.trans hrowsL
  have hnum : (ruin P I stack s g).1.numberTours = s.numberTours - 1 := by
    have h1 := congrArg List.length hrowsF
    rw [length_tourRows, List.length_map, List.length_append, length_forRange,
      length_forRange] at h1
    have := hR.nt
    omega
  -- the absent list
  have habs : (ruin P I stack s g).1.numberAbsentNodes
        = (ruinLoop P I stack s g).sol.numberAbsentNodes ∧
      (ruin P I stack s g).1.absentNodes = (ruinLoop P I stack s g).sol.absentNodes := by
    rw [ruin_eq]
    dsimp only
    generalize ruinLoop P I stack s g = st at hinv
    have hnt0 : 0 ≤ st.sol.numberTours := by rw [hinv.nt]; exact hs.nt
    obtain ⟨c1, c2, c3, c4, _⟩ := compactTours_spec st.sol hnt0
      (fun u h0 h1 => hinv.counts u h0 (by rw [← hinv.nt]; exact h1))
    generalize compactTours st.sol = s1 at c1 c2 c3 c4
    obtain ⟨_, d2, d3, d4, d5, d6, _⟩ := recomputeCapacity_spec I s1 c2
    generalize recomputeCapacity I s1 = s2 at d2 d3 d4 d5 d6
    have hrows2 : tourRows s2 = tourRows s1 := by
      unfold tourRows tourList
      rw [d2, d3, d4]
    have hnd2 : (tourNodes s2).Nodup := by
      unfold tourNodes
      rw [hrows2, c1, flatten_filter_ne_nil]
      exact (List.nodup_append.1 hinv.nodup).1
    obtain ⟨_, _, _, _, _, e6, e7, _⟩ := resetTourPerNode_spec s2 (by rw [d4]; exact c2) hnd2
    exact ⟨by rw [e7, d6, c4], by rw [e6, d5, c3]⟩
  have hnumAbs : (ruinLoop P I stack s g).sol.numberAbsentNodes = 1 := by
    have := hrem.numAbsent
    have e0 : (ruinLoopStart I stack s g).sol.numberAbsentNodes = 0 := rfl
    rw [e0] at this
    simpa using this
  have habsL : absentList (ruinLoop P I stack s g).sol = [x] := by
    have := hrem.absent
    rw [absentList_zero (ruinLoopStart I stack s g).sol rfl, List.nil_append] at this
    exact this
  refine ⟨ht0, ht1, hrow, ?_, hlens, hsol, hcount, hrowsF, hnum, ?_, ?_⟩
  · rw [hsingle]
    exact hl1
  · rw [habs.1, hnumAbs]
  · have e : absentList (ruin P I stack s g).1 = absentList (ruinLoop P I stack s g).sol := by
      unfold absentList
      rw [habs.1, habs.2]
    rw [e, habsL]

set_option maxRecDepth 100000 in
/-- Witness for `single_customer_tour_removed`: on `fourCustomers` and `threeAndOne` the draw
gives one string and the seed node `4`, whose first neighbour `2` is alone in the tour `1`;
`ruin` leaves the tour `[3, 4, 5]` and the absent node `2`. -/
theorem single_customer_tour_removed_witness :
    numberStringsToRemove defaultParams threeAndOne
        ⟨2664333204, 4289564827, 504659705, 2768698846⟩ = 1 ∧
    ruinStringLengths defaultParams fourCustomers (fun _ => false) threeAndOne
        ⟨2664333204, 4289564827, 504659705, 2768698846⟩ = [(1, 1, 1)] ∧
    (ruin defaultParams fourCustomers (fun _ => false) threeAndOne
        ⟨2664333204, 4289564827, 504659705, 2768698846⟩).1.numberTours
      = threeAndOne.numberTours - 1 ∧
    (ruin defaultParams fourCustomers (fun _ => false) threeAndOne
        ⟨2664333204, 4289564827, 504659705, 2768698846⟩).1.numberAbsentNodes = 1 ∧
    absentList (ruin defaultParams fourCustomers (fun _ => false) threeAndOne
        ⟨2664333204, 4289564827, 504659705, 2768698846⟩).1 = [2] :=
  have h := single_customer_tour_removed defaultParams fourCustomers (fun _ => false)
    threeAndOne ⟨2664333204, 4289564827, 504659705, 2768698846⟩ 2 1 (by decide) (by decide)
    neighboursOK_fourCustomers tidy_threeAndOne (by decide) (by decide) (by decide) (by decide)
  ⟨by decide, h.2.2.2.2.1, h.2.2.2.2.2.2.2.2.1, h.2.2.2.2.2.2.2.2.2.1, h.2.2.2.2.2.2.2.2.2.2⟩

/-! ### The best and the current distance (C35) -/

/-- One iteration of `localSearchMH` keeps `bestSol.totalDist <= currentSol.totalDist`. -/
theorem lsStep_best_le_current {fuel : Nat} {P : Params} {I : Instance} {O : Orders}
    {accept : Int → Nat → Int → Int → Bool} {stack : Int → Int → Bool} {st st' : Search3}
    {index1 : Int} (h : lsStep fuel P I O accept stack st index1 = some st')
    (hle : st.bestSol.totalDist ≤ st.currentSol.totalDist) :
    st'.bestSol.totalDist ≤ st'.currentSol.totalDist := by
  unfold lsStep at h
  cases hS : SISRs fuel P I O (stack index1) st.currentSol st.SISRsSol st.g with
  | none => simp [hS] at h
  | some r =>
    obtain ⟨cand, g1⟩ := r
    simp only [hS, Option.bind_eq_bind, Option.some_bind, Option.pure_def, Option.some.injEq] at h
    subst h
    dsimp only
    have hcur := (copySISRsToCurrent_spec I cand st.currentSol).2.2.2.2
    by_cases hacc : accept index1 (xorshift128 g1).1 cand.totalDist st.currentSol.totalDist = true
    · rw [if_pos hacc, hcur]
      by_cases hlt : cand.totalDist < st.bestSol.totalDist
      · rw [if_pos hlt, copySISRsToBest_totalDist]
      · rw [if_neg hlt]
        exact not_lt.1 hlt
    · rw [if_neg hacc]
      by_cases hlt : cand.totalDist < st.bestSol.totalDist
      · rw [if_pos hlt, copySISRsToBest_totalDist]
        omega
      · rw [if_neg hlt]
        exact hle

/-- After `copyCurrentToBest()` and after each of the first `k` iterations of `localSearchMH`,
`bestSol.totalDist <= currentSol.totalDist`. -/
theorem localSearchIter_best_le_current (fuel : Nat) (P : Params) (I : Instance) (O : Orders)
    (accept : Int → Nat → Int → Int → Bool) (stack : Int → Int → Bool) (st : Search3) :
    ∀ (k : Nat) (a : Search3),
      localSearchIter fuel P I O accept stack st (k : Int) = some a →
      a.bestSol.totalDist ≤ a.currentSol.totalDist
  | 0, a, ha => by
    unfold localSearchIter at ha
    rw [Nat.cast_zero, forRange_eq_nil (le_refl _)] at ha
    simp only [List.foldlM_nil, Option.pure_def, Option.some.injEq] at ha
    subst ha
    dsimp only
    rw [copyCurrentToBest_totalDist]
  | k + 1, a, ha => by
    have e : ((k + 1 : Nat) : Int) = (k : Int) + 1 := by push_cast; ring
    rw [e, localSearchIter_succ _ _ _ _ _ _ _ _ (by omega)] at ha
    cases hc : localSearchIter fuel P I O accept stack st (k : Int) with
    | none => simp [hc] at ha
    | some c =>
      rw [hc, Option.some_bind] at ha
      exact lsStep_best_le_current ha
        (localSearchIter_best_le_current fuel P I O accept stack st k c hc)

/-- C35: after `copyCurrentToBest()` at the start of `localSearchMH` and after every iteration,
for every acceptance function (every sequence of acceptance decisions), every state on entry
and every number `k` of iterations: the first `k` iterations return (given enough fuel for the
sorts of `recreate`), and in the state they leave `bestSol.totalDist <= currentSol.totalDist`;
for `k = 0`, the state right after `copyCurrentToBest()`, the two are equal.  The whole of
`localSearchMH`, the case `k = numberItLSConstant*(numberNodes - 1)`, returns as well, in a
state with `bestSol.totalDist <= currentSol.totalDist`. -/
theorem best_never_worse_than_current (P : Params) (I : Instance) (O : Orders)
    (accept : Int → Nat → Int → Int → Bool) (stack : Int → Int → Bool) (st : Search3) :
    (copyCurrentToBest st.currentSol st.bestSol).totalDist = st.currentSol.totalDist ∧
    (∀ k : Nat, ∃ a N,
      (∀ fuel, N ≤ fuel → localSearchIter fuel P I O accept stack st (k : Int) = some a) ∧
      a.bestSol.totalDist ≤ a.currentSol.totalDist) ∧
    (∃ a N, (∀ fuel, N ≤ fuel → localSearchMH fuel P I O accept stack st = some a) ∧
      a.bestSol.totalDist ≤ a.currentSol.totalDist) ∧
    (∀ fuel a, localSearchMH fuel P I O accept stack st = some a →
      a.bestSol.totalDist ≤ a.currentSol.totalDist) := by
  have hiter : ∀ k : Nat, ∃ a N,
      (∀ fuel, N ≤ fuel → localSearchIter fuel P I O accept stack st (k : Int) = some a) ∧
      a.bestSol.totalDist ≤ a.currentSol.totalDist := by
    intro k
    obtain ⟨a, N, h⟩ := localSearchIter_returns P I O accept stack st k
    exact ⟨a, N, h, localSearchIter_best_le_current N P I O accept stack st k a (h N (le_refl _))⟩
  refine ⟨copyCurrentToBest_totalDist _ _, hiter, ?_, ?_⟩
  · unfold localSearchMH
    by_cases hk : 0 ≤ P.numberItLSConstant * (I.numberNodes - 1)
    · obtain ⟨k, hk'⟩ : ∃ k : Nat, P.numberItLSConstant * (I.numberNodes - 1) = (k : Int) :=
        ⟨(P.numberItLSConstant * (I.numberNodes - 1)).toNat, by omega⟩
      rw [hk']
      exact hiter k
    · refine ⟨{ st with bestSol := copyCurrentToBest st.currentSol st.bestSol }, 0, ?_, ?_⟩
      · intro fuel _
        unfold localSearchIter
        rw [forRange_eq_nil (by omega)]
        rfl
      · dsimp only
        rw [copyCurrentToBest_totalDist]
  · intro fuel a ha
    unfold localSearchMH at ha
    by_cases hk : 0 ≤ P.numberItLSConstant * (I.numberNodes - 1)
    · obtain ⟨k, hk'⟩ : ∃ k : Nat, P.numberItLSConstant * (I.numberNodes - 1) = (k : Int) :=
        ⟨(P.numberItLSConstant * (I.numberNodes - 1)).toNat, by omega⟩
      rw [hk'] at ha
      exact localSearchIter_best_le_current fuel P I O accept stack st k a ha
    · unfold localSearchIter at ha
      rw [forRange_eq_nil (by omega)] at ha
      simp only [List.foldlM_nil, Option.pure_def, Option.some.injEq] at ha
      subst ha
      dsimp only
      rw [copyCurrentToBest_totalDist]

/-- Witness for `best_never_worse_than_current`: two iterations from `threeAndOne` with the
test "the candidate is shorter". -/
theorem best_never_worse_than_current_witness :
    ∃ a N,
      (∀ fuel, N ≤ fuel → localSearchIter fuel defaultParams fourCustomers fourOrders
        (fun _ _ c cur => decide (c < cur)) (fun _ _ => false)
        ⟨threeAndOne, threeAndOne, threeAndOne, ⟨88675123, 123456789, 362436069, 521288629⟩⟩
        ((2 : Nat) : Int) = some a) ∧
      a.bestSol.totalDist ≤ a.currentSol.totalDist :=
  (best_never_worse_than_current defaultParams fourCustomers fourOrders
    (fun _ _ c cur => decide (c < cur)) (fun _ _ => false)
    ⟨threeAndOne, threeAndOne, threeAndOne, ⟨88675123, 123456789, 362436069, 521288629⟩⟩).2.1 2

/-! ### The state transition of the generator (C34) -/

theorem xor_cancel_testBit {a a' b b' : Nat} (h : a ^^^ a' = b ^^^ b') (i : Nat) :
    (a.testBit i ^^ b.testBit i) = (a'.testBit i ^^ b'.testBit i) := by
  have := congrArg (fun n => n.testBit i) h
  simp only [Nat.testBit_xor] at this
  revert this
  cases a.testBit i <;> cases a'.testBit i <;> cases b.testBit i <;> cases b'.testBit i <;> simp

/-- The map `a ↦ a xor (a >> k)` with `k > 0` is one-to-one. -/
theorem xor_shiftRight_injective {a b k : Nat} (hk : 0 < k)
    (h : a ^^^ (a >>> k) = b ^^^ (b >>> k)) : a = b := by
  have hd : (a ^^^ b) = (a ^^^ b) >>> k := by
    apply Nat.eq_of_testBit_eq
    intro i
    have := xor_cancel_testBit h i
    simp only [Nat.testBit_xor, Nat.testBit_shiftRight] at this ⊢
    exact this
  have h0 : a ^^^ b = 0 := by
    by_contra hne
    have hpos : 0 < a ^^^ b := Nat.pos_of_ne_zero hne
    have hlt : (a ^^^ b) >>> k < a ^^^ b := by
      rw [Nat.shiftRight_eq_div_pow]
      exact Nat.div_lt_self hpos (Nat.one_lt_two_pow (by omega))
    omega
  exact Nat.xor_eq_zero.1 h0

/-- The map `x ↦ (x xor (x << 11)) mod 2^32` is one-to-one on the words of 32 bits. -/
theorem xor_shiftLeft_injective {x y : Nat} (hx : x < 2 ^ 32) (hy : y < 2 ^ 32)
    (h : (x ^^^ (x <<< 11)) % 2 ^ 32 = (y ^^^ (y <<< 11)) % 2 ^ 32) : x = y := by
  apply Nat.eq_of_testBit_eq
  intro i
  induction i using Nat.strong_induction_on with
  | _ i ih =>
    by_cases hi : i < 32
    · have := congrArg (fun n => n.testBit i) h
      simp only [Nat.testBit_mod_two_pow, Nat.testBit_xor, Nat.testBit_shiftLeft, hi,
        decide_True, Bool.true_and] at this
      by_cases h11 : 11 ≤ i
      · have e := ih (i - 11) (by omega)
        simp only [h11, ge_iff_le, decide_True, Bool.true_and, e] at this
        revert this
        cases x.testBit i <;> cases y.testBit i <;> cases y.testBit (i - 11) <;> simp
      · simpa [h11] using this
    · rw [Nat.testBit_lt_two_pow (lt_of_lt_of_le hx (Nat.pow_le_pow_right (by norm_num)
          (by omega))),
        Nat.testBit_lt_two_pow (lt_of_lt_of_le hy (Nat.pow_le_pow_right (by norm_num)
          (by omega)))]

theorem xorshift128_words32 (g : Rng) (hg : g.Words32) : (xorshift128 g).2.Words32 :=
  ⟨Nat.mod_lt _ (by norm_num), hg.2.2.1, hg.2.2.2, hg.1⟩

/-- Two states of 32-bit words with the same successor are equal. -/
theorem xorshift128_step_inj (g h : Rng) (hg : g.Words32) (hh : h.Words32)
    (e : (xorshift128 g).2 = (xorshift128 h).2) : g = h := by
  have ey : g.y = h.y := congrArg Rng.x e
  have ez : g.z = h.z := congrArg Rng.y e
  have ew : g.w = h.w := congrArg Rng.z e
  have ew' : ((g.w ^^^ (g.w >>> 19)) % 2 ^ 32 ^^^
        ((g.x ^^^ (g.x <<< 11)) % 2 ^ 32 ^^^ ((g.x ^^^ (g.x <<< 11)) % 2 ^ 32) >>> 8) % 2 ^ 32)
          % 2 ^ 32
      = ((h.w ^^^ (h.w >>> 19)) % 2 ^ 32 ^^^
        ((h.x ^^^ (h.x <<< 11)) % 2 ^ 32 ^^^ ((h.x ^^^ (h.x <<< 11)) % 2 ^ 32) >>> 8) % 2 ^ 32)
          % 2 ^ 32 := congrArg Rng.w e
  have hlt : ∀ n : Nat, n % 2 ^ 32 < 2 ^ 32 := fun n => Nat.mod_lt _ (by norm_num)
  have t2lt : ∀ x : Nat, (x ^^^ (x <<< 11)) % 2 ^ 32 ^^^ ((x ^^^ (x <<< 11)) % 2 ^ 32) >>> 8
      < 2 ^ 32 := fun x => Nat.xor_lt_two_pow (hlt _) (shiftRight_lt (hlt _))
  rw [Nat.mod_eq_of_lt (t2lt g.x), Nat.mod_eq_of_lt (t2lt h.x),
    Nat.mod_eq_of_lt (Nat.xor_lt_two_pow (hlt _) (t2lt g.x)),
    Nat.mod_eq_of_lt (Nat.xor_lt_two_pow (hlt _) (t2lt h.x)), ew] at ew'
  have e2 := Nat.xor_right_injective ew'
  have e1 := xor_shiftRight_injective (by norm_num) e2
  have ex : g.x = h.x := xor_shiftLeft_injective hg.2.1 hh.2.1 e1
  cases g
  cases h
  simp only at ex ey ez ew
  rw [ex, ey, ez, ew]

theorem xorshift128_zero : xorshift128 ⟨0, 0, 0, 0⟩ = (0, ⟨0, 0, 0, 0⟩) := by
  decide

theorem stateAfter_words32 (g : Rng) (hg : g.Words32) : ∀ k, (stateAfter g k).Words32 := by
  intro k
  induction k generalizing g with
  | zero => exact hg
  | succ k ih => exact ih _ (xorshift128_words32 g hg)

theorem stateAfter_succ (g : Rng) : ∀ k,
    stateAfter g (k + 1) = (xorshift128 (stateAfter g k)).2 := by
  intro k
  induction k generalizing g with
  | zero => rfl
  | succ k ih => exact ih (xorshift128 g).2

/-- C34: the state transition of `xorshift128` is one-to-one on the states of four 32-bit
words (two such states with the same successor are equal); it maps such states to such states;
the all-zero state steps to itself and returns `0`; no other state of 32-bit words steps to the
all-zero state; hence from a state of 32-bit words other than the all-zero one, the state
after any number of calls is not the all-zero state. -/
theorem xorshift128_transition_injective :
    (∀ g h : Rng, g.Words32 → h.Words32 → (xorshift128 g).2 = (xorshift128 h).2 → g = h) ∧
    (∀ g : Rng, g.Words32 → (xorshift128 g).2.Words32) ∧
    xorshift128 ⟨0, 0, 0, 0⟩ = (0, ⟨0, 0, 0, 0⟩) ∧
    (∀ g : Rng, g.Words32 → (xorshift128 g).2 = ⟨0, 0, 0, 0⟩ → g = ⟨0, 0, 0, 0⟩) ∧
    (∀ g : Rng, g.Words32 → g ≠ ⟨0, 0, 0, 0⟩ → ∀ k, stateAfter g k ≠ ⟨0, 0, 0, 0⟩) := by
  have hz : (⟨0, 0, 0, 0⟩ : Rng).Words32 := by
    unfold Rng.Words32
    decide
  have hpre : ∀ g : Rng, g.Words32 → (xorshift128 g).2 = ⟨0, 0, 0, 0⟩ → g = ⟨0, 0, 0, 0⟩ := by
    intro g hg h
    apply xorshift128_step_inj g _ hg hz
    rw [h, xorshift128_zero]
  refine ⟨xorshift128_step_inj, xorshift128_words32, xorshift128_zero, hpre, ?_⟩
  intro g hg hne k
  induction k with
  | zero => exact hne
  | succ k ih =>
    rw [stateAfter_succ]
    intro h
    exact ih (hpre _ (stateAfter_words32 g hg k) h)

/-- Witness for `xorshift128_transition_injective`: the standard state is not the all-zero
state, and neither is the state three calls later. -/
theorem xorshift128_transition_injective_witness :
    stateAfter ⟨88675123, 123456789, 362436069, 521288629⟩ 3 ≠ ⟨0, 0, 0, 0⟩ :=
  xorshift128_transition_injective.2.2.2.2 ⟨88675123, 123456789, 362436069, 521288629⟩
    (by unfold Rng.Words32; decide) (by decide) 3

/-! ### The accesses of the partition (C33) -/

theorem scanUpReads_range (lt : Int → Int → Bool) (v : List Int) (pivot : Int) :
    ∀ (fuel : Nat) (s s' : Int), scanUp lt fuel v pivot s = some s' →
      ∀ i ∈ scanUpReads lt fuel v pivot s, s ≤ i ∧ i ≤ s'
  | 0, _, _, h => by simp [scanUp] at h
  | fuel + 1, s, s', h => by
    intro i hi
    unfold scanUp at h
    unfold scanUpReads at hi
    cases hr : rd v s with
    | none => simp [hr] at h
    | some x =>
      simp only [hr, Option.bind_eq_bind, Option.some_bind] at h hi
      by_cases hlt : lt x pivot = true
      · simp only [hlt, if_true] at h hi
        have ih := scanUpReads_range lt v pivot fuel (s + 1) s' h
        rcases List.mem_cons.1 hi with e | hm
        · have hmem : s + 1 ≤ s' := by
            cases fuel with
            | zero => simp [scanUp] at h
            | succ f =>
              have := ih (s + 1) (by unfold scanUpReads; exact List.mem_cons_self _ _)
              exact this.2
          omega
        · have := ih i hm
          omega
      · simp only [hlt, if_false, Bool.false_eq_true, Option.some.injEq] at h hi
        rcases List.mem_cons.1 hi with e | hm
        · omega
        · exact absurd hm (List.not_mem_nil _)

theorem scanDownReads_range (lt : Int → Int → Bool) (v : List Int) (pivot : Int) :
    ∀ (fuel : Nat) (e e' : Int), scanDown lt fuel v pivot e = some e' →
      ∀ i ∈ scanDownReads lt fuel v pivot e, e' ≤ i ∧ i ≤ e
  | 0, _, _, h => by simp [scanDown] at h
  | fuel + 1, e, e', h => by
    intro i hi
    unfold scanDown at h
    unfold scanDownReads at hi
    cases hr : rd v e with
    | none => simp [hr] at h
    | some x =>
      simp only [hr, Option.bind_eq_bind, Option.some_bind] at h hi
      by_cases hlt : lt pivot x = true
      · simp only [hlt, if_true] at h hi
        have ih := scanDownReads_range lt v pivot fuel (e - 1) e' h
        rcases List.mem_cons.1 hi with e1 | hm
        · have hmem : e' ≤ e - 1 := by
            cases fuel with
            | zero => simp [scanDown] at h
            | succ f =>
              have := ih (e - 1) (by unfold scanDownReads; exact List.mem_cons_self _ _)
              exact this.1
          omega
        · have := ih i hm
          omega
      · simp only [hlt, if_false, Bool.false_eq_true, Option.some.injEq] at h hi
        rcases List.mem_cons.1 hi with e1 | hm
        · omega
        · exact absurd hm (List.not_mem_nil _)

/-- One iteration of the outer partition loop from a state that satisfies the invariant: the
two scans stop at `s' <= e'` inside `s..e`, and either the two elements are equal and the loop
goes on from `(s' + 1, e')`, or they differ, `s' < e'`, and it goes on from `(s', e')` with
the two entries exchanged; the invariant holds again and the measure has dropped. -/
theorem partitionLoop_step {key : Int → Int} {lt : Int → Int → Bool} (hd : Dir key lt)
    {pivot s0 e0 s e : Int} {v cl : List Int} (hI : PInv key pivot s0 e0 s e v cl)
    (hse : s < e) (n : Nat) (hm : measureP key pivot s e v ≤ n + 1) :
    ∃ s' e', s ≤ s' ∧ s' ≤ e' ∧ e' ≤ e ∧ 2 * (e - s).toNat ≤ n + 1 ∧
      (∀ fuel, (e - s).toNat + 1 ≤ fuel → scanUp lt fuel v pivot s = some s') ∧
      (∀ fuel, (e - s).toNat + 1 ≤ fuel → scanDown lt fuel v pivot e = some e') ∧
      rd v s' = some (getI v s') ∧ rd v e' = some (getI v e') ∧
      ((getI v s' = getI v e' ∧ PInv key pivot s0 e0 (s' + 1) e' v cl ∧
          measureP key pivot (s' + 1) e' v ≤ n) ∨
        (getI v s' ≠ getI v e' ∧ s' < e' ∧ swapAt v s' e' = some (swp v s' e') ∧
          swapAt cl s' e' = some (swp cl s' e') ∧
          PInv key pivot s0 e0 s' e' (swp v s' e') (swp cl s' e') ∧
          measureP key pivot s' e' (swp v s' e') ≤ n)) := by
  have hpiv : getI v s = pivot ∨ getI v e = pivot := by
    rcases hI.piv with ⟨_, h⟩ | ⟨h, _⟩
    · exact h
    · omega
  have hm2 : 2 * (e - s).toNat ≤ n + 1 := by
    simp only [measureP] at hm; omega
  have hv := hI.hv
  have hc := hI.hc
  have hs0 := hI.hs0
  have hss := hI.hss
  have hee := hI.hee
  obtain ⟨s', hu1, hu2, hu3, hu4, hu5⟩ :
      ∃ s', s ≤ s' ∧ s' ≤ e ∧ key pivot ≤ key (getI v s') ∧
      (∀ i, s ≤ i → i < s' → key (getI v i) < key pivot) ∧
      ∀ fuel, (e - s).toNat + 1 ≤ fuel → scanUp lt fuel v pivot s = some s' := by
    rcases hpiv with h | h
    · obtain ⟨s', a1, a2, a3, a4, a5⟩ := scanUp_spec hd v pivot (e - s).toNat s s
        (by omega) (le_refl _) (by omega) (by omega) (by rw [h])
      exact ⟨s', a1, by omega, a3, a4, a5⟩
    · exact scanUp_spec hd v pivot (e - s).toNat s e (by omega) (by omega) (by omega)
        (le_refl _) (by rw [h])
  have hs's : key pivot ≤ key (getI v s) → s' = s := by
    intro h
    by_contra hne
    have := hu4 s (le_refl _) (by omega)
    omega
  obtain ⟨e', hd1, hd2, hd3, hd4, hd5⟩ :
      ∃ e', s' ≤ e' ∧ e' ≤ e ∧ key (getI v e') ≤ key pivot ∧
      (∀ i, e' < i → i ≤ e → key pivot < key (getI v i)) ∧
      ∀ fuel, (e - s).toNat + 1 ≤ fuel → scanDown lt fuel v pivot e = some e' := by
    rcases hpiv with h | h
    · have hss' : s' = s := hs's (by rw [h])
      obtain ⟨e', a1, a2, a3, a4, a5⟩ := scanDown_spec hd v pivot (e - s).toNat e s
        (by omega) (by omega) (by omega) (le_refl _) (by rw [h])
      exact ⟨e', by omega, a2, a3, a4, a5⟩
    · obtain ⟨e', a1, a2, a3, a4, a5⟩ := scanDown_spec hd v pivot (e - s).toNat e e
        (by omega) (le_refl _) (by omega) (by omega) (by rw [h])
      exact ⟨e', by omega, a2, a3, a4, a5⟩
  have he'e : key (getI v e) ≤ key pivot → e' = e := by
    intro h
    by_contra hne
    have := hd4 e (by omega) (le_refl _)
    omega
  have hrs : rd v s' = some (getI v s') := rd_eq (by omega) (by omega)
  have hre : rd v e' = some (getI v e') := rd_eq (by omega) (by omega)
  refine ⟨s', e', hu1, hd1, hd2, hm2, hu5, hd5, hrs, hre, ?_⟩
  by_cases hab : getI v s' = getI v e'
  · left
    have hkp : key (getI v s') = key pivot := by rw [hab] at hu3 ⊢; omega
    have hsp : getI v s' = pivot := hd.inj _ _ hkp
    refine ⟨hab, ⟨hs0, by omega, by omega, by omega, hv, hc, ?_, ?_, ?_⟩, ?_⟩
    · intro i h1 h2
      by_cases c1 : i < s
      · exact hI.left i h1 c1
      · by_cases c2 : i = s'
        · rw [c2, hkp]
        · exact le_of_lt (hu4 i (by omega) (by omega))
    · intro i h1 h2
      by_cases c1 : e < i
      · exact hI.right i c1 h2
      · exact le_of_lt (hd4 i h1 (by omega))
    · by_cases c : s' + 1 ≤ e'
      · exact Or.inl ⟨c, Or.inr (hab ▸ hsp)⟩
      · exact Or.inr ⟨by omega, hab ▸ hsp⟩
    · simp only [measureP]
      split_ifs <;> omega
  · right
    have hlt : s' < e' := by
      by_contra hcon
      have : s' = e' := by omega
      exact hab (by rw [this])
    have hpiv' : getI v e' = pivot ∨ getI v s' = pivot := by
      rcases hpiv with h | h
      · right; rw [hs's (by rw [h])]; exact h
      · left; rw [he'e (by rw [h])]; exact h
    have gs := getI_swp (a := v) (i := s') (j := e') (by omega) (by omega) (by omega)
      (by omega)
    have g1 : getI (swp v s' e') s' = getI v e' := by
      rw [gs s' (by omega), if_neg (by omega), if_pos rfl]
    have g2 : getI (swp v s' e') e' = getI v s' := by
      rw [gs e' (by omega), if_pos rfl]
    refine ⟨hab, hlt, swapAt_eq (by omega) (by omega) (by omega) (by omega),
      swapAt_eq (by omega) (by omega) (by omega) (by omega),
      ⟨hs0, by omega, by omega, by omega, by rw [length_swp]; exact hv,
        by rw [length_swp]; exact hc, ?_, ?_, ?_⟩, ?_⟩
    · intro i h1 h2
      rw [gs i (by omega), if_neg (by omega), if_neg (by omega)]
      by_cases c1 : i < s
      · exact hI.left i h1 c1
      · exact le_of_lt (hu4 i (by omega) (by omega))
    · intro i h1 h2
      rw [gs i (by omega), if_neg (by omega), if_neg (by omega)]
      by_cases c1 : e < i
      · exact hI.right i c1 h2
      · exact le_of_lt (hd4 i h1 (by omega))
    · refine Or.inl ⟨by omega, ?_⟩
      rw [g1, g2]
      exact hpiv'
    · simp only [measureP] at hm ⊢
      rw [g1, g2]
      by_cases c : s' = s ∧ e' = e
      · obtain ⟨c1, c2⟩ := c
        subst c1 c2
        have hne : key (getI v s') ≠ key (getI v e') := fun h => hab (hd.inj _ _ h)
        rw [if_pos ⟨hu3, hd3⟩] at hm
        rw [if_neg (by omega)]
        omega
      · split_ifs <;> omega

/-- Every index that the outer partition loop accesses lies in the segment `s0..e0` of the
call. -/
theorem partitionLoopAccesses_range {key : Int → Int} {lt : Int → Int → Bool} (hd : Dir key lt)
    (pivot s0 e0 : Int) : ∀ (n : Nat) (s e : Int) (v cl : List Int),
      PInv key pivot s0 e0 s e v cl → measureP key pivot s e v ≤ n →
      ∀ fuel, n + 2 ≤ fuel →
        ∀ i ∈ partitionLoopAccesses lt fuel pivot s e v cl, s0 ≤ i ∧ i ≤ e0 := by
  intro n
  induction n with
  | zero =>
    intro s e v cl hI hm fuel hf i hi
    have hse : ¬ s < e := by
      intro h
      have : 1 ≤ (e - s).toNat := by omega
      simp only [measureP] at hm
      omega
    obtain ⟨f, rfl⟩ : ∃ f, fuel = f + 1 := ⟨fuel - 1, by omega⟩
    unfold partitionLoopAccesses at hi
    rw [if_neg hse] at hi
    exact absurd hi (List.not_mem_nil _)
  | succ n ih =>
    intro s e v cl hI hm fuel hf i hi
    obtain ⟨f, rfl⟩ : ∃ f, fuel = f + 1 := ⟨fuel - 1, by omega⟩
    unfold partitionLoopAccesses at hi
    by_cases hse : s < e
    swap
    · rw [if_neg hse] at hi
      exact absurd hi (List.not_mem_nil _)
    rw [if_pos hse] at hi
    obtain ⟨s', e', b1, b2, b3, hm2, hu, hdn, hrs, hre, hcase⟩ :=
      partitionLoop_step hd hI hse n hm
    have hss := hI.hss
    have hee := hI.hee
    have hu' := hu f (by omega)
    have hdn' := hdn f (by omega)
    rw [hu', hdn'] at hi
    simp only [hrs, hre] at hi
    rcases List.mem_append.1 hi with h1 | hi
    · have := scanUpReads_range lt v pivot f s s' hu' i h1
      omega
    rcases List.mem_append.1 hi with h1 | hi
    · have := scanDownReads_range lt v pivot f e e' hdn' i h1
      omega
    rcases List.mem_append.1 hi with h1 | hi
    · simp only [List.mem_cons, List.mem_singleton, List.not_mem_nil, or_false] at h1
      omega
    rcases hcase with ⟨hab, hI', hm'⟩ | ⟨hab, hlt, w1, w2, hI', hm'⟩
    · rw [if_pos hab] at hi
      exact ih _ _ _ _ hI' hm' f (by omega) i hi
    · rw [if_neg hab, if_pos hlt, w1, w2] at hi
      rcases List.mem_append.1 hi with h1 | hi
      · simp only [List.mem_cons, List.mem_singleton, List.not_mem_nil, or_false] at h1
        omega
      · exact ih _ _ _ _ hI' hm' f (by omega) i hi

theorem partitionIntAccesses_range {key : Int → Int} {lt : Int → Int → Bool} (hd : Dir key lt)
    (s e : Int) (v cl : List Int) (hs : 0 ≤ s) (hse : s ≤ e) (hv : e < v.length)
    (hc : e < cl.length) :
    ∀ fuel, 2 * (e - s).toNat + 3 ≤ fuel →
      ∀ i ∈ partitionIntAccesses lt fuel s e v cl, s ≤ i ∧ i ≤ e := by
  intro fuel hf i hi
  have hI : PInv key (getI v e) s e s e v cl :=
    ⟨hs, le_refl _, le_refl _, hse, hv, hc, fun i h1 h2 => by omega, fun i h1 h2 => by omega,
      Or.inl ⟨hse, Or.inr rfl⟩⟩
  have hm : measureP key (getI v e) s e v ≤ 2 * (e - s).toNat + 1 := by
    simp only [measureP]; split_ifs <;> omega
  unfold partitionIntAccesses at hi
  rw [rd_eq (by omega : 0 ≤ e) hv] at hi
  rcases List.mem_cons.1 hi with h1 | hi
  · omega
  · exact partitionLoopAccesses_range hd (getI v e) s e _ s e v cl hI hm fuel (by omega) i hi

/-- C33: for every pair of parallel integer arrays (duplicates allowed) and every in-range
segment `start <= end`, `partitionIncrInt` terminates (it returns, given enough fuel), every
index at which it reads or writes `valList` or `countList` lies in `start..end` (and the entries
outside the segment are unchanged), and it returns an index `p` with `start <= p <= end` such
that `valList[p]` is the pivot, the original `valList[end]`, every element of
`valList[start..p-1]` is `<=` the pivot and every element of `valList[p+1..end]` is `>=` the
pivot; and `quicksortIncrInt` terminates on the segment. -/
theorem partitionIncrInt_terminates_in_range (valList countList : List Int) (start end_ : Int)
    (h0 : 0 ≤ start) (hse : start ≤ end_) (hv : end_ < valList.length)
    (hc : end_ < countList.length) :
    ∃ p v' c' pivot, rd valList end_ = some pivot ∧
      (∀ fuel, 2 * (end_ - start).toNat + 3 ≤ fuel →
        partitionIncrInt fuel start end_ valList countList = some (p, v', c') ∧
        ∀ i ∈ partitionIncrIntAccesses fuel start end_ valList countList,
          start ≤ i ∧ i ≤ end_) ∧
      start ≤ p ∧ p ≤ end_ ∧ rd v' p = some pivot ∧
      (∀ i, start ≤ i → i < p → ∃ a, rd v' i = some a ∧ a ≤ pivot) ∧
      (∀ i, p < i → i ≤ end_ → ∃ a, rd v' i = some a ∧ pivot ≤ a) ∧
      (∀ i : Nat, ((i : Int) < start ∨ end_ < (i : Int)) →
        v'[i]? = valList[i]? ∧ c'[i]? = countList[i]?) ∧
      ∃ v'' c'', ∀ fuel, 2 * (end_ - start + 1).toNat + 2 ≤ fuel →
        quicksortIncrInt fuel start end_ valList countList = some (v'', c'') := by
  obtain ⟨p, v', c', hret, hpost, hre⟩ :=
    partitionInt_spec dir_incr start end_ valList countList h0 hse hv hc
  obtain ⟨v'', c'', hq, _, _⟩ := quicksortInt_spec dir_incr (end_ - start + 1).toNat start end_
    valList countList h0 hv hc (le_refl _)
  have hlen : v'.length = valList.length := hre.lenV
  refine ⟨p, v', c', getI valList end_, rd_eq (by omega) hv, ?_, hpost.lo, hpost.hi, ?_, ?_, ?_,
    hre.outside, v'', c'', hq⟩
  · intro fuel hf
    exact ⟨hret fuel hf,
      partitionIntAccesses_range dir_incr start end_ valList countList h0 hse hv hc fuel hf⟩
  · rw [rd_eq (by have := hpost.lo; omega) (by have := hpost.hi; omega), hpost.atp]
  · intro i h1 h2
    exact ⟨getI v' i, rd_eq (by omega) (by have := hpost.hi; omega), hpost.left i h1 h2⟩
  · intro i h1 h2
    exact ⟨getI v' i, rd_eq (by have := hpost.lo; omega) (by omega), hpost.right i h1 h2⟩

/-- Witness for `partitionIncrInt_terminates_in_range`: the segment `1..4` of an array with
the value `3` three times. -/
theorem partitionIncrInt_terminates_in_range_witness :
    ∃ p v' c' pivot, rd [9, 3, 1, 3, 3, 0] 4 = some pivot ∧
      (∀ fuel, 2 * ((4 : Int) - 1).toNat + 3 ≤ fuel →
        partitionIncrInt fuel 1 4 [9, 3, 1, 3, 3, 0] [10, 11, 12, 13, 14, 15]
          = some (p, v', c') ∧
        ∀ i ∈ partitionIncrIntAccesses fuel 1 4 [9, 3, 1, 3, 3, 0] [10, 11, 12, 13, 14, 15],
          1 ≤ i ∧ i ≤ 4) ∧
      1 ≤ p ∧ p ≤ 4 ∧ rd v' p = some pivot :=
  let ⟨p, v', c', pivot, h1, h2, h3, h4, h5, _⟩ :=
    partitionIncrInt_terminates_in_range [9, 3, 1, 3, 3, 0] [10, 11, 12, 13, 14, 15] 1 4
      (by decide) (by decide) (by decide) (by decide)
  ⟨p, v', c', pivot, h1, h2, h3, h4, h5⟩

/-! ### At least one removal (C32) -/

/-- The body of the loop of `ruin` when its two conditions hold: a string of `l >= 1` nodes is
removed from the tour `t` of the neighbour, the tour is marked and the count grows by one. -/
theorem ruinStep_enters (P : Params) (I : Instance) (msc : Dbl) (nst seed NT : Int)
    (st : RuinLoop) (k : Int) (hmsc : 0 ≤ msc.num ∧ 0 < msc.den)
    (hnb : 2 ≤ I.nodeDistList seed k ∧ I.nodeDistList seed k ≤ I.numberNodes)
    (h : RuinInv I NT st) (hc : st.countRuinedTours < nst)
    (hcond : (!st.ruinedTour (st.sol.tourPerNode (I.nodeDistList seed k - 1) - 1)
      && !st.nodeRemoved (I.nodeDistList seed k - 1)) = true) :
    ∃ t l r, t = st.sol.tourPerNode (I.nodeDistList seed k - 1) - 1 ∧ 0 ≤ t ∧ t < NT ∧
      I.nodeDistList seed k ∈ tourList st.sol t ∧ I.nodeDistList seed k ∉ absentList st.sol ∧
      1 ≤ l ∧ l ≤ st.sol.numberNodesInTour t ∧
      RemovalResult st.sol st.nodeRemoved t l r ∧
      ruinStep P I msc nst seed st k
        = ⟨r.1, r.2.1, upd st.ruinedTour t true, r.2.2, st.countRuinedTours + 1⟩ := by
  unfold ruinStep
  dsimp only
  rw [if_pos hc, if_pos hcond]
  simp only [Bool.and_eq_true, Bool.not_eq_true'] at hcond
  have hx : I.nodeDistList seed k ∈ tourNodes st.sol ++ absentList st.sol :=
    h.perm.symm.subset (mem_customers.2 hnb)
  have hxa : I.nodeDistList seed k ∉ absentList st.sol := by
    intro h'
    have := (h.inAbsent _ h').2
    rw [hcond.2] at this
    exact absurd this (by simp)
  have hx' : I.nodeDistList seed k ∈ tourNodes st.sol := by
    rcases List.mem_append.1 hx with h' | h'
    · exact h'
    · exact absurd h' hxa
  obtain ⟨t, ht0, ht1, hxt⟩ := mem_tourNodes.1 hx'
  rw [h.nt] at ht1
  have htpn := (h.inTour t ht0 ht1 _ hxt).1
  have hti : st.sol.tourPerNode (I.nodeDistList seed k - 1) - 1 = t := by omega
  rw [hti]
  have hn1 := tourList_pos_of_mem hxt
  obtain ⟨c0, c1, c2⟩ := localCardinality_ok (st.sol.numberNodesInTour t) msc hn1 hmsc.1 hmsc.2
  have hl := drawCount_range st.g _ (st.sol.numberNodesInTour t) c0 c1 c2
  rw [max_eq_left hn1] at hl
  have hne : ∀ y ∈ tourList st.sol t, y ≠ -1 := by
    intro y hy
    have : y ∈ customers I :=
      h.perm.subset (List.mem_append_left _ (mem_tourNodes.2 ⟨t, ht0, by rw [h.nt]; exact ht1, hy⟩))
    have := mem_customers.1 this
    omega
  refine ⟨t, (drawCount st.g (Dbl.min (Dbl.ofInt (st.sol.numberNodesInTour t)) msc)).1,
    _, rfl, ht0, ht1, hxt, hxa, hl.1, hl.2, ?_, rfl⟩
  split_ifs with hb hs
  · exact ruinSplitString_spec P I st.sol _ _ t _ _ (by omega) (by omega) h.na hne
  · exact ruinString_spec I st.sol _ _ t _ _ hl.1 hl.2 h.na hne
  · exact ruinString_spec I st.sol _ _ t _ _ hl.1 hl.2 h.na hne

/-- The body of the loop of `ruin` when one of its conditions fails: nothing changes. -/
theorem ruinStep_skips (P : Params) (I : Instance) (msc : Dbl) (nst seed : Int)
    (st : RuinLoop) (k : Int)
    (h : ¬ (st.countRuinedTours < nst ∧
      (!st.ruinedTour (st.sol.tourPerNode (I.nodeDistList seed k - 1) - 1)
        && !st.nodeRemoved (I.nodeDistList seed k - 1)) = true)) :
    ruinStep P I msc nst seed st k = st := by
  unfold ruinStep
  dsimp only
  by_cases hc : st.countRuinedTours < nst
  · rw [if_pos hc, if_neg (fun hcond => h ⟨hc, hcond⟩)]
  · rw [if_neg hc]

/-- The three closing passes of `ruin` leave the absent nodes as the loop left them. -/
theorem ruin_absent (P : Params) (I : Instance) (stack : Int → Bool) (s : Solution) (g : Rng)
    (hnt : 0 ≤ s.numberTours) (hinv : RuinInv I s.numberTours (ruinLoop P I stack s g)) :
    (ruin P I stack s g).1.numberAbsentNodes = (ruinLoop P I stack s g).sol.numberAbsentNodes ∧
      (ruin P I stack s g).1.absentNodes = (ruinLoop P I stack s g).sol.absentNodes := by
  rw [ruin_eq]
  dsimp only
  generalize ruinLoop P I stack s g = st at hinv
  have hnt0 : 0 ≤ st.sol.numberTours := by rw [hinv.nt]; exact hnt
  obtain ⟨c1, c2, c3, c4, _⟩ := compactTours_spec st.sol hnt0
    (fun u h0 h1 => hinv.counts u h0 (by rw [← hinv.nt]; exact h1))
  generalize compactTours st.sol = s1 at c1 c2 c3 c4
  obtain ⟨_, d2, d3, d4, d5, d6, _⟩ := recomputeCapacity_spec I s1 c2
  generalize recomputeCapacity I s1 = s2 at d2 d3 d4 d5 d6
  have hrows2 : tourRows s2 = tourRows s1 := by
    unfold tourRows tourList
    rw [d2, d3, d4]
  have hnd2 : (tourNodes s2).Nodup := by
    unfold tourNodes
    rw [hrows2, c1, flatten_filter_ne_nil]
    exact (List.nodup_append.1 hinv.nodup).1
  obtain ⟨_, _, _, _, _, e6, e7, _⟩ := resetTourPerNode_spec s2 (by rw [d4]; exact c2) hnd2
  exact ⟨by rw [e7, d6, c4], by rw [e6, d5, c3]⟩

theorem Dbl.toRat_div (a b : Dbl) (hb : 0 ≤ b.num) :
    (Dbl.div a b).toRat = a.toRat / b.toRat := by
  unfold Dbl.div Dbl.toRat
  rw [if_pos hb]
  push_cast
  rw [div_div_eq_mul_div, div_mul_eq_mul_div, div_div]

/-- With `avRemovedCust = 10`, `lengthRemovedStrings = 10` and `numberOfStringsConstant = 4`
the value `maxStrings` of `ruin` is a non-negative fraction, for every solution with at least
one tour and no negative tour size. -/
theorem defaultMaxStrings_ok (P : Params) (s : Solution) (ha : P.avRemovedCust = 10)
    (hL : P.lengthRemovedStrings = 10) (hc : P.numberOfStringsConstant = 4)
    (hNT : 1 ≤ s.numberTours)
    (htot : 0 ≤ ((forRange 0 s.numberTours).map s.numberNodesInTour).sum) :
    0 ≤ (ruinMaxStrings P s).num ∧ 0 < (ruinMaxStrings P s).den := by
  have hm := maxStringCardinality_ok P.lengthRemovedStrings _ s.numberTours (by omega) htot hNT
  obtain ⟨qn, qd, _⟩ := div_ofInt_ok _ s.numberTours htot hNT
  have hle : (ruinMaxStringCardinality P s).num ≤ 10 * (ruinMaxStringCardinality P s).den := by
    have h := localCardinality_ok 10
      (Dbl.round53 (Dbl.div (Dbl.ofInt ((forRange 0 s.numberTours).map s.numberNodesInTour).sum)
        (Dbl.ofInt s.numberTours))) (by norm_num)
      (Dbl.round53_num_nonneg _ qd qn) (Dbl.round53_den_pos _ qd)
    unfold ruinMaxStringCardinality
    rw [hL]
    exact h.2.2
  have hm' : 0 ≤ (ruinMaxStringCardinality P s).num ∧ 0 < (ruinMaxStringCardinality P s).den :=
    hm
  unfold ruinMaxStrings
  generalize ruinMaxStringCardinality P s = m at hle hm'
  rw [ha, hc]
  have hm0 := Dbl.toRat_nonneg m hm'.1 hm'.2
  have hm10 : m.toRat ≤ ((10 : Int) : ℚ) := (Dbl.toRat_le_iff m 10 hm'.2).2 hle
  -- the product `4 * 10`
  have pd : 0 < (Dbl.mul (Dbl.ofInt 4) (Dbl.ofInt 10)).den := by decide
  have pv : (Dbl.mul (Dbl.ofInt 4) (Dbl.ofInt 10)).toRat = ((40 : Int) : ℚ) := by
    rw [Dbl.toRat_mul, Dbl.toRat_ofInt, Dbl.toRat_ofInt]
    norm_num
  have Ad := Dbl.round53_den_pos _ pd
  have Av := Dbl.round_of_representable 53 _ (by norm_num) pd
    (by rw [pv]; exact representable_int 53 40 (by norm_num))
  rw [pv] at Av
  -- the sum `1 + maxStringCardinality`
  have sd : 0 < (Dbl.add (Dbl.ofInt 1) m).den := by
    show 0 < 1 * m.den
    omega
  have sv := Dbl.toRat_add (Dbl.ofInt 1) m (by decide) (by omega)
  rw [Dbl.toRat_ofInt] at sv
  have Bd := Dbl.round53_den_pos _ sd
  have B1 := Dbl.le_round 53 _ _ (by norm_num) sd (representable_int 53 1 (by norm_num))
    (by rw [sv]; push_cast; linarith)
  have B11 := Dbl.round_le 53 _ _ (by norm_num) sd (representable_int 53 11 (by norm_num))
    (by rw [sv]; push_cast at hm10 ⊢; linarith)
  have Bn : 0 < (Dbl.round53 (Dbl.add (Dbl.ofInt 1) m)).num := by
    have := (Dbl.le_toRat_iff _ 1 Bd).1 B1
    omega
  -- the quotient
  have qd' : 0 < (Dbl.div (Dbl.round53 (Dbl.mul (Dbl.ofInt 4) (Dbl.ofInt 10)))
      (Dbl.round53 (Dbl.add (Dbl.ofInt 1) m))).den := by
    unfold Dbl.div
    rw [if_pos (le_of_lt Bn)]
    exact mul_pos Ad Bn
  have qv := Dbl.toRat_div (Dbl.round53 (Dbl.mul (Dbl.ofInt 4) (Dbl.ofInt 10)))
    (Dbl.round53 (Dbl.add (Dbl.ofInt 1) m)) (le_of_lt Bn)
  have q3 : ((3 : Int) : ℚ) ≤ (Dbl.div (Dbl.round53 (Dbl.mul (Dbl.ofInt 4) (Dbl.ofInt 10)))
      (Dbl.round53 (Dbl.add (Dbl.ofInt 1) m))).toRat := by
    unfold Dbl.round53 at qv ⊢
    rw [qv, Av]
    have hB0 : (0 : ℚ) < (Dbl.round 53 (Dbl.add (Dbl.ofInt 1) m)).toRat := by
      push_cast at B1
      linarith
    rw [le_div_iff₀ hB0]
    push_cast at B11 ⊢
    linarith
  have Cd := Dbl.round53_den_pos _ qd'
  have C3 := Dbl.le_round 53 _ _ (by norm_num) qd' (representable_int 53 3 (by norm_num)) q3
  have C3' : 3 * (Dbl.round53 (Dbl.div (Dbl.round53 (Dbl.mul (Dbl.ofInt 4) (Dbl.ofInt 10)))
        (Dbl.round53 (Dbl.add (Dbl.ofInt 1) m)))).den
      ≤ (Dbl.round53 (Dbl.div (Dbl.round53 (Dbl.mul (Dbl.ofInt 4) (Dbl.ofInt 10)))
        (Dbl.round53 (Dbl.add (Dbl.ofInt 1) m)))).num := (Dbl.le_toRat_iff _ 3 Cd).1 C3
  -- the difference
  have dd : 0 < (Dbl.sub (Dbl.round53 (Dbl.div
      (Dbl.round53 (Dbl.mul (Dbl.ofInt 4) (Dbl.ofInt 10)))
      (Dbl.round53 (Dbl.add (Dbl.ofInt 1) m)))) (Dbl.ofInt 1)).den := by
    show 0 < (Dbl.round53 (Dbl.div (Dbl.round53 (Dbl.mul (Dbl.ofInt 4) (Dbl.ofInt 10)))
      (Dbl.round53 (Dbl.add (Dbl.ofInt 1) m)))).den * 1
    omega
  have dn : 0 ≤ (Dbl.sub (Dbl.round53 (Dbl.div
      (Dbl.round53 (Dbl.mul (Dbl.ofInt 4) (Dbl.ofInt 10)))
      (Dbl.round53 (Dbl.add (Dbl.ofInt 1) m)))) (Dbl.ofInt 1)).num := by
    show 0 ≤ (Dbl.round53 (Dbl.div (Dbl.round53 (Dbl.mul (Dbl.ofInt 4) (Dbl.ofInt 10)))
        (Dbl.round53 (Dbl.add (Dbl.ofInt 1) m)))).num * 1
      - 1 * (Dbl.round53 (Dbl.div (Dbl.round53 (Dbl.mul (Dbl.ofInt 4) (Dbl.ofInt 10)))
        (Dbl.round53 (Dbl.add (Dbl.ofInt 1) m)))).den
    omega
  exact ⟨Dbl.round53_num_nonneg _ dd dn, Dbl.round53_den_pos _ dd⟩

/-- The body of the loop of `ruin` never lowers `numberAbsentNodes`. -/
theorem ruinStep_absent_mono (P : Params) (I : Instance) (msc : Dbl) (nst seed NT : Int)
    (st : RuinLoop) (k : Int) (hmsc : 0 ≤ msc.num ∧ 0 < msc.den)
    (hnb : 2 ≤ I.nodeDistList seed k ∧ I.nodeDistList seed k ≤ I.numberNodes)
    (h : RuinInv I NT st) :
    st.sol.numberAbsentNodes ≤ (ruinStep P I msc nst seed st k).sol.numberAbsentNodes := by
  rcases ruinStep_cases P I msc nst seed NT st k hmsc hnb h with he | ⟨t, l, r, rt, c, _, _, hr, he⟩
  · rw [he]
  · rw [he]
    obtain ⟨kept, removed, hsr, _, _⟩ := hr
    have := hsr.numAbsent
    show st.sol.numberAbsentNodes ≤ r.1.numberAbsentNodes
    omega

/-- C32: with the default parameters of the ruin step (`avRemovedCust = 10`,
`lengthRemovedStrings = 10`, `numberOfStringsConstant = 4`; the other parameters are free), for
every instance with at least two customers whose neighbour lists hold customer ids, every
complete solution (each customer in exactly one tour, no empty tour), every content of the
stack and every generator state: `numberStringsToRemove >= 1`, the loop of `ruin` removes at
least one string, and on return `numberAbsentNodes >= 1`, so the absent list that `recreate`
receives is not empty. -/
theorem ruin_removes_a_customer (P : Params) (I : Instance) (stack : Int → Bool)
    (s : Solution) (g : Rng) (ha : P.avRemovedCust = 10) (hL : P.lengthRemovedStrings = 10)
    (hc : P.numberOfStringsConstant = 4) (hn : 3 ≤ I.numberNodes) (hnb : NeighboursOK I)
    (hs : Tidy I s) :
    1 ≤ numberStringsToRemove P s g ∧
    1 ≤ (ruinLoop P I stack s g).countRuinedTours ∧
    1 ≤ (ruin P I stack s g).1.numberAbsentNodes ∧
    absentList (ruin P I stack s g).1 ≠ [] := by
  -- the seed node and its first neighbour
  have hseed := drawCount_range (xorshift128 g).2 (Dbl.ofInt (I.numberNodes - 1))
    (I.numberNodes - 1) (by simp [Dbl.ofInt]; omega) (by simp [Dbl.ofInt])
    (by simp [Dbl.ofInt])
  rw [max_eq_left (by omega)] at hseed
  have hnbAll : ∀ k, 0 ≤ k → k < I.numberNodes - 2 →
      2 ≤ I.nodeDistList (randomSeedNodeIndex I g) k ∧
        I.nodeDistList (randomSeedNodeIndex I g) k ≤ I.numberNodes := by
    intro k h0 h1
    exact hnb (randomSeedNodeIndex I g) k hseed.1 (by
      have := hseed.2
      unfold randomSeedNodeIndex
      omega) h0 h1
  have hnbk := hnbAll 0 (le_refl _) (by omega)
  obtain ⟨t', ht0, ht1, hxt⟩ := mem_tourNodes.1 (hs.perm.symm.subset (mem_customers.2 hnbk))
  have htpn' := hs.tourPerNode t' ht0 ht1 _ hxt
  -- the number of strings
  have htot : 0 ≤ ((forRange 0 s.numberTours).map s.numberNodesInTour).sum := by
    apply sum_nonneg_of_forall
    intro y hy
    obtain ⟨u, hu, rfl⟩ := List.mem_map.1 hy
    rw [mem_forRange] at hu
    exact le_of_lt (hs.nonempty u hu.1 hu.2)
  have hm : 0 ≤ (ruinMaxStringCardinality P s).num ∧ 0 < (ruinMaxStringCardinality P s).den :=
    maxStringCardinality_ok P.lengthRemovedStrings _ s.numberTours (by omega) htot (by omega)
  obtain ⟨m0, m1⟩ := defaultMaxStrings_ok P s ha hL hc (by omega) htot
  have hnst : 1 ≤ numberStringsToRemove P s g :=
    (drawCount_range g (ruinMaxStrings P s) (ruinMaxStrings P s).num m0 m1
      (by nlinarith)).1
  -- the first execution of the loop body
  have hinv0 := ruinLoopStart_inv I stack s g hs
  have htpn : (ruinLoopStart I stack s g).sol.tourPerNode
      (I.nodeDistList (randomSeedNodeIndex I g) 0 - 1) - 1 = t' := by
    show s.tourPerNode (I.nodeDistList (randomSeedNodeIndex I g) 0 - 1) - 1 = t'
    omega
  obtain ⟨t, l, r, _, _, _, _, _, hl1, _, hrem, hstep⟩ := ruinStep_enters P I
    (ruinMaxStringCardinality P s) (numberStringsToRemove P s g) (randomSeedNodeIndex I g)
    s.numberTours (ruinLoopStart I stack s g) 0 hm hnbk hinv0
    (by show (0 : Int) < numberStringsToRemove P s g; omega)
    (by
      rw [htpn]
      show (!(if 0 ≤ t' ∧ t' < s.numberTours then false else stack t') && !false) = true
      rw [if_pos ⟨ht0, ht1⟩]
      rfl)
  obtain ⟨kept, removed, hsr, _, hlen⟩ := hrem
  have hfirst : 1 ≤ (ruinStep P I (ruinMaxStringCardinality P s) (numberStringsToRemove P s g)
      (randomSeedNodeIndex I g) (ruinLoopStart I stack s g) 0).sol.numberAbsentNodes ∧
      1 ≤ (ruinStep P I (ruinMaxStringCardinality P s) (numberStringsToRemove P s g)
        (randomSeedNodeIndex I g) (ruinLoopStart I stack s g) 0).countRuinedTours := by
    rw [hstep]
    have h1 := hsr.numAbsent
    have h2 : (ruinLoopStart I stack s g).sol.numberAbsentNodes = 0 := rfl
    constructor
    · show 1 ≤ r.1.numberAbsentNodes
      omega
    · show (1 : Int) ≤ 0 + 1
      omega
  -- the rest of the loop
  have hloop : RuinInv I s.numberTours (ruinLoop P I stack s g) ∧
      1 ≤ (ruinLoop P I stack s g).sol.numberAbsentNodes ∧
      1 ≤ (ruinLoop P I stack s g).countRuinedTours := by
    unfold ruinLoop
    rw [forRange_cons (by omega : (0 : Int) < I.numberNodes - 2), List.foldl_cons]
    apply foldl_mem_inv _
      (fun st => RuinInv I s.numberTours st ∧ 1 ≤ st.sol.numberAbsentNodes ∧
        1 ≤ st.countRuinedTours)
      _ _ ⟨ruinStep_inv P I _ _ _ s.numberTours _ 0 hm hnbk hinv0, hfirst.1, hfirst.2⟩
    intro k hk a hq
    rw [mem_forRange] at hk
    have hnk := hnbAll k (by omega) hk.2
    refine ⟨ruinStep_inv P I _ _ _ s.numberTours a k hm hnk hq.1, ?_, ?_⟩
    · have := ruinStep_absent_mono P I (ruinMaxStringCardinality P s)
        (numberStringsToRemove P s g) (randomSeedNodeIndex I g) s.numberTours a k hm hnk hq.1
      omega
    · rcases ruinStep_cases P I (ruinMaxStringCardinality P s) (numberStringsToRemove P s g)
        (randomSeedNodeIndex I g) s.numberTours a k hm hnk hq.1 with he | he
      · rw [he]; exact hq.2.2
      · by_cases hg : a.countRuinedTours < numberStringsToRemove P s g ∧
            (!a.ruinedTour (a.sol.tourPerNode
                (I.nodeDistList (randomSeedNodeIndex I g) k - 1) - 1)
              && !a.nodeRemoved (I.nodeDistList (randomSeedNodeIndex I g) k - 1)) = true
        · obtain ⟨_, _, _, _, _, _, _, _, _, _, _, hst⟩ := ruinStep_enters P I
            (ruinMaxStringCardinality P s) (numberStringsToRemove P s g)
            (randomSeedNodeIndex I g) s.numberTours a k hm hnk hq.1 hg.1 hg.2
          rw [hst]
          show 1 ≤ a.countRuinedTours + 1
          omega
        · rw [ruinStep_skips P I _ _ _ a k hg]
          exact hq.2.2
  obtain ⟨hinv, habs1, hcount⟩ := hloop
  have habs := ruin_absent P I stack s g hs.nt hinv
  refine ⟨hnst, hcount, by rw [habs.1]; exact habs1, ?_⟩
  unfold absentList
  rw [habs.1, Ne, List.map_eq_nil_iff]
  intro h
  have : (0 : Int) ∈ forRange 0 (ruinLoop P I stack s g).sol.numberAbsentNodes :=
    mem_forRange.2 ⟨le_refl _, by omega⟩
  rw [h] at this
  exact absurd this (List.not_mem_nil _)

/-- Witness for `ruin_removes_a_customer`: the run on `fourCustomers` and `threeAndOne` from
the standard generator state. -/
theorem ruin_removes_a_customer_witness :
    1 ≤ numberStringsToRemove defaultParams threeAndOne
        ⟨88675123, 123456789, 362436069, 521288629⟩ ∧
    1 ≤ (ruinLoop defaultParams fourCustomers (fun _ => false) threeAndOne
        ⟨88675123, 123456789, 362436069, 521288629⟩).countRuinedTours ∧
    1 ≤ (ruin defaultParams fourCustomers (fun _ => false) threeAndOne
        ⟨88675123, 123456789, 362436069, 521288629⟩).1.numberAbsentNodes ∧
    absentList (ruin defaultParams fourCustomers (fun _ => false) threeAndOne
        ⟨88675123, 123456789, 362436069, 521288629⟩).1 ≠ [] :=
  ruin_removes_a_customer defaultParams fourCustomers (fun _ => false) threeAndOne
    ⟨88675123, 123456789, 362436069, 521288629⟩ rfl rfl rfl (by decide)
    neighboursOK_fourCustomers tidy_threeAndOne

/-! ### The tours touched by `ruin` (C31) -/

theorem foldl_fst {α β γ : Type} (F : α × γ → β → α × γ) (f : α → β → α)
    (h : ∀ acc b, (F acc b).1 = f acc.1 b) :
    ∀ (l : List β) (acc : α × γ), (l.foldl F acc).1 = l.foldl f acc.1
  | [], _ => rfl
  | b :: l, acc => by
    rw [List.foldl_cons, List.foldl_cons, foldl_fst F f h l, h]

set_option maxRecDepth 100000 in

/-- C31 (counterexample): with `-lengthRemovedStrings -3` on the tours `[3, 4, 5]`, `[2]` of a
4-customer instance and the standard generator state, `ruin` computes
`numberStringsToRemove = -17`; the loop removes no string, so the number of tours from which a
string is removed, `0`, is not at most `numberStringsToRemove`. -/
theorem removals_exceed_negative_string_count :
    numberStringsToRemove negativeLength threeAndOne
        ⟨88675123, 123456789, 362436069, 521288629⟩ = -17 ∧
    (ruinRemovals negativeLength fourCustomers (fun _ => false) threeAndOne
        ⟨88675123, 123456789, 362436069, 521288629⟩).length = 0 ∧
    (ruinLoop negativeLength fourCustomers (fun _ => false) threeAndOne
        ⟨88675123, 123456789, 362436069, 521288629⟩).countRuinedTours = 0 ∧
    ¬ (((ruinRemovals negativeLength fourCustomers (fun _ => false) threeAndOne
        ⟨88675123, 123456789, 362436069, 521288629⟩).length : Int)
      ≤ numberStringsToRemove negativeLength threeAndOne
        ⟨88675123, 123456789, 362436069, 521288629⟩) := by
  decide

/-- The first component of the fold that `ruinRemovals` runs is the loop of `ruin`. -/
theorem ruinRemovals_fst (P : Params) (I : Instance) (stack : Int → Bool) (s : Solution)
    (g : Rng) :
    ((forRange 0 (I.numberNodes - 2)).foldl
      (fun (acc : RuinLoop × List (Int × RuinLoop)) neighborIndex =>
        if acc.1.countRuinedTours < numberStringsToRemove P s g then
          let currentNodeIndex := I.nodeDistList (randomSeedNodeIndex I g) neighborIndex - 1
          let tourIndex := acc.1.sol.tourPerNode currentNodeIndex - 1
          if !acc.1.ruinedTour tourIndex && !acc.1.nodeRemoved currentNodeIndex then
            (ruinStep P I (ruinMaxStringCardinality P s) (numberStringsToRemove P s g)
                (randomSeedNodeIndex I g) acc.1 neighborIndex,
              acc.2 ++ [(neighborIndex, acc.1)])
          else acc
        else acc)
      (ruinLoopStart I stack s g, [])).1 = ruinLoop P I stack s g := by
  unfold ruinLoop
  apply foldl_fst
  intro acc k
  dsimp only
  by_cases hc : acc.1.countRuinedTours < numberStringsToRemove P s g
  · rw [if_pos hc]
    by_cases hcond : (!acc.1.ruinedTour (acc.1.sol.tourPerNode
          (I.nodeDistList (randomSeedNodeIndex I g) k - 1) - 1)
        && !acc.1.nodeRemoved (I.nodeDistList (randomSeedNodeIndex I g) k - 1)) = true
    · rw [if_pos hcond]
    · rw [if_neg hcond, ruinStep_skips P I _ _ _ acc.1 k (fun h => hcond h.2)]
  · rw [if_neg hc, ruinStep_skips P I _ _ _ acc.1 k (fun h => hc h.1)]

/-- C31, amended: in one `ruin()` pass with a non-negative `lengthRemovedStrings` on a complete
solution (each customer in exactly one tour, no empty tour; neighbour lists holding customer
ids), the tours from which the executions of the removal take their strings are pairwise
different (every tour has a string removed from it at most once); each execution starts at a
neighbour of the seed node that lies in that tour and is not among the nodes removed so far,
and removes a string of at least one node from it; and the number of executions equals
`countRuinedTours`, is at most `numberStringsToRemove` when that number is not negative (it is
`0` otherwise) and at most `numberNodes - 2` for an instance with a customer. -/
theorem ruin_touches_each_tour_once (P : Params) (I : Instance) (stack : Int → Bool)
    (s : Solution) (g : Rng) (hP : 0 ≤ P.lengthRemovedStrings) (hnb : NeighboursOK I)
    (hs : Tidy I s) :
    ((ruinRemovals P I stack s g).map (removalTour I g)).Nodup ∧
    (∀ e ∈ ruinRemovals P I stack s g,
      0 ≤ e.1 ∧ e.1 < I.numberNodes - 2 ∧
      0 ≤ removalTour I g e ∧ removalTour I g e < s.numberTours ∧
      removalNode I g e ∈ tourList e.2.sol (removalTour I g e) ∧
      removalNode I g e ∉ absentList e.2.sol ∧
      e.2.nodeRemoved (removalNode I g e - 1) = false ∧
      e.2.ruinedTour (removalTour I g e) = false ∧
      ∃ l r, 1 ≤ l ∧ RemovalResult e.2.sol e.2.nodeRemoved (removalTour I g e) l r ∧
        (ruinStep P I (ruinMaxStringCardinality P s) (numberStringsToRemove P s g)
          (randomSeedNodeIndex I g) e.2 e.1).sol = r.1) ∧
    ((ruinRemovals P I stack s g).length : Int) = (ruinLoop P I stack s g).countRuinedTours ∧
    ((ruinRemovals P I stack s g).length : Int) ≤ max (numberStringsToRemove P s g) 0 ∧
    (0 ≤ numberStringsToRemove P s g →
      ((ruinRemovals P I stack s g).length : Int) ≤ numberStringsToRemove P s g) ∧
    ((ruinRemovals P I stack s g).length : Int) ≤ max (I.numberNodes - 2) 0 ∧
    (2 ≤ I.numberNodes → ((ruinRemovals P I stack s g).length : Int) ≤ I.numberNodes - 2) := by
  have hfst := ruinRemovals_fst P I stack s g
  by_cases hn : 3 ≤ I.numberNodes
  swap
  · have hnil : ruinRemovals P I stack s g = [] := by
      unfold ruinRemovals
      rw [forRange_eq_nil (by omega)]
      rfl
    have hcnt : (ruinLoop P I stack s g).countRuinedTours = 0 := by
      unfold ruinLoop
      rw [forRange_eq_nil (by omega)]
      rfl
    rw [hnil, hcnt]
    refine ⟨List.nodup_nil, fun e he => absurd he (List.not_mem_nil _), rfl, ?_, ?_, ?_, ?_⟩
    · exact le_max_right _ _
    · exact fun h => h
    · exact le_max_right _ _
    · intro h
      show (0 : Int) ≤ I.numberNodes - 2
      omega
  have hseed := drawCount_range (xorshift128 g).2 (Dbl.ofInt (I.numberNodes - 1))
    (I.numberNodes - 1) (by simp [Dbl.ofInt]; omega) (by simp [Dbl.ofInt])
    (by simp [Dbl.ofInt])
  rw [max_eq_left (by omega)] at hseed
  have hnbAll : ∀ k, 0 ≤ k → k < I.numberNodes - 2 →
      2 ≤ I.nodeDistList (randomSeedNodeIndex I g) k ∧
        I.nodeDistList (randomSeedNodeIndex I g) k ≤ I.numberNodes := by
    intro k h0 h1
    exact hnb (randomSeedNodeIndex I g) k hseed.1 (by
      have := hseed.2
      unfold randomSeedNodeIndex
      omega) h0 h1
  have hcust : (2 : Int) ∈ customers I := mem_customers.2 ⟨le_refl _, by omega⟩
  obtain ⟨t0, ht0, ht1, _⟩ := mem_tourNodes.1 (hs.perm.symm.subset hcust)
  have htot : 0 ≤ ((forRange 0 s.numberTours).map s.numberNodesInTour).sum := by
    apply sum_nonneg_of_forall
    intro y hy
    obtain ⟨u, hu, rfl⟩ := List.mem_map.1 hy
    rw [mem_forRange] at hu
    exact le_of_lt (hs.nonempty u hu.1 hu.2)
  have hm : 0 ≤ (ruinMaxStringCardinality P s).num ∧ 0 < (ruinMaxStringCardinality P s).den :=
    maxStringCardinality_ok P.lengthRemovedStrings _ s.numberTours hP htot (by omega)
  have key := foldl_forRange
    (fun (acc : RuinLoop × List (Int × RuinLoop)) neighborIndex =>
      if acc.1.countRuinedTours < numberStringsToRemove P s g then
        let currentNodeIndex := I.nodeDistList (randomSeedNodeIndex I g) neighborIndex - 1
        let tourIndex := acc.1.sol.tourPerNode currentNodeIndex - 1
        if !acc.1.ruinedTour tourIndex && !acc.1.nodeRemoved currentNodeIndex then
          (ruinStep P I (ruinMaxStringCardinality P s) (numberStringsToRemove P s g)
              (randomSeedNodeIndex I g) acc.1 neighborIndex,
            acc.2 ++ [(neighborIndex, acc.1)])
        else acc
      else acc)
    (fun i acc => RuinInv I s.numberTours acc.1 ∧
      (∀ e ∈ acc.2,
        (0 ≤ e.1 ∧ e.1 < I.numberNodes - 2 ∧
          0 ≤ removalTour I g e ∧ removalTour I g e < s.numberTours ∧
          removalNode I g e ∈ tourList e.2.sol (removalTour I g e) ∧
          removalNode I g e ∉ absentList e.2.sol ∧
          e.2.nodeRemoved (removalNode I g e - 1) = false ∧
          e.2.ruinedTour (removalTour I g e) = false ∧
          ∃ l r, 1 ≤ l ∧ RemovalResult e.2.sol e.2.nodeRemoved (removalTour I g e) l r ∧
            (ruinStep P I (ruinMaxStringCardinality P s) (numberStringsToRemove P s g)
              (randomSeedNodeIndex I g) e.2 e.1).sol = r.1) ∧
        acc.1.ruinedTour (removalTour I g e) = true) ∧
      (acc.2.map (removalTour I g)).Nodup ∧
      (acc.2.length : Int) = acc.1.countRuinedTours ∧
      acc.1.countRuinedTours ≤ max (numberStringsToRemove P s g) 0 ∧
      (acc.2.length : Int) ≤ i)
    (by omega : (0 : Int) ≤ I.numberNodes - 2) (ruinLoopStart I stack s g, [])
    ⟨ruinLoopStart_inv I stack s g hs, fun e he => absurd he (List.not_mem_nil _),
      List.nodup_nil, rfl, le_max_right _ _, le_refl _⟩
    (by
      intro i acc hi0 hi1 ⟨hinv, hent, hnd, hlen, hcnt, hle⟩
      dsimp only
      by_cases hg : acc.1.countRuinedTours < numberStringsToRemove P s g ∧
          (!acc.1.ruinedTour (acc.1.sol.tourPerNode
              (I.nodeDistList (randomSeedNodeIndex I g) i - 1) - 1)
            && !acc.1.nodeRemoved (I.nodeDistList (randomSeedNodeIndex I g) i - 1)) = true
      · rw [if_pos hg.1, if_pos hg.2]
        have hnk := hnbAll i hi0 hi1
        obtain ⟨t, l, r, htdef, t0', t1', hxt, hxa, hl1, _, hrem, hstep⟩ := ruinStep_enters P I
          (ruinMaxStringCardinality P s) (numberStringsToRemove P s g)
          (randomSeedNodeIndex I g) s.numberTours acc.1 i hm hnk hinv hg.1 hg.2
        have hflags := hg.2
        simp only [Bool.and_eq_true, Bool.not_eq_true'] at hflags
        have htour : removalTour I g (i, acc.1) = t := htdef.symm
        have hnode : removalNode I g (i, acc.1) = I.nodeDistList (randomSeedNodeIndex I g) i :=
          rfl
        refine ⟨ruinStep_inv P I _ _ _ s.numberTours acc.1 i hm hnk hinv, ?_, ?_, ?_, ?_, ?_⟩
        · intro e he
          rcases List.mem_append.1 he with h | h
          · refine ⟨(hent e h).1, ?_⟩
            rw [hstep]
            show upd acc.1.ruinedTour t true (removalTour I g e) = true
            unfold upd
            split_ifs
            · rfl
            · exact (hent e h).2
          · rw [List.mem_singleton] at h
            subst h
            refine ⟨⟨hi0, hi1, ?_, ?_, ?_, ?_, ?_, ?_, l, r, hl1, ?_, ?_⟩, ?_⟩
            · rw [htour]; exact t0'
            · rw [htour]; exact t1'
            · rw [htour, hnode]; exact hxt
            · rw [hnode]; exact hxa
            · rw [hnode]; exact hflags.2
            · rw [htour, htdef]; exact hflags.1
            · rw [htour]; exact hrem
            · show (ruinStep P I (ruinMaxStringCardinality P s) (numberStringsToRemove P s g)
                (randomSeedNodeIndex I g) acc.1 i).sol = r.1
              rw [hstep]
            · rw [hstep, htour]
              show upd acc.1.ruinedTour t true t = true
              unfold upd
              rw [if_pos rfl]
        · rw [List.map_append, List.map_singleton, htour]
          apply List.Nodup.append hnd (List.nodup_singleton _)
          intro u hu1 hu2
          rw [List.mem_singleton] at hu2
          subst hu2
          obtain ⟨e, he, rfl⟩ := List.mem_map.1 hu1
          have h1 := (hent e he).2
          have h2 := hflags.1
          rw [← htdef] at h2
          rw [h2] at h1
          exact absurd h1 (by simp)
        · rw [hstep, List.length_append, List.length_singleton]
          show ((acc.2.length + 1 : Nat) : Int) = acc.1.countRuinedTours + 1
          push_cast
          omega
        · rw [hstep]
          show acc.1.countRuinedTours + 1 ≤ max (numberStringsToRemove P s g) 0
          have := hg.1
          have := le_max_left (numberStringsToRemove P s g) 0
          omega
        · rw [List.length_append, List.length_singleton]
          push_cast
          omega
      · have hsame : (if acc.1.countRuinedTours < numberStringsToRemove P s g then
              if (!acc.1.ruinedTour (acc.1.sol.tourPerNode
                    (I.nodeDistList (randomSeedNodeIndex I g) i - 1) - 1)
                  && !acc.1.nodeRemoved (I.nodeDistList (randomSeedNodeIndex I g) i - 1))
                    = true then
                (ruinStep P I (ruinMaxStringCardinality P s) (numberStringsToRemove P s g)
                    (randomSeedNodeIndex I g) acc.1 i,
                  acc.2 ++ [(i, acc.1)])
              else acc
            else acc) = acc := by
          split_ifs with h1 h2
          · exact absurd ⟨h1, h2⟩ hg
          · rfl
          · rfl
        rw [hsame]
        exact ⟨hinv, hent, hnd, hlen, hcnt, by omega⟩)
  obtain ⟨_, hent, hnd, hlen, hcnt, hle⟩ := key
  rw [hfst] at hlen hcnt
  have hlen' : ((ruinRemovals P I stack s g).length : Int)
      = (ruinLoop P I stack s g).countRuinedTours := hlen
  refine ⟨hnd, fun e he => (hent e he).1, hlen', ?_, ?_, ?_, ?_⟩
  · rw [hlen']; exact hcnt
  · intro h0
    rw [hlen']
    rw [max_eq_left h0] at hcnt
    exact hcnt
  · have : ((ruinRemovals P I stack s g).length : Int) ≤ I.numberNodes - 2 := hle
    exact le_trans this (le_max_left _ _)
  · intro _
    exact hle

theorem tidy_twoOneOne : Tidy fourCustomers twoOneOne := by
  refine ⟨by decide, ?_, ?_, ?_⟩
  · intro t h0 h1
    have h1' : t < 3 := h1
    interval_cases t <;> decide
  · rw [show tourNodes twoOneOne = [3, 4, 5, 2] from by decide,
      show customers fourCustomers = [2, 3, 4, 5] from by decide]
    decide
  · intro t h0 h1
    have h1' : t < 3 := h1
    interval_cases t <;> decide

set_option maxRecDepth 100000 in

/-- Witness for `ruin_touches_each_tour_once`: the run on `twoOneOne`, which removes a string
from the tour `1` at the neighbour `5` and then one from the tour `0` at the neighbour `4`. -/
theorem ruin_touches_each_tour_once_witness :
    (ruinRemovals defaultParams fourCustomers (fun _ => false) twoOneOne
        ⟨88675123, 123456789, 362436069, 521288629⟩).map
      (fun e => (e.1, removalNode fourCustomers ⟨88675123, 123456789, 362436069, 521288629⟩ e,
        removalTour fourCustomers ⟨88675123, 123456789, 362436069, 521288629⟩ e))
      = [(0, 5, 1), (1, 4, 0)] ∧
    ((ruinRemovals defaultParams fourCustomers (fun _ => false) twoOneOne
        ⟨88675123, 123456789, 362436069, 521288629⟩).map
      (removalTour fourCustomers ⟨88675123, 123456789, 362436069, 521288629⟩)).Nodup ∧
    ((ruinRemovals defaultParams fourCustomers (fun _ => false) twoOneOne
        ⟨88675123, 123456789, 362436069, 521288629⟩).length : Int)
      ≤ numberStringsToRemove defaultParams twoOneOne
          ⟨88675123, 123456789, 362436069, 521288629⟩ ∧
    ((ruinRemovals defaultParams fourCustomers (fun _ => false) twoOneOne
        ⟨88675123, 123456789, 362436069, 521288629⟩).length : Int)
      ≤ fourCustomers.numberNodes - 2 :=
  have h := ruin_touches_each_tour_once defaultParams fourCustomers (fun _ => false) twoOneOne
    ⟨88675123, 123456789, 362436069, 521288629⟩ (by decide) neighboursOK_fourCustomers
    tidy_twoOneOne
  ⟨by decide, h.1, h.2.2.2.2.1 (by decide), h.2.2.2.2.2.2 (by decide)⟩

end VRP

namespace SATVerifier

/-! ## Lemmas and theorems on the SAT verifier -/

/-! ### The check of the clauses (C36) -/

theorem readLine_values (vars : Int → Option Int) :
    ∀ (values : List Int) (sat_clause : Bool) (num_vars : Int), 0 ∉ values →
      (∀ l ∈ values, (vars (iabs l)).isSome = true) →
      readLine vars values sat_clause num_vars
        = (sat_clause || values.any (litTrue vars), num_vars + (values.length : Int), false)
  | [], sat_clause, num_vars, _, _ => by simp [readLine]
  | v :: rest, sat_clause, num_vars, h0, ha => by
    have hv : ¬ v = 0 := fun h => h0 (h ▸ List.mem_cons_self _ _)
    have h0' : 0 ∉ rest := fun h => h0 (List.mem_cons_of_mem _ h)
    have ha' : ∀ l ∈ rest, (vars (iabs l)).isSome = true :=
      fun l hl => ha l (List.mem_cons_of_mem _ hl)
    have hsome := ha v (List.mem_cons_self _ _)
    obtain ⟨x, hx⟩ := Option.isSome_iff_exists.1 hsome
    unfold readLine
    rw [if_neg hv]
    simp only [hx]
    by_cases hxv : x = v
    · rw [if_pos hxv, readLine_values vars rest true (num_vars + 1) h0' ha']
      have : litTrue vars v = true := by simp [litTrue, hx, hxv]
      simp only [List.any_cons, this, Bool.true_or, Bool.or_true, List.length_cons,
        Nat.cast_succ, Prod.mk.injEq, true_and, and_true]
      ring
    · rw [if_neg hxv, readLine_values vars rest sat_clause (num_vars + 1) h0' ha']
      have : litTrue vars v = false := by simp [litTrue, hx, hxv]
      simp only [List.any_cons, this, Bool.false_or, List.length_cons, Nat.cast_succ,
        Prod.mk.injEq, true_and, and_true]
      ring

theorem readLine_zero (vars : Int → Option Int) (rest : List Int) :
    ∀ (lits : List Int) (sat_clause : Bool) (num_vars : Int), 0 ∉ lits →
      (∀ l ∈ lits, (vars (iabs l)).isSome = true) →
      readLine vars (lits ++ 0 :: rest) sat_clause num_vars
        = (sat_clause || lits.any (litTrue vars), num_vars + (lits.length : Int), true)
  | [], sat_clause, num_vars, _, _ => by simp [readLine]
  | v :: lits, sat_clause, num_vars, h0, ha => by
    have hv : ¬ v = 0 := fun h => h0 (h ▸ List.mem_cons_self _ _)
    have h0' : 0 ∉ lits := fun h => h0 (List.mem_cons_of_mem _ h)
    have ha' : ∀ l ∈ lits, (vars (iabs l)).isSome = true :=
      fun l hl => ha l (List.mem_cons_of_mem _ hl)
    have hsome := ha v (List.mem_cons_self _ _)
    obtain ⟨x, hx⟩ := Option.isSome_iff_exists.1 hsome
    rw [List.cons_append]
    unfold readLine
    rw [if_neg hv]
    simp only [hx]
    by_cases hxv : x = v
    · rw [if_pos hxv, readLine_zero vars rest lits true (num_vars + 1) h0' ha']
      have : litTrue vars v = true := by simp [litTrue, hx, hxv]
      simp only [List.any_cons, this, Bool.true_or, Bool.or_true, List.length_cons,
        Nat.cast_succ, Prod.mk.injEq, true_and, and_true]
      ring
    · rw [if_neg hxv, readLine_zero vars rest lits sat_clause (num_vars + 1) h0' ha']
      have : litTrue vars v = false := by simp [litTrue, hx, hxv]
      simp only [List.any_cons, this, Bool.false_or, List.length_cons, Nat.cast_succ,
        Prod.mk.injEq, true_and, and_true]
      ring

theorem clausesFrom_values (rest : List Int) :
    ∀ (values clause : List Int), 0 ∉ values →
      clausesFrom (values ++ rest) clause = clausesFrom rest (clause ++ values)
  | [], clause, _ => by simp
  | v :: values, clause, h0 => by
    have hv : ¬ v = 0 := fun h => h0 (h ▸ List.mem_cons_self _ _)
    have h0' : 0 ∉ values := fun h => h0 (List.mem_cons_of_mem _ h)
    rw [List.cons_append]
    simp only [clausesFrom, if_neg hv]
    rw [clausesFrom_values rest values (clause ++ [v]) h0']
    simp

theorem clausesFrom_zero (lits rest clause : List Int) (h0 : 0 ∉ lits) :
    clausesFrom (lits ++ 0 :: rest) clause = (clause ++ lits) :: clausesFrom rest [] := by
  rw [clausesFrom_values _ lits clause h0]
  simp only [clausesFrom, if_true]

theorem values_shape (values : List Int) (h : 0 ∉ values.dropLast) :
    0 ∉ values ∨ ∃ lits, 0 ∉ lits ∧ values = lits ++ [0] := by
  by_cases hne : values = []
  · left
    rw [hne]
    exact List.not_mem_nil _
  · have e := List.dropLast_append_getLast hne
    by_cases hl : values.getLast hne = 0
    · right
      exact ⟨values.dropLast, h, by rw [← hl]; exact e.symm⟩
    · left
      rw [← e]
      intro hm
      rcases List.mem_append.1 hm with h1 | h1
      · exact h h1
      · rw [List.mem_singleton] at h1
        exact hl h1.symm

theorem tokens_cons (line : InstanceLine) (rest : List InstanceLine) :
    tokens (line :: rest) = line.values ++ tokens rest := by
  simp [tokens]

theorem checkClauses_cons_some (vars : Int → Option Int) (line : InstanceLine)
    (rest : List InstanceLine) (st : Bool × Int) :
    checkClauses vars (line :: rest) (some st)
      = if (readLine vars line.values st.1 st.2).2.2 then
          if clauseFails (readLine vars line.values st.1 st.2).1
              (readLine vars line.values st.1 st.2).2.1 then .wrongSolution
          else checkClauses vars rest none
        else checkClauses vars rest (some ((readLine vars line.values st.1 st.2).1,
          (readLine vars line.values st.1 st.2).2.1)) := by
  cases line <;> simp [checkClauses]

/-- At the head of the outer loop the check behaves as inside a clause without literals. -/
theorem checkClauses_none (vars : Int → Option Int) :
    ∀ instanceLines : List InstanceLine,
      checkClauses vars instanceLines none = checkClauses vars instanceLines (some (false, 0))
  | [] => by simp [checkClauses, clauseFails]
  | .comment :: rest => by
    rw [checkClauses_cons_some]
    simp only [InstanceLine.values, readLine, Bool.false_eq_true, if_false]
    simp only [checkClauses]
    exact checkClauses_none vars rest
  | .data values :: rest => by
    rw [checkClauses_cons_some]
    simp [checkClauses]

theorem clauseFails_iff (vars : Int → Option Int) (clause : List Int) :
    clauseFails (clause.any (litTrue vars)) (clause.length : Int) = true
      ↔ clause ≠ [] ∧ clause.any (litTrue vars) = false := by
  unfold clauseFails
  cases clause with
  | nil => simp
  | cons a l =>
    simp only [Bool.and_eq_true, Bool.not_eq_true', decide_eq_true_eq, List.length_cons,
      Nat.cast_succ, ne_eq, reduceCtorEq, not_false_eq_true, true_and]
    constructor
    · exact fun h => h.1
    · exact fun h => ⟨h, by positivity⟩

theorem statedOutcome_cons (vars : Int → Option Int) (clause : List Int)
    (clauses : List (List Int)) :
    statedOutcome vars (clause :: clauses)
      = if clause.any (litTrue vars) then statedOutcome vars clauses else .wrongSolution := by
  unfold statedOutcome
  by_cases h : clause.any (litTrue vars) = true
  · simp [h]
  · simp [h]

/-- The check of the clauses, from inside a clause whose literals read so far are `clause`:
when a `0` only ends a line and every variable has a value, the verdict is the stated one for
the non-empty clauses. -/
theorem checkClauses_spec (vars : Int → Option Int) :
    ∀ (instanceLines : List InstanceLine) (clause : List Int),
      (∀ line ∈ instanceLines, 0 ∉ line.values.dropLast) →
      (∀ line ∈ instanceLines, ∀ l ∈ line.values, l ≠ 0 → (vars (iabs l)).isSome = true) →
      checkClauses vars instanceLines (some (clause.any (litTrue vars), (clause.length : Int)))
        = statedOutcome vars
            ((clausesFrom (tokens instanceLines) clause).filter (fun c => decide (c ≠ [])))
  | [], clause, _, _ => by
    have hf := clauseFails_iff vars clause
    by_cases hne : clause = []
    · subst hne
      simp [checkClauses, clauseFails, tokens, clausesFrom, statedOutcome]
    · have e : (clausesFrom (tokens []) clause).filter (fun c => decide (c ≠ [])) = [clause] := by
        simp [tokens, clausesFrom, hne]
      rw [e, statedOutcome_cons]
      simp only [checkClauses]
      by_cases hany : clause.any (litTrue vars) = true
      · have : clauseFails (clause.any (litTrue vars)) (clause.length : Int) = false := by
          rw [Bool.eq_false_iff, Ne, hf]
          simp [hany]
        rw [this, hany]
        simp [statedOutcome]
      · have : clauseFails (clause.any (litTrue vars)) (clause.length : Int) = true :=
          hf.2 ⟨hne, by simpa using hany⟩
        rw [this, if_pos rfl, if_neg hany]
  | line :: rest, clause, hz, ha => by
    have hz' : ∀ l ∈ rest, 0 ∉ l.values.dropLast := fun l hl => hz l (List.mem_cons_of_mem _ hl)
    have ha' : ∀ ln ∈ rest, ∀ l ∈ ln.values, l ≠ 0 → (vars (iabs l)).isSome = true :=
      fun ln hl => ha ln (List.mem_cons_of_mem _ hl)
    have hline := ha line (List.mem_cons_self _ _)
    rw [checkClauses_cons_some, tokens_cons]
    rcases values_shape line.values (hz line (List.mem_cons_self _ _)) with h0 | ⟨lits, h0, e⟩
    · have hall : ∀ l ∈ line.values, (vars (iabs l)).isSome = true :=
        fun l hl => hline l hl (fun h => h0 (h ▸ hl))
      rw [readLine_values vars line.values _ _ h0 hall, clausesFrom_values _ _ _ h0]
      simp only [Bool.false_eq_true, if_false]
      have ih := checkClauses_spec vars rest (clause ++ line.values) hz' ha'
      rw [List.any_append, List.length_append, Nat.cast_add] at ih
      exact ih
    · have hall : ∀ l ∈ lits, (vars (iabs l)).isSome = true := by
        intro l hl
        exact hline l (by rw [e]; exact List.mem_append_left _ hl) (fun h => h0 (h ▸ hl))
      have er : readLine vars line.values (clause.any (litTrue vars)) (clause.length : Int)
          = ((clause ++ lits).any (litTrue vars), ((clause ++ lits).length : Int), true) := by
        rw [e, readLine_zero vars [] lits _ _ h0 hall, List.any_append, List.length_append,
          Nat.cast_add]
      have ec : clausesFrom (line.values ++ tokens rest) clause
          = (clause ++ lits) :: clausesFrom (tokens rest) [] := by
        rw [e, List.append_assoc, List.singleton_append, clausesFrom_zero _ _ _ h0]
      rw [er, ec]
      simp only [if_true]
      have ih := checkClauses_spec vars rest [] hz' ha'
      simp only [List.any_nil, List.length_nil, Nat.cast_zero] at ih
      rw [← checkClauses_none] at ih
      have hf := clauseFails_iff vars (clause ++ lits)
      by_cases hne : clause ++ lits = []
      · have : clauseFails ((clause ++ lits).any (litTrue vars)) ((clause ++ lits).length : Int)
            = false := by
          rw [Bool.eq_false_iff, Ne, hf]
          simp [hne]
        rw [this, List.filter_cons_of_neg (by simp [hne])]
        simpa using ih
      · rw [List.filter_cons_of_pos (by simp [hne]), statedOutcome_cons]
        by_cases hany : (clause ++ lits).any (litTrue vars) = true
        · have : clauseFails ((clause ++ lits).any (litTrue vars))
              ((clause ++ lits).length : Int) = false := by
            rw [Bool.eq_false_iff, Ne, hf]
            simp [hany]
          rw [this, if_pos hany]
          simpa using ih
        · have : clauseFails ((clause ++ lits).any (litTrue vars))
              ((clause ++ lits).length : Int) = true :=
            hf.2 ⟨hne, by simpa using hany⟩
          rw [this, if_pos rfl, if_neg hany]

/-- The scan of the solver output ends without an exit exactly when no line is `s UNKNOWN` or
`s UNSATISFIABLE`; `SAT_answer` is then set when a line `s SATISFIABLE` was read. -/
theorem readOutput_ok : ∀ (solver_output : List OutputLine) (sc0 : Scan),
    OutputLine.s "UNKNOWN" ∉ solver_output → OutputLine.s "UNSATISFIABLE" ∉ solver_output →
    ∃ sc, readOutput solver_output sc0 = .ok sc ∧
      (sc.SAT_answer = true ↔
        sc0.SAT_answer = true ∨ OutputLine.s "SATISFIABLE" ∈ solver_output)
  | [], sc0, _, _ => ⟨sc0, rfl, by simp⟩
  | .s answer :: rest, sc0, h1, h2 => by
    have h1' : OutputLine.s "UNKNOWN" ∉ rest := fun h => h1 (List.mem_cons_of_mem _ h)
    have h2' : OutputLine.s "UNSATISFIABLE" ∉ rest := fun h => h2 (List.mem_cons_of_mem _ h)
    have a1 : answer ≠ "UNKNOWN" := fun h => h1 (h ▸ List.mem_cons_self _ _)
    have a2 : answer ≠ "UNSATISFIABLE" := fun h => h2 (h ▸ List.mem_cons_self _ _)
    unfold readOutput
    rw [if_neg a1]
    by_cases a3 : answer = "SATISFIABLE"
    · rw [if_pos a3]
      obtain ⟨sc, e, hiff⟩ := readOutput_ok rest { sc0 with SAT_answer := true } h1' h2'
      refine ⟨sc, e, ?_⟩
      rw [hiff, a3]
      simp
    · rw [if_neg a3, if_neg a2]
      obtain ⟨sc, e, hiff⟩ := readOutput_ok rest sc0 h1' h2'
      refine ⟨sc, e, ?_⟩
      rw [hiff]
      simp [a3, Ne.symm a3]
  | .v values :: rest, sc0, h1, h2 => by
    have h1' : OutputLine.s "UNKNOWN" ∉ rest := fun h => h1 (List.mem_cons_of_mem _ h)
    have h2' : OutputLine.s "UNSATISFIABLE" ∉ rest := fun h => h2 (List.mem_cons_of_mem _ h)
    unfold readOutput
    obtain ⟨sc, e, hiff⟩ := readOutput_ok rest
      { sc0 with vars := readSolution sc0.vars values } h1' h2'
    refine ⟨sc, e, ?_⟩
    rw [hiff]
    simp
  | .other :: rest, sc0, h1, h2 => by
    have h1' : OutputLine.s "UNKNOWN" ∉ rest := fun h => h1 (List.mem_cons_of_mem _ h)
    have h2' : OutputLine.s "UNSATISFIABLE" ∉ rest := fun h => h2 (List.mem_cons_of_mem _ h)
    unfold readOutput
    obtain ⟨sc, e, hiff⟩ := readOutput_ok rest sc0 h1' h2'
    refine ⟨sc, e, ?_⟩
    rw [hiff]
    simp

/-- C36 (counterexample): for the instance `p cnf 1 2`, `1 0`, `0`, whose second clause is
empty, and the solver output `s SATISFIABLE`, `v 1 0`, the verifier ends with "Solution
verified." (result code `11`), although the empty clause contains no literal at all: the
stated verdict for the clauses `[1]`, `[]` is "Wrong solution". -/
theorem empty_clause_is_verified :
    main [.comment, .data [1, 0], .data [0]] [.s "SATISFIABLE", .v [1, 0]] = .verified ∧
    (main [.comment, .data [1, 0], .data [0]] [.s "SATISFIABLE", .v [1, 0]]).resultCode = 11 ∧
    clausesOf [.comment, .data [1, 0], .data [0]] = [[1], []] ∧
    statedOutcome (readSolution (fun _ => none) [1, 0]) [[1], []] = .wrongSolution := by
  decide

/-- A literal whose variable has no value resets `sat_clause`: with the solver output
`s SATISFIABLE`, `v 1 0` the clause `1 2 0` is reported as not satisfied and the clause `2 1 0`
as satisfied. -/
theorem unassigned_literal_resets_clause :
    main [.data [1, 2, 0]] [.s "SATISFIABLE", .v [1, 0]] = .wrongSolution ∧
    main [.data [2, 1, 0]] [.s "SATISFIABLE", .v [1, 0]] = .verified ∧
    statedOutcome (readSolution (fun _ => none) [1, 0]) [[1, 2]] = .verified := by
  decide

/-- Values after a `0` on the same line are not read: of the line `1 0 -1 0` only the clause
`1` is checked. -/
theorem values_after_zero_are_dropped :
    main [.data [1, 0, -1, 0]] [.s "SATISFIABLE", .v [1, 0]] = .verified ∧
    clausesOf [.data [1, 0, -1, 0]] = [[1], [-1]] ∧
    statedOutcome (readSolution (fun _ => none) [1, 0]) [[1], [-1]] = .wrongSolution := by
  decide

theorem all_any_iff (vars : Int → Option Int) (clauses : List (List Int)) :
    (clauses.filter (fun c => decide (c ≠ []))).all (fun clause => clause.any (litTrue vars))
        = true
      ↔ ∀ clause ∈ clauses, clause ≠ [] → ∃ l ∈ clause, vars (iabs l) = some l := by
  simp only [List.all_eq_true, List.mem_filter, List.any_eq_true, litTrue, decide_eq_true_eq,
    and_imp]

/-- C36, amended: when the scan of the solver output ends with `SAT_answer` set (the solver
answered SATISFIABLE and no line made the program exit), for every instance in which a `0` only
stands at the end of a line (each clause ends its line; a clause may run over several lines and
comment lines may stand anywhere) and every assignment that gives a value to every variable of
the instance, the outcome is "Solution verified." (result code `11`) if and only if every
non-empty clause of the instance contains at least one literal whose value equals the value
that the `v` lines give to its variable; otherwise it is "Wrong solution." (result code `0`).
A clause without literals is skipped by the test `num_vars > 0`. -/
theorem verifier_checks_nonempty_clauses (instanceLines : List InstanceLine)
    (solver_output : List OutputLine) (sc : Scan)
    (hout : readOutput solver_output { vars := fun _ => none, SAT_answer := false } = .ok sc)
    (hsat : sc.SAT_answer = true)
    (hz : ∀ line ∈ instanceLines, 0 ∉ line.values.dropLast)
    (ha : ∀ line ∈ instanceLines, ∀ l ∈ line.values, l ≠ 0 →
      (sc.vars (iabs l)).isSome = true) :
    main instanceLines solver_output
      = statedOutcome sc.vars ((clausesOf instanceLines).filter (fun c => decide (c ≠ []))) ∧
    (main instanceLines solver_output = .verified ↔
      ∀ clause ∈ clausesOf instanceLines, clause ≠ [] →
        ∃ l ∈ clause, sc.vars (iabs l) = some l) ∧
    (main instanceLines solver_output ≠ .verified →
      main instanceLines solver_output = .wrongSolution) ∧
    ((main instanceLines solver_output).resultCode = 11 ↔
      main instanceLines solver_output = .verified) ∧
    (main instanceLines solver_output ≠ .verified →
      (main instanceLines solver_output).resultCode = 0) := by
  have hmain : main instanceLines solver_output
      = statedOutcome sc.vars
          ((clausesOf instanceLines).filter (fun c => decide (c ≠ []))) := by
    unfold main
    rw [hout]
    simp only [hsat, if_true]
    rw [checkClauses_none]
    have := checkClauses_spec sc.vars instanceLines [] hz ha
    simpa [clausesOf] using this
  have hall := all_any_iff sc.vars (clausesOf instanceLines)
  refine ⟨hmain, ?_, ?_, ?_, ?_⟩
  · rw [hmain, ← hall]
    unfold statedOutcome
    split_ifs with h
    · exact ⟨fun _ => h, fun _ => rfl⟩
    · exact ⟨fun hc => (by cases hc), fun hc => absurd hc h⟩
  · rw [hmain]
    unfold statedOutcome
    split_ifs with h
    · simp
    · simp
  · rw [hmain]
    unfold statedOutcome
    split_ifs with h
    · simp [Outcome.resultCode]
    · simp [Outcome.resultCode]
  · rw [hmain]
    unfold statedOutcome
    split_ifs with h
    · simp
    · simp [Outcome.resultCode]

/-- Witness for `verifier_checks_nonempty_clauses`: the clauses `1 -2` and `2 3` (the second
on two lines) with the solver output `v 1 2 3 0`. -/
theorem verifier_checks_nonempty_clauses_witness :
    main [.comment, .data [1, -2, 0], .comment, .data [2, 3], .data [0]]
        [.other, .s "SATISFIABLE", .v [1, 2, 3, 0]] = .verified ∧
    clausesOf [.comment, .data [1, -2, 0], .comment, .data [2, 3], .data [0]]
      = [[1, -2], [2, 3]] :=
  ⟨(verifier_checks_nonempty_clauses
      [.comment, .data [1, -2, 0], .comment, .data [2, 3], .data [0]]
      [.other, .s "SATISFIABLE", .v [1, 2, 3, 0]]
      { vars := readSolution (fun _ => none) [1, 2, 3, 0], SAT_answer := true }
      rfl rfl (by decide) (by decide)).1.trans (by decide), by decide⟩

end SATVerifier
